import Mathlib

/-!
# lct-aux: stabilised factorisation and local updates

A shallow embedding of the factorisation helper of `svd.hpp` and of the parts of the
`Simulation` classes of `simulation.hpp` and `stable.cpp` that maintain the factored
propagator, together with proofs of their algebraic contracts.

Conventions of the embedding.

* `double` values are elements of a field `R` (exact arithmetic).  The functions `std::exp`
  and `std::log` are passed as arguments `exp log : R → R`; the theorems that need their
  laws are stated over `ℝ` with `Real.exp` and `Real.log`.
* Dense Eigen matrices are `Matrix (Fin m) (Fin n) R`, vectors are `Fin n → R`.
* The LAPACK routine `dgesvd_` is external.  It is an argument `dgesvd` mapping the matrix
  handed to the routine to the three factors it writes back.
* The free propagation step (`apply_propagator_vector`, `apply_propagator_matrix`) is a
  linear operator that is prepared outside of the translated sources; it is the field
  `propagator` of the state, the real matrix of that operator.
-/

open Matrix

namespace LctAux

/-! ## `svd.hpp` -/

/-- The factors held by `struct SVDHelper`: `U` (outer × inner), `S` (inner) and `Vt`
(inner × outer).  The members `work` and `other` are scratch space whose content is
destroyed by every call of `dgesvd_`; they carry no state between calls. -/
structure SVDHelper (R : Type) (m k n : ℕ) where
  U : Matrix (Fin m) (Fin k) R
  S : Fin k → R
  Vt : Matrix (Fin k) (Fin n) R

/-- The external routine `dgesvd_` on an `m × k` input (`m ≥ k`): the left factor, the
singular values and the right factor it returns (job `"O","S"` or, for `m = k`,
job `"A","A"`). -/
abbrev Dgesvd (R : Type) (m k : ℕ) := Matrix (Fin m) (Fin k) R → SVDHelper R m k k

/-- The external routine `dgesvd_` on a `k × n` input with `k ≤ n` (job `"S","O"`): the
square left factor, the singular values and the `k × n` right factor it returns. -/
abbrev DgesvdWide (R : Type) (k n : ℕ) := Matrix (Fin k) (Fin n) R → SVDHelper R k k n

namespace SVDHelper

variable {R : Type} [Field R] {m k n : ℕ}

/-- `SVDHelper::setIdentity`. -/
def setIdentity (N : ℕ) : SVDHelper R N N N :=
  { U := 1, S := fun _ => 1, Vt := 1 }

/-- `SVDHelper::matrix`: `U * S.asDiagonal() * Vt`. -/
def matrix (h : SVDHelper R m k n) : Matrix (Fin m) (Fin n) R :=
  h.U * diagonal h.S * h.Vt

/-- `SVDHelper::inverse`: `Vt.transpose() * S.array().inverse().matrix().asDiagonal()
* U.transpose()`. -/
def inverse (h : SVDHelper R m k n) : Matrix (Fin n) (Fin m) R :=
  h.Vtᵀ * diagonal (fun i => (h.S i)⁻¹) * h.Uᵀ

/-- `SVDHelper::absorbU`: scale the columns of `U` by `S`, decompose the result in place
and multiply `Vt` from the left by the right factor of that decomposition. -/
def absorbU (dgesvd : Dgesvd R m k) (h : SVDHelper R m k n) : SVDHelper R m k n :=
  let r := dgesvd (h.U * diagonal h.S)
  { U := r.U, S := r.S, Vt := r.Vt * h.Vt }

/-- The branch `M<=N` of `SVDHelper::absorbVt`, for a `Vt` with `M = k` rows and `N = n`
columns: scale the rows of `Vt` by `S`, decompose the result in place (the right factor
stays in `Vt`) and multiply `U` from the right by the left factor. -/
def absorbVt_le (dgesvd : DgesvdWide R k n) (h : SVDHelper R m k n) : SVDHelper R m k n :=
  let r := dgesvd (diagonal h.S * h.Vt)
  { U := h.U * r.U, S := r.S, Vt := r.Vt }

/-- The branch `M>N` of `SVDHelper::absorbVt`: the left factor of the decomposition is left
in the storage of `Vt` and multiplied into `U`, the square right factor `other` becomes
`Vt`; the inner dimension shrinks from `M = k` to `N = n`. -/
def absorbVt_gt (dgesvd : Dgesvd R k n) (h : SVDHelper R m k n) : SVDHelper R m n n :=
  let r := dgesvd (diagonal h.S * h.Vt)
  { U := h.U * r.U, S := r.S, Vt := r.Vt }

/-- `SVDHelper::absorbVt`: the test `M<=N` on the shape of `Vt` selects the branch, and with
it the shape of the factors that are left. -/
def absorbVt (wide : DgesvdWide R k n) (tall : Dgesvd R k n) (h : SVDHelper R m k n) :
    SVDHelper R m k n ⊕ SVDHelper R m n n :=
  if k ≤ n then Sum.inl (h.absorbVt_le wide) else Sum.inr (h.absorbVt_gt tall)

/-- The matrix `other` that `rank1_update` hands to `dgesvd_`. -/
def rank1_update_other (h : SVDHelper R m k n) (u : Fin m → R) (v : Fin n → R) (lambda : R) :
    Matrix (Fin k) (Fin k) R :=
  lambda • vecMulVec (h.Uᵀ *ᵥ u) (v ᵥ* h.Vtᵀ) + diagonal h.S

/-- `SVDHelper::rank1_update`. -/
def rank1_update (dgesvd : Dgesvd R k k) (h : SVDHelper R m k n) (u : Fin m → R)
    (v : Fin n → R) (lambda : R) : SVDHelper R m k n :=
  let r := dgesvd (h.rank1_update_other u v lambda)
  { U := h.U * r.U, S := r.S, Vt := r.Vt * h.Vt }

/-- The matrix `other` that `add_identity` hands to `dgesvd_`. -/
def add_identity_other (h : SVDHelper R n k n) (lambda : R) : Matrix (Fin k) (Fin k) R :=
  h.Uᵀ * h.Vtᵀ + diagonal (fun i => h.S i * lambda)

/-- `SVDHelper::add_identity`. -/
def add_identity (dgesvd : Dgesvd R k k) (h : SVDHelper R n k n) (lambda : R) :
    SVDHelper R n k n :=
  let r := dgesvd (h.add_identity_other lambda)
  { U := h.U * r.U, S := r.S, Vt := r.Vt * h.Vt }

/-- The matrix `other` that `add_svd` hands to `dgesvd_`. -/
def add_svd_other {l : ℕ} (h : SVDHelper R m k n) (s : SVDHelper R m l n) :
    Matrix (Fin k) (Fin k) R :=
  (h.Uᵀ * s.U) * diagonal s.S * (s.Vt * h.Vtᵀ) + diagonal h.S

/-- `SVDHelper::add_svd`. -/
def add_svd {l : ℕ} (dgesvd : Dgesvd R k k) (h : SVDHelper R m k n) (s : SVDHelper R m l n) :
    SVDHelper R m k n :=
  let r := dgesvd (h.add_svd_other s)
  { U := h.U * r.U, S := r.S, Vt := r.Vt * h.Vt }

/-- `SVDHelper::invertInPlace`: reciprocal singular values in reversed order,
`U.transpose()` with its rows reversed becomes `Vt`, `Vt.transpose()` with its columns
reversed becomes `U`. -/
def invertInPlace (h : SVDHelper R m k n) : SVDHelper R n k m :=
  { U := fun i j => h.Vt (Fin.rev j) i
    S := fun i => (h.S (Fin.rev i))⁻¹
    Vt := fun i j => h.U j (Fin.rev i) }

/-- Both outer factors have orthonormal rows and columns (square orthogonal `U` and `Vt`). -/
def IsOrthogonal (h : SVDHelper R m k n) : Prop :=
  h.U * h.Uᵀ = 1 ∧ h.Uᵀ * h.U = 1 ∧ h.Vt * h.Vtᵀ = 1 ∧ h.Vtᵀ * h.Vt = 1

end SVDHelper

/-- The decomposition returned for the input `A` is exact: the product of the returned
factors is `A`. -/
def Dgesvd.ExactAt {R : Type} [Field R] {m k : ℕ} (dgesvd : Dgesvd R m k)
    (A : Matrix (Fin m) (Fin k) R) : Prop :=
  (dgesvd A).matrix = A

/-- The wide decomposition returned for the input `A` is exact. -/
def DgesvdWide.ExactAt {R : Type} [Field R] {k n : ℕ} (dgesvd : DgesvdWide R k n)
    (A : Matrix (Fin k) (Fin n) R) : Prop :=
  (dgesvd A).matrix = A

/-- The decomposition returned for the input `A` has orthogonal outer factors. -/
def Dgesvd.OrthogonalAt {R : Type} [Field R] {k : ℕ} (dgesvd : Dgesvd R k k)
    (A : Matrix (Fin k) (Fin k) R) : Prop :=
  (dgesvd A).IsOrthogonal

/-- The decomposition returned for the input `A` is a singular value decomposition of `A`:
exact, with orthogonal outer factors and non-negative singular values. -/
def Dgesvd.IsSVDAt {R : Type} [LinearOrderedField R] {k : ℕ} (dgesvd : Dgesvd R k k)
    (A : Matrix (Fin k) (Fin k) R) : Prop :=
  dgesvd.ExactAt A ∧ dgesvd.OrthogonalAt A ∧ ∀ i, 0 ≤ (dgesvd A).S i

/-! ### The status `info` of `dgesvd_` -/

/-- The two lines that `SVDHelper::check_info` can write to `std::cerr`:
`dgesvd_: error at argument k` and `DBDSQR iteration failed at superdiagonal k`. -/
inductive Diagnostic where
  | error_at_argument (k : ℤ)
  | iteration_failed (k : ℤ)

/-- What one call of `dgesvd_` hands back: the status `info`, the workspace size it leaves
in `work[0]`, and the contents of the three output arrays. -/
structure DgesvdResult (R : Type) (m k n : ℕ) where
  info : ℤ
  work0 : ℕ
  out : SVDHelper R m k n

/-- The external routine `dgesvd_` with its status, on an `m × n` input with `k` singular
values. -/
abbrev DgesvdStatus (R : Type) (m k n : ℕ) := Matrix (Fin m) (Fin n) R → DgesvdResult R m k n

/-- What an operation of `SVDHelper` leaves behind when it returns: the factors, the size of
the array `work`, and the lines written to `std::cerr`. -/
structure Outcome (R : Type) (m k n : ℕ) where
  helper : SVDHelper R m k n
  work : ℕ
  cerr : List Diagnostic

/-- `SVDHelper::reserve`: the size of `work` afterwards. -/
def reserve (size work : ℕ) : ℕ :=
  if work < size then size else work

/-- `SVDHelper::check_info`, called with the status `info` while `work[0]` holds `work0`: the
size of `work` afterwards and the line written to `std::cerr`.  The result is an `Except`
value so that a failure raised to the caller could be expressed; the source has no `throw`
and no status to return, so every branch ends in `ok`. -/
def check_info (info : ℤ) (work0 work : ℕ) : Except Diagnostic (ℕ × List Diagnostic) :=
  if info = 0 then
    Except.ok (reserve work0 work, [])
  else if info < 0 then
    Except.ok (work, [Diagnostic.error_at_argument (-info)])
  else
    Except.ok (work, [Diagnostic.iteration_failed info])

namespace SVDHelper

variable {R : Type} [Field R] {m k n : ℕ}

/-- `SVDHelper::thinSVD` on an `m × n` matrix, `k = min(m, n)`. -/
def thinSVD_status (dgesvd : DgesvdStatus R m k n) (A : Matrix (Fin m) (Fin n) R)
    (work : ℕ) : Except Diagnostic (Outcome R m k n) := do
  let r := dgesvd A
  let c ← check_info r.info r.work0 (reserve (5 * min m n + max m n) work)
  pure { helper := r.out, work := c.1, cerr := c.2 }

/-- `SVDHelper::inPlaceSVD` on an `m × n` matrix, `k = min(m, n)`: for `M>N` the input is
copied to `U` and overwritten with the left factor, otherwise it is copied to `Vt` and
overwritten with the right factor; either way the three members hold the factors. -/
def inPlaceSVD_status (tall wide : DgesvdStatus R m k n) (A : Matrix (Fin m) (Fin n) R)
    (work : ℕ) : Except Diagnostic (Outcome R m k n) := do
  let r := if m > n then tall A else wide A
  let c ← check_info r.info r.work0 (reserve (5 * min m n + max m n) work)
  pure { helper := r.out, work := c.1, cerr := c.2 }

/-- `SVDHelper::absorbU` with the status of its decomposition. -/
def absorbU_status (dgesvd : DgesvdStatus R m k k) (h : SVDHelper R m k n) (work : ℕ) :
    Except Diagnostic (Outcome R m k n) := do
  let r := dgesvd (h.U * diagonal h.S)
  let c ← check_info r.info r.work0 (reserve (5 * min m k + max m k) work)
  pure { helper := { U := r.out.U, S := r.out.S, Vt := r.out.Vt * h.Vt }, work := c.1, cerr := c.2 }

/-- The branch `M<=N` of `SVDHelper::absorbVt` with the status of its decomposition. -/
def absorbVt_le_status (dgesvd : DgesvdStatus R k k n) (h : SVDHelper R m k n) (work : ℕ) :
    Except Diagnostic (Outcome R m k n) := do
  let r := dgesvd (diagonal h.S * h.Vt)
  let c ← check_info r.info r.work0 (reserve (5 * min k n + max k n) work)
  pure { helper := { U := h.U * r.out.U, S := r.out.S, Vt := r.out.Vt }, work := c.1, cerr := c.2 }

/-- The branch `M>N` of `SVDHelper::absorbVt` with the status of its decomposition. -/
def absorbVt_gt_status (dgesvd : DgesvdStatus R k n n) (h : SVDHelper R m k n) (work : ℕ) :
    Except Diagnostic (Outcome R m n n) := do
  let r := dgesvd (diagonal h.S * h.Vt)
  let c ← check_info r.info r.work0 (reserve (5 * min k n + max k n) work)
  pure { helper := { U := h.U * r.out.U, S := r.out.S, Vt := r.out.Vt }, work := c.1, cerr := c.2 }

/-- `SVDHelper::rank1_update` with the status of its decomposition. -/
def rank1_update_status (dgesvd : DgesvdStatus R k k k) (h : SVDHelper R m k n)
    (u : Fin m → R) (v : Fin n → R) (lambda : R) (work : ℕ) :
    Except Diagnostic (Outcome R m k n) := do
  let r := dgesvd (h.rank1_update_other u v lambda)
  let c ← check_info r.info r.work0 work
  pure { helper := { U := h.U * r.out.U, S := r.out.S, Vt := r.out.Vt * h.Vt }, work := c.1, cerr := c.2 }

/-- `SVDHelper::add_identity` with the status of its decomposition. -/
def add_identity_status (dgesvd : DgesvdStatus R k k k) (h : SVDHelper R n k n) (lambda : R)
    (work : ℕ) : Except Diagnostic (Outcome R n k n) := do
  let r := dgesvd (h.add_identity_other lambda)
  let c ← check_info r.info r.work0 (reserve (6 * k) work)
  pure { helper := { U := h.U * r.out.U, S := r.out.S, Vt := r.out.Vt * h.Vt }, work := c.1, cerr := c.2 }

/-- `SVDHelper::add_svd` with the status of its decomposition. -/
def add_svd_status {l : ℕ} (dgesvd : DgesvdStatus R k k k) (h : SVDHelper R m k n)
    (s : SVDHelper R m l n) (work : ℕ) : Except Diagnostic (Outcome R m k n) := do
  let r := dgesvd (h.add_svd_other s)
  let c ← check_info r.info r.work0 work
  pure { helper := { U := h.U * r.out.U, S := r.out.S, Vt := r.out.Vt * h.Vt }, work := c.1, cerr := c.2 }

end SVDHelper

/-- The three arrays that `SVDHelper::fullSVD` fills for an `m × n` input: a square `U`, the
`min(m, n)` singular values and a square `Vt`. -/
structure FullFactors (R : Type) (m n : ℕ) where
  U : Matrix (Fin m) (Fin m) R
  S : Fin (min m n) → R
  Vt : Matrix (Fin n) (Fin n) R

/-- `SVDHelper::fullSVD`; `dgesvd` stands for the call with both jobs `"A"`. -/
def fullSVD_status {R : Type} {m n : ℕ}
    (dgesvd : Matrix (Fin m) (Fin n) R → ℤ × ℕ × FullFactors R m n)
    (A : Matrix (Fin m) (Fin n) R) (work : ℕ) :
    Except Diagnostic (FullFactors R m n × ℕ × List Diagnostic) := do
  let r := dgesvd A
  let c ← check_info r.1 r.2.1 (reserve (5 * min m n + max m n) work)
  pure (r.2.2, c.1, c.2)

/-- The line of `check_info` for a non-zero status. -/
def Diagnostic.ofInfo (info : ℤ) : Diagnostic :=
  if info < 0 then Diagnostic.error_at_argument (-info) else Diagnostic.iteration_failed info

/-- The lines that an operation leaves on `std::cerr` when its decomposition returned the
status `info`: none for `0`, otherwise the one line for that status. -/
def status_cerr (info : ℤ) : List Diagnostic :=
  if info = 0 then [] else [Diagnostic.ofInfo info]

/-- The size of `work` that an operation leaves when its decomposition returned the status
`info` and the size `work0` in `work[0]`: re-reserved for status `0` only. -/
def status_work (info : ℤ) (work0 work : ℕ) : ℕ :=
  if info = 0 then reserve work0 work else work

/-- A routine that fails to converge on every input: status `1`, outputs all zero. -/
def DgesvdStatus.failing {R : Type} [Field R] {m k n : ℕ} : DgesvdStatus R m k n :=
  fun _ => { info := 1, work0 := 0, out := { U := 0, S := 0, Vt := 0 } }

/-- The well-formedness predicate of a square factorisation: `U` and `Vt` are orthogonal
and the singular values are non-negative and non-increasing. -/
def SVDHelper.WellFormed {R : Type} [LinearOrderedField R] {N : ℕ} (h : SVDHelper R N N N) :
    Prop :=
  h.IsOrthogonal ∧ (∀ i, 0 ≤ h.S i) ∧ Antitone h.S

/-- The decomposition returned for the input `A` is a singular value decomposition of `A`
with the singular values in non-increasing order. -/
def Dgesvd.SortedSVDAt {R : Type} [LinearOrderedField R] {k : ℕ} (dgesvd : Dgesvd R k k)
    (A : Matrix (Fin k) (Fin k) R) : Prop :=
  dgesvd.IsSVDAt A ∧ Antitone (dgesvd A).S

section make_svd

variable {R : Type} [Field R] {V : ℕ}

/-- The loop of `Simulation::make_svd`, started at index `i` of a list with `size` entries:
left-multiply `U` by the block and re-factorise when `i % msvd == 0` or on the last block. -/
def make_svd_loop (dgesvd : Dgesvd R V V) (msvd size : ℕ) :
    List (Matrix (Fin V) (Fin V) R) → ℕ → SVDHelper R V V V → SVDHelper R V V V
  | [], _, h => h
  | A :: rest, i, h =>
    let h1 : SVDHelper R V V V := { h with U := A * h.U }
    let h2 := if i % msvd = 0 ∨ i = size - 1 then h1.absorbU dgesvd else h1
    make_svd_loop dgesvd msvd size rest (i + 1) h2

/-- The factorisation that `Simulation::make_svd` leaves in `svd` for the blocks `slices`. -/
def make_svd_of (dgesvd : Dgesvd R V V) (msvd : ℕ) (slices : List (Matrix (Fin V) (Fin V) R)) :
    SVDHelper R V V V :=
  make_svd_loop dgesvd msvd slices.length slices 0 (SVDHelper.setIdentity V)

/-- Every decomposition that the loop of `make_svd` calls, started at index `i` with the
factors `h`, returns a result with the property `ok` of its input (exactness, or being a
singular value decomposition). -/
def make_svd_calls (dgesvd : Dgesvd R V V) (ok : Matrix (Fin V) (Fin V) R → Prop)
    (msvd size : ℕ) : List (Matrix (Fin V) (Fin V) R) → ℕ → SVDHelper R V V V → Prop
  | [], _, _ => True
  | A :: rest, i, h =>
    let h1 : SVDHelper R V V V := { h with U := A * h.U }
    if i % msvd = 0 ∨ i = size - 1 then
      ok (h1.U * diagonal h1.S) ∧ make_svd_calls dgesvd ok msvd size rest (i + 1) (h1.absorbU dgesvd)
    else make_svd_calls dgesvd ok msvd size rest (i + 1) h1

end make_svd

/-! ## `simulation.hpp` and `stable.cpp` -/

/-- The members of the anonymous `cache` struct of `Simulation`. -/
structure Cache (R : Type) (V : ℕ) where
  a : R
  b : R
  u : Fin V → R
  v : Fin V → R
  u_smart : Fin V → R
  v_smart : Fin V → R
  A : Matrix (Fin V) (Fin V) R
  B : Matrix (Fin V) (Fin V) R

/-- The state of `class Simulation` (the members that the translated functions read or
write).  `diagonals` is the auxiliary field, row `i` being the field of time slice `i`;
only rows below `N` are ever accessed.  `propagator` is the matrix of the free propagation
step.  `update_U` and `update_Vt` are indexed by the site and the position in the batch. -/
structure Simulation (R : Type) (V : ℕ) where
  N : ℕ
  beta : R
  mu : R
  B : R
  diagonals : ℕ → Fin V → R
  freePropagator_x : Fin V → R
  propagator : Matrix (Fin V) (Fin V) R
  positionSpace : Matrix (Fin V) (Fin V) R
  v_x : Fin V → R
  mslices : ℕ
  slices : List (Matrix (Fin V) (Fin V) R)
  msvd : ℕ
  svd : SVDHelper R V V V
  svdA : SVDHelper R V V V
  svdB : SVDHelper R V V V
  svd_inverse : SVDHelper R V V V
  svd_inverse_up : SVDHelper R V V V
  svd_inverse_dn : SVDHelper R V V V
  first_slice_inverse : Matrix (Fin V) (Fin V) R
  plog : R
  psign : R
  update_prob : R
  update_sign : R
  update_size : ℕ
  max_update_size : ℕ
  update_U : Fin V → ℕ → R
  update_Vt : ℕ → Fin V → R
  rho_up : Matrix (Fin V) (Fin V) R
  rho_dn : Matrix (Fin V) (Fin V) R
  cache : Cache R V
  time_shift : ℕ
  steps : ℕ

/-- How a class finds the row of `diagonals` that holds the field of time slice `t`. -/
abbrev RowIndex (R : Type) (V : ℕ) := Simulation R V → ℕ → ℕ

/-- In `simulation.hpp` the field of slice `t` is `diagonal(t)`, the row
`diagonals[(t+time_shift)%N]`. -/
def Simulation.rowIndex {R : Type} {V : ℕ} : RowIndex R V :=
  fun s t => (t + s.time_shift) % s.N

/-- In `stable.cpp` the field of slice `t` is the row `diagonals[t]`. -/
def Stable.rowIndex {R : Type} {V : ℕ} : RowIndex R V :=
  fun _ t => t

/-- The row of a time slice depends on the state through `N` and `time_shift` only. -/
def RowIndex.Framed {R : Type} {V : ℕ} (ix : RowIndex R V) : Prop :=
  ∀ s s' : Simulation R V, s'.N = s.N → s'.time_shift = s.time_shift → ix s' = ix s

section simulation_defs

variable {R : Type} [LinearOrderedField R] {V : ℕ}

/-- The field of time slice `t`: `diagonal(t)` in `simulation.hpp`, `diagonals[t]` in
`stable.cpp`. -/
def Simulation.diagonal (s : Simulation R V) (ix : RowIndex R V) (t : ℕ) : Fin V → R :=
  s.diagonals (ix s t)

/-- `Simulation::flip (int t, int x)`: negate the field entry of site `x` in slice `t`. -/
def flip (ix : RowIndex R V) (s : Simulation R V) (t : ℕ) (x : Fin V) : Simulation R V :=
  let row := Function.update (s.diagonal ix t) x (-(s.diagonal ix t x))
  { s with diagonals := Function.update s.diagonals (ix s t) row }

/-- The diagonal factor of one time slice:
`(Vector_d::Constant(V, 1.0)+diagonal(i)).array()*freePropagator_x.array()`. -/
def slice_factor (fx d : Fin V → R) : Fin V → R :=
  fun j => (1 + d j) * fx j

/-- The loop of `accumulate_forward`, `count` iterations from index `i`: left-multiply by
the diagonal factor of slice `i`, then apply the free propagator. -/
def accumulate_loop (P : Matrix (Fin V) (Fin V) R) (fx : Fin V → R) (sigma : ℕ → Fin V → R) :
    ℕ → ℕ → Matrix (Fin V) (Fin V) R → Matrix (Fin V) (Fin V) R
  | 0, _, M => M
  | c + 1, i, M => accumulate_loop P fx sigma c (i + 1) (P * (diagonal (slice_factor fx (sigma i)) * M))

/-- `Simulation::accumulate_forward (int start, int end)`: the default `end = -1` and any
`end > N` are replaced by `N`; the result is left in `positionSpace`. -/
def accumulate_forward (ix : RowIndex R V) (s : Simulation R V) (start : ℕ) (stop : ℤ) :
    Simulation R V :=
  let e1 : ℤ := if stop < 0 then (s.N : ℤ) else stop
  let e2 : ℤ := if e1 > (s.N : ℤ) then (s.N : ℤ) else e1
  { s with positionSpace :=
      accumulate_loop s.propagator s.freePropagator_x (s.diagonal ix) (e2.toNat - start) start 1 }

/-- The loop `for (int i=0;i<N;i+=mslices)` of `make_slices`, from index `i`.  With
`mslices ≥ 1` it runs at most `N` times, which is the fuel that `make_slices` supplies. -/
def make_slices_loop (ix : RowIndex R V) : ℕ → ℕ → Simulation R V → Simulation R V
  | 0, _, s => s
  | fuel + 1, i, s =>
    if i < s.N then
      let s1 := accumulate_forward ix s i ((i : ℤ) + (s.mslices : ℤ))
      make_slices_loop ix fuel (i + s.mslices) { s1 with slices := s1.slices ++ [s1.positionSpace] }
    else s

/-- `Simulation::make_slices`. -/
def make_slices (ix : RowIndex R V) (s : Simulation R V) : Simulation R V :=
  make_slices_loop ix s.N 0 { s with slices := [] }

/-- The matrix that `accumulate_forward(i, i+mslices)` computes: the product of the slices
`i ≤ j < min(i+mslices, N)`. -/
def block_at (ix : RowIndex R V) (s : Simulation R V) (i : ℕ) : Matrix (Fin V) (Fin V) R :=
  accumulate_loop s.propagator s.freePropagator_x (s.diagonal ix)
    (min (i + s.mslices) s.N - i) i 1

/-- The blocks pushed by the loop of `make_slices` from index `i` on, as a list. -/
def block_list (blk : ℕ → Matrix (Fin V) (Fin V) R) (N mslices : ℕ) :
    ℕ → ℕ → List (Matrix (Fin V) (Fin V) R)
  | 0, _ => []
  | fuel + 1, i => if i < N then blk i :: block_list blk N mslices fuel (i + mslices) else []

/-- `Simulation::make_svd`. -/
def make_svd (dgesvd : Dgesvd R V V) (s : Simulation R V) : Simulation R V :=
  { s with svd := make_svd_of dgesvd s.msvd s.slices }

/-- The weight `std::exp(+beta*B*0.5+beta*mu)` of the first species. -/
def Simulation.lambdaA (s : Simulation R V) (exp : R → R) : R :=
  exp (s.beta * s.B * 0.5 + s.beta * s.mu)

/-- The weight `std::exp(-beta*B*0.5+beta*mu)` of the second species. -/
def Simulation.lambdaB (s : Simulation R V) (exp : R → R) : R :=
  exp (-s.beta * s.B * 0.5 + s.beta * s.mu)

/-- `Simulation::make_density_matrices`. -/
def make_density_matrices (exp : R → R) (dgesvd : Dgesvd R V V) (s : Simulation R V) :
    Simulation R V :=
  { s with
    svdA := s.svd.add_identity dgesvd (s.lambdaA exp)
    svdB := s.svd.add_identity dgesvd (s.lambdaB exp) }

/-- `Simulation::make_svd_inverse` (`simulation.hpp`).  `slices[0].inverse()` is the dense
inverse, the adjugate divided by the determinant; with no block `slices[0]` does not
exist and `first_slice_inverse` is left as it is. -/
def make_svd_inverse (exp : R → R) (dgesvd : Dgesvd R V V) (s : Simulation R V) :
    Simulation R V :=
  let inv := s.svd.invertInPlace
  { s with
    svd_inverse := inv
    svd_inverse_up :=
      (inv.add_identity dgesvd (exp (-s.beta * s.B * 0.5 - s.beta * s.mu))).invertInPlace
    svd_inverse_dn :=
      (inv.add_identity dgesvd (exp (s.beta * s.B * 0.5 - s.beta * s.mu))).invertInPlace
    first_slice_inverse :=
      match s.slices with
      | [] => s.first_slice_inverse
      | A :: _ => (A.det)⁻¹ • A.adjugate }

/-- `Simulation::svd_probability`:
`svdA.S.array().log().sum() + svdB.S.array().log().sum()`. -/
def svd_probability (log : R → R) (s : Simulation R V) : R :=
  (∑ i, log (s.svdA.S i)) + ∑ i, log (s.svdB.S i)

/-- `Simulation::svd_sign`. -/
def svd_sign (s : Simulation R V) : R :=
  if (s.svdA.U * s.svdA.Vt * s.svdB.U * s.svdB.Vt).det > 0 then 1 else -1

/-- The first loop of `compute_uv_f_short`, `count` iterations from slice `i`: apply the
free propagator, then multiply entrywise by the diagonal factor of slice `i`. -/
def uv_forward_loop (P : Matrix (Fin V) (Fin V) R) (fx : Fin V → R) (sigma : ℕ → Fin V → R) :
    ℕ → ℕ → (Fin V → R) → (Fin V → R)
  | 0, _, v => v
  | c + 1, i, v =>
    uv_forward_loop P fx sigma c (i + 1) (fun j => (P *ᵥ v) j * (1 + sigma i j) * fx j)

/-- The second loop of `compute_uv_f_short`, `count` iterations downwards from slice
`hi - 1`. -/
def uv_backward_loop (P : Matrix (Fin V) (Fin V) R) (fx : Fin V → R) (sigma : ℕ → Fin V → R) :
    ℕ → ℕ → (Fin V → R) → (Fin V → R)
  | 0, _, v => v
  | c + 1, hi, v =>
    uv_backward_loop P fx sigma c (hi - 1) (fun j => (P *ᵥ v) j * (1 + sigma (hi - 1) j) * fx j)

/-- `Simulation::compute_uv_f_short (int x, int t)`. -/
def compute_uv_f_short (ix : RowIndex R V) (s : Simulation R V) (x : Fin V) (t : ℕ) :
    Simulation R V :=
  let start := s.mslices * (t / s.mslices)
  let end0 := s.mslices * (1 + t / s.mslices)
  let stop := if end0 > s.N then s.N else end0
  let v1 := uv_forward_loop s.propagator s.freePropagator_x (s.diagonal ix)
    (stop - (t + 1)) (t + 1) (Pi.single x 1)
  let v2 := s.propagator *ᵥ v1
  let u_smart : Fin V → R := fun j => -2 * s.diagonal ix t x * v2 j * s.freePropagator_x x
  let v3 := uv_backward_loop s.propagator s.freePropagator_x (s.diagonal ix)
    (t - start) t (Pi.single x 1)
  { s with v_x := v3, cache := { s.cache with u_smart := u_smart, v_smart := v3 } }

/-- `Simulation::compute_uv_f_smart (int x, int t)` of `stable.cpp`: the vectors of
`compute_uv_f_short`, then `cache.u` carried through the later blocks and `cache.v`
through the transposes of the earlier blocks. -/
def Stable.compute_uv_f_smart (s : Simulation R V) (x : Fin V) (t : ℕ) : Simulation R V :=
  let s1 := compute_uv_f_short Stable.rowIndex s x t
  let u := (s1.slices.drop (t / s1.mslices + 1)).foldl (fun w A => A *ᵥ w) s1.cache.u_smart
  let v := ((s1.slices.take (t / s1.mslices)).reverse).foldl (fun w A => Aᵀ *ᵥ w)
    s1.cache.v_smart
  { s1 with cache := { s1.cache with u := u, v := v } }

/-- `Simulation::rank1_probability (int x, int t)` of `stable.cpp`: the returned value and
the state it leaves. -/
def Stable.rank1_probability (exp log : R → R) (s : Simulation R V) (x : Fin V) (t : ℕ) :
    R × Simulation R V :=
  let s1 := Stable.compute_uv_f_smart s x t
  let a := (s1.cache.v ᵥ* s1.svdA.Vtᵀ) ⬝ᵥ
    (fun i => (s1.svdA.S i)⁻¹ * (s1.svdA.Uᵀ *ᵥ s1.cache.u) i)
  let b := (s1.cache.v ᵥ* s1.svdB.Vtᵀ) ⬝ᵥ
    (fun i => (s1.svdB.S i)⁻¹ * (s1.svdB.Uᵀ *ᵥ s1.cache.u) i)
  let s2 : Simulation R V := { s1 with cache := { s1.cache with a := a, b := b } }
  (log ((1 + s.lambdaA exp * a) * (1 + s.lambdaB exp * b)), s2)

/-- Every decomposition called by `make_svd` on the blocks of `s` returns an exact
decomposition of its input. -/
def Simulation.SvdCallsExact (s : Simulation R V) (dgesvd : Dgesvd R V V) : Prop :=
  make_svd_calls dgesvd dgesvd.ExactAt s.msvd s.slices.length s.slices 0 (SVDHelper.setIdentity V)

/-- Every decomposition called by `make_svd` followed by `make_density_matrices` on the
blocks of `s` returns a singular value decomposition of its input. -/
def Simulation.RebuildExact (s : Simulation R V) (exp : R → R) (dgesvd : Dgesvd R V V) : Prop :=
  make_svd_calls dgesvd dgesvd.IsSVDAt s.msvd s.slices.length s.slices 0
      (SVDHelper.setIdentity V) ∧
    dgesvd.IsSVDAt ((make_svd_of dgesvd s.msvd s.slices).add_identity_other (s.lambdaA exp)) ∧
    dgesvd.IsSVDAt ((make_svd_of dgesvd s.msvd s.slices).add_identity_other (s.lambdaB exp))

/-- `Simulation::compute_U_s` of `stable.cpp`: the full rebuild from the field. -/
def Stable.compute_U_s (exp log : R → R) (dgesvd : Dgesvd R V V) (s : Simulation R V) :
    Simulation R V :=
  let s1 : Simulation R V := { s with mslices := if s.mslices > 0 then s.mslices else s.N }
  let s4 := make_density_matrices exp dgesvd (make_svd dgesvd (make_slices Stable.rowIndex s1))
  { s4 with plog := svd_probability log s4 }

/-- The state in which `metropolis` of `stable.cpp` evaluates the proposed move: after
`rank1_probability(x, t)`, the field entry negated and the rank-one correction added to
the block that owns slice `t`. -/
def Stable.proposal (exp log : R → R) (s : Simulation R V) (x : Fin V) (t : ℕ) :
    Simulation R V :=
  let s1 := (Stable.rank1_probability exp log { s with steps := s.steps + 1 } x t).2
  let s2 := flip Stable.rowIndex s1 t x
  let uv := vecMulVec s2.cache.u_smart s2.cache.v_smart
  { s2 with slices := s2.slices.modify (fun A => A + uv) (t / s2.mslices) }

/-- `Simulation::metropolis` of `stable.cpp`; the site `x`, the slice `t` and the
exponential variate `trial` are the three values drawn from the generator.  Returns `ret`
and the state left behind. -/
def Stable.metropolis (exp log : R → R) (dgesvd : Dgesvd R V V) (s : Simulation R V)
    (x : Fin V) (t : ℕ) (trial : R) : Bool × Simulation R V :=
  let s3 := make_density_matrices exp dgesvd (make_svd dgesvd (Stable.proposal exp log s x t))
  let np := svd_probability log s3
  if -trial < np - s3.plog then
    (true, { s3 with plog := np })
  else
    let s4 := flip Stable.rowIndex s3 t x
    let uv := vecMulVec s4.cache.u_smart s4.cache.v_smart
    (false, { s4 with slices := s4.slices.modify (fun A => A - uv) (t / s4.mslices) })

/-- The members of `class Configuration` of `full.cpp` that `metropolis` reads or writes.
`ev_s` holds complex eigenvalues, as pairs of real and imaginary part. -/
structure Full.Configuration (R : Type) (V : ℕ) where
  diagonals : ℕ → Fin V → R
  positionSpace : Matrix (Fin V) (Fin V) R
  plog : R
  U_s : Matrix (Fin V) (Fin V) R
  ev_s : Fin V → R × R

/-- `Configuration::metropolis` of `full.cpp`.  `logProbability` stands for the member of
that name, which returns the log-weight of the current field and leaves a new
`positionSpace`, or throws (`none`); `eigenvalues` is Eigen's eigenvalue routine.  The result
is `none` when `logProbability` throws. -/
def Full.metropolis
    (logProbability : Full.Configuration R V → Option (R × Matrix (Fin V) (Fin V) R))
    (eigenvalues : Matrix (Fin V) (Fin V) R → Fin V → R × R)
    (c : Full.Configuration R V) (x : Fin V) (t : ℕ) (trial : R) :
    Option (Bool × Full.Configuration R V) :=
  let row := Function.update (c.diagonals t) x (-(c.diagonals t x))
  let c1 : Full.Configuration R V := { c with diagonals := Function.update c.diagonals t row }
  match logProbability c1 with
  | none => none
  | some (lp, ps) =>
    let c2 : Full.Configuration R V := { c1 with positionSpace := ps }
    if -trial < lp - c2.plog then
      let ev := eigenvalues c2.positionSpace
      some (true, { c2 with plog := lp, U_s := c2.positionSpace, ev_s := ev })
    else
      let back := Function.update (c2.diagonals t) x (-(c2.diagonals t x))
      some (false, { c2 with diagonals := Function.update c2.diagonals t back })

/-- The two states hold the same parameters: the members that no step of a sweep in
`stable.cpp` writes. -/
def Simulation.SameSetup (a b : Simulation R V) : Prop :=
  a.N = b.N ∧ a.mslices = b.mslices ∧ a.propagator = b.propagator ∧
    a.freePropagator_x = b.freePropagator_x ∧ a.time_shift = b.time_shift ∧
    a.msvd = b.msvd ∧ a.beta = b.beta ∧ a.B = b.B ∧ a.mu = b.mu

/-- The running log-weight of a state of `stable.cpp` is the one that a full rebuild from
the current field computes: the blocks are those of the field, and `plog` is the
`svd_probability` of the factorisation built from them. -/
def Stable.WeightTracked (exp log : R → R) (dgesvd : Dgesvd R V V) (s : Simulation R V) :
    Prop :=
  1 ≤ s.mslices ∧ (make_slices Stable.rowIndex s).slices = s.slices ∧
    s.plog = svd_probability log
      (make_density_matrices exp dgesvd (make_svd dgesvd (make_slices Stable.rowIndex s)))

/-- `Simulation::reset_updates` (`simulation.hpp`): empty the pending batch. -/
def reset_updates (s : Simulation R V) : Simulation R V :=
  { s with
    update_prob := 0
    update_sign := 1
    update_size := 0
    update_U := fun _ _ => 0
    update_Vt := fun _ _ => 0 }

/-- `Simulation::collapse_updates` (`simulation.hpp`): the returned flag and the state left
behind. -/
def collapse_updates (exp : R → R) (dgesvd : Dgesvd R V V) (s : Simulation R V) :
    Bool × Simulation R V :=
  if s.update_size ≥ s.max_update_size then
    let s1 : Simulation R V := { s with plog := s.plog + s.update_prob }
    let s2 : Simulation R V := { s1 with psign := s1.psign * s1.update_sign }
    (true, reset_updates (make_svd_inverse exp dgesvd (make_svd dgesvd s2)))
  else
    (false, s)

/-- `Simulation::redo_all` (`simulation.hpp`).  The first component tells whether the two
lines of the mismatch report were written to `std::cerr`; the second is the state left
behind. -/
def redo_all (exp log : R → R) (dgesvd : Dgesvd R V V) (s : Simulation R V) :
    Bool × Simulation R V :=
  let s1 := make_slices Simulation.rowIndex s
  let s4 := make_density_matrices exp dgesvd (make_svd_inverse exp dgesvd (make_svd dgesvd s1))
  let np := svd_probability log s4
  let reported : Bool := if |np - s4.plog - s4.update_prob| > 1.0e-8 then true else false
  let s5 : Simulation R V := { s4 with plog := np }
  let s6 : Simulation R V := { s5 with psign := svd_sign s5 }
  (reported, reset_updates s6)

/-- The two assignments `mslices = mslices>0?mslices:N; mslices = mslices<N?mslices:N;` at
the start of `Simulation::init` (`simulation.hpp`), on the `int` values. -/
def init_mslices (mslices0 N : ℤ) : ℤ :=
  let m1 : ℤ := if mslices0 > 0 then mslices0 else N
  if m1 < N then m1 else N

/-- The part of `Simulation::init` (`simulation.hpp`) that acts on the translated members.
`mslices0` is the value of the `int` member `mslices` before the call and `sigma` the field
that the loop over `diagonals` draws; the propagators that `prepare_propagators` computes
are the ones already held by `s`. -/
def Simulation.init (exp log : R → R) (dgesvd : Dgesvd R V V) (mslices0 : ℤ)
    (sigma : ℕ → Fin V → R) (s : Simulation R V) : Simulation R V :=
  let mus : ℕ := if s.max_update_size < 1 then 1 else s.max_update_size
  let s1 : Simulation R V :=
    { s with
      mslices := (init_mslices mslices0 (s.N : ℤ)).toNat
      time_shift := 0
      max_update_size := mus
      diagonals := sigma
      v_x := 0
      positionSpace := 1 }
  let s2 := make_slices Simulation.rowIndex s1
  let s4 := make_density_matrices exp dgesvd (make_svd_inverse exp dgesvd (make_svd dgesvd s2))
  let s5 : Simulation R V := { s4 with plog := svd_probability log s4 }
  let s6 : Simulation R V := { s5 with psign := svd_sign s5 }
  reset_updates s6

/-- The product of the per-slice operators `P * diag((1 + sigma_i) * f_x)` for the slices
`a ≤ i < b`, in time order: the operator of slice `a` is the rightmost factor. -/
def ordered_slice_product (ix : RowIndex R V) (s : Simulation R V) (a b : ℕ) :
    Matrix (Fin V) (Fin V) R :=
  ((List.range' a (b - a)).map
    (fun i => s.propagator * diagonal (slice_factor s.freePropagator_x (s.diagonal ix i)))).reverse.prod

/-- The matrix left in `positionSpace` by the loop of `make_slices` from index `i` on: the
last block computed, or `p` when the loop body does not run. -/
def last_block (blk : ℕ → Matrix (Fin V) (Fin V) R) (N mslices : ℕ) :
    ℕ → ℕ → Matrix (Fin V) (Fin V) R → Matrix (Fin V) (Fin V) R
  | 0, _, p => p
  | fuel + 1, i, p => if i < N then last_block blk N mslices fuel (i + mslices) (blk i) else p

/-- The loop of `Simulation::update` of `stable.cpp`, `count` iterations from iteration `i`;
`draws i` holds the site, the slice and the exponential variate drawn in iteration `i`.
The measurements taken in the loop body (`acceptance.add`, `sign.add`) change no member
translated here, and `make_tests` is empty. -/
def Stable.metropolis_loop (exp log : R → R) (dgesvd : Dgesvd R V V)
    (draws : ℕ → Fin V × ℕ × R) : ℕ → ℕ → Simulation R V → Simulation R V
  | 0, _, s => s
  | c + 1, i, s =>
    Stable.metropolis_loop exp log dgesvd draws c (i + 1)
      (Stable.metropolis exp log dgesvd s (draws i).1 (draws i).2.1 (draws i).2.2).2

/-- `Simulation::update` of `stable.cpp`: one hundred `metropolis` steps, then
`compute_U_s`. -/
def Stable.update (exp log : R → R) (dgesvd : Dgesvd R V V) (draws : ℕ → Fin V × ℕ × R)
    (s : Simulation R V) : Simulation R V :=
  Stable.compute_U_s exp log dgesvd (Stable.metropolis_loop exp log dgesvd draws 100 0 s)

/-- `Simulation::shift_time` (`simulation.hpp`): the returned flag and the state left
behind. -/
def shift_time (exp log : R → R) (dgesvd : Dgesvd R V V) (s : Simulation R V) :
    Bool × Simulation R V :=
  let s1 : Simulation R V := { s with time_shift := s.time_shift + s.mslices }
  let ret : Bool := if s1.time_shift ≥ s1.N then true else false
  let s2 : Simulation R V :=
    if ret = true then { s1 with time_shift := s1.time_shift - s1.N } else s1
  (ret, (redo_all exp log dgesvd s2).2)

/-- `Simulation::flip (int t, const std::vector<int> &vec)`: negate the field entries of the
sites listed in `vec` in slice `t`, one after the other. -/
def flip_vec (ix : RowIndex R V) (s : Simulation R V) (t : ℕ) (vec : List (Fin V)) :
    Simulation R V :=
  vec.foldl (fun s x => flip ix s t x) s

/-- The state of `make_rankN_update(t, vec)` with `t < N` when entry `i` of `vec` is reached:
`compute_uv_f_smart` has run for the entries before it. -/
def Stable.rankN_state (s : Simulation R V) (t : ℕ) (vec : List (Fin V)) (i : ℕ) :
    Simulation R V :=
  (vec.take i).foldl (fun s x => Stable.compute_uv_f_smart s x t) s

/-- `Simulation::make_rankN_update (int t, const std::vector<int> &vec)` of `stable.cpp`, for
`t ≥ 0`: the factors `sm` that it returns and the state that it leaves.  Column `i` of
`sm.U` and row `i` of `sm.Vt` are the vectors `u_smart`, `v_smart` of
`compute_uv_f_smart(vec[i], t)` (unit vectors when `t ≥ N`); after `absorbU` and `absorbVt`
the later blocks are multiplied into `U` from the left and the earlier ones into `Vt` from
the right, each followed by a decomposition.  `tall` is the routine called by `absorbU`,
`wide` the one called by `absorbVt`.  The result is `none` when `vec` has more entries than
there are sites (`absorbU` is for a `U` with at least as many rows as columns) or when
`slices[t/mslices-1]` does not exist. -/
def Stable.make_rankN_update (s : Simulation R V) (t : ℕ) (vec : List (Fin V))
    (tall : Dgesvd R V vec.length) (wide : DgesvdWide R vec.length V) :
    Option (SVDHelper R V vec.length V × Simulation R V) :=
  if vec.length ≤ V ∧ t / s.mslices ≤ s.slices.length then
    let s1 := if t < s.N then Stable.rankN_state s t vec vec.length else s
    let U0 : Matrix (Fin V) (Fin vec.length) R := Matrix.of fun j i =>
      if t < s.N then
        (Stable.compute_uv_f_smart (Stable.rankN_state s t vec i) (vec.get i) t).cache.u_smart j
      else if j = vec.get i then 1 else 0
    let Vt0 : Matrix (Fin vec.length) (Fin V) R := Matrix.of fun i j =>
      if t < s.N then
        (Stable.compute_uv_f_smart (Stable.rankN_state s t vec i) (vec.get i) t).cache.v_smart j
      else if j = vec.get i then 1 else 0
    let sm0 : SVDHelper R V vec.length V := { U := U0, S := fun _ => 1, Vt := Vt0 }
    let sm1 := (sm0.absorbU tall).absorbVt_le wide
    let sm2 := (s1.slices.drop (t / s1.mslices + 1)).foldl
      (fun (h : SVDHelper R V vec.length V) A =>
        SVDHelper.absorbU tall { h with U := A * h.U }) sm1
    let sm3 := (s1.slices.take (t / s1.mslices)).reverse.foldl
      (fun (h : SVDHelper R V vec.length V) A =>
        SVDHelper.absorbVt_le wide { h with Vt := h.Vt * A }) sm2
    some (sm3, s1)
  else none

/-- The determinant `d1` (from `svdA` and `λ_A`) or `d2` (from `svdB` and `λ_B`) that
`make_tests` of `stable.cpp` forms from the factors `sm` of `make_rankN_update`:
`((sm.Vt*h.Vtᵀ) * h.S⁻¹ * (h.Uᵀ*sm.U) * sm.S * lam + I).determinant()`. -/
def Stable.rankN_det {k : ℕ} (lam : R) (h : SVDHelper R V V V) (sm : SVDHelper R V k V) : R :=
  (lam • ((sm.Vt * h.Vtᵀ) * diagonal (fun i => (h.S i)⁻¹) * (h.Uᵀ * sm.U) * diagonal sm.S)
    + 1).det

/-- The block of `make_tests` of `stable.cpp` that checks an update of several sites (it sits
under `if (false)`), for the drawn slice `t` and sites `vec`: the two numbers it prints,
`plog + log d1 + log d2` and `svd_probability()` after `flip(t, vec)`, `make_slices()`,
`make_svd()` and `make_density_matrices()`. -/
def Stable.rankN_test (exp log : R → R) (dgesvd : Dgesvd R V V) (s : Simulation R V) (t : ℕ)
    (vec : List (Fin V)) (tall : Dgesvd R V vec.length) (wide : DgesvdWide R vec.length V) :
    Option (R × R) :=
  match Stable.make_rankN_update s t vec tall wide with
  | none => none
  | some (sm, s1) =>
    let d1 := Stable.rankN_det (s1.lambdaA exp) s1.svdA sm
    let d2 := Stable.rankN_det (s1.lambdaB exp) s1.svdB sm
    let s2 := make_density_matrices exp dgesvd
      (make_svd dgesvd (make_slices Stable.rowIndex (flip_vec Stable.rowIndex s1 t vec)))
    some (s1.plog + log d1 + log d2, svd_probability log s2)

end simulation_defs

/-! ## `measurements.hpp` -/

/-- The value that an `int` holds for the arithmetic result `z`: 32-bit two's complement.
For a result outside the range of `int` the language defines no value; the wrap-around of
the usual targets is taken. -/
def int_wrap (z : ℤ) : ℤ := (z + 2 ^ 31) % 2 ^ 32 - 2 ^ 31

/-- One bin of `measurement<T, Log>`: the entries `sums_[i]`, `squared_sums_[i]`, `x_[i]`
and `n_[i]` of the four vectors, which always have the same length.  The counter `n_[i]`
is an `int`; `n` is the value it holds. -/
structure Bin (R : Type) where
  sum : R
  squared_sum : R
  x : R
  n : ℤ

/-- A `measurement<T, Log>`: its bins, bin `0` first. -/
abbrev measurement (R : Type) := List (Bin R)

namespace measurement

variable {R : Type} [Field R]

/-- The bin that `add` appends: `T()` three times and `0` samples. -/
def fresh : Bin R := { sum := 0, squared_sum := 0, x := 0, n := 0 }

/-- The body of the loop of `measurement::add` on bin `i`, after the bin is known to
exist: the bin it leaves and, unless it breaks, the value `nx` carried to bin `i + 1`.
`n_[i] += 1` is an `int` addition, and `n_[i]%2` is the remainder of the `int` division,
which has the sign of `n_[i]`. -/
def step (nx : R) (b : Bin R) : Bin R × Option R :=
  let b1 : Bin R :=
    if b.n = 0 then { b with sum := nx, squared_sum := nx * nx }
    else { b with sum := b.sum + nx, squared_sum := b.squared_sum + nx * nx }
  let b2 : Bin R := { b1 with n := int_wrap (b1.n + 1) }
  if Int.tmod b2.n 2 = 1 then ({ b2 with x := nx }, none)
  else ({ b2 with x := (nx + b2.x) / 2 }, some ((nx + b2.x) / 2))

/-- The loop `for (size_t i=0;;i++)` of `measurement::add`, from bin `i` on, where the
argument holds the bins from `i` on.  When `i==n_.size()` a fresh bin is appended; with
`Log` the loop breaks there, otherwise the fresh bin takes its first sample, which makes
`n_[i]` odd, and the loop breaks after it. -/
def add_loop (Log : Bool) (nx : R) : List (Bin R) → List (Bin R)
  | [] => if Log then [fresh] else [(step nx fresh).1]
  | b :: rest =>
    match step nx b with
    | (b', none) => b' :: rest
    | (b', some nx') => b' :: add_loop Log nx' rest

/-- `measurement::add`. -/
def add (Log : Bool) (m : measurement R) (x : R) : measurement R :=
  add_loop Log x m

/-- `measurement::bins`. -/
def bins (m : measurement R) : ℕ := m.length

/-- `measurement::samples (int i)`; `none` when `i` is not the index of a bin. -/
def samples (m : measurement R) (i : ℕ) : Option ℤ :=
  if m.length = 0 then some 0 else (m[i]?).map Bin.n

/-- `measurement::sum (int i)`; `none` when `i` is not the index of a bin. -/
def sum (m : measurement R) (i : ℕ) : Option R :=
  (m[i]?).map Bin.sum

/-- `measurement::square (int i)`; `none` when `i` is not the index of a bin. -/
def square (m : measurement R) (i : ℕ) : Option R :=
  (m[i]?).map Bin.squared_sum

/-- `measurement::mean (int i)`; `none` when `i` is not the index of a bin. -/
def mean (m : measurement R) (i : ℕ) : Option R :=
  if m.bins > 0 then (m[i]?).map (fun b => b.sum / (b.n : R)) else some 0

/-- `measurement::variance (int i)`; `none` when `i` is not the index of a bin. -/
def variance (m : measurement R) (i : ℕ) : Option R :=
  (m[i]?).map (fun b => b.squared_sum / (b.n : R) - b.sum / (b.n : R) * (b.sum / (b.n : R)))

/-- The value of the `size_t` expression `a - b` (64-bit `size_t`). -/
def size_t_sub (a b : ℕ) : ℕ := (a % 2 ^ 64 + 2 ^ 64 - b % 2 ^ 64) % 2 ^ 64

/-- The conversion of a `size_t` value to the `int` parameter of `error(int)` and
`time(int)` (32-bit two's complement). -/
def to_int (a : ℕ) : ℤ := ((a % 2 ^ 32 + 2 ^ 31) % 2 ^ 32 : ℕ) - 2 ^ 31

/-- The index at which the no-argument `error()` evaluates `error(int)`:
`std::max(size_t(0), bins()-6)`. -/
def error_index (bins : ℕ) : ℤ := to_int (max 0 (size_t_sub bins 6))

/-- The index at which the no-argument `time()` evaluates `time(int)`:
`std::max(bins(), size_t(6))-6`. -/
def time_index (bins : ℕ) : ℤ := to_int (size_t_sub (max bins 6) 6)

/-- The index that `operator<<` computes: `std::max(int(m.bins())-6, int(0))`. -/
def print_index (bins : ℕ) : ℤ := max ((bins : ℤ) - 6) 0

/-- `measurement::error (int i)`; `none` when it reads a bin that does not exist. -/
def error_at (sqrt : R → R) (m : measurement R) (i : ℤ) : Option R :=
  if m.bins > 0 then
    if 0 ≤ i then
      (m[i.toNat]?).bind (fun b => (m.variance i.toNat).map (fun v => sqrt (v / (b.n : R))))
    else none
  else some 0

/-- `measurement::error ()`. -/
def error (sqrt : R → R) (m : measurement R) : Option R :=
  m.error_at sqrt (error_index m.bins)

/-- The list of the means of consecutive pairs of a list; an unpaired last entry is
dropped.  These are the values that a bin hands on to the next bin. -/
def pairMeans : List R → List R
  | a :: b :: rest => (b + a) / 2 :: pairMeans rest
  | _ => []

/-- The arithmetic mean of block `j` (counted from `0`) of `2^i` consecutive inputs. -/
def blockMean (xs : List R) (i j : ℕ) : R :=
  (∑ l in Finset.range (2 ^ i), xs.getD (j * 2 ^ i + l) 0) / 2 ^ i

/-- The bins `bs` (from some level on) hold what `add` accumulates from the values `ys`
that reached that level: sample count, sum, sum of squares, the pending unpaired value,
and the same for the following bins with the pair means of `ys`. -/
def Tracks : List (Bin R) → List R → Prop
  | [], ys => ys = []
  | b :: rest, ys =>
    ys ≠ [] ∧ b.n = (ys.length : ℤ) ∧ b.sum = ys.sum ∧
      b.squared_sum = (ys.map (fun y => y * y)).sum ∧
      (ys.length % 2 = 1 → ys.getLast? = some b.x) ∧ Tracks rest (pairMeans ys)

end measurement

/-! ## `slice.hpp` and `configuration.hpp` -/

/-- A vertex of the interaction (`Interaction::Vertex`): its imaginary time `tau`, its
field value `sigma` and its site `x`. -/
structure Vertex (R : Type) where
  tau : R
  sigma : R
  x : ℕ

/-- What the template argument `Model` supplies to `Slice`: `Lattice::propagate(dt, M)`,
`Interaction::apply_vertex_on_the_left(v, M)` and
`Interaction::apply_inverse_on_the_left(v, M)`, each as the matrix it leaves in `M`. -/
structure Model (R : Type) (n : ℕ) where
  propagate : R → Matrix (Fin n) (Fin n) R → Matrix (Fin n) (Fin n) R
  apply_vertex_on_the_left : Vertex R → Matrix (Fin n) (Fin n) R → Matrix (Fin n) (Fin n) R
  apply_inverse_on_the_left : Vertex R → Matrix (Fin n) (Fin n) R → Matrix (Fin n) (Fin n) R

/-- The members of `Slice<Model>` that `matrix`, `inverse` and `log_abs_det` read: the
vertices in the iteration order of the `std::set`, and the length `beta` of the slice. -/
structure Slice (R : Type) where
  verts : List (Vertex R)
  beta : R

section slice_defs

variable {R : Type} [LinearOrderedField R] {n : ℕ}

/-- The loop `for (auto v : verts)` of `Slice::matrix`: the time `t0` and the matrix
`matrix_` when it ends. -/
def Slice.matrix_loop (md : Model R n) :
    List (Vertex R) → R → Matrix (Fin n) (Fin n) R → R × Matrix (Fin n) (Fin n) R
  | [], t0, M => (t0, M)
  | v :: rest, t0, M =>
    let M1 := if v.tau > t0 then md.propagate (v.tau - t0) M else M
    Slice.matrix_loop md rest v.tau (md.apply_vertex_on_the_left v M1)

/-- `Slice::matrix`. -/
def Slice.matrix (md : Model R n) (s : Slice R) : Matrix (Fin n) (Fin n) R :=
  let r := Slice.matrix_loop md s.verts 0 1
  if s.beta > r.1 then md.propagate (s.beta - r.1) r.2 else r.2

/-- The loop `for (auto v=verts.rbegin();v!=verts.rend();v++)` of `Slice::inverse`, on the
vertices in reversed order: the time `t0` and the matrix `matrix_inv_` when it ends. -/
def Slice.inverse_loop (md : Model R n) :
    List (Vertex R) → R → Matrix (Fin n) (Fin n) R → R × Matrix (Fin n) (Fin n) R
  | [], t0, M => (t0, M)
  | v :: rest, t0, M =>
    let M1 := if v.tau < t0 then md.propagate (v.tau - t0) M else M
    Slice.inverse_loop md rest v.tau (md.apply_inverse_on_the_left v M1)

/-- `Slice::inverse`. -/
def Slice.inverse (md : Model R n) (s : Slice R) : Matrix (Fin n) (Fin n) R :=
  let r := Slice.inverse_loop md s.verts.reverse s.beta 1
  if 0 < r.1 then md.propagate (-r.1) r.2 else r.2

/-- `Slice::log_abs_det`. -/
def Slice.log_abs_det (log : R → R) (s : Slice R) : R :=
  s.verts.foldl (fun ret v => ret + log (1 + v.sigma)) 0

/-- The members of `Configuration<Model>` that `compute_B` and `log_abs_det` read or write;
`slices` has `M` entries, only the indices below `M` are accessed. -/
structure Configuration (R : Type) (n : ℕ) where
  slices : ℕ → Slice R
  M : ℕ
  index : ℕ
  svd : SVDHelper R n n n

/-- The loop of `Configuration::compute_B`, `count` iterations from index `i`. -/
def Configuration.compute_B_loop (md : Model R n) (dgesvd : Dgesvd R n n)
    (c : Configuration R n) : ℕ → ℕ → SVDHelper R n n n → SVDHelper R n n n
  | 0, _, h => h
  | count + 1, i, h =>
    let h1 : SVDHelper R n n n := { h with U := (c.slices ((i + c.index) % c.M)).matrix md * h.U }
    Configuration.compute_B_loop md dgesvd c count (i + 1) (h1.absorbU dgesvd)

/-- `Configuration::compute_B`. -/
def Configuration.compute_B (md : Model R n) (dgesvd : Dgesvd R n n) (c : Configuration R n) :
    Configuration R n :=
  { c with svd := Configuration.compute_B_loop md dgesvd c c.M 0 (SVDHelper.setIdentity n) }

/-- `Configuration::log_abs_det`: `svd.S.array().abs().log().sum()`. -/
def Configuration.log_abs_det (log : R → R) (c : Configuration R n) : R :=
  ∑ i, log |c.svd.S i|

/-- The matrices that `compute_B` multiplies into `svd.U`, in the order of the loop. -/
def Configuration.slice_matrices (md : Model R n) (c : Configuration R n) :
    List (Matrix (Fin n) (Fin n) R) :=
  (List.range c.M).map (fun i => (c.slices ((i + c.index) % c.M)).matrix md)

/-- The three operations of the model act on a matrix by multiplication from the left. -/
def Model.ActsOnTheLeft (md : Model R n) : Prop :=
  (∀ dt M, md.propagate dt M = md.propagate dt 1 * M) ∧
    (∀ v M, md.apply_vertex_on_the_left v M = md.apply_vertex_on_the_left v 1 * M) ∧
    (∀ v M, md.apply_inverse_on_the_left v M = md.apply_inverse_on_the_left v 1 * M)

/-- `Simulation::logDetU_s (int x, int t)` of `simulation.hpp`; `A` is the member of that
name, the magnitude of the field.  The default arguments are `-1`; the result is `none` when
`diagonals[t][x]` is read outside the field. -/
def logDetU_s {V : ℕ} (log : R → R) (A : R) (s : Simulation R V) (x t : ℤ) : Option R :=
  let nspinup0 : ℤ :=
    ∑ i in Finset.range s.N, ∑ j : Fin V, if s.diagonals i j > 0 then 1 else 0
  if 0 ≤ x ∧ 0 ≤ t then
    if h : x.toNat < V ∧ t.toNat < s.N then
      let nspinup : ℤ := nspinup0 + (if s.diagonals t.toNat ⟨x.toNat, h.1⟩ > 0 then -1 else 1)
      some ((nspinup : R) * log (1 + A) + (((s.N * V : ℕ) : ℤ) - nspinup : ℤ) * log (1 - A))
    else none
  else
    some ((nspinup0 : R) * log (1 + A) + (((s.N * V : ℕ) : ℤ) - nspinup0 : ℤ) * log (1 - A))

/-- Every decomposition that the loop of `Configuration::compute_B` calls, `count` iterations
from index `i` with the factors `h`, returns a result with the property `ok` of its input. -/
def Configuration.compute_B_calls (md : Model R n) (dgesvd : Dgesvd R n n)
    (ok : Matrix (Fin n) (Fin n) R → Prop) (c : Configuration R n) :
    ℕ → ℕ → SVDHelper R n n n → Prop
  | 0, _, _ => True
  | count + 1, i, h =>
    let h1 : SVDHelper R n n n := { h with U := (c.slices ((i + c.index) % c.M)).matrix md * h.U }
    ok (h1.U * diagonal h1.S) ∧
      Configuration.compute_B_calls md dgesvd ok c count (i + 1) (h1.absorbU dgesvd)

end slice_defs

/-! ## Concrete inputs -/

/-- A decomposition routine for diagonal inputs: identity outer factors and the diagonal
entries as singular values. -/
def Dgesvd.ofDiagonal {R : Type} [Field R] {N : ℕ} : Dgesvd R N N :=
  fun A => { U := 1, S := fun i => A i i, Vt := 1 }

/-- A decomposition routine that is exact on every input: the input itself as left factor,
unit singular values and the identity as right factor. -/
def Dgesvd.leftOnly {R : Type} [Field R] {m k : ℕ} : Dgesvd R m k :=
  fun A => { U := A, S := fun _ => 1, Vt := 1 }

/-- A wide decomposition routine that is exact on every input: identity left factor, unit
singular values and the input itself as right factor. -/
def DgesvdWide.rightOnly {R : Type} [Field R] {k n : ℕ} : DgesvdWide R k n :=
  fun A => { U := 1, S := fun _ => 1, Vt := A }

/-- Factors with a `3 × 2` matrix `U`, singular values `(2, 3)` and a square `Vt`. -/
def SVDHelper.demoTall : SVDHelper ℚ 3 2 2 :=
  { U := !![1, 0; 0, 1; 1, 1], S := ![2, 3], Vt := !![0, 1; 1, 0] }

/-- Factors with a `3 × 2` matrix `Vt` and three singular values. -/
def SVDHelper.demoNarrow : SVDHelper ℚ 2 3 2 :=
  { U := !![1, 0, 2; 0, 1, 1], S := ![1, 2, 3], Vt := !![1, 0; 0, 1; 1, 1] }

/-- A diagonal matrix with non-negative entries; on such inputs `Dgesvd.ofDiagonal` is a
singular value decomposition. -/
def IsNonnegDiag {R : Type} [LinearOrderedField R] {N : ℕ} (A : Matrix (Fin N) (Fin N) R) :
    Prop :=
  ∃ d : Fin N → R, (∀ i, 0 ≤ d i) ∧ A = diagonal d

/-- A factorisation of `diag(2, 3)` with identity outer factors. -/
def SVDHelper.demo : SVDHelper ℚ 2 2 2 :=
  { U := 1, S := ![2, 3], Vt := 1 }

/-- An orthogonal factorisation whose outer factors are not the identity. -/
def SVDHelper.demoSwap : SVDHelper ℚ 2 2 2 :=
  { U := !![0, 1; 1, 0], S := ![2, 3], Vt := !![0, 1; -1, 0] }

/-- A well-formed factorisation of `diag(3, 2)`. -/
def SVDHelper.demoSorted : SVDHelper ℚ 2 2 2 :=
  { U := 1, S := ![3, 2], Vt := 1 }

/-- The factorisation `demo` over any ordered field. -/
def SVDHelper.demoR (R : Type) [LinearOrderedField R] : SVDHelper R 2 2 2 :=
  { U := 1, S := ![2, 3], Vt := 1 }

/-- A state with two sites and three time slices in blocks of two, the field `±1/2` and
nearest-neighbour hopping, before any block has been computed; `svd` holds the orthogonal
factorisation `demoR` of `diag(2, 3)`. -/
def Simulation.demo0 (R : Type) [LinearOrderedField R] : Simulation R 2 :=
  { N := 3
    beta := 1
    mu := 0
    B := 0
    diagonals := fun i j => if (i + j.val) % 2 = 0 then 1 / 2 else -(1 / 2)
    freePropagator_x := fun _ => 1
    propagator := !![2, 1; 1, 2]
    positionSpace := 1
    v_x := 0
    mslices := 2
    slices := []
    msvd := 1
    svd := SVDHelper.demoR R
    svdA := SVDHelper.setIdentity 2
    svdB := SVDHelper.setIdentity 2
    svd_inverse := SVDHelper.setIdentity 2
    svd_inverse_up := SVDHelper.setIdentity 2
    svd_inverse_dn := SVDHelper.setIdentity 2
    first_slice_inverse := 1
    plog := 0
    psign := 1
    update_prob := 0
    update_sign := 1
    update_size := 0
    max_update_size := 1
    update_U := fun _ _ => 0
    update_Vt := fun _ _ => 0
    rho_up := 0
    rho_dn := 0
    cache := { a := 0, b := 0, u := 0, v := 0, u_smart := 0, v_smart := 0, A := 0, B := 0 }
    time_shift := 1
    steps := 0 }

/-- The state `demo0` after `make_slices` of `simulation.hpp`. -/
def Simulation.demo (R : Type) [LinearOrderedField R] : Simulation R 2 :=
  make_slices Simulation.rowIndex (Simulation.demo0 R)

/-- The state `demo0` after `make_slices` of `stable.cpp`. -/
def Stable.demo (R : Type) [LinearOrderedField R] : Simulation R 2 :=
  make_slices Stable.rowIndex (Simulation.demo0 R)

/-- The state `demo0` without hopping (identity propagator). -/
def Stable.demoD0 (R : Type) [LinearOrderedField R] : Simulation R 2 :=
  { Simulation.demo0 R with propagator := 1 }

/-- A state with one site and one time slice (`Lx = Ly = Lz = 1`, `N = 1`): the hopping
vanishes, so the free propagator is the identity; the field is `+1/2`, `beta = 1` and
`mu = B = 0`; no block has been computed yet. -/
def Stable.demoOne0 (R : Type) [LinearOrderedField R] : Simulation R 1 :=
  { N := 1
    beta := 1
    mu := 0
    B := 0
    diagonals := fun _ _ => 1 / 2
    freePropagator_x := fun _ => 1
    propagator := 1
    positionSpace := 1
    v_x := 0
    mslices := 1
    slices := []
    msvd := 1
    svd := SVDHelper.setIdentity 1
    svdA := SVDHelper.setIdentity 1
    svdB := SVDHelper.setIdentity 1
    svd_inverse := SVDHelper.setIdentity 1
    svd_inverse_up := SVDHelper.setIdentity 1
    svd_inverse_dn := SVDHelper.setIdentity 1
    first_slice_inverse := 1
    plog := 0
    psign := 1
    update_prob := 0
    update_sign := 1
    update_size := 0
    max_update_size := 1
    update_U := fun _ _ => 0
    update_Vt := fun _ _ => 0
    rho_up := 0
    rho_dn := 0
    cache := { a := 0, b := 0, u := 0, v := 0, u_smart := 0, v_smart := 0, A := 0, B := 0 }
    time_shift := 0
    steps := 0 }

/-- The state `demoOne0` after `compute_U_s` with the routine `Dgesvd.ofDiagonal`, which
on the positive `1 × 1` matrices met here returns their singular value decomposition. -/
def Stable.demoOne (R : Type) [LinearOrderedField R] (exp log : R → R) : Simulation R 1 :=
  Stable.compute_U_s exp log Dgesvd.ofDiagonal (Stable.demoOne0 R)

/-- A state of `simulation.hpp` with one site and two time slices, the field `+1/2` in row
`0` and `-1/2` in row `1`, and `time_shift = 1`. -/
def Simulation.demoShift (R : Type) [LinearOrderedField R] : Simulation R 1 :=
  { Stable.demoOne0 R with
    N := 2
    diagonals := fun i _ => if i = 0 then 1 / 2 else -(1 / 2)
    time_shift := 1 }

/-- The state `demoD0` after `compute_U_s` with the routine `Dgesvd.ofDiagonal`. -/
def Stable.demoD (R : Type) [LinearOrderedField R] (exp log : R → R) : Simulation R 2 :=
  Stable.compute_U_s exp log Dgesvd.ofDiagonal (Stable.demoD0 R)

/-- A model on two sites: `propagate dt` multiplies by `1 + dt N` with `N` strictly upper
triangular, the vertex factor is `1 + sigma L` with `L` strictly lower triangular, and its
inverse is `1 - sigma L`. -/
def Model.demo (R : Type) [Field R] : Model R 2 where
  propagate := fun dt M => !![1, dt; 0, 1] * M
  apply_vertex_on_the_left := fun v M => !![1, 0; v.sigma, 1] * M
  apply_inverse_on_the_left := fun v M => !![1, 0; -v.sigma, 1] * M

/-- A slice of length `1` with vertices at the times `1/4` and `1/2`. -/
def Slice.demo (R : Type) [Field R] : Slice R :=
  { verts := [⟨1 / 4, 2, 0⟩, ⟨1 / 2, 3, 1⟩], beta := 1 }

/-- A model on `n` sites with diagonal factors: `propagate` leaves the matrix as it is, the
vertex factor multiplies row `x` by `1 + sigma` and its inverse divides that row. -/
def Model.diag (R : Type) [Field R] (n : ℕ) : Model R n where
  propagate := fun _ M => M
  apply_vertex_on_the_left := fun v M =>
    diagonal (fun j : Fin n => if j.val = v.x then 1 + v.sigma else 1) * M
  apply_inverse_on_the_left := fun v M =>
    diagonal (fun j : Fin n => if j.val = v.x then (1 + v.sigma)⁻¹ else 1) * M

/-- A configuration of two slices on two sites, read from the second slice on: one vertex
with `sigma = 1` on site `0` in the first slice, one with `sigma = 2` on site `1` in the
second. -/
def Configuration.demo (R : Type) [Field R] : Configuration R 2 where
  slices := fun i => if i = 0 then ⟨[⟨1 / 2, 1, 0⟩], 1⟩ else ⟨[⟨1 / 4, 2, 1⟩], 1⟩
  M := 2
  index := 1
  svd := SVDHelper.setIdentity 2

/-! ## Contracts of `SVDHelper` -/

section svd_lemmas

variable {R : Type} [Field R] {m k n : ℕ}

theorem SVDHelper.matrix_absorbU (dgesvd : Dgesvd R m k) (h : SVDHelper R m k n)
    (hex : dgesvd.ExactAt (h.U * diagonal h.S)) :
    (h.absorbU dgesvd).matrix = h.matrix := by
  have := hex
  simp only [Dgesvd.ExactAt, SVDHelper.matrix] at this
  simp only [SVDHelper.absorbU, SVDHelper.matrix, ← Matrix.mul_assoc, this]

theorem make_svd_loop_matrix {V : ℕ} (dgesvd : Dgesvd R V V) (msvd size : ℕ)
    (slices : List (Matrix (Fin V) (Fin V) R)) (i : ℕ) (h : SVDHelper R V V V)
    (hex : make_svd_calls dgesvd dgesvd.ExactAt msvd size slices i h) :
    (make_svd_loop dgesvd msvd size slices i h).matrix = slices.reverse.prod * h.matrix := by
  induction slices generalizing i h with
  | nil => simp [make_svd_loop]
  | cons A rest ih =>
    have hU : (({ h with U := A * h.U } : SVDHelper R V V V)).matrix = A * h.matrix := by
      simp [SVDHelper.matrix, Matrix.mul_assoc]
    rw [make_svd_loop]
    rw [make_svd_calls] at hex
    by_cases hc : i % msvd = 0 ∨ i = size - 1
    · simp only [hc, if_true] at hex ⊢
      rw [ih (i + 1) (SVDHelper.absorbU dgesvd { h with U := A * h.U }) hex.2,
        SVDHelper.matrix_absorbU dgesvd { h with U := A * h.U } hex.1, hU]
      simp [Matrix.mul_assoc]
    · simp only [hc, if_false] at hex ⊢
      rw [ih (i + 1) { h with U := A * h.U } hex, hU]
      simp [Matrix.mul_assoc]

theorem make_svd_calls_of_forall {V : ℕ} (dgesvd : Dgesvd R V V)
    (ok : Matrix (Fin V) (Fin V) R → Prop) (hok : ∀ A, ok A) (msvd size : ℕ)
    (slices : List (Matrix (Fin V) (Fin V) R)) (i : ℕ) (h : SVDHelper R V V V) :
    make_svd_calls dgesvd ok msvd size slices i h := by
  induction slices generalizing i h with
  | nil => simp [make_svd_calls]
  | cons A rest ih =>
    rw [make_svd_calls]
    by_cases hc : i % msvd = 0 ∨ i = size - 1
    · simp only [hc, if_true]
      exact ⟨hok _, ih _ _⟩
    · simp only [hc, if_false]
      exact ih _ _

theorem make_svd_calls_mono {V : ℕ} (dgesvd : Dgesvd R V V)
    (ok ok' : Matrix (Fin V) (Fin V) R → Prop) (hok : ∀ A, ok A → ok' A) (msvd size : ℕ)
    (slices : List (Matrix (Fin V) (Fin V) R)) (i : ℕ) (h : SVDHelper R V V V)
    (hc : make_svd_calls dgesvd ok msvd size slices i h) :
    make_svd_calls dgesvd ok' msvd size slices i h := by
  induction slices generalizing i h with
  | nil => simp [make_svd_calls]
  | cons A rest ih =>
    rw [make_svd_calls] at hc ⊢
    by_cases hcond : i % msvd = 0 ∨ i = size - 1
    · simp only [hcond, if_true] at hc ⊢
      exact ⟨hok _ hc.1, ih _ _ hc.2⟩
    · simp only [hcond, if_false] at hc ⊢
      exact ih _ _ hc

theorem mul_vecMulVec {l : ℕ} (A : Matrix (Fin l) (Fin m) R) (a : Fin m → R) (b : Fin n → R) :
    A * vecMulVec a b = vecMulVec (A *ᵥ a) b := by
  ext i j
  simp [Matrix.mul_apply, vecMulVec_apply, Matrix.mulVec, dotProduct, Finset.sum_mul, mul_assoc]

theorem vecMulVec_mul {l : ℕ} (a : Fin m → R) (b : Fin n → R) (A : Matrix (Fin n) (Fin l) R) :
    vecMulVec a b * A = vecMulVec a (b ᵥ* A) := by
  ext i j
  simp [Matrix.mul_apply, vecMulVec_apply, Matrix.vecMul, dotProduct, Finset.mul_sum, mul_assoc]

theorem SVDHelper.matrix_invertInPlace (h : SVDHelper R m k n) :
    h.invertInPlace.matrix = h.inverse := by
  ext i l
  simp only [SVDHelper.matrix, SVDHelper.inverse, SVDHelper.invertInPlace]
  rw [Matrix.mul_apply, Matrix.mul_apply]
  simp only [Matrix.mul_diagonal, Matrix.transpose_apply]
  exact Equiv.sum_comp Fin.revPerm (fun j => h.Vt j i * (h.S j)⁻¹ * h.U l j)

theorem SVDHelper.inverse_mul_matrix (h : SVDHelper R m k n) (hU : h.Uᵀ * h.U = 1)
    (hV : h.Vtᵀ * h.Vt = 1) (hS : ∀ i, h.S i ≠ 0) : h.inverse * h.matrix = 1 := by
  have hd : diagonal (fun i => (h.S i)⁻¹) * diagonal h.S = 1 := by
    have hfun : (fun i => (h.S i)⁻¹ * h.S i) = fun _ => 1 :=
      funext fun i => inv_mul_cancel₀ (hS i)
    rw [Matrix.diagonal_mul_diagonal, hfun, Matrix.diagonal_one]
  calc h.inverse * h.matrix
      = h.Vtᵀ * (diagonal (fun i => (h.S i)⁻¹) * (h.Uᵀ * h.U) * diagonal h.S) * h.Vt := by
        simp only [SVDHelper.inverse, SVDHelper.matrix, Matrix.mul_assoc]
    _ = 1 := by rw [hU, Matrix.mul_one, hd, Matrix.mul_one, hV]

theorem SVDHelper.matrix_mul_inverse (h : SVDHelper R m k n) (hU : h.U * h.Uᵀ = 1)
    (hV : h.Vt * h.Vtᵀ = 1) (hS : ∀ i, h.S i ≠ 0) : h.matrix * h.inverse = 1 := by
  have hd : diagonal h.S * diagonal (fun i => (h.S i)⁻¹) = 1 := by
    have hfun : (fun i => h.S i * (h.S i)⁻¹) = fun _ => 1 :=
      funext fun i => mul_inv_cancel₀ (hS i)
    rw [Matrix.diagonal_mul_diagonal, hfun, Matrix.diagonal_one]
  calc h.matrix * h.inverse
      = h.U * (diagonal h.S * (h.Vt * h.Vtᵀ) * diagonal (fun i => (h.S i)⁻¹)) * h.Uᵀ := by
        simp only [SVDHelper.inverse, SVDHelper.matrix, Matrix.mul_assoc]
    _ = 1 := by rw [hV, Matrix.mul_one, hd, Matrix.mul_one, hU]

theorem SVDHelper.matrix_add_identity {N : ℕ} (dgesvd : Dgesvd R N N) (h : SVDHelper R N N N)
    (lambda : R) (hU : h.U * h.Uᵀ = 1) (hV : h.Vtᵀ * h.Vt = 1)
    (hex : dgesvd.ExactAt (h.add_identity_other lambda)) :
    (h.add_identity dgesvd lambda).matrix = 1 + lambda • h.matrix := by
  have hr : (dgesvd (h.add_identity_other lambda)).U
      * diagonal (dgesvd (h.add_identity_other lambda)).S
      * (dgesvd (h.add_identity_other lambda)).Vt = h.add_identity_other lambda := hex
  have hd : diagonal (fun i => h.S i * lambda) = lambda • diagonal h.S := by
    ext i j
    by_cases hij : i = j
    · subst hij
      simp [mul_comm]
    · simp [hij]
  calc (h.add_identity dgesvd lambda).matrix
      = h.U * ((dgesvd (h.add_identity_other lambda)).U
          * diagonal (dgesvd (h.add_identity_other lambda)).S
          * (dgesvd (h.add_identity_other lambda)).Vt) * h.Vt := by
        simp only [SVDHelper.add_identity, SVDHelper.matrix, Matrix.mul_assoc]
    _ = h.U * (h.Uᵀ * h.Vtᵀ + lambda • diagonal h.S) * h.Vt := by
        rw [hr, SVDHelper.add_identity_other, hd]
    _ = (h.U * h.Uᵀ) * (h.Vtᵀ * h.Vt) + lambda • (h.U * diagonal h.S * h.Vt) := by
        simp only [Matrix.mul_add, Matrix.add_mul, Matrix.mul_assoc, Matrix.mul_smul,
          Matrix.smul_mul]
    _ = 1 + lambda • h.matrix := by rw [hU, hV, Matrix.mul_one, SVDHelper.matrix]

theorem SVDHelper.matrix_rank1_update {N : ℕ} (dgesvd : Dgesvd R N N) (h : SVDHelper R N N N)
    (u v : Fin N → R) (lambda : R) (hU : h.U * h.Uᵀ = 1) (hV : h.Vtᵀ * h.Vt = 1)
    (hex : dgesvd.ExactAt (h.rank1_update_other u v lambda)) :
    (h.rank1_update dgesvd u v lambda).matrix = h.matrix + lambda • vecMulVec u v := by
  have hr : (dgesvd (h.rank1_update_other u v lambda)).U
      * diagonal (dgesvd (h.rank1_update_other u v lambda)).S
      * (dgesvd (h.rank1_update_other u v lambda)).Vt = h.rank1_update_other u v lambda := hex
  have hu : h.U *ᵥ (h.Uᵀ *ᵥ u) = u := by
    rw [Matrix.mulVec_mulVec, hU, Matrix.one_mulVec]
  have hv : (v ᵥ* h.Vtᵀ) ᵥ* h.Vt = v := by
    rw [Matrix.vecMul_vecMul, hV, Matrix.vecMul_one]
  calc (h.rank1_update dgesvd u v lambda).matrix
      = h.U * ((dgesvd (h.rank1_update_other u v lambda)).U
          * diagonal (dgesvd (h.rank1_update_other u v lambda)).S
          * (dgesvd (h.rank1_update_other u v lambda)).Vt) * h.Vt := by
        simp only [SVDHelper.rank1_update, SVDHelper.matrix, Matrix.mul_assoc]
    _ = h.U * (lambda • vecMulVec (h.Uᵀ *ᵥ u) (v ᵥ* h.Vtᵀ) + diagonal h.S) * h.Vt := by
        rw [hr, SVDHelper.rank1_update_other]
    _ = lambda • (h.U * vecMulVec (h.Uᵀ *ᵥ u) (v ᵥ* h.Vtᵀ) * h.Vt)
          + h.U * diagonal h.S * h.Vt := by
        simp only [Matrix.mul_add, Matrix.add_mul, Matrix.mul_smul, Matrix.smul_mul]
    _ = h.matrix + lambda • vecMulVec u v := by
        rw [mul_vecMulVec, vecMulVec_mul, hu, hv, SVDHelper.matrix, add_comm]

theorem SVDHelper.isOrthogonal_invertInPlace (h : SVDHelper R m k n) (ho : h.IsOrthogonal) :
    h.invertInPlace.IsOrthogonal := by
  obtain ⟨h1, h2, h3, h4⟩ := ho
  refine ⟨?_, ?_, ?_, ?_⟩
  · ext i l
    have e := congrFun (congrFun h4 i) l
    rw [Matrix.mul_apply] at e ⊢
    rw [← e]
    exact Equiv.sum_comp Fin.revPerm (fun j => h.Vtᵀ i j * h.Vt j l)
  · ext i l
    have e := congrFun (congrFun h3 (Fin.rev i)) (Fin.rev l)
    rw [Matrix.mul_apply] at e ⊢
    simp only [SVDHelper.invertInPlace, Matrix.transpose_apply] at e ⊢
    rw [e]
    simp [Matrix.one_apply, Fin.rev_inj]
  · ext i l
    have e := congrFun (congrFun h2 (Fin.rev i)) (Fin.rev l)
    rw [Matrix.mul_apply] at e ⊢
    simp only [SVDHelper.invertInPlace, Matrix.transpose_apply] at e ⊢
    rw [e]
    simp [Matrix.one_apply, Fin.rev_inj]
  · ext i l
    have e := congrFun (congrFun h1 i) l
    rw [Matrix.mul_apply] at e ⊢
    rw [← e]
    exact Equiv.sum_comp Fin.revPerm (fun j => h.U i j * h.Uᵀ j l)

theorem SVDHelper.isOrthogonal_add_identity {N : ℕ} (dgesvd : Dgesvd R N N)
    (h : SVDHelper R N N N) (lambda : R) (ho : h.IsOrthogonal)
    (hr : dgesvd.OrthogonalAt (h.add_identity_other lambda)) :
    (h.add_identity dgesvd lambda).IsOrthogonal := by
  obtain ⟨h1, h2, h3, h4⟩ := ho
  obtain ⟨r1, r2, r3, r4⟩ := hr
  refine ⟨?_, ?_, ?_, ?_⟩
  · calc h.U * (dgesvd (h.add_identity_other lambda)).U
          * (h.U * (dgesvd (h.add_identity_other lambda)).U)ᵀ
        = h.U * ((dgesvd (h.add_identity_other lambda)).U
            * (dgesvd (h.add_identity_other lambda)).Uᵀ) * h.Uᵀ := by
          simp only [Matrix.transpose_mul, Matrix.mul_assoc]
      _ = 1 := by rw [r1, Matrix.mul_one, h1]
  · calc (h.U * (dgesvd (h.add_identity_other lambda)).U)ᵀ
          * (h.U * (dgesvd (h.add_identity_other lambda)).U)
        = (dgesvd (h.add_identity_other lambda)).Uᵀ * (h.Uᵀ * h.U)
            * (dgesvd (h.add_identity_other lambda)).U := by
          simp only [Matrix.transpose_mul, Matrix.mul_assoc]
      _ = 1 := by rw [h2, Matrix.mul_one, r2]
  · calc (dgesvd (h.add_identity_other lambda)).Vt * h.Vt
          * ((dgesvd (h.add_identity_other lambda)).Vt * h.Vt)ᵀ
        = (dgesvd (h.add_identity_other lambda)).Vt * (h.Vt * h.Vtᵀ)
            * (dgesvd (h.add_identity_other lambda)).Vtᵀ := by
          simp only [Matrix.transpose_mul, Matrix.mul_assoc]
      _ = 1 := by rw [h3, Matrix.mul_one, r3]
  · calc ((dgesvd (h.add_identity_other lambda)).Vt * h.Vt)ᵀ
          * ((dgesvd (h.add_identity_other lambda)).Vt * h.Vt)
        = h.Vtᵀ * ((dgesvd (h.add_identity_other lambda)).Vtᵀ
            * (dgesvd (h.add_identity_other lambda)).Vt) * h.Vt := by
          simp only [Matrix.transpose_mul, Matrix.mul_assoc]
      _ = 1 := by rw [r4, Matrix.mul_one, h4]

theorem SVDHelper.det_matrix {N : ℕ} (h : SVDHelper R N N N) :
    h.matrix.det = h.U.det * (∏ i, h.S i) * h.Vt.det := by
  rw [SVDHelper.matrix, Matrix.det_mul, Matrix.det_mul, Matrix.det_diagonal]

theorem SVDHelper.S_ne_zero_of_det_ne_zero {N : ℕ} (h : SVDHelper R N N N)
    (hdet : h.matrix.det ≠ 0) (i : Fin N) : h.S i ≠ 0 := by
  intro hi
  apply hdet
  rw [SVDHelper.det_matrix, Finset.prod_eq_zero (Finset.mem_univ i) hi]
  simp

theorem SVDHelper.inverse_eq_inv {N : ℕ} (h : SVDHelper R N N N) (ho : h.IsOrthogonal)
    (hdet : h.matrix.det ≠ 0) : h.inverse = h.matrix⁻¹ :=
  (Matrix.inv_eq_left_inv
    (h.inverse_mul_matrix ho.2.1 ho.2.2.2 (h.S_ne_zero_of_det_ne_zero hdet))).symm

/-- The matrix reached by inverting, adding the identity with weight `lam⁻¹` and inverting
again is `I - (I + lam * M)⁻¹`. -/
theorem SVDHelper.matrix_invert_add_identity_invert {N : ℕ} (dgesvd : Dgesvd R N N)
    (h : SVDHelper R N N N) (lam : R) (hlam : lam ≠ 0) (ho : h.IsOrthogonal)
    (hM : h.matrix.det ≠ 0) (hA : (1 + lam • h.matrix).det ≠ 0)
    (hex : dgesvd.ExactAt (h.invertInPlace.add_identity_other lam⁻¹))
    (hor : dgesvd.OrthogonalAt (h.invertInPlace.add_identity_other lam⁻¹)) :
    ((h.invertInPlace.add_identity dgesvd lam⁻¹).invertInPlace).matrix
      = 1 - (1 + lam • h.matrix)⁻¹ := by
  have hoi := h.isOrthogonal_invertInPlace ho
  have hS := h.S_ne_zero_of_det_ne_zero hM
  have hX : (h.invertInPlace.add_identity dgesvd lam⁻¹).matrix = 1 + lam⁻¹ • h.inverse := by
    rw [SVDHelper.matrix_add_identity dgesvd _ _ hoi.1 hoi.2.2.2 hex,
      SVDHelper.matrix_invertInPlace]
  have hoX := SVDHelper.isOrthogonal_add_identity dgesvd _ lam⁻¹ hoi hor
  have hAu : IsUnit (1 + lam • h.matrix).det := isUnit_iff_ne_zero.mpr hA
  have hMi : h.matrix * h.inverse = 1 := h.matrix_mul_inverse ho.1 ho.2.2.1 hS
  have hleft : (1 - (1 + lam • h.matrix)⁻¹)
      * (h.invertInPlace.add_identity dgesvd lam⁻¹).matrix = 1 := by
    have h1 : (1 : Matrix (Fin N) (Fin N) R) - (1 + lam • h.matrix)⁻¹
        = (1 + lam • h.matrix)⁻¹ * (lam • h.matrix) := by
      have h2 : (1 + lam • h.matrix)⁻¹ * (1 + lam • h.matrix) = 1 :=
        Matrix.nonsing_inv_mul _ hAu
      rw [Matrix.mul_add, Matrix.mul_one, add_comm] at h2
      exact sub_eq_iff_eq_add.mpr h2.symm
    have h3 : lam • h.matrix * (1 + lam⁻¹ • h.inverse) = 1 + lam • h.matrix := by
      rw [Matrix.mul_add, Matrix.mul_one, Matrix.smul_mul, Matrix.mul_smul, hMi, smul_smul,
        mul_inv_cancel₀ hlam, one_smul, add_comm]
    rw [hX, h1, Matrix.mul_assoc, h3, Matrix.nonsing_inv_mul _ hAu]
  have hdetX : (h.invertInPlace.add_identity dgesvd lam⁻¹).matrix.det ≠ 0 :=
    isUnit_iff_ne_zero.mp (Matrix.isUnit_det_of_left_inverse hleft)
  rw [SVDHelper.matrix_invertInPlace, SVDHelper.inverse_eq_inv _ hoX hdetX]
  exact Matrix.inv_eq_left_inv hleft

theorem SVDHelper.matrix_absorbVt_le (dgesvd : DgesvdWide R k n) (h : SVDHelper R m k n)
    (hex : dgesvd.ExactAt (diagonal h.S * h.Vt)) :
    (h.absorbVt_le dgesvd).matrix = h.matrix := by
  have h1 : (dgesvd (diagonal h.S * h.Vt)).U * diagonal (dgesvd (diagonal h.S * h.Vt)).S
      * (dgesvd (diagonal h.S * h.Vt)).Vt = diagonal h.S * h.Vt := hex
  calc (h.absorbVt_le dgesvd).matrix
      = h.U * ((dgesvd (diagonal h.S * h.Vt)).U * diagonal (dgesvd (diagonal h.S * h.Vt)).S
          * (dgesvd (diagonal h.S * h.Vt)).Vt) := by
        simp only [SVDHelper.absorbVt_le, SVDHelper.matrix, Matrix.mul_assoc]
    _ = h.matrix := by rw [h1, SVDHelper.matrix, Matrix.mul_assoc]

theorem SVDHelper.matrix_absorbVt_gt (dgesvd : Dgesvd R k n) (h : SVDHelper R m k n)
    (hex : dgesvd.ExactAt (diagonal h.S * h.Vt)) :
    (h.absorbVt_gt dgesvd).matrix = h.matrix := by
  have h1 : (dgesvd (diagonal h.S * h.Vt)).U * diagonal (dgesvd (diagonal h.S * h.Vt)).S
      * (dgesvd (diagonal h.S * h.Vt)).Vt = diagonal h.S * h.Vt := hex
  calc (h.absorbVt_gt dgesvd).matrix
      = h.U * ((dgesvd (diagonal h.S * h.Vt)).U * diagonal (dgesvd (diagonal h.S * h.Vt)).S
          * (dgesvd (diagonal h.S * h.Vt)).Vt) := by
        simp only [SVDHelper.absorbVt_gt, SVDHelper.matrix, Matrix.mul_assoc]
    _ = h.matrix := by rw [h1, SVDHelper.matrix, Matrix.mul_assoc]

theorem SVDHelper.invertInPlace_invertInPlace (h : SVDHelper R m k n) :
    h.invertInPlace.invertInPlace = h := by
  cases h with
  | mk U S Vt =>
    simp only [SVDHelper.invertInPlace, Fin.rev_rev, inv_inv]

theorem make_svd_loop_isOrthogonal {V : ℕ} (dgesvd : Dgesvd R V V) (msvd size : ℕ)
    (slices : List (Matrix (Fin V) (Fin V) R)) (i : ℕ) (h : SVDHelper R V V V)
    (hcalls : make_svd_calls dgesvd dgesvd.OrthogonalAt msvd size slices i h)
    (hsize : i + slices.length = size)
    (hV : h.Vt * h.Vtᵀ = 1 ∧ h.Vtᵀ * h.Vt = 1)
    (hU : slices = [] → h.U * h.Uᵀ = 1 ∧ h.Uᵀ * h.U = 1) :
    (make_svd_loop dgesvd msvd size slices i h).IsOrthogonal := by
  induction slices generalizing i h with
  | nil =>
    obtain ⟨h1, h2⟩ := hU rfl
    exact ⟨h1, h2, hV.1, hV.2⟩
  | cons A rest ih =>
    rw [make_svd_loop]
    rw [make_svd_calls] at hcalls
    have hlen : i + 1 + rest.length = size := by
      rw [List.length_cons] at hsize
      omega
    by_cases hc : i % msvd = 0 ∨ i = size - 1
    · simp only [hc, if_true] at hcalls ⊢
      obtain ⟨⟨r1, r2, r3, r4⟩, hrest⟩ := hcalls
      apply ih (i + 1) (SVDHelper.absorbU dgesvd { h with U := A * h.U }) hrest hlen
      · constructor
        · show (dgesvd _).Vt * h.Vt * ((dgesvd _).Vt * h.Vt)ᵀ = 1
          rw [Matrix.transpose_mul, Matrix.mul_assoc, ← Matrix.mul_assoc h.Vt, hV.1,
            Matrix.one_mul, r3]
        · show ((dgesvd _).Vt * h.Vt)ᵀ * ((dgesvd _).Vt * h.Vt) = 1
          rw [Matrix.transpose_mul, Matrix.mul_assoc, ← Matrix.mul_assoc (dgesvd _).Vtᵀ, r4,
            Matrix.one_mul, hV.2]
      · intro _
        exact ⟨r1, r2⟩
    · simp only [hc, if_false] at hcalls ⊢
      apply ih (i + 1) { h with U := A * h.U } hcalls hlen hV
      intro hnil
      exfalso
      apply hc
      right
      rw [hnil] at hlen
      simp at hlen
      omega

theorem make_svd_of_isOrthogonal {V : ℕ} (dgesvd : Dgesvd R V V) (msvd : ℕ)
    (slices : List (Matrix (Fin V) (Fin V) R))
    (hcalls : make_svd_calls dgesvd dgesvd.OrthogonalAt msvd slices.length slices 0
      (SVDHelper.setIdentity V)) :
    (make_svd_of dgesvd msvd slices).IsOrthogonal := by
  apply make_svd_loop_isOrthogonal dgesvd msvd slices.length slices 0 _ hcalls (by simp)
  · simp [SVDHelper.setIdentity]
  · intro _
    simp [SVDHelper.setIdentity]

theorem make_svd_of_matrix {V : ℕ} (dgesvd : Dgesvd R V V) (msvd : ℕ)
    (slices : List (Matrix (Fin V) (Fin V) R))
    (hcalls : make_svd_calls dgesvd dgesvd.ExactAt msvd slices.length slices 0
      (SVDHelper.setIdentity V)) :
    (make_svd_of dgesvd msvd slices).matrix = slices.reverse.prod := by
  have h := make_svd_loop_matrix dgesvd msvd slices.length slices 0
    (SVDHelper.setIdentity V) hcalls
  simpa [make_svd_of, SVDHelper.matrix, SVDHelper.setIdentity] using h

end svd_lemmas

/-! ## Determinants, signs and logarithms of a factorisation -/

section det_lemmas

variable {R : Type} [LinearOrderedField R] {N : ℕ}

theorem det_mul_self_of_orthogonal (U : Matrix (Fin N) (Fin N) R) (hU : U * Uᵀ = 1) :
    U.det * U.det = 1 := by
  have h := congrArg Matrix.det hU
  rwa [Matrix.det_mul, Matrix.det_transpose, Matrix.det_one] at h

theorem abs_det_of_orthogonal (U : Matrix (Fin N) (Fin N) R) (hU : U * Uᵀ = 1) :
    |U.det| = 1 := by
  have h := det_mul_self_of_orthogonal U hU
  rcases mul_self_eq_one_iff.mp h with h1 | h1
  · rw [h1, abs_one]
  · rw [h1, abs_neg, abs_one]

theorem SVDHelper.abs_det_matrix (h : SVDHelper R N N N) (ho : h.IsOrthogonal)
    (hS : ∀ i, 0 ≤ h.S i) : |h.matrix.det| = ∏ i, h.S i := by
  rw [SVDHelper.det_matrix, abs_mul, abs_mul, abs_det_of_orthogonal _ ho.1,
    abs_det_of_orthogonal _ ho.2.2.1, one_mul, mul_one,
    abs_of_nonneg (Finset.prod_nonneg fun i _ => hS i)]

theorem SVDHelper.sum_log_S (h : SVDHelper ℝ N N N) (ho : h.IsOrthogonal)
    (hS : ∀ i, 0 ≤ h.S i) (hdet : h.matrix.det ≠ 0) :
    ∑ i, Real.log (h.S i) = Real.log |h.matrix.det| := by
  rw [SVDHelper.abs_det_matrix h ho hS,
    Real.log_prod _ _ fun i _ => h.S_ne_zero_of_det_ne_zero hdet i]

theorem SVDHelper.add_identity_S_nonneg (dgesvd : Dgesvd R N N) (h : SVDHelper R N N N)
    (lambda : R) (hcall : dgesvd.IsSVDAt (h.add_identity_other lambda)) (i : Fin N) :
    0 ≤ (h.add_identity dgesvd lambda).S i :=
  hcall.2.2 i

end det_lemmas

/-! ## The block matrices and the rank-one correction of a flip -/

section block_lemmas

variable {R : Type} [LinearOrderedField R] {V : ℕ}

theorem accumulate_loop_mul (P : Matrix (Fin V) (Fin V) R) (fx : Fin V → R)
    (sigma : ℕ → Fin V → R) (c i : ℕ) (M : Matrix (Fin V) (Fin V) R) :
    accumulate_loop P fx sigma c i M = accumulate_loop P fx sigma c i 1 * M := by
  induction c generalizing i M with
  | zero => simp [accumulate_loop]
  | succ c ih =>
    rw [accumulate_loop, ih, accumulate_loop, ih (i + 1) (P * _)]
    simp [Matrix.mul_assoc]

theorem accumulate_loop_add (P : Matrix (Fin V) (Fin V) R) (fx : Fin V → R)
    (sigma : ℕ → Fin V → R) (c1 c2 i : ℕ) (M : Matrix (Fin V) (Fin V) R) :
    accumulate_loop P fx sigma (c1 + c2) i M
      = accumulate_loop P fx sigma c2 (i + c1) (accumulate_loop P fx sigma c1 i M) := by
  induction c1 generalizing i M with
  | zero => simp [accumulate_loop]
  | succ c ih =>
    have h1 : c + 1 + c2 = (c + c2) + 1 := by omega
    have h2 : i + (c + 1) = i + 1 + c := by omega
    rw [h1, accumulate_loop, ih, accumulate_loop, h2]

theorem accumulate_loop_congr (P : Matrix (Fin V) (Fin V) R) (fx : Fin V → R)
    (sigma tau : ℕ → Fin V → R) (c i : ℕ) (M : Matrix (Fin V) (Fin V) R)
    (h : ∀ j, i ≤ j → j < i + c → tau j = sigma j) :
    accumulate_loop P fx tau c i M = accumulate_loop P fx sigma c i M := by
  induction c generalizing i M with
  | zero => simp [accumulate_loop]
  | succ c ih =>
    rw [accumulate_loop, accumulate_loop, h i (le_refl i) (by omega)]
    exact ih (i + 1) _ (fun j h1 h2 => h j (by omega) (by omega))

theorem uv_step_eq (P : Matrix (Fin V) (Fin V) R) (fx d v : Fin V → R) :
    (fun j => (P *ᵥ v) j * (1 + d j) * fx j) = diagonal (slice_factor fx d) *ᵥ (P *ᵥ v) := by
  funext j
  rw [Matrix.mulVec_diagonal]
  simp only [slice_factor]
  ring

theorem mulVec_uv_forward_loop (P : Matrix (Fin V) (Fin V) R) (fx : Fin V → R)
    (sigma : ℕ → Fin V → R) (c i : ℕ) (v : Fin V → R) :
    P *ᵥ uv_forward_loop P fx sigma c i v
      = accumulate_loop P fx sigma c i 1 *ᵥ (P *ᵥ v) := by
  induction c generalizing i v with
  | zero => simp [uv_forward_loop, accumulate_loop]
  | succ c ih =>
    rw [uv_forward_loop, ih, uv_step_eq, accumulate_loop,
      accumulate_loop_mul P fx sigma c (i + 1) (P * _)]
    simp [Matrix.mulVec_mulVec, Matrix.mul_assoc]

theorem uv_backward_loop_eq (P : Matrix (Fin V) (Fin V) R) (hP : Pᵀ = P) (fx : Fin V → R)
    (sigma : ℕ → Fin V → R) (c hi : ℕ) (hc : c ≤ hi) (v : Fin V → R) :
    uv_backward_loop P fx sigma c hi v
      = (accumulate_loop P fx sigma c (hi - c) 1)ᵀ *ᵥ v := by
  induction c generalizing hi v with
  | zero => simp [uv_backward_loop, accumulate_loop]
  | succ c ih =>
    have h1 : hi - 1 - c = hi - (c + 1) := by omega
    have h2 : hi - (c + 1) + c = hi - 1 := by omega
    rw [uv_backward_loop, ih (hi - 1) (by omega), uv_step_eq, h1]
    rw [accumulate_loop_add P fx sigma c 1 (hi - (c + 1)) 1, h2]
    simp only [accumulate_loop]
    rw [Matrix.transpose_mul, Matrix.transpose_mul, hP, Matrix.diagonal_transpose]
    simp [Matrix.mulVec_mulVec, Matrix.mul_assoc]

theorem accumulate_loop_split (P : Matrix (Fin V) (Fin V) R) (fx : Fin V → R)
    (rho : ℕ → Fin V → R) (a b t : ℕ) (hat : a ≤ t) (htb : t < b) :
    accumulate_loop P fx rho (b - a) a 1
      = accumulate_loop P fx rho (b - (t + 1)) (t + 1) 1
        * (P * (diagonal (slice_factor fx (rho t)) * accumulate_loop P fx rho (t - a) a 1)) := by
  have h1 : b - a = (t - a) + (1 + (b - (t + 1))) := by omega
  have h2 : a + (t - a) = t := by omega
  rw [h1, accumulate_loop_add, h2, accumulate_loop_add, accumulate_loop_mul]
  simp [accumulate_loop]

theorem slice_factor_update (fx d : Fin V → R) (x : Fin V) :
    slice_factor fx (Function.update d x (-(d x)))
      = slice_factor fx d + Pi.single x (-2 * d x * fx x) := by
  funext j
  by_cases hj : j = x
  · subst hj
    simp only [slice_factor, Function.update_same, Pi.add_apply, Pi.single_eq_same]
    ring
  · simp [slice_factor, Function.update_noteq hj, Pi.single_eq_of_ne hj]

theorem diagonal_single_eq_vecMulVec (x : Fin V) (c : R) :
    diagonal (Pi.single x c : Fin V → R)
      = vecMulVec (Pi.single x c : Fin V → R) (Pi.single x 1 : Fin V → R) := by
  ext i j
  by_cases hij : i = j
  · subst hij
    by_cases hi : i = x
    · subst hi
      simp [vecMulVec_apply]
    · simp [vecMulVec_apply, Pi.single_eq_of_ne hi]
  · by_cases hi : i = x
    · subst hi
      have hj : j ≠ i := fun h => hij h.symm
      simp [vecMulVec_apply, hij, Pi.single_eq_of_ne hj]
    · simp [vecMulVec_apply, hij, Pi.single_eq_of_ne hi]

/-- The effect of negating the field entry `(t, x)` on the product of the slices `a ≤ i < b`
that contain `t`: a rank-one correction by the two vectors of `compute_uv_f_short`. -/
theorem accumulate_loop_flip (P : Matrix (Fin V) (Fin V) R) (hP : Pᵀ = P) (fx : Fin V → R)
    (sigma tau : ℕ → Fin V → R) (a b t : ℕ) (x : Fin V) (hat : a ≤ t) (htb : t < b)
    (ht : tau t = Function.update (sigma t) x (-(sigma t x)))
    (hne : ∀ j, a ≤ j → j < b → j ≠ t → tau j = sigma j) :
    accumulate_loop P fx tau (b - a) a 1
      = accumulate_loop P fx sigma (b - a) a 1
        + vecMulVec
          (fun j => -2 * sigma t x
            * (P *ᵥ uv_forward_loop P fx sigma (b - (t + 1)) (t + 1) (Pi.single x 1)) j * fx x)
          (uv_backward_loop P fx sigma (t - a) t (Pi.single x 1)) := by
  have hX : accumulate_loop P fx tau (b - (t + 1)) (t + 1) 1
      = accumulate_loop P fx sigma (b - (t + 1)) (t + 1) 1 :=
    accumulate_loop_congr P fx sigma tau _ _ _
      (fun j h1 h2 => hne j (by omega) (by omega) (by omega))
  have hY : accumulate_loop P fx tau (t - a) a 1 = accumulate_loop P fx sigma (t - a) a 1 :=
    accumulate_loop_congr P fx sigma tau _ _ _
      (fun j h1 h2 => hne j (by omega) (by omega) (by omega))
  have hu : accumulate_loop P fx sigma (b - (t + 1)) (t + 1) 1
        *ᵥ (P *ᵥ (Pi.single x (-2 * sigma t x * fx x) : Fin V → R))
      = fun j => -2 * sigma t x
          * (P *ᵥ uv_forward_loop P fx sigma (b - (t + 1)) (t + 1) (Pi.single x 1)) j
          * fx x := by
    have hs : (Pi.single x (-2 * sigma t x * fx x) : Fin V → R)
        = (-2 * sigma t x * fx x) • (Pi.single x 1 : Fin V → R) := by
      funext j
      by_cases hj : j = x
      · subst hj
        simp
      · simp [Pi.single_eq_of_ne hj]
    rw [mulVec_uv_forward_loop, hs, Matrix.mulVec_smul, Matrix.mulVec_smul]
    funext j
    simp only [Pi.smul_apply, smul_eq_mul]
    ring
  have hv : (Pi.single x 1 : Fin V → R) ᵥ* accumulate_loop P fx sigma (t - a) a 1
      = uv_backward_loop P fx sigma (t - a) t (Pi.single x 1) := by
    have h2 : t - (t - a) = a := by omega
    rw [uv_backward_loop_eq P hP fx sigma (t - a) t (by omega), h2, Matrix.mulVec_transpose]
  have hD : ∀ f g : Fin V → R, diagonal (f + g) = diagonal f + diagonal g := fun f g =>
    (Matrix.diagonal_add f g).symm
  rw [accumulate_loop_split P fx tau a b t hat htb,
    accumulate_loop_split P fx sigma a b t hat htb, hX, hY, ht, slice_factor_update,
    hD, diagonal_single_eq_vecMulVec, Matrix.add_mul, Matrix.mul_add,
    Matrix.mul_add, vecMulVec_mul, mul_vecMulVec, mul_vecMulVec, hu, hv]

omit [LinearOrderedField R] in
theorem shifted_rowIndex_framed : (Simulation.rowIndex : RowIndex R V).Framed := by
  intro s s' hN hts
  funext t
  simp [Simulation.rowIndex, hN, hts]

omit [LinearOrderedField R] in
theorem direct_rowIndex_framed : (Stable.rowIndex : RowIndex R V).Framed := by
  intro s s' _ _
  rfl

omit [LinearOrderedField R] in
theorem Simulation.rowIndex_injective (s : Simulation R V) (j t : ℕ) (hj : j < s.N)
    (ht : t < s.N) (h : Simulation.rowIndex s j = Simulation.rowIndex s t) : j = t := by
  simp only [Simulation.rowIndex] at h
  have h1 : j ≡ t [MOD s.N] := Nat.ModEq.add_right_cancel' s.time_shift h
  have h2 := Nat.ModEq.eq_of_lt_of_lt h1 hj ht
  exact h2

omit [LinearOrderedField R] in
theorem diagonal_congr (ix : RowIndex R V) (hfr : ix.Framed) (s s' : Simulation R V)
    (hN : s'.N = s.N) (hts : s'.time_shift = s.time_shift) (hd : s'.diagonals = s.diagonals) :
    s'.diagonal ix = s.diagonal ix := by
  funext t
  simp only [Simulation.diagonal, hd, hfr s s' hN hts]

theorem accumulate_forward_eq (ix : RowIndex R V) (s : Simulation R V) (i : ℕ) :
    accumulate_forward ix s i ((i : ℤ) + (s.mslices : ℤ))
      = { s with positionSpace := block_at ix s i } := by
  have h0 : ¬ ((i : ℤ) + (s.mslices : ℤ) < 0) := by omega
  simp only [accumulate_forward, block_at, h0, if_false]
  congr 2
  by_cases h1 : (i : ℤ) + (s.mslices : ℤ) > (s.N : ℤ)
  · simp only [h1, if_true, Int.toNat_ofNat]
    have : min (i + s.mslices) s.N = s.N := by
      apply Nat.min_eq_right
      omega
    rw [this]
  · simp only [h1, if_false]
    have : min (i + s.mslices) s.N = i + s.mslices := by
      apply Nat.min_eq_left
      omega
    rw [this]
    have h2 : ((i : ℤ) + (s.mslices : ℤ)).toNat = i + s.mslices := by omega
    rw [h2]

theorem block_at_congr (ix : RowIndex R V) (s s' : Simulation R V) (i : ℕ)
    (hN : s'.N = s.N) (hm : s'.mslices = s.mslices) (hP : s'.propagator = s.propagator)
    (hfx : s'.freePropagator_x = s.freePropagator_x) (hd : s'.diagonal ix = s.diagonal ix) :
    block_at ix s' i = block_at ix s i := by
  simp only [block_at, hN, hm, hP, hfx, hd]

theorem make_slices_loop_eq (ix : RowIndex R V) (hfr : ix.Framed) (fuel i : ℕ)
    (s : Simulation R V) :
    make_slices_loop ix fuel i s
      = { s with
          positionSpace := (make_slices_loop ix fuel i s).positionSpace
          slices := s.slices ++ block_list (block_at ix s) s.N s.mslices fuel i } := by
  induction fuel generalizing i s with
  | zero => simp [make_slices_loop, block_list]
  | succ f ih =>
    by_cases hi : i < s.N
    · have hstep : make_slices_loop ix (f + 1) i s
          = make_slices_loop ix f (i + s.mslices)
              { s with positionSpace := block_at ix s i, slices := s.slices ++ [block_at ix s i] } := by
        rw [make_slices_loop]
        simp only [hi, if_true, accumulate_forward_eq]
      have hblk : block_at ix
            { s with positionSpace := block_at ix s i, slices := s.slices ++ [block_at ix s i] }
          = block_at ix s := by
        funext j
        exact block_at_congr ix s _ j rfl rfl rfl rfl (diagonal_congr ix hfr s _ rfl rfl rfl)
      rw [hstep, ih, hblk]
      simp [block_list, hi]
    · simp [make_slices_loop, block_list, hi]

theorem make_slices_eq (ix : RowIndex R V) (hfr : ix.Framed) (s : Simulation R V) :
    make_slices ix s
      = { s with
          positionSpace := (make_slices ix s).positionSpace
          slices := block_list (block_at ix s) s.N s.mslices s.N 0 } := by
  have hblk : block_at ix { s with slices := [] } = block_at ix s := by
    funext j
    exact block_at_congr ix s _ j rfl rfl rfl rfl (diagonal_congr ix hfr s _ rfl rfl rfl)
  rw [make_slices, make_slices_loop_eq ix hfr, hblk]
  simp

omit [LinearOrderedField R] in
theorem block_list_getElem? (blk : ℕ → Matrix (Fin V) (Fin V) R) (N m : ℕ) (hm : 1 ≤ m)
    (fuel i k : ℕ) (hfuel : N ≤ i + fuel) :
    (block_list blk N m fuel i)[k]?
      = if i + k * m < N then some (blk (i + k * m)) else none := by
  induction fuel generalizing i k with
  | zero =>
    have : ¬ (i + k * m < N) := by omega
    simp [block_list, this]
  | succ f ih =>
    by_cases hi : i < N
    · cases k with
      | zero => simp [block_list, hi]
      | succ k =>
        have h1 : i + (k + 1) * m = i + m + k * m := by ring
        simp only [block_list, hi, if_true, List.getElem?_cons_succ]
        rw [ih (i + m) k (by omega), h1]
    · have : ¬ (i + k * m < N) := by
        have := Nat.zero_le (k * m)
        omega
      simp [block_list, hi, this]

theorem make_slices_getElem? (ix : RowIndex R V) (hfr : ix.Framed) (s : Simulation R V)
    (hm : 1 ≤ s.mslices) (k : ℕ) (hk : k * s.mslices < s.N) :
    (make_slices ix s).slices[k]? = some (block_at ix s (k * s.mslices)) := by
  rw [make_slices_eq ix hfr s]
  simp only
  rw [block_list_getElem? _ _ _ hm _ _ _ (by omega)]
  simp [hk]

theorem diagonal_flip_same (ix : RowIndex R V) (hfr : ix.Framed) (s : Simulation R V)
    (t : ℕ) (x : Fin V) :
    (flip ix s t x).diagonal ix t
      = Function.update (s.diagonal ix t) x (-(s.diagonal ix t x)) := by
  have h := hfr s (flip ix s t x) rfl rfl
  simp only [Simulation.diagonal, h]
  simp [flip, Simulation.diagonal]

theorem diagonal_flip_other (ix : RowIndex R V) (hfr : ix.Framed) (s : Simulation R V)
    (t j : ℕ) (x : Fin V) (hj : ix s j ≠ ix s t) :
    (flip ix s t x).diagonal ix j = s.diagonal ix j := by
  have h := hfr s (flip ix s t x) rfl rfl
  simp only [Simulation.diagonal, h]
  simp [flip, Function.update_noteq hj]

theorem compute_uv_f_short_u_smart (ix : RowIndex R V) (s : Simulation R V) (x : Fin V)
    (t : ℕ) :
    (compute_uv_f_short ix s x t).cache.u_smart
      = fun j => -2 * s.diagonal ix t x
          * (s.propagator *ᵥ uv_forward_loop s.propagator s.freePropagator_x (s.diagonal ix)
              (min (t / s.mslices * s.mslices + s.mslices) s.N - (t + 1)) (t + 1)
              (Pi.single x 1)) j
          * s.freePropagator_x x := by
  have h1 : s.mslices * (1 + t / s.mslices) = t / s.mslices * s.mslices + s.mslices := by ring
  have h2 : ∀ e : ℕ, (if e > s.N then s.N else e) = min e s.N := by
    intro e
    by_cases h : e > s.N
    · simp only [h, if_true]
      exact (Nat.min_eq_right (le_of_lt h)).symm
    · simp only [h, if_false]
      exact (Nat.min_eq_left (not_lt.mp h)).symm
  simp only [compute_uv_f_short, h1, h2]

theorem compute_uv_f_short_v_smart (ix : RowIndex R V) (s : Simulation R V) (x : Fin V)
    (t : ℕ) :
    (compute_uv_f_short ix s x t).cache.v_smart
      = uv_backward_loop s.propagator s.freePropagator_x (s.diagonal ix)
          (t - t / s.mslices * s.mslices) t (Pi.single x 1) := by
  have h1 : s.mslices * (t / s.mslices) = t / s.mslices * s.mslices := by ring
  simp only [compute_uv_f_short, h1]

theorem make_slices_N (ix : RowIndex R V) (hfr : ix.Framed) (s : Simulation R V) :
    (make_slices ix s).N = s.N := by
  rw [make_slices_eq ix hfr s]

theorem make_slices_mslices (ix : RowIndex R V) (hfr : ix.Framed) (s : Simulation R V) :
    (make_slices ix s).mslices = s.mslices := by
  rw [make_slices_eq ix hfr s]

theorem make_slices_propagator (ix : RowIndex R V) (hfr : ix.Framed) (s : Simulation R V) :
    (make_slices ix s).propagator = s.propagator := by
  rw [make_slices_eq ix hfr s]

theorem make_slices_msvd (ix : RowIndex R V) (hfr : ix.Framed) (s : Simulation R V) :
    (make_slices ix s).msvd = s.msvd := by
  rw [make_slices_eq ix hfr s]

theorem block_at_make_slices (ix : RowIndex R V) (hfr : ix.Framed) (s : Simulation R V) :
    block_at ix (make_slices ix s) = block_at ix s := by
  funext j
  have h := make_slices_eq ix hfr s
  apply block_at_congr ix s (make_slices ix s) j
  · rw [h]
  · rw [h]
  · rw [h]
  · rw [h]
  · apply diagonal_congr ix hfr
    · rw [h]
    · rw [h]
    · rw [h]

/-- Recomputing the blocks of a state whose blocks are current changes no block. -/
theorem make_slices_slices_idem (ix : RowIndex R V) (hfr : ix.Framed) (s : Simulation R V) :
    (make_slices ix (make_slices ix s)).slices = (make_slices ix s).slices := by
  rw [make_slices_eq ix hfr (make_slices ix s), block_at_make_slices ix hfr s,
    make_slices_N ix hfr, make_slices_mslices ix hfr]
  rw [make_slices_eq ix hfr s]

/-- The block that contains slice `t`, recomputed after `flip(t, x)`, is the block before
the flip plus `u_smart * v_smartᵀ`. -/
theorem block_at_flip (ix : RowIndex R V) (hfr : ix.Framed) (s : Simulation R V) (x : Fin V)
    (t : ℕ) (hm : 1 ≤ s.mslices) (ht : t < s.N) (hP : s.propagatorᵀ = s.propagator)
    (hinj : ∀ j, j < s.N → ix s j = ix s t → j = t) :
    block_at ix (flip ix s t x) (t / s.mslices * s.mslices)
      = block_at ix s (t / s.mslices * s.mslices)
        + vecMulVec (compute_uv_f_short ix s x t).cache.u_smart
            (compute_uv_f_short ix s x t).cache.v_smart := by
  have ha : t / s.mslices * s.mslices ≤ t := Nat.div_mul_le_self t s.mslices
  have hb : t < t / s.mslices * s.mslices + s.mslices := Nat.lt_div_mul_add hm
  have hb' : t < min (t / s.mslices * s.mslices + s.mslices) s.N := lt_min hb ht
  rw [compute_uv_f_short_u_smart, compute_uv_f_short_v_smart]
  have hflip : block_at ix (flip ix s t x) (t / s.mslices * s.mslices)
      = accumulate_loop s.propagator s.freePropagator_x ((flip ix s t x).diagonal ix)
          (min (t / s.mslices * s.mslices + s.mslices) s.N - t / s.mslices * s.mslices)
          (t / s.mslices * s.mslices) 1 := rfl
  rw [hflip, block_at]
  apply accumulate_loop_flip s.propagator hP s.freePropagator_x (s.diagonal ix)
    ((flip ix s t x).diagonal ix) _ _ t x ha hb' (diagonal_flip_same ix hfr s t x)
  intro j _ hj2 hjt
  apply diagonal_flip_other ix hfr s t j x
  intro h
  have hjN : j < s.N := lt_of_lt_of_le hj2 (min_le_right _ _)
  exact hjt (hinj j hjN h)

theorem make_slices_flip (ix : RowIndex R V) (hfr : ix.Framed) (s : Simulation R V)
    (x : Fin V) (t : ℕ) (hm : 1 ≤ s.mslices) (ht : t < s.N)
    (hP : s.propagatorᵀ = s.propagator)
    (hinj : ∀ j, j < s.N → ix s j = ix s t → j = t)
    (hcur : (make_slices ix s).slices = s.slices) :
    ∃ B, s.slices[t / s.mslices]? = some B ∧
      (make_slices ix (flip ix s t x)).slices[t / s.mslices]?
        = some (B + vecMulVec (compute_uv_f_short ix s x t).cache.u_smart
            (compute_uv_f_short ix s x t).cache.v_smart) := by
  have hk : t / s.mslices * s.mslices < s.N :=
    lt_of_le_of_lt (Nat.div_mul_le_self t s.mslices) ht
  refine ⟨block_at ix s (t / s.mslices * s.mslices), ?_, ?_⟩
  · rw [← hcur]
    exact make_slices_getElem? ix hfr s hm _ hk
  · have h := make_slices_getElem? ix hfr (flip ix s t x) hm (t / s.mslices) hk
    have hmf : (flip ix s t x).mslices = s.mslices := rfl
    rw [hmf, block_at_flip ix hfr s x t hm ht hP hinj] at h
    exact h

theorem make_slices_getElem?_all (ix : RowIndex R V) (hfr : ix.Framed) (s : Simulation R V)
    (hm : 1 ≤ s.mslices) (k : ℕ) :
    (make_slices ix s).slices[k]?
      = if k * s.mslices < s.N then some (block_at ix s (k * s.mslices)) else none := by
  rw [make_slices_eq ix hfr s]
  simp only
  rw [block_list_getElem? _ _ _ hm _ _ _ (by omega)]
  simp

theorem block_at_flip_other (ix : RowIndex R V) (hfr : ix.Framed) (s : Simulation R V)
    (x : Fin V) (t j : ℕ) (hm : 1 ≤ s.mslices) (ht : t < s.N)
    (hinj : ∀ i, i < s.N → ix s i = ix s t → i = t) (hj : j ≠ t / s.mslices) :
    block_at ix (flip ix s t x) (j * s.mslices) = block_at ix s (j * s.mslices) := by
  have hflip : block_at ix (flip ix s t x) (j * s.mslices)
      = accumulate_loop s.propagator s.freePropagator_x ((flip ix s t x).diagonal ix)
          (min (j * s.mslices + s.mslices) s.N - j * s.mslices) (j * s.mslices) 1 := rfl
  rw [hflip, block_at]
  apply accumulate_loop_congr
  intro i h1 h2
  apply diagonal_flip_other ix hfr s t i x
  intro h
  have hiN : i < s.N := by
    have := min_le_right (j * s.mslices + s.mslices) s.N
    omega
  have hit : i = t := hinj i hiN h
  apply hj
  subst hit
  have h3 : i < j * s.mslices + s.mslices := by
    have := min_le_left (j * s.mslices + s.mslices) s.N
    omega
  symm
  apply Nat.div_eq_of_lt_le h1
  calc i < j * s.mslices + s.mslices := h3
    _ = (j + 1) * s.mslices := by ring

/-- Recomputing the blocks after `flip(t, x)` changes only the block that owns slice `t`,
by the rank-one correction of `compute_uv_f_short`. -/
theorem make_slices_flip_modify (ix : RowIndex R V) (hfr : ix.Framed) (s : Simulation R V)
    (x : Fin V) (t : ℕ) (hm : 1 ≤ s.mslices) (ht : t < s.N)
    (hP : s.propagatorᵀ = s.propagator)
    (hinj : ∀ j, j < s.N → ix s j = ix s t → j = t) :
    (make_slices ix (flip ix s t x)).slices
      = (make_slices ix s).slices.modify
          (fun A => A + vecMulVec (compute_uv_f_short ix s x t).cache.u_smart
            (compute_uv_f_short ix s x t).cache.v_smart) (t / s.mslices) := by
  apply List.ext_getElem?
  intro j
  have hmf : (flip ix s t x).mslices = s.mslices := rfl
  have hNf : (flip ix s t x).N = s.N := rfl
  rw [List.getElem?_modify, make_slices_getElem?_all ix hfr s hm,
    make_slices_getElem?_all ix hfr (flip ix s t x) hm, hmf, hNf]
  by_cases hjN : j * s.mslices < s.N
  · simp only [hjN, if_true, Option.map_eq_map, Option.map_some']
    by_cases hj : t / s.mslices = j
    · subst hj
      simp only [if_true]
      rw [block_at_flip ix hfr s x t hm ht hP hinj]
    · simp only [hj, if_false]
      rw [block_at_flip_other ix hfr s x t j hm ht hinj (fun h => hj h.symm)]
  · simp [hjN]

end block_lemmas

/-! ## The product of all blocks after a flip -/

section product_lemmas

variable {R : Type} [LinearOrderedField R] {V : ℕ}

theorem foldl_mulVec (L : List (Matrix (Fin V) (Fin V) R)) (w : Fin V → R) :
    L.foldl (fun w A => A *ᵥ w) w = L.reverse.prod *ᵥ w := by
  induction L generalizing w with
  | nil => simp
  | cons A rest ih =>
    rw [List.foldl_cons, ih]
    simp [Matrix.mulVec_mulVec]

theorem foldl_transpose_mulVec (L : List (Matrix (Fin V) (Fin V) R)) (w : Fin V → R) :
    L.foldl (fun w A => Aᵀ *ᵥ w) w = w ᵥ* L.prod := by
  induction L generalizing w with
  | nil => simp
  | cons A rest ih =>
    rw [List.foldl_cons, ih]
    simp [Matrix.mulVec_transpose, Matrix.vecMul_vecMul]

theorem reverse_prod_modify (L : List (Matrix (Fin V) (Fin V) R)) (k : ℕ) (hk : k < L.length)
    (a b : Fin V → R) :
    (L.modify (fun A => A + vecMulVec a b) k).reverse.prod
      = L.reverse.prod
        + vecMulVec ((L.drop (k + 1)).reverse.prod *ᵥ a) (b ᵥ* (L.take k).reverse.prod) := by
  have h1 : L.modify (fun A => A + vecMulVec a b) k
      = L.take k ++ (L[k] + vecMulVec a b) :: L.drop (k + 1) :=
    List.modify_eq_take_cons_drop hk
  have h2 : L.take k ++ L[k] :: L.drop (k + 1) = L := by
    rw [← List.drop_eq_getElem_cons hk, List.take_append_drop]
  have h3 : L.reverse.prod
      = (L.drop (k + 1)).reverse.prod * L[k] * (L.take k).reverse.prod := by
    have h4 := congrArg (fun l => l.reverse.prod) h2
    simp only [List.reverse_append, List.reverse_cons, List.prod_append, List.prod_cons,
      List.prod_nil, mul_one] at h4
    exact h4.symm
  rw [h1, h3]
  simp only [List.reverse_append, List.reverse_cons, List.prod_append, List.prod_cons,
    List.prod_nil, mul_one]
  rw [Matrix.mul_add, Matrix.add_mul, mul_vecMulVec, vecMulVec_mul]

theorem compute_uv_f_smart_u (s : Simulation R V) (x : Fin V) (t : ℕ) :
    (Stable.compute_uv_f_smart s x t).cache.u
      = (s.slices.drop (t / s.mslices + 1)).reverse.prod
          *ᵥ (compute_uv_f_short Stable.rowIndex s x t).cache.u_smart := by
  have h : (Stable.compute_uv_f_smart s x t).cache.u
      = (s.slices.drop (t / s.mslices + 1)).foldl (fun w A => A *ᵥ w)
          (compute_uv_f_short Stable.rowIndex s x t).cache.u_smart := rfl
  rw [h, foldl_mulVec]

theorem compute_uv_f_smart_v (s : Simulation R V) (x : Fin V) (t : ℕ) :
    (Stable.compute_uv_f_smart s x t).cache.v
      = (compute_uv_f_short Stable.rowIndex s x t).cache.v_smart
          ᵥ* (s.slices.take (t / s.mslices)).reverse.prod := by
  have h : (Stable.compute_uv_f_smart s x t).cache.v
      = ((s.slices.take (t / s.mslices)).reverse).foldl (fun w A => Aᵀ *ᵥ w)
          (compute_uv_f_short Stable.rowIndex s x t).cache.v_smart := rfl
  rw [h, foldl_transpose_mulVec]

theorem rank1_probability_u (exp log : R → R) (s : Simulation R V) (x : Fin V) (t : ℕ) :
    (Stable.rank1_probability exp log s x t).2.cache.u
      = (Stable.compute_uv_f_smart s x t).cache.u := rfl

theorem rank1_probability_v (exp log : R → R) (s : Simulation R V) (x : Fin V) (t : ℕ) :
    (Stable.rank1_probability exp log s x t).2.cache.v
      = (Stable.compute_uv_f_smart s x t).cache.v := rfl

theorem rank1_probability_a (exp log : R → R) (s : Simulation R V) (x : Fin V) (t : ℕ) :
    (Stable.rank1_probability exp log s x t).2.cache.a
      = (Stable.compute_uv_f_smart s x t).cache.v
          ⬝ᵥ (s.svdA.inverse *ᵥ (Stable.compute_uv_f_smart s x t).cache.u) := by
  have h : (Stable.rank1_probability exp log s x t).2.cache.a
      = ((Stable.compute_uv_f_smart s x t).cache.v ᵥ* s.svdA.Vtᵀ) ⬝ᵥ
          (fun i => (s.svdA.S i)⁻¹
            * (s.svdA.Uᵀ *ᵥ (Stable.compute_uv_f_smart s x t).cache.u) i) := rfl
  have hd : (fun i => (s.svdA.S i)⁻¹
        * (s.svdA.Uᵀ *ᵥ (Stable.compute_uv_f_smart s x t).cache.u) i)
      = diagonal (fun i => (s.svdA.S i)⁻¹)
          *ᵥ (s.svdA.Uᵀ *ᵥ (Stable.compute_uv_f_smart s x t).cache.u) := by
    funext i
    rw [Matrix.mulVec_diagonal]
  rw [h, hd, SVDHelper.inverse, ← Matrix.dotProduct_mulVec, Matrix.mulVec_mulVec,
    Matrix.mulVec_mulVec, Matrix.mul_assoc]

theorem rank1_probability_b (exp log : R → R) (s : Simulation R V) (x : Fin V) (t : ℕ) :
    (Stable.rank1_probability exp log s x t).2.cache.b
      = (Stable.compute_uv_f_smart s x t).cache.v
          ⬝ᵥ (s.svdB.inverse *ᵥ (Stable.compute_uv_f_smart s x t).cache.u) := by
  have h : (Stable.rank1_probability exp log s x t).2.cache.b
      = ((Stable.compute_uv_f_smart s x t).cache.v ᵥ* s.svdB.Vtᵀ) ⬝ᵥ
          (fun i => (s.svdB.S i)⁻¹
            * (s.svdB.Uᵀ *ᵥ (Stable.compute_uv_f_smart s x t).cache.u) i) := rfl
  have hd : (fun i => (s.svdB.S i)⁻¹
        * (s.svdB.Uᵀ *ᵥ (Stable.compute_uv_f_smart s x t).cache.u) i)
      = diagonal (fun i => (s.svdB.S i)⁻¹)
          *ᵥ (s.svdB.Uᵀ *ᵥ (Stable.compute_uv_f_smart s x t).cache.u) := by
    funext i
    rw [Matrix.mulVec_diagonal]
  rw [h, hd, SVDHelper.inverse, ← Matrix.dotProduct_mulVec, Matrix.mulVec_mulVec,
    Matrix.mulVec_mulVec, Matrix.mul_assoc]

theorem rank1_probability_value (exp log : R → R) (s : Simulation R V) (x : Fin V) (t : ℕ) :
    (Stable.rank1_probability exp log s x t).1
      = log ((1 + s.lambdaA exp * (Stable.rank1_probability exp log s x t).2.cache.a)
          * (1 + s.lambdaB exp * (Stable.rank1_probability exp log s x t).2.cache.b)) := rfl

/-- In `stable.cpp`: the product of the blocks recomputed after `flip(t, x)` is the product
of the current blocks plus `u * vᵀ`, with the vectors `cache.u`, `cache.v` of
`compute_uv_f_smart(x, t)`. -/
theorem flip_product (s : Simulation R V) (x : Fin V) (t : ℕ) (hm : 1 ≤ s.mslices)
    (ht : t < s.N) (hP : s.propagatorᵀ = s.propagator)
    (hcur : (make_slices Stable.rowIndex s).slices = s.slices) :
    (make_slices Stable.rowIndex (flip Stable.rowIndex s t x)).slices.reverse.prod
      = s.slices.reverse.prod
        + vecMulVec (Stable.compute_uv_f_smart s x t).cache.u
            (Stable.compute_uv_f_smart s x t).cache.v := by
  have hk : t / s.mslices < s.slices.length := by
    have hlt : t / s.mslices * s.mslices < s.N :=
      lt_of_le_of_lt (Nat.div_mul_le_self t s.mslices) ht
    have h := make_slices_getElem? Stable.rowIndex direct_rowIndex_framed s hm _ hlt
    rw [hcur] at h
    exact (List.getElem?_eq_some_iff.mp h).1
  rw [make_slices_flip_modify Stable.rowIndex direct_rowIndex_framed s x t hm ht hP
      (fun j _ h => h), hcur, reverse_prod_modify _ _ hk, compute_uv_f_smart_u,
    compute_uv_f_smart_v]

/-- The matrix determinant lemma for a rank-one term with a weight. -/
theorem det_add_smul_vecMulVec (A : Matrix (Fin V) (Fin V) R) (hA : A.det ≠ 0) (lam : R)
    (u v : Fin V → R) :
    (A + lam • vecMulVec u v).det = A.det * (1 + lam * (v ⬝ᵥ (A⁻¹ *ᵥ u))) := by
  have h1 : lam • vecMulVec u v = col Unit (lam • u) * row Unit v := by
    rw [← Matrix.vecMulVec_eq Unit]
    ext i j
    simp [vecMulVec_apply, mul_assoc]
  rw [h1, Matrix.det_add_col_mul_row (isUnit_iff_ne_zero.mpr hA)]
  congr 1
  rw [Matrix.det_unique]
  simp only [Matrix.add_apply, Matrix.one_apply_eq]
  congr 1
  rw [Matrix.mul_assoc, Matrix.mul_apply]
  simp only [Matrix.row_apply, dotProduct, Matrix.mulVec, Matrix.mul_apply, Matrix.col_apply,
    Pi.smul_apply, smul_eq_mul, Finset.mul_sum]
  apply Finset.sum_congr rfl
  intro i _
  apply Finset.sum_congr rfl
  intro j _
  ring

theorem one_add_smul_add_vecMulVec (lam : R) (M : Matrix (Fin V) (Fin V) R)
    (u v : Fin V → R) :
    1 + lam • (M + vecMulVec u v) = (1 + lam • M) + lam • vecMulVec u v := by
  rw [smul_add, add_assoc]

end product_lemmas

/-! ## The log-weight of a rebuilt factorisation and the rank-one ratio -/

section rank1_lemmas

theorem svd_probability_make_density_matrices {V : ℕ} (dgesvd : Dgesvd ℝ V V) (s : Simulation ℝ V)
    (ho : s.svd.IsOrthogonal)
    (hcA : dgesvd.IsSVDAt (s.svd.add_identity_other (s.lambdaA Real.exp)))
    (hcB : dgesvd.IsSVDAt (s.svd.add_identity_other (s.lambdaB Real.exp)))
    (hA : (1 + s.lambdaA Real.exp • s.svd.matrix).det ≠ 0)
    (hB : (1 + s.lambdaB Real.exp • s.svd.matrix).det ≠ 0) :
    svd_probability Real.log (make_density_matrices Real.exp dgesvd s)
      = Real.log |(1 + s.lambdaA Real.exp • s.svd.matrix).det|
        + Real.log |(1 + s.lambdaB Real.exp • s.svd.matrix).det| := by
  have hmA := SVDHelper.matrix_add_identity dgesvd s.svd _ ho.1 ho.2.2.2 hcA.1
  have hmB := SVDHelper.matrix_add_identity dgesvd s.svd _ ho.1 ho.2.2.2 hcB.1
  have hoA := SVDHelper.isOrthogonal_add_identity dgesvd s.svd _ ho hcA.2.1
  have hoB := SVDHelper.isOrthogonal_add_identity dgesvd s.svd _ ho hcB.2.1
  simp only [svd_probability, make_density_matrices]
  rw [SVDHelper.sum_log_S _ hoA (SVDHelper.add_identity_S_nonneg dgesvd _ _ hcA)
      (by rw [hmA]; exact hA),
    SVDHelper.sum_log_S _ hoB (SVDHelper.add_identity_S_nonneg dgesvd _ _ hcB)
      (by rw [hmB]; exact hB), hmA, hmB]


theorem rebuild_probability {V : ℕ} (dgesvd : Dgesvd ℝ V V) (s : Simulation ℝ V)
    (hre : s.RebuildExact Real.exp dgesvd)
    (hA : (1 + s.lambdaA Real.exp • s.slices.reverse.prod).det ≠ 0)
    (hB : (1 + s.lambdaB Real.exp • s.slices.reverse.prod).det ≠ 0) :
    svd_probability Real.log (make_density_matrices Real.exp dgesvd (make_svd dgesvd s))
      = Real.log |(1 + s.lambdaA Real.exp • s.slices.reverse.prod).det|
        + Real.log |(1 + s.lambdaB Real.exp • s.slices.reverse.prod).det| := by
  obtain ⟨hcalls, hcA, hcB⟩ := hre
  have hmat : (make_svd dgesvd s).svd.matrix = s.slices.reverse.prod :=
    make_svd_of_matrix dgesvd s.msvd s.slices
      (make_svd_calls_mono dgesvd _ _ (fun _ h => h.1) _ _ _ _ _ hcalls)
  have hor : (make_svd dgesvd s).svd.IsOrthogonal :=
    make_svd_of_isOrthogonal dgesvd s.msvd s.slices
      (make_svd_calls_mono dgesvd _ _ (fun _ h => h.2.1) _ _ _ _ _ hcalls)
  have h := svd_probability_make_density_matrices dgesvd (make_svd dgesvd s) hor hcA hcB
    (by rw [hmat]; exact hA) (by rw [hmat]; exact hB)
  rw [hmat] at h
  exact h

theorem svd_probability_of_represents {V : ℕ} (s : Simulation ℝ V)
    (MA MB : Matrix (Fin V) (Fin V) ℝ)
    (hoA : s.svdA.IsOrthogonal) (hSA : ∀ i, 0 ≤ s.svdA.S i) (hmA : s.svdA.matrix = MA)
    (hoB : s.svdB.IsOrthogonal) (hSB : ∀ i, 0 ≤ s.svdB.S i) (hmB : s.svdB.matrix = MB)
    (hdA : MA.det ≠ 0) (hdB : MB.det ≠ 0) :
    svd_probability Real.log s = Real.log |MA.det| + Real.log |MB.det| := by
  simp only [svd_probability]
  rw [SVDHelper.sum_log_S _ hoA hSA (by rw [hmA]; exact hdA),
    SVDHelper.sum_log_S _ hoB hSB (by rw [hmB]; exact hdB), hmA, hmB]

theorem one_add_mul_eq_det_ratio {V : ℕ} (h : SVDHelper ℝ V V V) (lam : ℝ)
    (M : Matrix (Fin V) (Fin V) ℝ) (u v : Fin V → ℝ) (ho : h.IsOrthogonal)
    (hmat : h.matrix = 1 + lam • M) (hdet : (1 + lam • M).det ≠ 0) :
    (1 + lam • (M + vecMulVec u v)).det
      = (1 + lam • M).det * (1 + lam * (v ⬝ᵥ (h.inverse *ᵥ u))) := by
  rw [one_add_smul_add_vecMulVec, det_add_smul_vecMulVec _ hdet,
    SVDHelper.inverse_eq_inv h ho (by rw [hmat]; exact hdet), hmat]

theorem log_ratio_eq (x y x' y' : ℝ) (hx : x ≠ 0) (hy : y ≠ 0)
    (hpos : 0 < x' * y' / (x * y)) :
    Real.log (x' * y' / (x * y))
      = Real.log |x'| + Real.log |y'| - (Real.log |x| + Real.log |y|) := by
  have hx' : x' ≠ 0 := by
    intro h
    rw [h] at hpos
    simp at hpos
  have hy' : y' ≠ 0 := by
    intro h
    rw [h] at hpos
    simp at hpos
  rw [Real.log_div (mul_ne_zero hx' hy') (mul_ne_zero hx hy), Real.log_mul hx' hy',
    Real.log_mul hx hy, Real.log_abs, Real.log_abs, Real.log_abs, Real.log_abs]

end rank1_lemmas

/-! ## The running log-weight is untouched by the proposal -/

section plog_lemmas

variable {R : Type} [LinearOrderedField R] {V : ℕ}

theorem make_density_matrices_plog (exp : R → R) (dgesvd : Dgesvd R V V) (s : Simulation R V) :
    (make_density_matrices exp dgesvd s).plog = s.plog := rfl

theorem make_svd_plog (dgesvd : Dgesvd R V V) (s : Simulation R V) :
    (make_svd dgesvd s).plog = s.plog := rfl

theorem compute_uv_f_short_plog (ix : RowIndex R V) (s : Simulation R V) (x : Fin V) (t : ℕ) :
    (compute_uv_f_short ix s x t).plog = s.plog := rfl

theorem compute_uv_f_smart_plog (s : Simulation R V) (x : Fin V) (t : ℕ) :
    (Stable.compute_uv_f_smart s x t).plog = s.plog := by
  unfold Stable.compute_uv_f_smart
  exact compute_uv_f_short_plog Stable.rowIndex s x t

theorem rank1_probability_plog (exp log : R → R) (s : Simulation R V) (x : Fin V) (t : ℕ) :
    (Stable.rank1_probability exp log s x t).2.plog = s.plog := by
  unfold Stable.rank1_probability
  exact compute_uv_f_smart_plog s x t

theorem proposal_plog (exp log : R → R) (s : Simulation R V) (x : Fin V) (t : ℕ) :
    (Stable.proposal exp log s x t).plog = s.plog := by
  unfold Stable.proposal
  exact rank1_probability_plog exp log _ x t

end plog_lemmas

/-! ## States without hopping: every block is diagonal -/

section diag_lemmas

variable {R : Type} [LinearOrderedField R] {V : ℕ}

theorem Dgesvd.ofDiagonal_orthogonalAt {R : Type} [Field R] {N : ℕ}
    (A : Matrix (Fin N) (Fin N) R) : Dgesvd.ofDiagonal.OrthogonalAt A := by
  simp [Dgesvd.OrthogonalAt, Dgesvd.ofDiagonal, SVDHelper.IsOrthogonal]

theorem isNonnegDiag_one : IsNonnegDiag (1 : Matrix (Fin V) (Fin V) R) :=
  ⟨fun _ => 1, fun _ => zero_le_one, Matrix.diagonal_one.symm⟩

theorem isNonnegDiag_diagonal (d : Fin V → R) (hd : ∀ i, 0 ≤ d i) :
    IsNonnegDiag (diagonal d) :=
  ⟨d, hd, rfl⟩

theorem IsNonnegDiag.mul {A B : Matrix (Fin V) (Fin V) R} (hA : IsNonnegDiag A)
    (hB : IsNonnegDiag B) : IsNonnegDiag (A * B) := by
  obtain ⟨a, ha, rfl⟩ := hA
  obtain ⟨b, hb, rfl⟩ := hB
  exact ⟨fun i => a i * b i, fun i => mul_nonneg (ha i) (hb i),
    Matrix.diagonal_mul_diagonal a b⟩

theorem IsNonnegDiag.transpose {A : Matrix (Fin V) (Fin V) R} (hA : IsNonnegDiag A) :
    IsNonnegDiag Aᵀ := by
  obtain ⟨a, ha, rfl⟩ := hA
  exact ⟨a, ha, Matrix.diagonal_transpose a⟩

theorem IsNonnegDiag.add {A B : Matrix (Fin V) (Fin V) R} (hA : IsNonnegDiag A)
    (hB : IsNonnegDiag B) : IsNonnegDiag (A + B) := by
  obtain ⟨a, ha, rfl⟩ := hA
  obtain ⟨b, hb, rfl⟩ := hB
  exact ⟨fun i => a i + b i, fun i => add_nonneg (ha i) (hb i),
    Matrix.diagonal_add a b⟩

theorem IsNonnegDiag.isSVDAt {A : Matrix (Fin V) (Fin V) R} (hA : IsNonnegDiag A) :
    Dgesvd.ofDiagonal.IsSVDAt A := by
  obtain ⟨a, ha, rfl⟩ := hA
  refine ⟨?_, Dgesvd.ofDiagonal_orthogonalAt _, ?_⟩
  · simp [Dgesvd.ExactAt, Dgesvd.ofDiagonal, SVDHelper.matrix]
  · intro i
    simp [Dgesvd.ofDiagonal, ha i]

theorem IsNonnegDiag.prod_reverse (L : List (Matrix (Fin V) (Fin V) R))
    (hL : ∀ A ∈ L, IsNonnegDiag A) : IsNonnegDiag L.reverse.prod := by
  induction L with
  | nil => simpa using isNonnegDiag_one
  | cons A rest ih =>
    simp only [List.reverse_cons, List.prod_append, List.prod_cons, List.prod_nil, mul_one]
    exact (ih fun B hB => hL B (List.mem_cons_of_mem A hB)).mul (hL A (List.mem_cons_self A rest))

theorem IsNonnegDiag.det_one_add_smul_pos {A : Matrix (Fin V) (Fin V) R}
    (hA : IsNonnegDiag A) (lam : R) (hlam : 0 ≤ lam) : 0 < (1 + lam • A).det := by
  obtain ⟨a, ha, rfl⟩ := hA
  have h : (1 : Matrix (Fin V) (Fin V) R) + lam • diagonal a
      = diagonal (fun i => 1 + lam * a i) := by
    ext i j
    by_cases hij : i = j
    · subst hij
      simp
    · simp [hij]
  rw [h, Matrix.det_diagonal]
  exact Finset.prod_pos fun i _ =>
    lt_of_lt_of_le zero_lt_one (le_add_of_nonneg_right (mul_nonneg hlam (ha i)))

theorem accumulate_loop_isNonnegDiag (fx : Fin V → R) (sigma : ℕ → Fin V → R)
    (hpos : ∀ j x, 0 ≤ slice_factor fx (sigma j) x) (c i : ℕ)
    (M : Matrix (Fin V) (Fin V) R) (hM : IsNonnegDiag M) :
    IsNonnegDiag (accumulate_loop 1 fx sigma c i M) := by
  induction c generalizing i M with
  | zero => simpa [accumulate_loop] using hM
  | succ c ih =>
    rw [accumulate_loop]
    apply ih
    rw [Matrix.one_mul]
    exact (isNonnegDiag_diagonal _ (hpos i)).mul hM

omit [LinearOrderedField R] in
theorem block_list_forall (P : Matrix (Fin V) (Fin V) R → Prop)
    (blk : ℕ → Matrix (Fin V) (Fin V) R) (hblk : ∀ i, P (blk i)) (N m fuel i : ℕ) :
    ∀ A ∈ block_list blk N m fuel i, P A := by
  induction fuel generalizing i with
  | zero => simp [block_list]
  | succ f ih =>
    intro A hA
    rw [block_list] at hA
    by_cases hi : i < N
    · simp only [hi, if_true, List.mem_cons] at hA
      rcases hA with h | h
      · rw [h]
        exact hblk i
      · exact ih _ A h
    · simp [hi] at hA

theorem make_slices_isNonnegDiag (ix : RowIndex R V) (hfr : ix.Framed) (s : Simulation R V)
    (hP : s.propagator = 1)
    (hpos : ∀ j x, 0 ≤ slice_factor s.freePropagator_x (s.diagonals j) x) :
    ∀ A ∈ (make_slices ix s).slices, IsNonnegDiag A := by
  rw [make_slices_eq ix hfr s]
  apply block_list_forall
  intro i
  rw [block_at, hP]
  exact accumulate_loop_isNonnegDiag _ _ (fun j x => hpos _ x) _ _ _ isNonnegDiag_one

theorem make_svd_loop_ofDiagonal (msvd size : ℕ) (L : List (Matrix (Fin V) (Fin V) R))
    (hL : ∀ A ∈ L, IsNonnegDiag A) (i : ℕ) (h : SVDHelper R V V V)
    (hU : IsNonnegDiag h.U) (hS : ∀ j, 0 ≤ h.S j) (hV : h.Vt = 1) :
    make_svd_calls Dgesvd.ofDiagonal Dgesvd.ofDiagonal.IsSVDAt msvd size L i h ∧
      IsNonnegDiag (make_svd_loop Dgesvd.ofDiagonal msvd size L i h).U ∧
      (∀ j, 0 ≤ (make_svd_loop Dgesvd.ofDiagonal msvd size L i h).S j) ∧
      (make_svd_loop Dgesvd.ofDiagonal msvd size L i h).Vt = 1 := by
  induction L generalizing i h with
  | nil => exact ⟨by simp [make_svd_calls], hU, hS, hV⟩
  | cons A rest ih =>
    have hA : IsNonnegDiag A := hL A (List.mem_cons_self A rest)
    have hrest : ∀ B ∈ rest, IsNonnegDiag B := fun B hB => hL B (List.mem_cons_of_mem A hB)
    have hin : IsNonnegDiag (A * h.U * diagonal h.S) :=
      (hA.mul hU).mul (isNonnegDiag_diagonal _ hS)
    rw [make_svd_calls, make_svd_loop]
    by_cases hc : i % msvd = 0 ∨ i = size - 1
    · simp only [hc, if_true]
      have hsvd := hin.isSVDAt
      obtain ⟨h1, h2, h3, h4⟩ :=
        ih hrest (i + 1) (SVDHelper.absorbU Dgesvd.ofDiagonal { h with U := A * h.U })
          (by simpa [SVDHelper.absorbU, Dgesvd.ofDiagonal] using isNonnegDiag_one)
          (fun j => hsvd.2.2 j)
          (by simp [SVDHelper.absorbU, Dgesvd.ofDiagonal, hV])
      exact ⟨⟨hsvd, h1⟩, h2, h3, h4⟩
    · simp only [hc, if_false]
      exact ih hrest (i + 1) { h with U := A * h.U } (hA.mul hU) hS hV

theorem add_identity_other_isNonnegDiag (h : SVDHelper R V V V) (lam : R) (hlam : 0 ≤ lam)
    (hU : IsNonnegDiag h.U) (hS : ∀ j, 0 ≤ h.S j) (hV : h.Vt = 1) :
    IsNonnegDiag (h.add_identity_other lam) := by
  rw [SVDHelper.add_identity_other, hV, Matrix.transpose_one, Matrix.mul_one]
  exact hU.transpose.add (isNonnegDiag_diagonal _ fun i => mul_nonneg (hS i) hlam)

/-- Without hopping and with non-negative diagonal blocks, the routine `Dgesvd.ofDiagonal`
is a singular value decomposition on every input of a rebuild. -/
theorem rebuildExact_ofDiagonal (s : Simulation R V) (exp : R → R) (hexp : ∀ y, 0 ≤ exp y)
    (hL : ∀ A ∈ s.slices, IsNonnegDiag A) : s.RebuildExact exp Dgesvd.ofDiagonal := by
  obtain ⟨h1, h2, h3, h4⟩ := make_svd_loop_ofDiagonal s.msvd s.slices.length s.slices hL 0
    (SVDHelper.setIdentity V) (by simpa [SVDHelper.setIdentity] using isNonnegDiag_one)
    (fun _ => by simp [SVDHelper.setIdentity]) rfl
  exact ⟨h1, (add_identity_other_isNonnegDiag _ _ (hexp _) h2 h3 h4).isSVDAt,
    (add_identity_other_isNonnegDiag _ _ (hexp _) h2 h3 h4).isSVDAt⟩

theorem slice_factor_nonneg (fx d : Fin V → R) (hfx : ∀ x, 0 ≤ fx x)
    (hd : ∀ x, -1 ≤ d x ∧ d x ≤ 1) (x : Fin V) : 0 ≤ slice_factor fx d x := by
  have := (hd x).1
  exact mul_nonneg (by linarith) (hfx x)

theorem flip_bounded (ix : RowIndex R V) (s : Simulation R V) (t : ℕ) (x : Fin V)
    (hd : ∀ j y, -1 ≤ s.diagonals j y ∧ s.diagonals j y ≤ 1) (j : ℕ) (y : Fin V) :
    -1 ≤ (flip ix s t x).diagonals j y ∧ (flip ix s t x).diagonals j y ≤ 1 := by
  simp only [flip, Simulation.diagonal]
  by_cases hj : j = ix s t
  · subst hj
    rw [Function.update_same]
    by_cases hy : y = x
    · subst hy
      rw [Function.update_same]
      have := hd (ix s t) y
      constructor <;> linarith
    · rw [Function.update_noteq hy]
      exact hd _ _
  · rw [Function.update_noteq hj]
    exact hd _ _

/-- After `make_svd` and `make_density_matrices` with decompositions that are singular
value decompositions, `svdA` and `svdB` are orthogonal factorisations with non-negative
singular values of `I + λ_A M` and `I + λ_B M`, `M` the product of the blocks. -/
theorem rebuild_consistent (s : Simulation R V) (exp : R → R) (dgesvd : Dgesvd R V V)
    (hre : s.RebuildExact exp dgesvd) :
    ((make_density_matrices exp dgesvd (make_svd dgesvd s)).svdA.IsOrthogonal ∧
      (make_density_matrices exp dgesvd (make_svd dgesvd s)).svdA.matrix
        = 1 + s.lambdaA exp • s.slices.reverse.prod ∧
      ∀ i, 0 ≤ (make_density_matrices exp dgesvd (make_svd dgesvd s)).svdA.S i) ∧
    ((make_density_matrices exp dgesvd (make_svd dgesvd s)).svdB.IsOrthogonal ∧
      (make_density_matrices exp dgesvd (make_svd dgesvd s)).svdB.matrix
        = 1 + s.lambdaB exp • s.slices.reverse.prod ∧
      ∀ i, 0 ≤ (make_density_matrices exp dgesvd (make_svd dgesvd s)).svdB.S i) := by
  obtain ⟨hcalls, hcA, hcB⟩ := hre
  have hmat : (make_svd_of dgesvd s.msvd s.slices).matrix = s.slices.reverse.prod :=
    make_svd_of_matrix dgesvd s.msvd s.slices
      (make_svd_calls_mono dgesvd _ _ (fun _ h => h.1) _ _ _ _ _ hcalls)
  have hor : (make_svd_of dgesvd s.msvd s.slices).IsOrthogonal :=
    make_svd_of_isOrthogonal dgesvd s.msvd s.slices
      (make_svd_calls_mono dgesvd _ _ (fun _ h => h.2.1) _ _ _ _ _ hcalls)
  refine ⟨⟨?_, ?_, ?_⟩, ⟨?_, ?_, ?_⟩⟩
  · exact SVDHelper.isOrthogonal_add_identity dgesvd _ _ hor hcA.2.1
  · have h := SVDHelper.matrix_add_identity dgesvd _ (s.lambdaA exp) hor.1 hor.2.2.2 hcA.1
    rw [hmat] at h
    exact h
  · exact fun i => hcA.2.2 i
  · exact SVDHelper.isOrthogonal_add_identity dgesvd _ _ hor hcB.2.1
  · have h := SVDHelper.matrix_add_identity dgesvd _ (s.lambdaB exp) hor.1 hor.2.2.2 hcB.1
    rw [hmat] at h
    exact h
  · exact fun i => hcB.2.2 i

theorem make_slices_slices_congr (ix : RowIndex R V) (hfr : ix.Framed) (s s' : Simulation R V)
    (hN : s'.N = s.N) (hm : s'.mslices = s.mslices) (hP : s'.propagator = s.propagator)
    (hfx : s'.freePropagator_x = s.freePropagator_x) (hd : s'.diagonals = s.diagonals)
    (hts : s'.time_shift = s.time_shift) :
    (make_slices ix s').slices = (make_slices ix s).slices := by
  have hblk : block_at ix s' = block_at ix s := by
    funext j
    exact block_at_congr ix s s' j hN hm hP hfx (diagonal_congr ix hfr s s' hN hts hd)
  rw [make_slices_eq ix hfr s', make_slices_eq ix hfr s, hblk, hN, hm]

theorem compute_U_s_eq (exp log : R → R) (dgesvd : Dgesvd R V V) (s : Simulation R V)
    (hm : 1 ≤ s.mslices) :
    Stable.compute_U_s exp log dgesvd s
      = { make_density_matrices exp dgesvd (make_svd dgesvd (make_slices Stable.rowIndex s)) with
          plog := svd_probability log
            (make_density_matrices exp dgesvd
              (make_svd dgesvd (make_slices Stable.rowIndex s))) } := by
  have h1 : ({ s with mslices := if s.mslices > 0 then s.mslices else s.N } : Simulation R V)
      = s := by
    have h2 : (if s.mslices > 0 then s.mslices else s.N) = s.mslices := if_pos (by omega)
    rw [h2]
  unfold Stable.compute_U_s
  simp only [h1]

/-- The state left by `compute_U_s` on a state without hopping, a field bounded by one and a
non-negative `freePropagator_x`, with the routine `Dgesvd.ofDiagonal`: the blocks are
current and diagonal, before and after any flip, and `svdA`, `svdB` are orthogonal
factorisations of `I + λ_A M` and `I + λ_B M` with non-negative singular values. -/
theorem compute_U_s_diag_facts (exp log : R → R) (hexp : ∀ y, 0 ≤ exp y)
    (s0 : Simulation R V) (hm : 1 ≤ s0.mslices)
    (hP : s0.propagator = 1) (hfx : ∀ x, 0 ≤ s0.freePropagator_x x)
    (hd : ∀ j y, -1 ≤ s0.diagonals j y ∧ s0.diagonals j y ≤ 1) :
    (Stable.compute_U_s exp log Dgesvd.ofDiagonal s0).N = s0.N ∧
      (Stable.compute_U_s exp log Dgesvd.ofDiagonal s0).mslices = s0.mslices ∧
      (Stable.compute_U_s exp log Dgesvd.ofDiagonal s0).propagator = 1 ∧
      (make_slices Stable.rowIndex (Stable.compute_U_s exp log Dgesvd.ofDiagonal s0)).slices
        = (Stable.compute_U_s exp log Dgesvd.ofDiagonal s0).slices ∧
      (∀ A ∈ (Stable.compute_U_s exp log Dgesvd.ofDiagonal s0).slices, IsNonnegDiag A) ∧
      ((Stable.compute_U_s exp log Dgesvd.ofDiagonal s0).svdA.IsOrthogonal ∧
        (Stable.compute_U_s exp log Dgesvd.ofDiagonal s0).svdA.matrix
          = 1 + (Stable.compute_U_s exp log Dgesvd.ofDiagonal s0).lambdaA exp
              • (Stable.compute_U_s exp log Dgesvd.ofDiagonal s0).slices.reverse.prod ∧
        ∀ i, 0 ≤ (Stable.compute_U_s exp log Dgesvd.ofDiagonal s0).svdA.S i) ∧
      ((Stable.compute_U_s exp log Dgesvd.ofDiagonal s0).svdB.IsOrthogonal ∧
        (Stable.compute_U_s exp log Dgesvd.ofDiagonal s0).svdB.matrix
          = 1 + (Stable.compute_U_s exp log Dgesvd.ofDiagonal s0).lambdaB exp
              • (Stable.compute_U_s exp log Dgesvd.ofDiagonal s0).slices.reverse.prod ∧
        ∀ i, 0 ≤ (Stable.compute_U_s exp log Dgesvd.ofDiagonal s0).svdB.S i) ∧
      (∀ t x, ∀ A ∈ (make_slices Stable.rowIndex (flip Stable.rowIndex
          (Stable.compute_U_s exp log Dgesvd.ofDiagonal s0) t x)).slices, IsNonnegDiag A) := by
  have hfr : (Stable.rowIndex : RowIndex R V).Framed := direct_rowIndex_framed
  have hms := make_slices_eq Stable.rowIndex hfr s0
  have hN : (make_slices Stable.rowIndex s0).N = s0.N := by rw [hms]
  have hmm : (make_slices Stable.rowIndex s0).mslices = s0.mslices := by rw [hms]
  have hPP : (make_slices Stable.rowIndex s0).propagator = s0.propagator := by rw [hms]
  have hff : (make_slices Stable.rowIndex s0).freePropagator_x = s0.freePropagator_x := by
    rw [hms]
  have hdd : (make_slices Stable.rowIndex s0).diagonals = s0.diagonals := by rw [hms]
  have hts : (make_slices Stable.rowIndex s0).time_shift = s0.time_shift := by rw [hms]
  have hpos : ∀ j x, 0 ≤ slice_factor s0.freePropagator_x (s0.diagonals j) x :=
    fun j x => slice_factor_nonneg _ _ hfx (hd j) x
  have hdiag := make_slices_isNonnegDiag Stable.rowIndex hfr s0 hP hpos
  have hre := rebuildExact_ofDiagonal (make_slices Stable.rowIndex s0) exp hexp hdiag
  have hcons := rebuild_consistent (make_slices Stable.rowIndex s0) exp Dgesvd.ofDiagonal hre
  rw [compute_U_s_eq exp log Dgesvd.ofDiagonal s0 hm]
  refine ⟨hN, hmm, hPP.trans hP, ?_, hdiag, hcons.1, hcons.2, ?_⟩
  · have key : ∀ D : Simulation R V, D.N = (make_slices Stable.rowIndex s0).N →
        D.mslices = (make_slices Stable.rowIndex s0).mslices →
        D.propagator = (make_slices Stable.rowIndex s0).propagator →
        D.freePropagator_x = (make_slices Stable.rowIndex s0).freePropagator_x →
        D.diagonals = (make_slices Stable.rowIndex s0).diagonals →
        D.time_shift = (make_slices Stable.rowIndex s0).time_shift →
        D.slices = (make_slices Stable.rowIndex s0).slices →
        (make_slices Stable.rowIndex D).slices = D.slices := by
      intro D h1 h2 h3 h4 h5 h6 h7
      rw [h7]
      exact (make_slices_slices_congr Stable.rowIndex hfr (make_slices Stable.rowIndex s0) D
        h1 h2 h3 h4 h5 h6).trans (make_slices_slices_idem Stable.rowIndex hfr s0)
    refine key _ ?_ ?_ ?_ ?_ ?_ ?_ ?_ <;> rfl
  · intro t x
    apply make_slices_isNonnegDiag Stable.rowIndex hfr
    · exact hPP.trans hP
    · intro j y
      apply slice_factor_nonneg
      · intro z
        show 0 ≤ (make_slices Stable.rowIndex s0).freePropagator_x z
        rw [hff]
        exact hfx z
      · intro z
        apply flip_bounded
        intro j' y'
        show -1 ≤ (make_slices Stable.rowIndex s0).diagonals j' y' ∧
          (make_slices Stable.rowIndex s0).diagonals j' y' ≤ 1
        rw [hdd]
        exact hd j' y'

end diag_lemmas

/-! ## Full rebuilds and the pending batch -/

section rebuild_lemmas

variable {R : Type} [LinearOrderedField R] {V : ℕ}

theorem make_slices_loop_positionSpace (ix : RowIndex R V) (hfr : ix.Framed) (fuel i : ℕ)
    (s : Simulation R V) :
    (make_slices_loop ix fuel i s).positionSpace
      = last_block (block_at ix s) s.N s.mslices fuel i s.positionSpace := by
  induction fuel generalizing i s with
  | zero => simp [make_slices_loop, last_block]
  | succ f ih =>
    by_cases hi : i < s.N
    · have hstep : make_slices_loop ix (f + 1) i s
          = make_slices_loop ix f (i + s.mslices)
              { s with positionSpace := block_at ix s i, slices := s.slices ++ [block_at ix s i] } := by
        rw [make_slices_loop]
        simp only [hi, if_true, accumulate_forward_eq]
      have hblk : block_at ix
            { s with positionSpace := block_at ix s i, slices := s.slices ++ [block_at ix s i] }
          = block_at ix s := by
        funext j
        exact block_at_congr ix s _ j rfl rfl rfl rfl (diagonal_congr ix hfr s _ rfl rfl rfl)
      rw [hstep, ih, hblk]
      simp [last_block, hi]
    · simp [make_slices_loop, last_block, hi]

theorem make_slices_positionSpace (ix : RowIndex R V) (hfr : ix.Framed) (s : Simulation R V) :
    (make_slices ix s).positionSpace
      = last_block (block_at ix s) s.N s.mslices s.N 0 s.positionSpace := by
  have hblk : block_at ix { s with slices := [] } = block_at ix s := by
    funext j
    exact block_at_congr ix s _ j rfl rfl rfl rfl (diagonal_congr ix hfr s _ rfl rfl rfl)
  rw [make_slices, make_slices_loop_positionSpace ix hfr, hblk]

omit [LinearOrderedField R] in
theorem last_block_idem (blk : ℕ → Matrix (Fin V) (Fin V) R) (N m fuel i : ℕ)
    (p : Matrix (Fin V) (Fin V) R) :
    last_block blk N m fuel i (last_block blk N m fuel i p) = last_block blk N m fuel i p := by
  cases fuel with
  | zero => rfl
  | succ f =>
    by_cases hi : i < N
    · simp [last_block, hi]
    · simp [last_block, hi]

/-- A state that agrees with `s` on what `make_slices` reads and already holds the blocks and
the `positionSpace` that `make_slices` computes from `s` is left as it is by `make_slices`. -/
theorem make_slices_fixed (ix : RowIndex R V) (hfr : ix.Framed) (s u : Simulation R V)
    (hN : u.N = s.N) (hm : u.mslices = s.mslices) (hP : u.propagator = s.propagator)
    (hfx : u.freePropagator_x = s.freePropagator_x) (hd : u.diagonals = s.diagonals)
    (hts : u.time_shift = s.time_shift)
    (hpos : u.positionSpace = (make_slices ix s).positionSpace)
    (hsl : u.slices = (make_slices ix s).slices) :
    make_slices ix u = u := by
  have hblk : block_at ix u = block_at ix s := by
    funext j
    exact block_at_congr ix s u j hN hm hP hfx (diagonal_congr ix hfr s u hN hts hd)
  have h1 : (make_slices ix u).positionSpace = u.positionSpace := by
    rw [make_slices_positionSpace ix hfr u, hblk, hN, hm, hpos,
      make_slices_positionSpace ix hfr s, last_block_idem]
  have h2 : block_list (block_at ix u) u.N u.mslices u.N 0 = u.slices := by
    have h3 := make_slices_slices_congr ix hfr s u hN hm hP hfx hd hts
    rw [make_slices_eq ix hfr u] at h3
    rw [hsl, ← h3]
  rw [make_slices_eq ix hfr u, h1, h2]

theorem redo_all_factors (exp log : R → R) (dgesvd : Dgesvd R V V) :
    ∃ G : Simulation R V → Simulation R V,
      (∀ s, (redo_all exp log dgesvd s).2 = G (make_slices Simulation.rowIndex s)) ∧
      (∀ t, G (G t) = G t) ∧
      (∀ t, (G t).N = t.N ∧ (G t).mslices = t.mslices ∧ (G t).propagator = t.propagator ∧
        (G t).freePropagator_x = t.freePropagator_x ∧ (G t).diagonals = t.diagonals ∧
        (G t).time_shift = t.time_shift ∧ (G t).positionSpace = t.positionSpace ∧
        (G t).slices = t.slices) := by
  refine ⟨fun t =>
    reset_updates
      { make_density_matrices exp dgesvd (make_svd_inverse exp dgesvd (make_svd dgesvd t)) with
        plog := svd_probability log
          (make_density_matrices exp dgesvd (make_svd_inverse exp dgesvd (make_svd dgesvd t)))
        psign := svd_sign
          (make_density_matrices exp dgesvd (make_svd_inverse exp dgesvd (make_svd dgesvd t))) },
    fun s => rfl, ?_, fun t => ⟨rfl, rfl, rfl, rfl, rfl, rfl, rfl, rfl⟩⟩
  intro t
  rcases t with ⟨N, beta, mu, B, diagonals, fx, P, pos, v_x, mslices, slices, msvd, svd, svdA,
    svdB, si, siu, sid, fsi, plog, psign, up, us, usz, mus, uU, uVt, rup, rdn, cache, ts, steps⟩
  cases slices with
  | nil =>
    simp only [reset_updates, make_density_matrices, make_svd_inverse, make_svd,
      svd_probability, svd_sign, Simulation.lambdaA, Simulation.lambdaB]
  | cons A rest =>
    simp only [reset_updates, make_density_matrices, make_svd_inverse, make_svd,
      svd_probability, svd_sign, Simulation.lambdaA, Simulation.lambdaB]

theorem redo_all_idem (exp log : R → R) (dgesvd : Dgesvd R V V) (s : Simulation R V) :
    (redo_all exp log dgesvd (redo_all exp log dgesvd s).2).2
      = (redo_all exp log dgesvd s).2 := by
  obtain ⟨G, hG, hidem, hframe⟩ := redo_all_factors exp log dgesvd
  have hfr : (Simulation.rowIndex : RowIndex R V).Framed := shifted_rowIndex_framed
  have hfix : make_slices Simulation.rowIndex (G (make_slices Simulation.rowIndex s))
      = G (make_slices Simulation.rowIndex s) := by
    obtain ⟨hN, hm, hP, hfx, hd, hts, hpos, hsl⟩ := hframe (make_slices Simulation.rowIndex s)
    have h := make_slices_eq Simulation.rowIndex hfr s
    apply make_slices_fixed Simulation.rowIndex hfr s
    · rw [hN, h]
    · rw [hm, h]
    · rw [hP, h]
    · rw [hfx, h]
    · rw [hd, h]
    · rw [hts, h]
    · exact hpos
    · exact hsl
  rw [hG s, hG (G (make_slices Simulation.rowIndex s)), hfix, hidem]

theorem redo_all_slices (exp log : R → R) (dgesvd : Dgesvd R V V) (s : Simulation R V) :
    (redo_all exp log dgesvd s).2.slices = (make_slices Simulation.rowIndex s).slices := rfl

theorem redo_all_plog (exp log : R → R) (dgesvd : Dgesvd R V V) (s : Simulation R V) :
    (redo_all exp log dgesvd s).2.plog
      = svd_probability log (make_density_matrices exp dgesvd
          (make_svd_inverse exp dgesvd (make_svd dgesvd (make_slices Simulation.rowIndex s)))) :=
  rfl

theorem redo_all_tracked (exp : R → R) (dgesvd : Dgesvd R V V) (s : Simulation R V) :
    (make_density_matrices exp dgesvd (make_svd_inverse exp dgesvd
        (make_svd dgesvd (make_slices Simulation.rowIndex s)))).plog = s.plog ∧
      (make_density_matrices exp dgesvd (make_svd_inverse exp dgesvd
        (make_svd dgesvd (make_slices Simulation.rowIndex s)))).update_prob = s.update_prob := by
  have h := make_slices_eq Simulation.rowIndex shifted_rowIndex_framed s
  constructor
  · show (make_slices Simulation.rowIndex s).plog = s.plog
    rw [h]
  · show (make_slices Simulation.rowIndex s).update_prob = s.update_prob
    rw [h]

theorem redo_all_reported (exp log : R → R) (dgesvd : Dgesvd R V V) (s : Simulation R V) :
    (redo_all exp log dgesvd s).1 = true ↔
      |(redo_all exp log dgesvd s).2.plog - s.plog - s.update_prob| > 1.0e-8 := by
  rw [redo_all_plog]
  obtain ⟨h1, h2⟩ := redo_all_tracked exp dgesvd s
  unfold redo_all
  simp only [h1, h2]
  split_ifs with h
  · exact ⟨fun _ => h, fun _ => rfl⟩
  · exact ⟨fun h' => h'.elim, fun h' => absurd h' h⟩

theorem redo_all_again_silent (exp log : R → R) (dgesvd : Dgesvd R V V) (s : Simulation R V) :
    (redo_all exp log dgesvd (redo_all exp log dgesvd s).2).1 = false := by
  have h := redo_all_reported exp log dgesvd (redo_all exp log dgesvd s).2
  rw [redo_all_idem] at h
  have h0 : (redo_all exp log dgesvd s).2.update_prob = 0 := rfl
  have hn : ¬ (|(redo_all exp log dgesvd s).2.plog - (redo_all exp log dgesvd s).2.plog
      - (redo_all exp log dgesvd s).2.update_prob| > (1.0e-8 : R)) := by
    rw [h0, sub_self, sub_zero, abs_zero]
    norm_num
  cases hb : (redo_all exp log dgesvd (redo_all exp log dgesvd s).2).1 with
  | false => rfl
  | true => exact absurd (h.mp hb) hn

theorem redo_all_frame (exp log : R → R) (dgesvd : Dgesvd R V V) (s : Simulation R V) :
    (redo_all exp log dgesvd s).2.N = s.N ∧
      (redo_all exp log dgesvd s).2.mslices = s.mslices ∧
      (redo_all exp log dgesvd s).2.time_shift = s.time_shift ∧
      (redo_all exp log dgesvd s).2.diagonals = s.diagonals := by
  obtain ⟨G, hG, -, hframe⟩ := redo_all_factors exp log dgesvd
  have hms := make_slices_eq Simulation.rowIndex shifted_rowIndex_framed s
  obtain ⟨hN, hm, -, -, hd, hts, -, -⟩ := hframe (make_slices Simulation.rowIndex s)
  rw [hG s]
  refine ⟨?_, ?_, ?_, ?_⟩
  · rw [hN, hms]
  · rw [hm, hms]
  · rw [hts, hms]
  · rw [hd, hms]

/-- The state that `shift_time` hands to `redo_all`, and the flag it returns. -/
theorem shift_time_eq (exp log : R → R) (dgesvd : Dgesvd R V V) (s : Simulation R V) :
    (shift_time exp log dgesvd s).2.N = s.N ∧
      (shift_time exp log dgesvd s).2.mslices = s.mslices ∧
      (shift_time exp log dgesvd s).2.time_shift
        = (if s.N ≤ s.time_shift + s.mslices then s.time_shift + s.mslices - s.N
            else s.time_shift + s.mslices) ∧
      ((shift_time exp log dgesvd s).1 = true ↔ s.N ≤ s.time_shift + s.mslices) := by
  by_cases h : s.time_shift + s.mslices ≥ s.N
  · have hst : shift_time exp log dgesvd s
        = (true, (redo_all exp log dgesvd
            { s with time_shift := s.time_shift + s.mslices - s.N }).2) := by
      simp only [shift_time, if_pos h, if_true]
    obtain ⟨h1, h2, h3, -⟩ := redo_all_frame exp log dgesvd
      { s with time_shift := s.time_shift + s.mslices - s.N }
    rw [hst]
    exact ⟨h1, h2, by rw [h3, if_pos h], ⟨fun _ => h, fun _ => rfl⟩⟩
  · have hst : shift_time exp log dgesvd s
        = (false, (redo_all exp log dgesvd
            { s with time_shift := s.time_shift + s.mslices }).2) := by
      simp only [shift_time, if_neg h]
      simp
    obtain ⟨h1, h2, h3, -⟩ := redo_all_frame exp log dgesvd
      { s with time_shift := s.time_shift + s.mslices }
    rw [hst]
    exact ⟨h1, h2, by rw [h3, if_neg h], ⟨fun h' => Bool.noConfusion h', fun h' => absurd h' h⟩⟩

end rebuild_lemmas

/-! ## The blocks that `make_slices` produces -/

section slicing_lemmas

variable {R : Type} [LinearOrderedField R] {V : ℕ}

theorem lt_ceil_div_iff (N m k : ℕ) (hm : 1 ≤ m) : k < (N + m - 1) / m ↔ k * m < N := by
  rw [Nat.lt_iff_add_one_le, Nat.le_div_iff_mul_le (by omega), Nat.add_mul]
  omega

theorem length_eq_of_getElem? {α : Type} (L : List α) (n : ℕ)
    (hsome : ∀ k, k < n → L[k]? ≠ none) (hnone : L[n]? = none) : L.length = n := by
  apply le_antisymm
  · exact List.getElem?_eq_none_iff.mp hnone
  · by_contra hlt
    push_neg at hlt
    exact hsome L.length hlt (List.getElem?_eq_none_iff.mpr le_rfl)

/-- The loop of `accumulate_forward` started from the identity computes the product of the
per-slice operators, the operator of the first slice rightmost. -/
theorem accumulate_loop_eq_prod (P : Matrix (Fin V) (Fin V) R) (fx : Fin V → R)
    (sigma : ℕ → Fin V → R) (c i : ℕ) :
    accumulate_loop P fx sigma c i 1
      = ((List.range' i c).map (fun j => P * diagonal (slice_factor fx (sigma j)))).reverse.prod := by
  induction c generalizing i with
  | zero => simp [accumulate_loop]
  | succ c ih =>
    rw [accumulate_loop, accumulate_loop_mul, ih (i + 1), List.range'_succ, List.map_cons,
      List.reverse_cons, List.prod_append, List.prod_singleton, Matrix.mul_one]

theorem block_at_eq_ordered_slice_product (ix : RowIndex R V) (s : Simulation R V) (i : ℕ) :
    block_at ix s i = ordered_slice_product ix s i (min (i + s.mslices) s.N) := by
  rw [block_at, ordered_slice_product, accumulate_loop_eq_prod]

theorem block_list_reverse_prod (P : Matrix (Fin V) (Fin V) R) (fx : Fin V → R)
    (sigma : ℕ → Fin V → R) (N m : ℕ) (hm : 1 ≤ m) (fuel i : ℕ) (hfuel : N ≤ i + fuel) :
    (block_list (fun j => accumulate_loop P fx sigma (min (j + m) N - j) j 1) N m fuel
        i).reverse.prod
      = accumulate_loop P fx sigma (N - i) i 1 := by
  induction fuel generalizing i with
  | zero =>
    have h0 : N - i = 0 := by omega
    simp [block_list, h0, accumulate_loop]
  | succ f ih =>
    by_cases hi : i < N
    · rw [block_list, if_pos hi, List.reverse_cons, List.prod_append, List.prod_singleton,
        ih (i + m) (by omega), ← accumulate_loop_mul]
      by_cases hle : i + m ≤ N
      · have h1 : min (i + m) N - i = m := by
          rw [Nat.min_eq_left hle]
          omega
        have h2 : N - i = m + (N - (i + m)) := by omega
        rw [h1, h2, accumulate_loop_add]
      · have h1 : min (i + m) N - i = N - i := by
          rw [Nat.min_eq_right (by omega)]
        have h2 : N - (i + m) = 0 := by omega
        rw [h1, h2, accumulate_loop]
    · have h0 : N - i = 0 := by omega
      simp [block_list, hi, h0, accumulate_loop]

/-- With blocks of at least one slice, `make_slices` produces `⌈N / mslices⌉` blocks, block
`k` is the ordered product of the operators of the slices
`k * mslices ≤ i < min((k + 1) * mslices, N)`, and the ordered product of all blocks is
what `accumulate_forward(0, N)` computes. -/
theorem make_slices_blocks (ix : RowIndex R V) (hfr : ix.Framed) (s : Simulation R V)
    (hm : 1 ≤ s.mslices) :
    (make_slices ix s).slices.length = (s.N + s.mslices - 1) / s.mslices ∧
      (∀ k, k < (s.N + s.mslices - 1) / s.mslices →
        (make_slices ix s).slices[k]?
          = some (ordered_slice_product ix s (k * s.mslices)
              (min ((k + 1) * s.mslices) s.N))) ∧
      (make_slices ix s).slices.reverse.prod
        = (accumulate_forward ix s 0 (s.N : ℤ)).positionSpace := by
  have hget := make_slices_getElem?_all ix hfr s hm
  refine ⟨?_, ?_, ?_⟩
  · apply length_eq_of_getElem?
    · intro k hk
      rw [hget k, if_pos ((lt_ceil_div_iff s.N s.mslices k hm).mp hk)]
      exact Option.some_ne_none _
    · rw [hget, if_neg]
      intro h
      exact absurd ((lt_ceil_div_iff s.N s.mslices _ hm).mpr h) (lt_irrefl _)
  · intro k hk
    rw [hget k, if_pos ((lt_ceil_div_iff s.N s.mslices k hm).mp hk),
      block_at_eq_ordered_slice_product, Nat.add_mul, Nat.one_mul]
  · have h1 : (accumulate_forward ix s 0 (s.N : ℤ)).positionSpace
        = accumulate_loop s.propagator s.freePropagator_x (s.diagonal ix) (s.N - 0) 0 1 := by
      simp [accumulate_forward]
    rw [h1, make_slices_eq ix hfr s]
    exact block_list_reverse_prod s.propagator s.freePropagator_x (s.diagonal ix) s.N
      s.mslices hm s.N 0 (by omega)

theorem init_mslices_bounds (mslices0 N : ℤ) (hN : 1 ≤ N) :
    1 ≤ init_mslices mslices0 N ∧ init_mslices mslices0 N ≤ N := by
  simp only [init_mslices]
  constructor <;> split_ifs <;> omega

theorem init_frame (exp log : R → R) (dgesvd : Dgesvd R V V) (mslices0 : ℤ)
    (sigma : ℕ → Fin V → R) (s : Simulation R V) :
    (Simulation.init exp log dgesvd mslices0 sigma s).N = s.N ∧
      (Simulation.init exp log dgesvd mslices0 sigma s).mslices
        = (init_mslices mslices0 (s.N : ℤ)).toNat ∧
      (Simulation.init exp log dgesvd mslices0 sigma s).time_shift = 0 ∧
      (Simulation.init exp log dgesvd mslices0 sigma s).diagonals = sigma ∧
      (make_slices Simulation.rowIndex (Simulation.init exp log dgesvd mslices0 sigma s)).slices
        = (Simulation.init exp log dgesvd mslices0 sigma s).slices := by
  have hfr : (Simulation.rowIndex : RowIndex R V).Framed := shifted_rowIndex_framed
  obtain ⟨G, hG, -, hframe⟩ := redo_all_factors exp log dgesvd
  have hinit : ∀ s1 : Simulation R V, (redo_all exp log dgesvd s1).2
      = G (make_slices Simulation.rowIndex s1) := hG
  have hr : ∃ s1 : Simulation R V, s1.N = s.N ∧
      s1.mslices = (init_mslices mslices0 (s.N : ℤ)).toNat ∧ s1.time_shift = 0 ∧
      s1.diagonals = sigma ∧
      Simulation.init exp log dgesvd mslices0 sigma s = (redo_all exp log dgesvd s1).2 :=
    ⟨{ s with
        mslices := (init_mslices mslices0 (s.N : ℤ)).toNat
        time_shift := 0
        max_update_size := if s.max_update_size < 1 then 1 else s.max_update_size
        diagonals := sigma
        v_x := 0
        positionSpace := 1 }, rfl, rfl, rfl, rfl, rfl⟩
  obtain ⟨s1, h1, h2, h3, h4, h5⟩ := hr
  have hms := make_slices_eq Simulation.rowIndex hfr s1
  obtain ⟨hN, hm, hP, hfx, hd, hts, -, hsl⟩ := hframe (make_slices Simulation.rowIndex s1)
  have eN : (G (make_slices Simulation.rowIndex s1)).N = s1.N := by rw [hN, hms]
  have em : (G (make_slices Simulation.rowIndex s1)).mslices = s1.mslices := by rw [hm, hms]
  have eP : (G (make_slices Simulation.rowIndex s1)).propagator = s1.propagator := by
    rw [hP, hms]
  have efx : (G (make_slices Simulation.rowIndex s1)).freePropagator_x
      = s1.freePropagator_x := by rw [hfx, hms]
  have ed : (G (make_slices Simulation.rowIndex s1)).diagonals = s1.diagonals := by
    rw [hd, hms]
  have ets : (G (make_slices Simulation.rowIndex s1)).time_shift = s1.time_shift := by
    rw [hts, hms]
  rw [h5, hinit s1]
  refine ⟨eN.trans h1, em.trans h2, ets.trans h3, ed.trans h4, ?_⟩
  rw [make_slices_slices_congr Simulation.rowIndex hfr s1 _ eN em eP efx ed ets, hsl]

end slicing_lemmas

/-! ## What a `metropolis` step of `stable.cpp` leaves behind -/

section metropolis_lemmas

variable {R : Type} [LinearOrderedField R] {V : ℕ}

theorem proposal_diagonals (exp log : R → R) (s : Simulation R V) (x : Fin V) (t : ℕ) :
    (Stable.proposal exp log s x t).diagonals
      = Function.update s.diagonals t (Function.update (s.diagonals t) x (-(s.diagonals t x))) :=
  rfl

theorem proposal_slices (exp log : R → R) (s : Simulation R V) (x : Fin V) (t : ℕ) :
    (Stable.proposal exp log s x t).slices
      = s.slices.modify
          (fun A => A + vecMulVec (compute_uv_f_short Stable.rowIndex s x t).cache.u_smart
            (compute_uv_f_short Stable.rowIndex s x t).cache.v_smart) (t / s.mslices) :=
  rfl

theorem proposal_cache_smart (exp log : R → R) (s : Simulation R V) (x : Fin V) (t : ℕ) :
    (Stable.proposal exp log s x t).cache.u_smart
        = (compute_uv_f_short Stable.rowIndex s x t).cache.u_smart ∧
      (Stable.proposal exp log s x t).cache.v_smart
        = (compute_uv_f_short Stable.rowIndex s x t).cache.v_smart :=
  ⟨rfl, rfl⟩

omit [LinearOrderedField R] in
theorem Simulation.SameSetup.trans {a b c : Simulation R V} (h1 : a.SameSetup b)
    (h2 : b.SameSetup c) : a.SameSetup c :=
  ⟨h1.1.trans h2.1, h1.2.1.trans h2.2.1, h1.2.2.1.trans h2.2.2.1,
    h1.2.2.2.1.trans h2.2.2.2.1, h1.2.2.2.2.1.trans h2.2.2.2.2.1,
    h1.2.2.2.2.2.1.trans h2.2.2.2.2.2.1, h1.2.2.2.2.2.2.1.trans h2.2.2.2.2.2.2.1,
    h1.2.2.2.2.2.2.2.1.trans h2.2.2.2.2.2.2.2.1, h1.2.2.2.2.2.2.2.2.trans h2.2.2.2.2.2.2.2.2⟩

omit [LinearOrderedField R] in
theorem Simulation.SameSetup.symm_of {a b : Simulation R V} (h : a.SameSetup b) :
    b.SameSetup a :=
  ⟨h.1.symm, h.2.1.symm, h.2.2.1.symm, h.2.2.2.1.symm, h.2.2.2.2.1.symm,
    h.2.2.2.2.2.1.symm, h.2.2.2.2.2.2.1.symm, h.2.2.2.2.2.2.2.1.symm,
    h.2.2.2.2.2.2.2.2.symm⟩

theorem compute_uv_f_short_setup (ix : RowIndex R V) (s : Simulation R V) (x : Fin V)
    (t : ℕ) : (compute_uv_f_short ix s x t).SameSetup s :=
  ⟨rfl, rfl, rfl, rfl, rfl, rfl, rfl, rfl, rfl⟩

theorem compute_uv_f_smart_setup (s : Simulation R V) (x : Fin V) (t : ℕ) :
    (Stable.compute_uv_f_smart s x t).SameSetup s := by
  unfold Stable.compute_uv_f_smart
  exact compute_uv_f_short_setup Stable.rowIndex s x t

theorem rank1_probability_setup (exp log : R → R) (s : Simulation R V) (x : Fin V) (t : ℕ) :
    (Stable.rank1_probability exp log s x t).2.SameSetup s := by
  unfold Stable.rank1_probability
  exact compute_uv_f_smart_setup s x t

theorem proposal_setup (exp log : R → R) (s : Simulation R V) (x : Fin V) (t : ℕ) :
    (Stable.proposal exp log s x t).SameSetup s := by
  have h : (Stable.rank1_probability exp log { s with steps := s.steps + 1 } x t).2.SameSetup
      { s with steps := s.steps + 1 } := rank1_probability_setup exp log _ x t
  unfold Stable.proposal
  exact h

theorem rebuild_setup (exp : R → R) (dgesvd : Dgesvd R V V) (s : Simulation R V) :
    (make_density_matrices exp dgesvd (make_svd dgesvd s)).SameSetup s :=
  ⟨rfl, rfl, rfl, rfl, rfl, rfl, rfl, rfl, rfl⟩

/-- The state left by an accepted step. -/
theorem metropolis_accepted (exp log : R → R) (dgesvd : Dgesvd R V V) (s : Simulation R V)
    (x : Fin V) (t : ℕ) (trial : R)
    (h : (Stable.metropolis exp log dgesvd s x t trial).1 = true) :
    (Stable.metropolis exp log dgesvd s x t trial).2
      = { make_density_matrices exp dgesvd (make_svd dgesvd (Stable.proposal exp log s x t)) with
          plog := svd_probability log (make_density_matrices exp dgesvd
            (make_svd dgesvd (Stable.proposal exp log s x t))) } := by
  unfold Stable.metropolis at h ⊢
  simp only at h ⊢
  split_ifs at h ⊢ with hc
  rfl

/-- The state left by a rejected step. -/
theorem metropolis_rejected (exp log : R → R) (dgesvd : Dgesvd R V V) (s : Simulation R V)
    (x : Fin V) (t : ℕ) (trial : R)
    (h : (Stable.metropolis exp log dgesvd s x t trial).1 = false) :
    (Stable.metropolis exp log dgesvd s x t trial).2
      = { flip Stable.rowIndex (make_density_matrices exp dgesvd
            (make_svd dgesvd (Stable.proposal exp log s x t))) t x with
          slices := (flip Stable.rowIndex (make_density_matrices exp dgesvd
              (make_svd dgesvd (Stable.proposal exp log s x t))) t x).slices.modify
            (fun A => A - vecMulVec
              (flip Stable.rowIndex (make_density_matrices exp dgesvd
                (make_svd dgesvd (Stable.proposal exp log s x t))) t x).cache.u_smart
              (flip Stable.rowIndex (make_density_matrices exp dgesvd
                (make_svd dgesvd (Stable.proposal exp log s x t))) t x).cache.v_smart)
            (t / (flip Stable.rowIndex (make_density_matrices exp dgesvd
              (make_svd dgesvd (Stable.proposal exp log s x t))) t x).mslices) } := by
  unfold Stable.metropolis at h ⊢
  simp only at h ⊢
  split_ifs at h ⊢ with hc
  rfl

omit [LinearOrderedField R] in
theorem update_update_neg_neg [Ring R] (d : ℕ → Fin V → R) (t : ℕ) (x : Fin V) :
    Function.update
        (Function.update d t (Function.update (d t) x (-(d t x)))) t
        (Function.update
          ((Function.update d t (Function.update (d t) x (-(d t x)))) t) x
          (-((Function.update d t (Function.update (d t) x (-(d t x)))) t x)))
      = d := by
  simp

theorem modify_add_sub (L : List (Matrix (Fin V) (Fin V) R)) (k : ℕ)
    (W : Matrix (Fin V) (Fin V) R) :
    (L.modify (fun A => A + W) k).modify (fun A => A - W) k = L := by
  rw [List.modify_modify_eq]
  have hid : ((fun A : Matrix (Fin V) (Fin V) R => A - W) ∘ fun A => A + W) = id := by
    funext A
    simp
  rw [hid, List.modify_id]

/-- A rejected step of `stable.cpp` restores the field, the running log-weight and every
block. -/
theorem metropolis_rejected_restores (exp log : R → R) (dgesvd : Dgesvd R V V)
    (s : Simulation R V) (x : Fin V) (t : ℕ) (trial : R)
    (h : (Stable.metropolis exp log dgesvd s x t trial).1 = false) :
    (Stable.metropolis exp log dgesvd s x t trial).2.diagonals = s.diagonals ∧
      (Stable.metropolis exp log dgesvd s x t trial).2.plog = s.plog ∧
      (Stable.metropolis exp log dgesvd s x t trial).2.slices = s.slices := by
  rw [metropolis_rejected exp log dgesvd s x t trial h]
  refine ⟨?_, ?_, ?_⟩
  · show Function.update (Stable.proposal exp log s x t).diagonals t
        (Function.update ((Stable.proposal exp log s x t).diagonals t) x
          (-((Stable.proposal exp log s x t).diagonals t x))) = s.diagonals
    rw [proposal_diagonals]
    exact update_update_neg_neg s.diagonals t x
  · show (Stable.proposal exp log s x t).plog = s.plog
    exact proposal_plog exp log s x t
  · show (Stable.proposal exp log s x t).slices.modify
        (fun A => A - vecMulVec (Stable.proposal exp log s x t).cache.u_smart
          (Stable.proposal exp log s x t).cache.v_smart)
        (t / (Stable.proposal exp log s x t).mslices) = s.slices
    rw [proposal_slices, (proposal_cache_smart exp log s x t).1,
      (proposal_cache_smart exp log s x t).2, (proposal_setup exp log s x t).2.1]
    exact modify_add_sub _ _ _

theorem flip_setup (ix : RowIndex R V) (s : Simulation R V) (t : ℕ) (x : Fin V) :
    (flip ix s t x).SameSetup s :=
  ⟨rfl, rfl, rfl, rfl, rfl, rfl, rfl, rfl, rfl⟩

theorem make_slices_setup (ix : RowIndex R V) (hfr : ix.Framed) (s : Simulation R V) :
    (make_slices ix s).SameSetup s := by
  have h := make_slices_eq ix hfr s
  refine ⟨?_, ?_, ?_, ?_, ?_, ?_, ?_, ?_, ?_⟩ <;> rw [h]

/-- The log-weight of a rebuilt factorisation depends on the blocks, on `msvd` and on the
parameters `beta`, `B`, `mu` only. -/
theorem rebuild_weight_congr (exp log : R → R) (dgesvd : Dgesvd R V V) (a b : Simulation R V)
    (hsl : a.slices = b.slices) (hset : a.SameSetup b) :
    svd_probability log (make_density_matrices exp dgesvd (make_svd dgesvd a))
      = svd_probability log (make_density_matrices exp dgesvd (make_svd dgesvd b)) := by
  obtain ⟨-, -, -, -, -, hmsvd, hbeta, hB, hmu⟩ := hset
  simp only [svd_probability, make_density_matrices, make_svd, Simulation.lambdaA,
    Simulation.lambdaB, hsl, hmsvd, hbeta, hB, hmu]

theorem metropolis_setup (exp log : R → R) (dgesvd : Dgesvd R V V) (s : Simulation R V)
    (x : Fin V) (t : ℕ) (trial : R) :
    (Stable.metropolis exp log dgesvd s x t trial).2.SameSetup s := by
  have h3 : (make_density_matrices exp dgesvd
      (make_svd dgesvd (Stable.proposal exp log s x t))).SameSetup s :=
    (rebuild_setup exp dgesvd _).trans (proposal_setup exp log s x t)
  cases hb : (Stable.metropolis exp log dgesvd s x t trial).1 with
  | true =>
    rw [metropolis_accepted exp log dgesvd s x t trial hb]
    exact h3
  | false =>
    rw [metropolis_rejected exp log dgesvd s x t trial hb]
    exact (flip_setup Stable.rowIndex _ t x).trans h3

/-- One `metropolis` step of `stable.cpp` keeps the running log-weight equal to the one of
a full rebuild, whether the move is accepted or rejected. -/
theorem metropolis_weightTracked (exp log : R → R) (dgesvd : Dgesvd R V V)
    (s : Simulation R V) (x : Fin V) (t : ℕ) (trial : R) (ht : t < s.N)
    (hP : s.propagatorᵀ = s.propagator) (hinv : Stable.WeightTracked exp log dgesvd s) :
    Stable.WeightTracked exp log dgesvd (Stable.metropolis exp log dgesvd s x t trial).2 := by
  have hfr : (Stable.rowIndex : RowIndex R V).Framed := direct_rowIndex_framed
  obtain ⟨hm, hcur, hplog⟩ := hinv
  have hset := metropolis_setup exp log dgesvd s x t trial
  have hm' : 1 ≤ (Stable.metropolis exp log dgesvd s x t trial).2.mslices := by
    rw [hset.2.1]
    exact hm
  cases hb : (Stable.metropolis exp log dgesvd s x t trial).1 with
  | true =>
    have hst := metropolis_accepted exp log dgesvd s x t trial hb
    have hd : (Stable.metropolis exp log dgesvd s x t trial).2.diagonals
        = (flip Stable.rowIndex s t x).diagonals := by
      rw [hst]
      exact proposal_diagonals exp log s x t
    have hsl : (Stable.metropolis exp log dgesvd s x t trial).2.slices
        = (Stable.proposal exp log s x t).slices := by
      rw [hst]
      rfl
    have hpl : (Stable.metropolis exp log dgesvd s x t trial).2.plog
        = svd_probability log (make_density_matrices exp dgesvd
            (make_svd dgesvd (Stable.proposal exp log s x t))) := by
      rw [hst]
    have hfl := make_slices_flip_modify Stable.rowIndex hfr s x t hm ht hP (fun j _ h => h)
    rw [hcur, ← proposal_slices exp log s x t] at hfl
    have hsf := flip_setup Stable.rowIndex s t x
    have hcong : (make_slices Stable.rowIndex
          (Stable.metropolis exp log dgesvd s x t trial).2).slices
        = (make_slices Stable.rowIndex (flip Stable.rowIndex s t x)).slices :=
      make_slices_slices_congr Stable.rowIndex hfr (flip Stable.rowIndex s t x) _
        (hset.1.trans hsf.1.symm) (hset.2.1.trans hsf.2.1.symm)
        (hset.2.2.1.trans hsf.2.2.1.symm) (hset.2.2.2.1.trans hsf.2.2.2.1.symm) hd
        (hset.2.2.2.2.1.trans hsf.2.2.2.2.1.symm)
    have hcur' : (make_slices Stable.rowIndex
          (Stable.metropolis exp log dgesvd s x t trial).2).slices
        = (Stable.metropolis exp log dgesvd s x t trial).2.slices := by
      rw [hcong, hfl, hsl]
    refine ⟨hm', hcur', ?_⟩
    rw [hpl]
    apply rebuild_weight_congr
    · rw [hcur', hsl]
    · exact (proposal_setup exp log s x t).trans
        ((hset.symm_of).trans (make_slices_setup Stable.rowIndex hfr _).symm_of)
  | false =>
    obtain ⟨hd, hpl, hsl⟩ := metropolis_rejected_restores exp log dgesvd s x t trial hb
    have hcong : (make_slices Stable.rowIndex
          (Stable.metropolis exp log dgesvd s x t trial).2).slices
        = (make_slices Stable.rowIndex s).slices :=
      make_slices_slices_congr Stable.rowIndex hfr s _ hset.1 hset.2.1 hset.2.2.1
        hset.2.2.2.1 hd hset.2.2.2.2.1
    refine ⟨hm', by rw [hcong, hcur, hsl], ?_⟩
    rw [hpl, hplog]
    apply rebuild_weight_congr
    · rw [hcong]
    · exact ((make_slices_setup Stable.rowIndex hfr s).trans
        ((hset.symm_of).trans (make_slices_setup Stable.rowIndex hfr _).symm_of))

theorem metropolis_loop_weightTracked (exp log : R → R) (dgesvd : Dgesvd R V V)
    (draws : ℕ → Fin V × ℕ × R) (c i : ℕ) (s : Simulation R V)
    (hdraws : ∀ j, (draws j).2.1 < s.N) (hP : s.propagatorᵀ = s.propagator)
    (hinv : Stable.WeightTracked exp log dgesvd s) :
    Stable.WeightTracked exp log dgesvd (Stable.metropolis_loop exp log dgesvd draws c i s) := by
  induction c generalizing i s with
  | zero => exact hinv
  | succ c ih =>
    rw [Stable.metropolis_loop]
    have hset := metropolis_setup exp log dgesvd s (draws i).1 (draws i).2.1 (draws i).2.2
    apply ih
    · intro j
      rw [hset.1]
      exact hdraws j
    · rw [hset.2.2.1]
      exact hP
    · exact metropolis_weightTracked exp log dgesvd s _ _ _ (hdraws i) hP hinv

/-- The state that `compute_U_s` leaves carries the log-weight of its own full rebuild. -/
theorem compute_U_s_weightTracked (exp log : R → R) (dgesvd : Dgesvd R V V)
    (s : Simulation R V) (hN : 1 ≤ s.N) :
    Stable.WeightTracked exp log dgesvd (Stable.compute_U_s exp log dgesvd s) ∧
      (Stable.compute_U_s exp log dgesvd s).N = s.N ∧
      (Stable.compute_U_s exp log dgesvd s).propagator = s.propagator := by
  have hfr : (Stable.rowIndex : RowIndex R V).Framed := direct_rowIndex_framed
  have hs1 : ∃ s1 : Simulation R V, 1 ≤ s1.mslices ∧ s1.N = s.N ∧
      s1.propagator = s.propagator ∧
      Stable.compute_U_s exp log dgesvd s
        = { make_density_matrices exp dgesvd
              (make_svd dgesvd (make_slices Stable.rowIndex s1)) with
            plog := svd_probability log (make_density_matrices exp dgesvd
              (make_svd dgesvd (make_slices Stable.rowIndex s1))) } := by
    refine ⟨{ s with mslices := if s.mslices > 0 then s.mslices else s.N }, ?_, rfl, rfl, rfl⟩
    show 1 ≤ (if s.mslices > 0 then s.mslices else s.N)
    split_ifs <;> omega
  obtain ⟨s1, hm, hN1, hP1, heq⟩ := hs1
  have hms := make_slices_setup Stable.rowIndex hfr s1
  have hset : (Stable.compute_U_s exp log dgesvd s).SameSetup (make_slices Stable.rowIndex s1) := by
    rw [heq]
    exact rebuild_setup exp dgesvd _
  have hd : (Stable.compute_U_s exp log dgesvd s).diagonals = s1.diagonals := by
    rw [heq]
    show (make_slices Stable.rowIndex s1).diagonals = s1.diagonals
    rw [make_slices_eq Stable.rowIndex hfr s1]
  have hsl : (Stable.compute_U_s exp log dgesvd s).slices
      = (make_slices Stable.rowIndex s1).slices := by
    rw [heq]
    rfl
  have hpl : (Stable.compute_U_s exp log dgesvd s).plog
      = svd_probability log (make_density_matrices exp dgesvd
          (make_svd dgesvd (make_slices Stable.rowIndex s1))) := by
    rw [heq]
  have hset1 := hset.trans hms
  have hcong : (make_slices Stable.rowIndex (Stable.compute_U_s exp log dgesvd s)).slices
      = (make_slices Stable.rowIndex s1).slices :=
    make_slices_slices_congr Stable.rowIndex hfr s1 _ hset1.1 hset1.2.1 hset1.2.2.1
      hset1.2.2.2.1 hd hset1.2.2.2.2.1
  refine ⟨⟨?_, ?_, ?_⟩, hset1.1.trans hN1, hset1.2.2.1.trans hP1⟩
  · rw [hset1.2.1]
    exact hm
  · rw [hcong, hsl]
  · rw [hpl]
    apply rebuild_weight_congr
    · rw [hcong]
    · exact (make_slices_setup Stable.rowIndex hfr _).trans hset |>.symm_of

/-- For a state that tracks its weight, `compute_U_s` assigns the `plog` already held. -/
theorem compute_U_s_plog_of_weightTracked (exp log : R → R) (dgesvd : Dgesvd R V V)
    (s : Simulation R V) (hinv : Stable.WeightTracked exp log dgesvd s) :
    (Stable.compute_U_s exp log dgesvd s).plog = s.plog := by
  rw [compute_U_s_eq exp log dgesvd s hinv.1, hinv.2.2]

/-- An accepted step leaves a consistent factorisation: when the decompositions called on
the proposal are singular value decompositions, `svd` represents the product of the blocks
now in `slices`, and `svdA`, `svdB` represent `1 + lambda * product`. -/
theorem metropolis_accepted_consistent (exp log : R → R) (dgesvd : Dgesvd R V V)
    (s : Simulation R V) (x : Fin V) (t : ℕ) (trial : R)
    (hacc : (Stable.metropolis exp log dgesvd s x t trial).1 = true)
    (hre : (Stable.proposal exp log s x t).RebuildExact exp dgesvd) :
    (Stable.metropolis exp log dgesvd s x t trial).2.svd.matrix
        = (Stable.metropolis exp log dgesvd s x t trial).2.slices.reverse.prod ∧
      (Stable.metropolis exp log dgesvd s x t trial).2.svdA.matrix
        = 1 + (Stable.metropolis exp log dgesvd s x t trial).2.lambdaA exp
            • (Stable.metropolis exp log dgesvd s x t trial).2.slices.reverse.prod ∧
      (Stable.metropolis exp log dgesvd s x t trial).2.svdB.matrix
        = 1 + (Stable.metropolis exp log dgesvd s x t trial).2.lambdaB exp
            • (Stable.metropolis exp log dgesvd s x t trial).2.slices.reverse.prod := by
  have hcons := rebuild_consistent (Stable.proposal exp log s x t) exp dgesvd hre
  have hmat : (make_svd dgesvd (Stable.proposal exp log s x t)).svd.matrix
      = (Stable.proposal exp log s x t).slices.reverse.prod :=
    make_svd_of_matrix dgesvd _ _
      (make_svd_calls_mono dgesvd _ _ (fun _ h => h.1) _ _ _ _ _ hre.1)
  rw [metropolis_accepted exp log dgesvd s x t trial hacc]
  exact ⟨hmat, hcons.1.2.1, hcons.2.2.1⟩

end metropolis_lemmas

/-! ## The bins of a `measurement` -/

section meas_lemmas

variable {R : Type} [Field R]

open measurement

theorem pairMeans_length (ys : List R) : (pairMeans ys).length = ys.length / 2 := by
  induction ys using pairMeans.induct with
  | case1 a b rest ih =>
    simp only [pairMeans, List.length_cons, ih]
    omega
  | case2 ys h =>
    match ys, h with
    | [], _ => simp [pairMeans]
    | [a], _ => simp [pairMeans]
    | a :: b :: rest, h => exact absurd rfl (h a b rest)

theorem pairMeans_append_singleton (ys : List R) (x : R) :
    pairMeans (ys ++ [x])
      = if ys.length % 2 = 0 then pairMeans ys
        else pairMeans ys ++ [(x + ys.getLast?.getD 0) / 2] := by
  induction ys using pairMeans.induct with
  | case1 a b rest ih =>
    have e1 : pairMeans (a :: b :: rest ++ [x]) = (b + a) / 2 :: pairMeans (rest ++ [x]) := rfl
    have e2 : pairMeans (a :: b :: rest) = (b + a) / 2 :: pairMeans rest := rfl
    have e : (a :: b :: rest).length % 2 = rest.length % 2 := by
      simp only [List.length_cons]
      omega
    rw [e1, e2, ih, e]
    split_ifs with h
    · rfl
    · have hne : rest ≠ [] := by
        intro h0
        rw [h0] at h
        simp at h
      have hl : (a :: b :: rest).getLast? = rest.getLast? := by
        cases rest with
        | nil => exact absurd rfl hne
        | cons c r => simp [List.getLast?_cons_cons]
      rw [hl]
      rfl
  | case2 ys h =>
    match ys, h with
    | [], _ => simp [pairMeans]
    | [a], _ => simp [pairMeans]
    | a :: b :: rest, h => exact absurd rfl (h a b rest)

theorem int_wrap_of_lt (z : ℤ) (h0 : 0 ≤ z) (h1 : z < 2 ^ 31) : int_wrap z = z := by
  unfold int_wrap
  omega

theorem tmod_natCast_two (n : ℕ) : Int.tmod (n : ℤ) 2 = ((n % 2 : ℕ) : ℤ) := by
  rw [Int.tmod_eq_emod (Int.natCast_nonneg n) (by norm_num)]
  omega

theorem step_fresh (nx : R) :
    step nx (fresh : Bin R) = ({ sum := nx, squared_sum := nx * nx, x := nx, n := 1 }, none) := by
  have h1 : int_wrap 1 = 1 := by
    unfold int_wrap
    norm_num
  have h2 : Int.tmod 1 2 = 1 := by decide
  simp [step, fresh, h1, h2]

/-- The bin that `add` leaves from a bin that has counted `k` samples, below the range of
the counter: one more sample, and the value is kept or handed on by the parity. -/
theorem step_counted (x : R) (b : Bin R) (k : ℕ) (hk : 1 ≤ k) (hmax : k + 1 < 2 ^ 31)
    (hn : b.n = (k : ℤ)) :
    step x b
      = if (k + 1) % 2 = 1 then
          ((⟨b.sum + x, b.squared_sum + x * x, x, ((k + 1 : ℕ) : ℤ)⟩ : Bin R), none)
        else
          ((⟨b.sum + x, b.squared_sum + x * x, (x + b.x) / 2, ((k + 1 : ℕ) : ℤ)⟩ : Bin R),
            some ((x + b.x) / 2)) := by
  have hpos : b.n ≠ 0 := by
    rw [hn]
    exact_mod_cast (show k ≠ 0 by omega)
  have hw : int_wrap (b.n + 1) = ((k + 1 : ℕ) : ℤ) := by
    rw [hn, int_wrap_of_lt _ (by positivity) (by exact_mod_cast hmax)]
    push_cast
    rfl
  have ht : Int.tmod (((k + 1 : ℕ) : ℤ)) 2 = 1 ↔ (k + 1) % 2 = 1 := by
    rw [tmod_natCast_two]
    exact_mod_cast Iff.rfl
  by_cases hodd : (k + 1) % 2 = 1
  · simp only [step, if_neg hpos, hw, if_pos (ht.mpr hodd), if_pos hodd]
  · simp only [step, if_neg hpos, hw, if_neg (fun h => hodd (ht.mp h)), if_neg hodd]

theorem tracks_add_loop (bs : List (Bin R)) (ys : List R) (x : R) (h : Tracks bs ys)
    (hmax : ys.length + 1 < 2 ^ 31) :
    Tracks (add_loop false x bs) (ys ++ [x]) := by
  induction bs generalizing ys x with
  | nil =>
    have hy : ys = [] := h
    subst hy
    simp [add_loop, step_fresh, Tracks, pairMeans]
  | cons b rest ih =>
    obtain ⟨hne, hn, hsum, hsq, hx, hrest⟩ := h
    have hk : 1 ≤ ys.length := List.length_pos.mpr hne
    have hst := step_counted x b ys.length hk hmax hn
    have hmax' : (pairMeans ys).length + 1 < 2 ^ 31 := by
      rw [pairMeans_length]
      omega
    by_cases hodd : (ys.length + 1) % 2 = 1
    · rw [if_pos hodd] at hst
      have heven : ys.length % 2 = 0 := by omega
      simp only [add_loop, hst, Tracks]
      refine ⟨by simp, by simp, by simp [hsum], by simp [hsq], fun _ => by simp, ?_⟩
      rw [pairMeans_append_singleton, if_pos heven]
      exact hrest
    · rw [if_neg hodd] at hst
      have hoddy : ys.length % 2 = 1 := by omega
      have hlast := hx hoddy
      simp only [add_loop, hst, Tracks]
      refine ⟨by simp, by simp, by simp [hsum], by simp [hsq], ?_, ?_⟩
      · intro h1
        simp only [List.length_append, List.length_singleton] at h1
        omega
      · rw [pairMeans_append_singleton, if_neg (by omega), hlast]
        exact ih _ _ hrest hmax'

theorem tracks_foldl_add (xs : List R) (hmax : xs.length < 2 ^ 31) :
    Tracks (xs.foldl (add false) []) xs := by
  induction xs using List.reverseRecOn with
  | nil => rfl
  | append_singleton l a ih =>
    have hl : l.length + 1 < 2 ^ 31 := by
      simpa [List.length_append] using hmax
    rw [List.foldl_append]
    exact tracks_add_loop _ _ a (ih (by omega)) hl

theorem tracks_getElem? (bs : List (Bin R)) (ys : List R) (i : ℕ) (b : Bin R)
    (h : Tracks bs ys) (hb : bs[i]? = some b) :
    b.n = ((pairMeans^[i] ys).length : ℤ) ∧ b.sum = (pairMeans^[i] ys).sum ∧
      b.squared_sum = ((pairMeans^[i] ys).map (fun y => y * y)).sum := by
  induction bs generalizing ys i with
  | nil => simp at hb
  | cons b0 rest ih =>
    obtain ⟨-, hn, hsum, hsq, -, hrest⟩ := h
    cases i with
    | zero =>
      simp only [List.getElem?_cons_zero, Option.some.injEq] at hb
      subst hb
      exact ⟨hn, hsum, hsq⟩
    | succ i =>
      simp only [List.getElem?_cons_succ] at hb
      have := ih (pairMeans ys) i hrest hb
      simpa [Function.iterate_succ_apply] using this

theorem iterate_pairMeans_length (ys : List R) (i : ℕ) :
    (pairMeans^[i] ys).length = ys.length / 2 ^ i := by
  induction i generalizing ys with
  | zero => simp
  | succ i ih =>
    rw [Function.iterate_succ_apply, ih, pairMeans_length, Nat.div_div_eq_div_mul, pow_succ']

theorem tracks_length (bs : List (Bin R)) (ys : List R) (h : Tracks bs ys) :
    bs.length = if ys.length = 0 then 0 else Nat.log 2 ys.length + 1 := by
  induction bs generalizing ys with
  | nil =>
    have hy : ys = [] := h
    simp [hy]
  | cons b rest ih =>
    obtain ⟨hne, -, -, -, -, hrest⟩ := h
    have hr := ih _ hrest
    have hpos : 0 < ys.length := List.length_pos.mpr hne
    rw [List.length_cons, hr, pairMeans_length]
    have hR : (if ys.length = 0 then 0 else Nat.log 2 ys.length + 1)
        = Nat.log 2 ys.length + 1 := if_neg (by omega)
    rw [hR]
    by_cases h2 : ys.length < 2
    · have h0 : ys.length / 2 = 0 := by omega
      rw [if_pos h0, Nat.log_of_lt h2]
    · have h0 : ¬ ys.length / 2 = 0 := by omega
      rw [if_neg h0, Nat.log_of_one_lt_of_le (by decide : 1 < 2) (show 2 ≤ ys.length by omega)]

theorem list_sum_eq_sum_range (L : List R) (f : R → R) (d : R) :
    (L.map f).sum = ∑ j in Finset.range L.length, f (L.getD j d) := by
  induction L with
  | nil => simp
  | cons a t ih =>
    rw [List.map_cons, List.sum_cons, List.length_cons, Finset.sum_range_succ', ih]
    simp [add_comm]

theorem pairMeans_getD (ys : List R) (j : ℕ) (hj : j < ys.length / 2) :
    (pairMeans ys).getD j 0 = (ys.getD (2 * j + 1) 0 + ys.getD (2 * j) 0) / 2 := by
  induction ys using pairMeans.induct generalizing j with
  | case1 a b rest ih =>
    have e2 : pairMeans (a :: b :: rest) = (b + a) / 2 :: pairMeans rest := rfl
    rw [e2]
    cases j with
    | zero => simp
    | succ j =>
      have hj' : j < rest.length / 2 := by
        simp only [List.length_cons] at hj
        omega
      have e3 : 2 * (j + 1) + 1 = (2 * j + 1) + 1 + 1 := by ring
      have e4 : 2 * (j + 1) = (2 * j) + 1 + 1 := by ring
      rw [e3, e4]
      simp only [List.getD_cons_succ]
      exact ih j hj'
  | case2 ys h =>
    match ys, h with
    | [], _ => simp at hj
    | [a], _ =>
      simp only [List.length_singleton] at hj
      omega
    | a :: b :: rest, h => exact absurd rfl (h a b rest)

theorem iterate_pairMeans_getD (ys : List R) (i j : ℕ) (hj : j < ys.length / 2 ^ i) :
    (pairMeans^[i] ys).getD j 0 = blockMean ys i j := by
  induction i generalizing j with
  | zero => simp [blockMean]
  | succ i ih =>
    have hdiv : ys.length / 2 ^ (i + 1) = ys.length / 2 ^ i / 2 := by
      rw [Nat.div_div_eq_div_mul, pow_succ]
    rw [hdiv] at hj
    rw [Function.iterate_succ_apply', pairMeans_getD _ _ (by rw [iterate_pairMeans_length]; exact hj),
      ih (2 * j + 1) (by omega), ih (2 * j) (by omega)]
    simp only [blockMean]
    have hsplit : ∑ l in Finset.range (2 ^ (i + 1)), ys.getD (j * 2 ^ (i + 1) + l) 0
        = ∑ l in Finset.range (2 ^ i), ys.getD (2 * j * 2 ^ i + l) 0
          + ∑ l in Finset.range (2 ^ i), ys.getD ((2 * j + 1) * 2 ^ i + l) 0 := by
      have e : 2 ^ (i + 1) = 2 ^ i + 2 ^ i := by ring
      rw [e, Finset.sum_range_add]
      congr 1
      · apply Finset.sum_congr rfl
        intro l _
        congr 1
        ring
      · apply Finset.sum_congr rfl
        intro l _
        congr 1
        ring
    rw [hsplit, ← add_div, div_div, pow_succ, add_comm]

/-- What the bin with index `i` holds after the values `xs` were added to an empty
`measurement<T, false>`. -/
theorem add_bin_contents (xs : List R) (hmax : xs.length < 2 ^ 31) (i : ℕ) (b : Bin R)
    (hb : (xs.foldl (add false) [])[i]? = some b) :
    b.n = ((xs.length / 2 ^ i : ℕ) : ℤ) ∧
      b.sum = ∑ j in Finset.range (xs.length / 2 ^ i), blockMean xs i j ∧
      b.squared_sum
        = ∑ j in Finset.range (xs.length / 2 ^ i), blockMean xs i j * blockMean xs i j := by
  obtain ⟨hn, hsum, hsq⟩ := tracks_getElem? _ _ i b (tracks_foldl_add xs hmax) hb
  have hlen := iterate_pairMeans_length xs i
  refine ⟨by rw [hn, hlen], ?_, ?_⟩
  · have h1 := list_sum_eq_sum_range (pairMeans^[i] xs) (fun y => y) 0
    rw [List.map_id'] at h1
    rw [hsum, h1, hlen]
    apply Finset.sum_congr rfl
    intro j hj
    exact iterate_pairMeans_getD xs i j (Finset.mem_range.mp hj)
  · rw [hsq, list_sum_eq_sum_range (pairMeans^[i] xs) (fun y => y * y) 0, hlen]
    apply Finset.sum_congr rfl
    intro j hj
    rw [iterate_pairMeans_getD xs i j (Finset.mem_range.mp hj)]

theorem add_bins (xs : List R) (hk : 1 ≤ xs.length) (hmax : xs.length < 2 ^ 31) :
    (xs.foldl (add false) []).length = Nat.log 2 xs.length + 1 := by
  rw [tracks_length _ _ (tracks_foldl_add xs hmax), if_neg (by omega)]

theorem blockMean_zero (xs : List R) (j : ℕ) : blockMean xs 0 j = xs.getD j 0 := by
  simp [blockMean]

theorem step_fst (x : R) (b : Bin R) :
    (step x b).1.n = int_wrap (b.n + 1) ∧
      (step x b).1.sum = if b.n = 0 then x else b.sum + x := by
  unfold step
  by_cases h0 : b.n = 0
  · simp only [if_pos h0]
    split_ifs <;> exact ⟨rfl, rfl⟩
  · simp only [if_neg h0]
    split_ifs <;> exact ⟨rfl, rfl⟩

theorem add_loop_cons_head (Log : Bool) (x : R) (b : Bin R) (rest : List (Bin R)) :
    ∃ tl, add_loop Log x (b :: rest) = (step x b).1 :: tl := by
  rcases h : step x b with ⟨b', o⟩
  cases o with
  | none => exact ⟨rest, by simp only [add_loop, h]⟩
  | some nx => exact ⟨add_loop Log nx rest, by simp only [add_loop, h]⟩

/-- The first bin after one more value than the counter `n_[0]` can count: the counter has
wrapped to the least `int`, the sum is still the sum of all values. -/
theorem add_overflow (xs : List R) (x : R) (hlen : xs.length = 2 ^ 31 - 1) :
    ∃ b tl, (xs ++ [x]).foldl (add false) [] = b :: tl ∧ b.n = -2 ^ 31 ∧
      b.sum = xs.sum + x := by
  have ht := tracks_foldl_add xs (by omega)
  cases hm : xs.foldl (add false) [] with
  | nil =>
    rw [hm] at ht
    have hx : xs = [] := ht
    rw [hx] at hlen
    simp at hlen
  | cons b0 rest0 =>
    rw [hm] at ht
    obtain ⟨hne, hn, hsum, -, -, -⟩ := ht
    obtain ⟨tl, htl⟩ := add_loop_cons_head false x b0 rest0
    have hpos : b0.n ≠ 0 := by
      rw [hn]
      exact_mod_cast (show xs.length ≠ 0 by omega)
    refine ⟨(step x b0).1, tl, ?_, ?_, ?_⟩
    · rw [List.foldl_append, hm]
      exact htl
    · rw [(step_fst x b0).1, hn, hlen]
      unfold int_wrap
      norm_num
    · rw [(step_fst x b0).2, if_neg hpos, hsum]

end meas_lemmas

/-! ## Well-formed factorisations -/

section wellformed_lemmas

variable {R : Type} [LinearOrderedField R] {N : ℕ}

/-- Multiplying the outer factors of an orthogonal factorisation by those of another one,
as `add_identity`, `rank1_update` and `add_svd` do, gives orthogonal factors. -/
theorem SVDHelper.isOrthogonal_compose (h r : SVDHelper R N N N)
    (ho : h.IsOrthogonal) (hr : r.IsOrthogonal) :
    ({ U := h.U * r.U, S := r.S, Vt := r.Vt * h.Vt } : SVDHelper R N N N).IsOrthogonal := by
  obtain ⟨h1, h2, h3, h4⟩ := ho
  obtain ⟨r1, r2, r3, r4⟩ := hr
  refine ⟨?_, ?_, ?_, ?_⟩
  · show h.U * r.U * (h.U * r.U)ᵀ = 1
    rw [Matrix.transpose_mul, Matrix.mul_assoc, ← Matrix.mul_assoc r.U, r1, Matrix.one_mul, h1]
  · show (h.U * r.U)ᵀ * (h.U * r.U) = 1
    rw [Matrix.transpose_mul, Matrix.mul_assoc, ← Matrix.mul_assoc h.Uᵀ, h2, Matrix.one_mul, r2]
  · show r.Vt * h.Vt * (r.Vt * h.Vt)ᵀ = 1
    rw [Matrix.transpose_mul, Matrix.mul_assoc, ← Matrix.mul_assoc h.Vt, h3, Matrix.one_mul, r3]
  · show (r.Vt * h.Vt)ᵀ * (r.Vt * h.Vt) = 1
    rw [Matrix.transpose_mul, Matrix.mul_assoc, ← Matrix.mul_assoc r.Vtᵀ, r4, Matrix.one_mul, h4]

theorem SVDHelper.wellFormed_setIdentity : (SVDHelper.setIdentity N : SVDHelper R N N N).WellFormed := by
  refine ⟨?_, fun _ => zero_le_one, fun _ _ _ => le_refl _⟩
  simp [SVDHelper.IsOrthogonal, SVDHelper.setIdentity]

theorem SVDHelper.wellFormed_compose (dgesvd : Dgesvd R N N) (h : SVDHelper R N N N)
    (A : Matrix (Fin N) (Fin N) R) (hwf : h.WellFormed) (hcall : dgesvd.SortedSVDAt A) :
    ({ U := h.U * (dgesvd A).U, S := (dgesvd A).S, Vt := (dgesvd A).Vt * h.Vt } :
      SVDHelper R N N N).WellFormed :=
  ⟨SVDHelper.isOrthogonal_compose h (dgesvd A) hwf.1 hcall.1.2.1, hcall.1.2.2, hcall.2⟩

theorem SVDHelper.wellFormed_absorbU (dgesvd : Dgesvd R N N) (h : SVDHelper R N N N)
    (hwf : h.WellFormed) (hcall : dgesvd.SortedSVDAt (h.U * diagonal h.S)) :
    (h.absorbU dgesvd).WellFormed := by
  obtain ⟨r1, r2, r3, r4⟩ := hcall.1.2.1
  obtain ⟨-, -, h3, h4⟩ := hwf.1
  refine ⟨⟨r1, r2, ?_, ?_⟩, hcall.1.2.2, hcall.2⟩
  · show (dgesvd (h.U * diagonal h.S)).Vt * h.Vt * ((dgesvd (h.U * diagonal h.S)).Vt * h.Vt)ᵀ = 1
    rw [Matrix.transpose_mul, Matrix.mul_assoc, ← Matrix.mul_assoc h.Vt, h3, Matrix.one_mul, r3]
  · show ((dgesvd (h.U * diagonal h.S)).Vt * h.Vt)ᵀ * ((dgesvd (h.U * diagonal h.S)).Vt * h.Vt) = 1
    rw [Matrix.transpose_mul, Matrix.mul_assoc,
      ← Matrix.mul_assoc (dgesvd (h.U * diagonal h.S)).Vtᵀ, r4, Matrix.one_mul, h4]

theorem SVDHelper.wellFormed_invertInPlace (h : SVDHelper R N N N) (hwf : h.WellFormed)
    (hpos : ∀ i, 0 < h.S i) : h.invertInPlace.WellFormed := by
  refine ⟨SVDHelper.isOrthogonal_invertInPlace h hwf.1, ?_, ?_⟩
  · intro i
    exact inv_nonneg.mpr (hwf.2.1 _)
  · intro i j hij
    show (h.S (Fin.rev j))⁻¹ ≤ (h.S (Fin.rev i))⁻¹
    exact inv_anti₀ (hpos _) (hwf.2.2 (Fin.rev_le_rev.mpr hij))

end wellformed_lemmas

/-! ## The status of the decomposition routine -/

section status_lemmas

variable {R : Type} [Field R] {m k n : ℕ}

/-- `check_info` never raises: it returns with the workspace re-reserved and nothing
written for status `0`, and with the workspace as it was and one line written otherwise. -/
theorem check_info_eq (info : ℤ) (work0 work : ℕ) :
    check_info info work0 work
      = Except.ok (status_work info work0 work, status_cerr info) := by
  unfold check_info status_work status_cerr Diagnostic.ofInfo
  by_cases h0 : info = 0
  · simp [h0]
  · by_cases h1 : info < 0
    · simp [h0, h1]
    · simp [h0, h1]

theorem status_cerr_neg (info : ℤ) (h : info < 0) :
    status_cerr info = [Diagnostic.error_at_argument (-info)] := by
  simp [status_cerr, Diagnostic.ofInfo, h, ne_of_lt h]

theorem status_cerr_pos (info : ℤ) (h : 0 < info) :
    status_cerr info = [Diagnostic.iteration_failed info] := by
  simp [status_cerr, Diagnostic.ofInfo, not_lt.mpr (le_of_lt h), ne_of_gt h]

theorem SVDHelper.absorbU_status_eq (dgesvd : DgesvdStatus R m k k) (h : SVDHelper R m k n)
    (work : ℕ) :
    h.absorbU_status dgesvd work
      = Except.ok
          { helper := h.absorbU (fun A => (dgesvd A).out)
            work := status_work (dgesvd (h.U * diagonal h.S)).info
              (dgesvd (h.U * diagonal h.S)).work0 (reserve (5 * min m k + max m k) work)
            cerr := status_cerr (dgesvd (h.U * diagonal h.S)).info } := by
  simp only [SVDHelper.absorbU_status, check_info_eq, SVDHelper.absorbU]
  rfl

theorem SVDHelper.absorbVt_le_status_eq (dgesvd : DgesvdStatus R k k n)
    (h : SVDHelper R m k n) (work : ℕ) :
    h.absorbVt_le_status dgesvd work
      = Except.ok
          { helper := h.absorbVt_le (fun A => (dgesvd A).out)
            work := status_work (dgesvd (diagonal h.S * h.Vt)).info
              (dgesvd (diagonal h.S * h.Vt)).work0 (reserve (5 * min k n + max k n) work)
            cerr := status_cerr (dgesvd (diagonal h.S * h.Vt)).info } := by
  simp only [SVDHelper.absorbVt_le_status, check_info_eq, SVDHelper.absorbVt_le]
  rfl

theorem SVDHelper.absorbVt_gt_status_eq (dgesvd : DgesvdStatus R k n n)
    (h : SVDHelper R m k n) (work : ℕ) :
    h.absorbVt_gt_status dgesvd work
      = Except.ok
          { helper := h.absorbVt_gt (fun A => (dgesvd A).out)
            work := status_work (dgesvd (diagonal h.S * h.Vt)).info
              (dgesvd (diagonal h.S * h.Vt)).work0 (reserve (5 * min k n + max k n) work)
            cerr := status_cerr (dgesvd (diagonal h.S * h.Vt)).info } := by
  simp only [SVDHelper.absorbVt_gt_status, check_info_eq, SVDHelper.absorbVt_gt]
  rfl

theorem SVDHelper.rank1_update_status_eq (dgesvd : DgesvdStatus R k k k)
    (h : SVDHelper R m k n) (u : Fin m → R) (v : Fin n → R) (lambda : R) (work : ℕ) :
    h.rank1_update_status dgesvd u v lambda work
      = Except.ok
          { helper := h.rank1_update (fun A => (dgesvd A).out) u v lambda
            work := status_work (dgesvd (h.rank1_update_other u v lambda)).info
              (dgesvd (h.rank1_update_other u v lambda)).work0 work
            cerr := status_cerr (dgesvd (h.rank1_update_other u v lambda)).info } := by
  simp only [SVDHelper.rank1_update_status, check_info_eq, SVDHelper.rank1_update]
  rfl

theorem SVDHelper.add_identity_status_eq (dgesvd : DgesvdStatus R k k k)
    (h : SVDHelper R n k n) (lambda : R) (work : ℕ) :
    h.add_identity_status dgesvd lambda work
      = Except.ok
          { helper := h.add_identity (fun A => (dgesvd A).out) lambda
            work := status_work (dgesvd (h.add_identity_other lambda)).info
              (dgesvd (h.add_identity_other lambda)).work0 (reserve (6 * k) work)
            cerr := status_cerr (dgesvd (h.add_identity_other lambda)).info } := by
  simp only [SVDHelper.add_identity_status, check_info_eq, SVDHelper.add_identity]
  rfl

theorem SVDHelper.add_svd_status_eq {l : ℕ} (dgesvd : DgesvdStatus R k k k)
    (h : SVDHelper R m k n) (s : SVDHelper R m l n) (work : ℕ) :
    h.add_svd_status dgesvd s work
      = Except.ok
          { helper := h.add_svd (fun A => (dgesvd A).out) s
            work := status_work (dgesvd (h.add_svd_other s)).info
              (dgesvd (h.add_svd_other s)).work0 work
            cerr := status_cerr (dgesvd (h.add_svd_other s)).info } := by
  simp only [SVDHelper.add_svd_status, check_info_eq, SVDHelper.add_svd]
  rfl

omit [Field R] in
theorem SVDHelper.thinSVD_status_eq (dgesvd : DgesvdStatus R m k n)
    (A : Matrix (Fin m) (Fin n) R) (work : ℕ) :
    SVDHelper.thinSVD_status dgesvd A work
      = Except.ok
          { helper := (dgesvd A).out
            work := status_work (dgesvd A).info (dgesvd A).work0
              (reserve (5 * min m n + max m n) work)
            cerr := status_cerr (dgesvd A).info } := by
  simp only [SVDHelper.thinSVD_status, check_info_eq]
  rfl

omit [Field R] in
theorem SVDHelper.inPlaceSVD_status_eq (tall wide : DgesvdStatus R m k n)
    (A : Matrix (Fin m) (Fin n) R) (work : ℕ) :
    SVDHelper.inPlaceSVD_status tall wide A work
      = Except.ok
          { helper := (if m > n then tall A else wide A).out
            work := status_work (if m > n then tall A else wide A).info
              (if m > n then tall A else wide A).work0 (reserve (5 * min m n + max m n) work)
            cerr := status_cerr (if m > n then tall A else wide A).info } := by
  simp only [SVDHelper.inPlaceSVD_status, check_info_eq]
  rfl

omit [Field R] in
theorem fullSVD_status_eq (dgesvd : Matrix (Fin m) (Fin n) R → ℤ × ℕ × FullFactors R m n)
    (A : Matrix (Fin m) (Fin n) R) (work : ℕ) :
    fullSVD_status dgesvd A work
      = Except.ok ((dgesvd A).2.2,
          status_work (dgesvd A).1 (dgesvd A).2.1 (reserve (5 * min m n + max m n) work),
          status_cerr (dgesvd A).1) := by
  simp only [fullSVD_status, check_info_eq]
  rfl

end status_lemmas

section slice_lemmas

variable {R : Type} [LinearOrderedField R] {n : ℕ}

theorem Slice.matrix_loop_mul (md : Model R n) (hmd : md.ActsOnTheLeft)
    (L : List (Vertex R)) (t0 : R) (M : Matrix (Fin n) (Fin n) R) :
    Slice.matrix_loop md L t0 M
      = ((Slice.matrix_loop md L t0 1).1, (Slice.matrix_loop md L t0 1).2 * M) := by
  induction L generalizing t0 M with
  | nil => simp [Slice.matrix_loop]
  | cons v rest ih =>
    simp only [Slice.matrix_loop]
    rw [ih v.tau (md.apply_vertex_on_the_left v _),
      ih v.tau (md.apply_vertex_on_the_left v (if v.tau > t0 then _ else (1 : Matrix _ _ R)))]
    refine Prod.ext rfl ?_
    show _ * _ = _ * _ * M
    rw [Matrix.mul_assoc]
    congr 1
    rw [hmd.2.1 v, hmd.2.1 v (if v.tau > t0 then _ else (1 : Matrix _ _ R)), Matrix.mul_assoc]
    congr 1
    split_ifs
    · rw [hmd.1, hmd.1 _ 1, Matrix.mul_one]
    · rw [Matrix.one_mul]

theorem Slice.inverse_loop_append (md : Model R n) (L : List (Vertex R)) (v : Vertex R)
    (t0 : R) (M : Matrix (Fin n) (Fin n) R) :
    Slice.inverse_loop md (L ++ [v]) t0 M
      = (v.tau, md.apply_inverse_on_the_left v
          (if v.tau < (Slice.inverse_loop md L t0 M).1
            then md.propagate (v.tau - (Slice.inverse_loop md L t0 M).1)
              (Slice.inverse_loop md L t0 M).2
            else (Slice.inverse_loop md L t0 M).2)) := by
  induction L generalizing t0 M with
  | nil => simp [Slice.inverse_loop]
  | cons w rest ih =>
    simp only [List.cons_append, Slice.inverse_loop]
    exact ih _ _

/-- The matrix that a conditional call of `propagate` leaves, when the time step is not
negative. -/
theorem propagate_cond (md : Model R n) (hmd : md.ActsOnTheLeft)
    (h0 : ∀ M, md.propagate 0 M = M) (a b : R) (hab : a ≤ b) (M : Matrix (Fin n) (Fin n) R) :
    (if b > a then md.propagate (b - a) M else M) = md.propagate (b - a) 1 * M := by
  split_ifs with h
  · exact hmd.1 _ _
  · have : b = a := le_antisymm (not_lt.mp h) hab
    rw [this, sub_self, h0, Matrix.one_mul]

theorem propagate_cond_neg (md : Model R n) (hmd : md.ActsOnTheLeft)
    (h0 : ∀ M, md.propagate 0 M = M) (a b : R) (hab : a ≤ b) (M : Matrix (Fin n) (Fin n) R) :
    (if a < b then md.propagate (a - b) M else M) = md.propagate (a - b) 1 * M := by
  split_ifs with h
  · exact hmd.1 _ _
  · have : b = a := le_antisymm (not_lt.mp h) hab
    rw [this, sub_self, h0, Matrix.one_mul]

theorem propagate_mul (md : Model R n) (hmd : md.ActsOnTheLeft)
    (hadd : ∀ s t M, md.propagate s (md.propagate t M) = md.propagate (s + t) M) (s t : R) :
    md.propagate s 1 * md.propagate t 1 = md.propagate (s + t) 1 := by
  rw [← hmd.1, hadd]

/-- Between the times `a` and `b`, the product that `Slice::inverse` builds is a left inverse
of the product that `Slice::matrix` builds. -/
theorem Slice.loops_inverse (md : Model R n) (hmd : md.ActsOnTheLeft)
    (h0 : ∀ M, md.propagate 0 M = M)
    (hadd : ∀ s t M, md.propagate s (md.propagate t M) = md.propagate (s + t) M)
    (L : List (Vertex R)) (b : R)
    (hinv : ∀ v ∈ L, ∀ M, md.apply_inverse_on_the_left v (md.apply_vertex_on_the_left v M) = M)
    (hL : L.Pairwise (fun v w => v.tau ≤ w.tau)) (a : R) (hab : a ≤ b)
    (hr : ∀ v ∈ L, a ≤ v.tau ∧ v.tau ≤ b) :
    a ≤ (Slice.matrix_loop md L a 1).1 ∧ (Slice.matrix_loop md L a 1).1 ≤ b ∧
      a ≤ (Slice.inverse_loop md L.reverse b 1).1 ∧
      (Slice.inverse_loop md L.reverse b 1).1 ≤ b ∧
      (md.propagate (a - (Slice.inverse_loop md L.reverse b 1).1) 1
          * (Slice.inverse_loop md L.reverse b 1).2)
        * (md.propagate (b - (Slice.matrix_loop md L a 1).1) 1
          * (Slice.matrix_loop md L a 1).2) = 1 := by
  induction L generalizing a with
  | nil =>
    refine ⟨le_refl _, hab, hab, le_refl _, ?_⟩
    simp only [Slice.matrix_loop, Slice.inverse_loop, List.reverse_nil, Matrix.mul_one]
    rw [propagate_mul md hmd hadd]
    have : a - b + (b - a) = 0 := by ring
    rw [this, h0]
  | cons v rest ih =>
    have hv := hr v (List.mem_cons_self _ _)
    obtain ⟨hvr, hrest⟩ := List.pairwise_cons.mp hL
    have ih1 := ih (fun w hw => hinv w (List.mem_cons_of_mem _ hw)) hrest v.tau hv.2
      (fun w hw => ⟨hvr w hw, (hr w (List.mem_cons_of_mem _ hw)).2⟩)
    obtain ⟨f1, f2, i1, i2, hprod⟩ := ih1
    have hF : Slice.matrix_loop md (v :: rest) a 1
        = ((Slice.matrix_loop md rest v.tau 1).1,
            (Slice.matrix_loop md rest v.tau 1).2
              * (md.apply_vertex_on_the_left v 1 * md.propagate (v.tau - a) 1)) := by
      simp only [Slice.matrix_loop]
      rw [Slice.matrix_loop_mul md hmd, propagate_cond md hmd h0 a v.tau hv.1, hmd.2.1,
        Matrix.mul_one]
    have hI : Slice.inverse_loop md (v :: rest).reverse b 1
        = (v.tau, md.apply_inverse_on_the_left v 1
            * (md.propagate (v.tau - (Slice.inverse_loop md rest.reverse b 1).1) 1
              * (Slice.inverse_loop md rest.reverse b 1).2)) := by
      rw [List.reverse_cons, Slice.inverse_loop_append,
        propagate_cond_neg md hmd h0 v.tau _ i1, hmd.2.2]
    rw [hF, hI]
    refine ⟨le_trans hv.1 f1, f2, hv.1, hv.2, ?_⟩
    show (md.propagate (a - v.tau) 1 * (md.apply_inverse_on_the_left v 1 * _))
      * (md.propagate (b - (Slice.matrix_loop md rest v.tau 1).1) 1
        * ((Slice.matrix_loop md rest v.tau 1).2
          * (md.apply_vertex_on_the_left v 1 * md.propagate (v.tau - a) 1))) = 1
    have hW : md.apply_inverse_on_the_left v 1 * md.apply_vertex_on_the_left v 1 = 1 := by
      rw [← hmd.2.2, hinv v (List.mem_cons_self _ _)]
    have hP : md.propagate (a - v.tau) 1 * md.propagate (v.tau - a) 1 = 1 := by
      rw [propagate_mul md hmd hadd]
      have : a - v.tau + (v.tau - a) = 0 := by ring
      rw [this, h0]
    calc _ = md.propagate (a - v.tau) 1 * (md.apply_inverse_on_the_left v 1
              * ((md.propagate (v.tau - (Slice.inverse_loop md rest.reverse b 1).1) 1
                  * (Slice.inverse_loop md rest.reverse b 1).2)
                * (md.propagate (b - (Slice.matrix_loop md rest v.tau 1).1) 1
                  * (Slice.matrix_loop md rest v.tau 1).2))
              * md.apply_vertex_on_the_left v 1) * md.propagate (v.tau - a) 1 := by
            simp only [Matrix.mul_assoc]
      _ = 1 := by
            rw [hprod, Matrix.mul_one, hW, Matrix.mul_one, hP]

/-- `Slice::inverse` times `Slice::matrix` is the identity. -/
theorem Slice.inverse_mul_matrix_eq_one (md : Model R n) (hmd : md.ActsOnTheLeft)
    (h0 : ∀ M, md.propagate 0 M = M)
    (hadd : ∀ s t M, md.propagate s (md.propagate t M) = md.propagate (s + t) M)
    (s : Slice R)
    (hinv : ∀ v ∈ s.verts, ∀ M,
      md.apply_inverse_on_the_left v (md.apply_vertex_on_the_left v M) = M)
    (hL : s.verts.Pairwise (fun v w => v.tau ≤ w.tau))
    (hr : ∀ v ∈ s.verts, 0 ≤ v.tau ∧ v.tau ≤ s.beta) :
    Slice.inverse md s * Slice.matrix md s = 1 := by
  by_cases hb : 0 ≤ s.beta
  · obtain ⟨f1, f2, i1, i2, hprod⟩ :=
      Slice.loops_inverse md hmd h0 hadd s.verts s.beta hinv hL 0 hb hr
    have hm : Slice.matrix md s
        = md.propagate (s.beta - (Slice.matrix_loop md s.verts 0 1).1) 1
          * (Slice.matrix_loop md s.verts 0 1).2 :=
      propagate_cond md hmd h0 _ _ f2 _
    have hi : Slice.inverse md s
        = md.propagate (0 - (Slice.inverse_loop md s.verts.reverse s.beta 1).1) 1
          * (Slice.inverse_loop md s.verts.reverse s.beta 1).2 := by
      have := propagate_cond_neg md hmd h0 0 _ i1
        (Slice.inverse_loop md s.verts.reverse s.beta 1).2
      rw [← this]
      simp only [Slice.inverse, zero_sub]
    rw [hm, hi, hprod]
  · have hnil : s.verts = [] := by
      cases hs : s.verts with
      | nil => rfl
      | cons v rest =>
        have := hr v (by rw [hs]; exact List.mem_cons_self _ _)
        exact absurd (le_trans this.1 this.2) hb
    have hb' : ¬ s.beta > 0 := fun h => hb (le_of_lt h)
    simp [Slice.inverse, Slice.matrix, hnil, Slice.matrix_loop, Slice.inverse_loop, hb']

theorem Model.demo_actsOnTheLeft : (Model.demo R).ActsOnTheLeft := by
  refine ⟨fun dt M => ?_, fun v M => ?_, fun v M => ?_⟩ <;>
    simp [Model.demo]

theorem Model.demo_propagate_zero (M : Matrix (Fin 2) (Fin 2) R) :
    (Model.demo R).propagate 0 M = M := by
  have : (!![1, 0; 0, 1] : Matrix (Fin 2) (Fin 2) R) = 1 := by
    ext i j; fin_cases i <;> fin_cases j <;> simp
  show !![1, 0; 0, 1] * M = M
  rw [this, Matrix.one_mul]

theorem Model.demo_propagate_add (s t : R) (M : Matrix (Fin 2) (Fin 2) R) :
    (Model.demo R).propagate s ((Model.demo R).propagate t M)
      = (Model.demo R).propagate (s + t) M := by
  simp only [Model.demo, ← Matrix.mul_assoc]
  congr 1
  ext i j; fin_cases i <;> fin_cases j <;> simp [Matrix.mul_apply, Fin.sum_univ_two, add_comm]

theorem Model.demo_inverse (v : Vertex R) (M : Matrix (Fin 2) (Fin 2) R) :
    (Model.demo R).apply_inverse_on_the_left v ((Model.demo R).apply_vertex_on_the_left v M)
      = M := by
  simp only [Model.demo, ← Matrix.mul_assoc]
  have : (!![1, 0; -v.sigma, 1] * !![1, 0; v.sigma, 1] : Matrix (Fin 2) (Fin 2) R) = 1 := by
    ext i j; fin_cases i <;> fin_cases j <;> simp [Matrix.mul_apply, Fin.sum_univ_two]
  rw [this, Matrix.one_mul]

end slice_lemmas

/-! ## `Configuration::compute_B` and the determinants of the slices -/

section config_lemmas

variable {R : Type} [LinearOrderedField R] {n : ℕ}

theorem Configuration.compute_B_loop_eq (md : Model R n) (dgesvd : Dgesvd R n n)
    (c : Configuration R n) (size count i : ℕ) (h : SVDHelper R n n n) :
    Configuration.compute_B_loop md dgesvd c count i h
      = make_svd_loop dgesvd 1 size
          ((List.range' i count).map (fun j => (c.slices ((j + c.index) % c.M)).matrix md))
          i h := by
  induction count generalizing i h with
  | zero => simp [Configuration.compute_B_loop, make_svd_loop]
  | succ count ih =>
    simp only [Configuration.compute_B_loop, List.range'_succ, List.map_cons, make_svd_loop,
      Nat.mod_one, true_or, if_true]
    exact ih _ _

theorem Configuration.compute_B_calls_iff (md : Model R n) (dgesvd : Dgesvd R n n)
    (ok : Matrix (Fin n) (Fin n) R → Prop) (c : Configuration R n) (size count i : ℕ)
    (h : SVDHelper R n n n) :
    Configuration.compute_B_calls md dgesvd ok c count i h
      ↔ make_svd_calls dgesvd ok 1 size
          ((List.range' i count).map (fun j => (c.slices ((j + c.index) % c.M)).matrix md))
          i h := by
  induction count generalizing i h with
  | zero => simp [Configuration.compute_B_calls, make_svd_calls]
  | succ count ih =>
    simp only [Configuration.compute_B_calls, List.range'_succ, List.map_cons, make_svd_calls,
      Nat.mod_one, true_or, if_true]
    rw [ih]

theorem Configuration.slice_matrices_eq (md : Model R n) (c : Configuration R n) :
    c.slice_matrices md
      = (List.range' 0 c.M).map (fun j => (c.slices ((j + c.index) % c.M)).matrix md) := by
  rw [Configuration.slice_matrices, List.range_eq_range']

theorem Configuration.compute_B_svd (md : Model R n) (dgesvd : Dgesvd R n n)
    (c : Configuration R n) :
    (Configuration.compute_B md dgesvd c).svd = make_svd_of dgesvd 1 (c.slice_matrices md) := by
  rw [make_svd_of, Configuration.slice_matrices_eq]
  exact Configuration.compute_B_loop_eq md dgesvd c _ c.M 0 _

theorem det_reverse_prod (L : List (Matrix (Fin n) (Fin n) R)) :
    L.reverse.prod.det = (L.map Matrix.det).prod := by
  induction L with
  | nil => simp
  | cons A rest ih =>
    simp only [List.reverse_cons, List.prod_append, List.prod_cons, List.prod_nil, mul_one,
      Matrix.det_mul, List.map_cons, ih]
    exact mul_comm _ _

theorem list_prod_map_range (f : ℕ → R) (M : ℕ) :
    ((List.range M).map f).prod = ∏ i in Finset.range M, f i := by
  induction M with
  | zero => simp
  | succ M ih =>
    rw [List.range_succ, List.map_append, List.prod_append, ih, Finset.prod_range_succ]
    simp

/-- Reading a cyclic sequence of `M` entries from the offset `k` on visits every entry once. -/
theorem prod_range_rotate (g : ℕ → R) (M k : ℕ) :
    ∏ i in Finset.range M, g ((i + k) % M) = ∏ i in Finset.range M, g i := by
  rcases Nat.eq_zero_or_pos M with hM | hM
  · subst hM
    simp
  have hinj : Set.InjOn (fun i => (i + k) % M) (Finset.range M : Set ℕ) := by
    intro i hi j hj hij
    have hi' : i < M := Finset.mem_range.mp hi
    have hj' : j < M := Finset.mem_range.mp hj
    have h1 : i + k ≡ j + k [MOD M] := hij
    exact (Nat.ModEq.add_right_cancel' k h1).eq_of_lt_of_lt hi' hj'
  have himg : (Finset.range M).image (fun i => (i + k) % M) = Finset.range M := by
    apply Finset.eq_of_subset_of_card_le
    · intro x hx
      obtain ⟨i, _, rfl⟩ := Finset.mem_image.mp hx
      exact Finset.mem_range.mpr (Nat.mod_lt _ hM)
    · rw [Finset.card_image_of_injOn hinj]
  conv_rhs => rw [← himg]
  rw [Finset.prod_image]
  intro x hx y hy hxy
  exact hinj hx hy hxy

/-- After `compute_B` with exact, orthogonal decompositions, the product of the `|S_i|` is
the product of the `|det|` of the slice matrices. -/
theorem Configuration.prod_abs_S (md : Model R n) (dgesvd : Dgesvd R n n)
    (c : Configuration R n)
    (hcalls : Configuration.compute_B_calls md dgesvd dgesvd.IsSVDAt c c.M 0
      (SVDHelper.setIdentity n)) :
    ∏ i, |(Configuration.compute_B md dgesvd c).svd.S i|
      = ∏ i in Finset.range c.M, |((c.slices i).matrix md).det| := by
  have hlen : (c.slice_matrices md).length = c.M := by simp [Configuration.slice_matrices]
  have hc : make_svd_calls dgesvd dgesvd.IsSVDAt 1 (c.slice_matrices md).length
      (c.slice_matrices md) 0 (SVDHelper.setIdentity n) := by
    rw [Configuration.slice_matrices_eq]
    exact (Configuration.compute_B_calls_iff md dgesvd _ c _ c.M 0 _).mp hcalls
  have hm := make_svd_of_matrix dgesvd 1 (c.slice_matrices md)
    (make_svd_calls_mono dgesvd _ _ (fun A hA => hA.1) _ _ _ _ _ hc)
  have ho := make_svd_of_isOrthogonal dgesvd 1 (c.slice_matrices md)
    (make_svd_calls_mono dgesvd _ _ (fun A hA => hA.2.1) _ _ _ _ _ hc)
  rw [Configuration.compute_B_svd]
  have hd := congrArg (fun A => |Matrix.det A|) hm
  simp only [SVDHelper.det_matrix, abs_mul, abs_det_of_orthogonal _ ho.1,
    abs_det_of_orthogonal _ ho.2.2.1, one_mul, mul_one, Finset.abs_prod] at hd
  rw [hd, det_reverse_prod, Configuration.slice_matrices, List.map_map, list_prod_map_range,
    Finset.abs_prod]
  exact prod_range_rotate (fun i => |((c.slices i).matrix md).det|) c.M c.index

theorem Slice.det_matrix_loop (md : Model R n) (hmd : md.ActsOnTheLeft)
    (hP : ∀ dt, (md.propagate dt 1).det = 1) (L : List (Vertex R))
    (hW : ∀ v ∈ L, (md.apply_vertex_on_the_left v 1).det = 1 + v.sigma) (t0 : R)
    (M : Matrix (Fin n) (Fin n) R) :
    (Slice.matrix_loop md L t0 M).2.det = (L.map (fun v => 1 + v.sigma)).prod * M.det := by
  induction L generalizing t0 M with
  | nil => simp [Slice.matrix_loop]
  | cons v rest ih =>
    simp only [Slice.matrix_loop, List.map_cons, List.prod_cons]
    rw [ih (fun w hw => hW w (List.mem_cons_of_mem _ hw)), hmd.2.1, Matrix.det_mul,
      hW v (List.mem_cons_self _ _)]
    have hM1 : (if v.tau > t0 then md.propagate (v.tau - t0) M else M).det = M.det := by
      split_ifs
      · rw [hmd.1, Matrix.det_mul, hP, one_mul]
      · rfl
    rw [hM1]
    ring

theorem Slice.det_slice_matrix (md : Model R n) (hmd : md.ActsOnTheLeft)
    (hP : ∀ dt, (md.propagate dt 1).det = 1) (s : Slice R)
    (hW : ∀ v ∈ s.verts, (md.apply_vertex_on_the_left v 1).det = 1 + v.sigma) :
    (Slice.matrix md s).det = (s.verts.map (fun v => 1 + v.sigma)).prod := by
  have h := Slice.det_matrix_loop md hmd hP s.verts hW 0 1
  rw [Matrix.det_one, mul_one] at h
  rw [Slice.matrix]
  split_ifs
  · rw [hmd.1, Matrix.det_mul, hP, one_mul, h]
  · exact h

theorem Slice.log_abs_det_eq (log : R → R) (s : Slice R) :
    Slice.log_abs_det log s = (s.verts.map (fun v => log (1 + v.sigma))).sum := by
  have h : ∀ (L : List (Vertex R)) (a : R),
      L.foldl (fun ret v => ret + log (1 + v.sigma)) a
        = a + (L.map (fun v => log (1 + v.sigma))).sum := by
    intro L
    induction L with
    | nil => intro a; simp
    | cons v rest ih =>
      intro a
      rw [List.foldl_cons, ih, List.map_cons, List.sum_cons, add_assoc]
  rw [Slice.log_abs_det, h, zero_add]

theorem Model.diag_actsOnTheLeft : (Model.diag R n).ActsOnTheLeft := by
  refine ⟨fun dt M => ?_, fun v M => ?_, fun v M => ?_⟩ <;>
    simp [Model.diag]

theorem Model.diag_matrix_loop (L : List (Vertex R)) (hL : ∀ v ∈ L, 0 ≤ 1 + v.sigma) (t0 : R)
    (M : Matrix (Fin n) (Fin n) R) (hM : IsNonnegDiag M) :
    IsNonnegDiag (Slice.matrix_loop (Model.diag R n) L t0 M).2 := by
  induction L generalizing t0 M with
  | nil => exact hM
  | cons v rest ih =>
    simp only [Slice.matrix_loop]
    apply ih (fun w hw => hL w (List.mem_cons_of_mem _ hw))
    have h1 : (if v.tau > t0 then (Model.diag R n).propagate (v.tau - t0) M else M) = M := by
      split_ifs <;> rfl
    rw [h1]
    refine IsNonnegDiag.mul (isNonnegDiag_diagonal _ fun j => ?_) hM
    split_ifs
    · exact hL v (List.mem_cons_self _ _)
    · exact zero_le_one

theorem Model.diag_matrix (s : Slice R) (hL : ∀ v ∈ s.verts, 0 ≤ 1 + v.sigma) :
    IsNonnegDiag (Slice.matrix (Model.diag R n) s) := by
  have h := Model.diag_matrix_loop s.verts hL 0 (1 : Matrix (Fin n) (Fin n) R) isNonnegDiag_one
  rw [Slice.matrix]
  split_ifs
  · exact h
  · exact h

theorem Model.diag_compute_B_calls (c : Configuration R n)
    (hL : ∀ i, ∀ v ∈ (c.slices i).verts, 0 ≤ 1 + v.sigma) :
    Configuration.compute_B_calls (Model.diag R n) Dgesvd.ofDiagonal
      Dgesvd.ofDiagonal.IsSVDAt c c.M 0 (SVDHelper.setIdentity n) := by
  rw [Configuration.compute_B_calls_iff _ _ _ c c.M]
  refine (make_svd_loop_ofDiagonal 1 c.M _ ?_ 0 _ ?_ ?_ ?_).1
  · intro A hA
    obtain ⟨j, _, rfl⟩ := List.mem_map.mp hA
    exact Model.diag_matrix _ (hL _)
  · simpa [SVDHelper.setIdentity] using isNonnegDiag_one
  · intro j
    simp [SVDHelper.setIdentity]
  · simp [SVDHelper.setIdentity]

end config_lemmas

section config_real

variable {n : ℕ}

theorem log_list_prod (L : List ℝ) (hL : ∀ x ∈ L, 0 < x) :
    Real.log L.prod = (L.map Real.log).sum := by
  induction L with
  | nil => simp
  | cons a rest ih =>
    have ha := hL a (List.mem_cons_self _ _)
    have hrest : ∀ x ∈ rest, 0 < x := fun x hx => hL x (List.mem_cons_of_mem _ hx)
    rw [List.prod_cons, Real.log_mul (ne_of_gt ha) (ne_of_gt (List.prod_pos hrest)), ih hrest,
      List.map_cons, List.sum_cons]

/-- With a propagator of determinant `1` and vertex factors of determinant `1 + sigma > 0`,
`log |det(slice.matrix())|` is `Slice::log_abs_det()`. -/
theorem Slice.log_abs_det_matrix (md : Model ℝ n) (hmd : md.ActsOnTheLeft)
    (hP : ∀ dt, (md.propagate dt 1).det = 1) (s : Slice ℝ)
    (hW : ∀ v ∈ s.verts, (md.apply_vertex_on_the_left v 1).det = 1 + v.sigma ∧ 0 < 1 + v.sigma) :
    Real.log |(Slice.matrix md s).det| = Slice.log_abs_det Real.log s ∧
      0 < |(Slice.matrix md s).det| := by
  have hpos : ∀ x ∈ s.verts.map (fun v => 1 + v.sigma), 0 < x := by
    intro x hx
    obtain ⟨v, hv, rfl⟩ := List.mem_map.mp hx
    exact (hW v hv).2
  have hp := List.prod_pos hpos
  rw [Slice.det_slice_matrix md hmd hP s (fun v hv => (hW v hv).1), abs_of_pos hp,
    log_list_prod _ hpos, Slice.log_abs_det_eq, List.map_map]
  exact ⟨rfl, hp⟩

theorem Configuration.demo_vertices (i : ℕ) (v : Vertex ℝ)
    (hv : v ∈ ((Configuration.demo ℝ).slices i).verts) :
    ((Model.diag ℝ 2).apply_vertex_on_the_left v 1).det = 1 + v.sigma ∧ 0 < 1 + v.sigma := by
  by_cases hi : i = 0
  · have hv' : v = ⟨1 / 2, 1, 0⟩ := by simpa [Configuration.demo, hi] using hv
    subst hv'
    constructor
    · simp [Model.diag, Matrix.det_diagonal, Fin.prod_univ_two]
    · norm_num
  · have hv' : v = ⟨1 / 4, 2, 1⟩ := by simpa [Configuration.demo, hi] using hv
    subst hv'
    constructor
    · simp [Model.diag, Matrix.det_diagonal, Fin.prod_univ_two]
    · norm_num

theorem Model.diag_det_propagate (dt : ℝ) : ((Model.diag ℝ n).propagate dt 1).det = 1 := by
  simp [Model.diag]

end config_real

/-! ## Flipping several sites of one slice -/

section rankN_lemmas

variable {R : Type} [LinearOrderedField R] {V : ℕ}

theorem uv_forward_loop_congr (P : Matrix (Fin V) (Fin V) R) (fx : Fin V → R)
    (sigma tau : ℕ → Fin V → R) (c i : ℕ) (v : Fin V → R)
    (h : ∀ j, i ≤ j → j < i + c → tau j = sigma j) :
    uv_forward_loop P fx tau c i v = uv_forward_loop P fx sigma c i v := by
  induction c generalizing i v with
  | zero => simp [uv_forward_loop]
  | succ c ih =>
    rw [uv_forward_loop, uv_forward_loop, h i (le_refl i) (by omega)]
    exact ih (i + 1) _ (fun j h1 h2 => h j (by omega) (by omega))

theorem uv_backward_loop_congr (P : Matrix (Fin V) (Fin V) R) (fx : Fin V → R)
    (sigma tau : ℕ → Fin V → R) (c hi : ℕ) (v : Fin V → R) (hc : c ≤ hi)
    (h : ∀ j, j < hi → hi ≤ j + c → tau j = sigma j) :
    uv_backward_loop P fx tau c hi v = uv_backward_loop P fx sigma c hi v := by
  induction c generalizing hi v with
  | zero => simp [uv_backward_loop]
  | succ c ih =>
    rw [uv_backward_loop, uv_backward_loop, h (hi - 1) (by omega) (by omega)]
    exact ih (hi - 1) _ (by omega) (fun j h1 h2 => h j (by omega) (by omega))

/-- The vectors of `compute_uv_f_short(x, t)` depend on the state through the parameters, the
field of the other slices and the field entry `(t, x)` only. -/
theorem compute_uv_f_short_congr (ix : RowIndex R V) (a b : Simulation R V) (x : Fin V)
    (t : ℕ) (hN : a.N = b.N) (hm : a.mslices = b.mslices)
    (hP : a.propagator = b.propagator) (hfx : a.freePropagator_x = b.freePropagator_x)
    (hrow : ∀ j, j ≠ t → a.diagonal ix j = b.diagonal ix j)
    (hx : a.diagonal ix t x = b.diagonal ix t x) :
    (compute_uv_f_short ix a x t).cache.u_smart = (compute_uv_f_short ix b x t).cache.u_smart ∧
      (compute_uv_f_short ix a x t).cache.v_smart
        = (compute_uv_f_short ix b x t).cache.v_smart := by
  rw [compute_uv_f_short_u_smart, compute_uv_f_short_u_smart, compute_uv_f_short_v_smart,
    compute_uv_f_short_v_smart, hN, hm, hP, hfx, hx]
  rw [uv_forward_loop_congr b.propagator b.freePropagator_x (b.diagonal ix) (a.diagonal ix) _ _ _
      (fun j h1 _ => hrow j (by omega)),
    uv_backward_loop_congr b.propagator b.freePropagator_x (b.diagonal ix) (a.diagonal ix) _ _ _
      (Nat.sub_le _ _) (fun j h1 _ => hrow j (by omega))]
  exact ⟨rfl, rfl⟩

/-- In `stable.cpp`, flipping the site `x` of slice `t` leaves the vectors of
`compute_uv_f_short(y, t)` for another site `y` as they are. -/
theorem compute_uv_f_short_flip_other (s : Simulation R V) (t : ℕ) (x y : Fin V)
    (hxy : y ≠ x) :
    (compute_uv_f_short Stable.rowIndex (flip Stable.rowIndex s t x) y t).cache.u_smart
        = (compute_uv_f_short Stable.rowIndex s y t).cache.u_smart ∧
      (compute_uv_f_short Stable.rowIndex (flip Stable.rowIndex s t x) y t).cache.v_smart
        = (compute_uv_f_short Stable.rowIndex s y t).cache.v_smart := by
  refine compute_uv_f_short_congr Stable.rowIndex (flip Stable.rowIndex s t x) s y t
    rfl rfl rfl rfl ?_ ?_
  · intro j hj
    exact diagonal_flip_other Stable.rowIndex direct_rowIndex_framed s t j x hj
  · rw [diagonal_flip_same Stable.rowIndex direct_rowIndex_framed, Function.update_noteq hxy]

theorem list_modify_modify {α : Type} (f g : α → α) (k : ℕ) (L : List α) :
    (L.modify f k).modify g k = L.modify (fun a => g (f a)) k := by
  apply List.ext_getElem?
  intro j
  simp only [List.getElem?_modify]
  by_cases hj : k = j
  · simp [hj, Function.comp_def]
  · simp [hj]

theorem list_modify_add_zero (L : List (Matrix (Fin V) (Fin V) R)) (k : ℕ) :
    L.modify (fun A => A + 0) k = L := by
  apply List.ext_getElem?
  intro j
  simp only [List.getElem?_modify, add_zero]
  by_cases hj : k = j
  · simp [hj]
  · simp [hj]

theorem flip_vec_cons (ix : RowIndex R V) (s : Simulation R V) (t : ℕ) (x : Fin V)
    (rest : List (Fin V)) :
    flip_vec ix s t (x :: rest) = flip_vec ix (flip ix s t x) t rest := rfl

/-- In `stable.cpp`: recomputing the blocks after `flip(t, vec)` with distinct sites changes
only the block that owns slice `t`, by the sum of the rank-one corrections of the sites, each
computed on the state before the flips. -/
theorem make_slices_flip_vec_modify (s : Simulation R V) (t : ℕ) (vec : List (Fin V))
    (hm : 1 ≤ s.mslices) (ht : t < s.N) (hP : s.propagatorᵀ = s.propagator)
    (hnd : vec.Nodup) :
    (make_slices Stable.rowIndex (flip_vec Stable.rowIndex s t vec)).slices
      = (make_slices Stable.rowIndex s).slices.modify
          (fun A => A + (vec.map fun x =>
            vecMulVec (compute_uv_f_short Stable.rowIndex s x t).cache.u_smart
              (compute_uv_f_short Stable.rowIndex s x t).cache.v_smart).sum)
          (t / s.mslices) := by
  induction vec generalizing s with
  | nil =>
    simp only [flip_vec, List.foldl_nil, List.map_nil, List.sum_nil]
    rw [list_modify_add_zero]
  | cons x rest ih =>
    obtain ⟨hx, hrest⟩ := List.nodup_cons.mp hnd
    have hmf : (flip Stable.rowIndex s t x).mslices = s.mslices := rfl
    rw [flip_vec_cons, ih (flip Stable.rowIndex s t x) hm ht hP hrest, hmf,
      make_slices_flip_modify Stable.rowIndex direct_rowIndex_framed s x t hm ht hP
        (fun j _ h => h), list_modify_modify]
    congr 1
    funext A
    rw [List.map_cons, List.sum_cons, add_assoc]
    congr 3
    apply List.map_congr_left
    intro y hy
    have hyx : y ≠ x := fun h => hx (h ▸ hy)
    rw [(compute_uv_f_short_flip_other s t x y hyx).1,
      (compute_uv_f_short_flip_other s t x y hyx).2]

theorem reverse_prod_modify_add (L : List (Matrix (Fin V) (Fin V) R)) (k : ℕ)
    (hk : k < L.length) (W : Matrix (Fin V) (Fin V) R) :
    (L.modify (fun A => A + W) k).reverse.prod
      = L.reverse.prod + (L.drop (k + 1)).reverse.prod * W * (L.take k).reverse.prod := by
  have h1 : L.modify (fun A => A + W) k = L.take k ++ (L[k] + W) :: L.drop (k + 1) :=
    List.modify_eq_take_cons_drop hk
  have h2 : L.take k ++ L[k] :: L.drop (k + 1) = L := by
    rw [← List.drop_eq_getElem_cons hk, List.take_append_drop]
  have h3 : L.reverse.prod
      = (L.drop (k + 1)).reverse.prod * L[k] * (L.take k).reverse.prod := by
    have h4 := congrArg (fun l => l.reverse.prod) h2
    simp only [List.reverse_append, List.reverse_cons, List.prod_append, List.prod_cons,
      List.prod_nil, mul_one] at h4
    exact h4.symm
  rw [h1, h3]
  simp only [List.reverse_append, List.reverse_cons, List.prod_append, List.prod_cons,
    List.prod_nil, mul_one]
  rw [Matrix.mul_add, Matrix.add_mul]

end rankN_lemmas

/-! ## The factors of `make_rankN_update` -/

section rankN_update_lemmas

variable {R : Type} [LinearOrderedField R] {V : ℕ}

theorem compute_uv_f_smart_frame (s : Simulation R V) (x : Fin V) (t : ℕ) :
    (Stable.compute_uv_f_smart s x t).diagonals = s.diagonals ∧
      (Stable.compute_uv_f_smart s x t).slices = s.slices ∧
      (Stable.compute_uv_f_smart s x t).svdA = s.svdA ∧
      (Stable.compute_uv_f_smart s x t).svdB = s.svdB :=
  ⟨rfl, rfl, rfl, rfl⟩

/-- The calls of `compute_uv_f_smart` in `make_rankN_update` write `cache` and `v_x` only. -/
theorem foldl_compute_uv_f_smart_frame (t : ℕ) (L : List (Fin V)) (s : Simulation R V) :
    (L.foldl (fun s x => Stable.compute_uv_f_smart s x t) s).SameSetup s ∧
      (L.foldl (fun s x => Stable.compute_uv_f_smart s x t) s).diagonals = s.diagonals ∧
      (L.foldl (fun s x => Stable.compute_uv_f_smart s x t) s).slices = s.slices ∧
      (L.foldl (fun s x => Stable.compute_uv_f_smart s x t) s).svdA = s.svdA ∧
      (L.foldl (fun s x => Stable.compute_uv_f_smart s x t) s).svdB = s.svdB ∧
      (L.foldl (fun s x => Stable.compute_uv_f_smart s x t) s).plog = s.plog := by
  induction L generalizing s with
  | nil => exact ⟨⟨rfl, rfl, rfl, rfl, rfl, rfl, rfl, rfl, rfl⟩, rfl, rfl, rfl, rfl, rfl⟩
  | cons x rest ih =>
    obtain ⟨h1, h2, h3, h4, h5, h6⟩ := ih (Stable.compute_uv_f_smart s x t)
    obtain ⟨g2, g3, g4, g5⟩ := compute_uv_f_smart_frame s x t
    rw [List.foldl_cons]
    exact ⟨h1.trans (compute_uv_f_smart_setup s x t), h2.trans g2, h3.trans g3, h4.trans g4,
      h5.trans g5, h6.trans (compute_uv_f_smart_plog s x t)⟩

theorem rankN_state_frame (s : Simulation R V) (t : ℕ) (vec : List (Fin V)) (i : ℕ) :
    (Stable.rankN_state s t vec i).SameSetup s ∧
      (Stable.rankN_state s t vec i).diagonals = s.diagonals ∧
      (Stable.rankN_state s t vec i).slices = s.slices ∧
      (Stable.rankN_state s t vec i).svdA = s.svdA ∧
      (Stable.rankN_state s t vec i).svdB = s.svdB ∧
      (Stable.rankN_state s t vec i).plog = s.plog :=
  foldl_compute_uv_f_smart_frame t (vec.take i) s

/-- In `stable.cpp`, the vectors `u_smart`, `v_smart` of `compute_uv_f_smart(x, t)` are the
same on two states with the same parameters and the same field. -/
theorem compute_uv_f_smart_smart_congr (a b : Simulation R V) (x : Fin V) (t : ℕ)
    (hset : a.SameSetup b) (hd : a.diagonals = b.diagonals) :
    (Stable.compute_uv_f_smart a x t).cache.u_smart
        = (compute_uv_f_short Stable.rowIndex b x t).cache.u_smart ∧
      (Stable.compute_uv_f_smart a x t).cache.v_smart
        = (compute_uv_f_short Stable.rowIndex b x t).cache.v_smart := by
  have h := compute_uv_f_short_congr Stable.rowIndex a b x t hset.1 hset.2.1 hset.2.2.1
    hset.2.2.2.1 (fun j _ => by simp only [Simulation.diagonal, Stable.rowIndex, hd])
    (by simp only [Simulation.diagonal, Stable.rowIndex, hd])
  exact ⟨h.1, h.2⟩

theorem flip_vec_congr (a b : Simulation R V) (t : ℕ) (vec : List (Fin V))
    (hset : a.SameSetup b) (hd : a.diagonals = b.diagonals) :
    (flip_vec Stable.rowIndex a t vec).SameSetup (flip_vec Stable.rowIndex b t vec) ∧
      (flip_vec Stable.rowIndex a t vec).diagonals
        = (flip_vec Stable.rowIndex b t vec).diagonals := by
  induction vec generalizing a b with
  | nil => exact ⟨hset, hd⟩
  | cons x rest ih =>
    rw [flip_vec_cons, flip_vec_cons]
    apply ih
    · exact ((flip_setup Stable.rowIndex a t x).trans hset).trans
        (flip_setup Stable.rowIndex b t x).symm_of
    · simp only [flip, Simulation.diagonal, Stable.rowIndex, hd]

theorem make_slices_flip_vec_congr (a b : Simulation R V) (t : ℕ) (vec : List (Fin V))
    (hset : a.SameSetup b) (hd : a.diagonals = b.diagonals) :
    (make_slices Stable.rowIndex (flip_vec Stable.rowIndex a t vec)).slices
      = (make_slices Stable.rowIndex (flip_vec Stable.rowIndex b t vec)).slices := by
  obtain ⟨h1, h2⟩ := flip_vec_congr a b t vec hset hd
  exact make_slices_slices_congr Stable.rowIndex direct_rowIndex_framed _ _ h1.1 h1.2.1
    h1.2.2.1 h1.2.2.2.1 h2 h1.2.2.2.2.1

theorem foldl_absorbU_matrix {k : ℕ} (tall : Dgesvd R V k) (hex : ∀ A, tall.ExactAt A)
    (L : List (Matrix (Fin V) (Fin V) R)) (h0 : SVDHelper R V k V) :
    (L.foldl (fun (h : SVDHelper R V k V) A =>
        SVDHelper.absorbU tall { h with U := A * h.U }) h0).matrix
      = L.reverse.prod * h0.matrix := by
  induction L generalizing h0 with
  | nil => simp
  | cons A rest ih =>
    have hU : (({ h0 with U := A * h0.U } : SVDHelper R V k V)).matrix = A * h0.matrix := by
      simp [SVDHelper.matrix, Matrix.mul_assoc]
    rw [List.foldl_cons, ih, SVDHelper.matrix_absorbU _ _ (hex _), hU]
    simp [Matrix.mul_assoc]

theorem foldl_absorbVt_matrix {k : ℕ} (wide : DgesvdWide R k V) (hex : ∀ A, wide.ExactAt A)
    (L : List (Matrix (Fin V) (Fin V) R)) (h0 : SVDHelper R V k V) :
    (L.foldl (fun (h : SVDHelper R V k V) A =>
        SVDHelper.absorbVt_le wide { h with Vt := h.Vt * A }) h0).matrix
      = h0.matrix * L.prod := by
  induction L generalizing h0 with
  | nil => simp
  | cons A rest ih =>
    have hV : (({ h0 with Vt := h0.Vt * A } : SVDHelper R V k V)).matrix = h0.matrix * A := by
      simp [SVDHelper.matrix, Matrix.mul_assoc]
    rw [List.foldl_cons, ih, SVDHelper.matrix_absorbVt_le _ _ (hex _), hV]
    simp [Matrix.mul_assoc]

theorem mul_eq_sum_vecMulVec {k : ℕ} (u v : Fin k → Fin V → R) :
    (Matrix.of fun j i => u i j) * (Matrix.of fun i j => v i j)
      = ∑ i, vecMulVec (u i) (v i) := by
  ext a b
  simp [Matrix.mul_apply, Matrix.sum_apply, vecMulVec_apply]

/-- The matrix of the factors with the columns `u i`, singular values one and rows `v i`. -/
theorem rankN_start_matrix (vec : List (Fin V)) (u v : Fin V → Fin V → R) :
    (({ U := Matrix.of fun j (i : Fin vec.length) => u (vec.get i) j
        S := fun _ => 1
        Vt := Matrix.of fun (i : Fin vec.length) j => v (vec.get i) j } :
        SVDHelper R V vec.length V)).matrix
      = (vec.map fun x => vecMulVec (u x) (v x)).sum := by
  have h1 : (diagonal fun _ : Fin vec.length => (1 : R)) = 1 := Matrix.diagonal_one
  simp only [SVDHelper.matrix, h1, Matrix.mul_one]
  rw [mul_eq_sum_vecMulVec (fun i => u (vec.get i)) (fun i => v (vec.get i))]
  exact Fin.sum_univ_get' vec (fun x => vecMulVec (u x) (v x))

end rankN_update_lemmas

/-! ## The determinant ratio of an update of several sites -/

section rankN_ratio_lemmas

variable {R : Type} [LinearOrderedField R] {V : ℕ}

/-- For `t < N`, at most `V` entries in `vec` and enough blocks, `make_rankN_update` returns
the factors built from the vectors `u_smart`, `v_smart`. -/
theorem make_rankN_update_eq (s : Simulation R V) (t : ℕ) (vec : List (Fin V))
    (tall : Dgesvd R V vec.length) (wide : DgesvdWide R vec.length V)
    (hlen : vec.length ≤ V) (hk : t / s.mslices ≤ s.slices.length) (ht : t < s.N) :
    Stable.make_rankN_update s t vec tall wide
      = some
          (((Stable.rankN_state s t vec vec.length).slices.take
              (t / (Stable.rankN_state s t vec vec.length).mslices)).reverse.foldl
            (fun (h : SVDHelper R V vec.length V) A =>
              SVDHelper.absorbVt_le wide { h with Vt := h.Vt * A })
            (((Stable.rankN_state s t vec vec.length).slices.drop
                (t / (Stable.rankN_state s t vec vec.length).mslices + 1)).foldl
              (fun (h : SVDHelper R V vec.length V) A =>
                SVDHelper.absorbU tall { h with U := A * h.U })
              ((SVDHelper.absorbU tall
                { U := Matrix.of fun j (i : Fin vec.length) =>
                    (Stable.compute_uv_f_smart (Stable.rankN_state s t vec i) (vec.get i)
                      t).cache.u_smart j
                  S := fun _ => 1
                  Vt := Matrix.of fun (i : Fin vec.length) j =>
                    (Stable.compute_uv_f_smart (Stable.rankN_state s t vec i) (vec.get i)
                      t).cache.v_smart j }).absorbVt_le wide)),
            Stable.rankN_state s t vec vec.length) := by
  simp only [Stable.make_rankN_update, hlen, hk, ht, and_self, if_true]

/-- In `stable.cpp`, with exact decompositions: `make_rankN_update(t, vec)` for distinct
sites returns factors of the difference between the product of the blocks rebuilt after
`flip(t, vec)` and the product of the current blocks. -/
theorem make_rankN_update_matrix (s : Simulation R V) (t : ℕ) (vec : List (Fin V))
    (tall : Dgesvd R V vec.length) (wide : DgesvdWide R vec.length V)
    (hm : 1 ≤ s.mslices) (ht : t < s.N) (hP : s.propagatorᵀ = s.propagator)
    (hcur : (make_slices Stable.rowIndex s).slices = s.slices) (hnd : vec.Nodup)
    (htall : ∀ A, tall.ExactAt A) (hwide : ∀ A, wide.ExactAt A) :
    ∃ sm, Stable.make_rankN_update s t vec tall wide
        = some (sm, Stable.rankN_state s t vec vec.length) ∧
      sm.matrix
        = (make_slices Stable.rowIndex (flip_vec Stable.rowIndex s t vec)).slices.reverse.prod
          - s.slices.reverse.prod := by
  have hk : t / s.mslices < s.slices.length := by
    have hlt : t / s.mslices * s.mslices < s.N :=
      lt_of_le_of_lt (Nat.div_mul_le_self t s.mslices) ht
    have h := make_slices_getElem? Stable.rowIndex direct_rowIndex_framed s hm _ hlt
    rw [hcur] at h
    exact (List.getElem?_eq_some_iff.mp h).1
  have hlen : vec.length ≤ V := by
    have := hnd.length_le_card
    simpa using this
  obtain ⟨hset, _, hsl, _, _, _⟩ := rankN_state_frame s t vec vec.length
  refine ⟨_, make_rankN_update_eq s t vec tall wide hlen (le_of_lt hk) ht, ?_⟩
  have hU0 : (Matrix.of fun j (i : Fin vec.length) =>
        (Stable.compute_uv_f_smart (Stable.rankN_state s t vec i) (vec.get i) t).cache.u_smart j)
      = Matrix.of fun j (i : Fin vec.length) =>
          (compute_uv_f_short Stable.rowIndex s (vec.get i) t).cache.u_smart j := by
    ext j i
    simp only [Matrix.of_apply]
    rw [(compute_uv_f_smart_smart_congr _ s _ t (rankN_state_frame s t vec i).1
      (rankN_state_frame s t vec i).2.1).1]
  have hV0 : (Matrix.of fun (i : Fin vec.length) j =>
        (Stable.compute_uv_f_smart (Stable.rankN_state s t vec i) (vec.get i) t).cache.v_smart j)
      = Matrix.of fun (i : Fin vec.length) j =>
          (compute_uv_f_short Stable.rowIndex s (vec.get i) t).cache.v_smart j := by
    ext i j
    simp only [Matrix.of_apply]
    rw [(compute_uv_f_smart_smart_congr _ s _ t (rankN_state_frame s t vec i).1
      (rankN_state_frame s t vec i).2.1).2]
  rw [foldl_absorbVt_matrix wide hwide, foldl_absorbU_matrix tall htall,
    SVDHelper.matrix_absorbVt_le _ _ (hwide _), SVDHelper.matrix_absorbU _ _ (htall _), hU0, hV0,
    rankN_start_matrix vec
      (fun x => (compute_uv_f_short Stable.rowIndex s x t).cache.u_smart)
      (fun x => (compute_uv_f_short Stable.rowIndex s x t).cache.v_smart),
    hsl, hset.2.1, make_slices_flip_vec_modify s t vec hm ht hP hnd, hcur,
    reverse_prod_modify_add _ _ hk]
  simp

/-- The determinant formed in `make_tests` from factors `sm` of `M' - M` and an orthogonal
factorisation `h` of the non-singular matrix `I + lam M` is `det(I + lam M') / det(I + lam M)`. -/
theorem rankN_det_eq {k : ℕ} (lam : R) (h : SVDHelper R V V V) (sm : SVDHelper R V k V)
    (M M' : Matrix (Fin V) (Fin V) R) (ho : h.IsOrthogonal) (hmat : h.matrix = 1 + lam • M)
    (hdet : (1 + lam • M).det ≠ 0) (hsm : sm.matrix = M' - M) :
    Stable.rankN_det lam h sm = (1 + lam • M').det / (1 + lam • M).det := by
  have hinv : h.inverse = (1 + lam • M)⁻¹ := by
    rw [SVDHelper.inverse_eq_inv h ho (by rw [hmat]; exact hdet), hmat]
  have hX : (sm.Vt * h.Vtᵀ) * diagonal (fun i => (h.S i)⁻¹) * (h.Uᵀ * sm.U) * diagonal sm.S
      = (sm.Vt * h.inverse) * (sm.U * diagonal sm.S) := by
    simp only [SVDHelper.inverse, Matrix.mul_assoc]
  have hunit : IsUnit (1 + lam • M).det := isUnit_iff_ne_zero.mpr hdet
  have hA : (1 + lam • M) * (1 + lam • M)⁻¹ = 1 := Matrix.mul_nonsing_inv _ hunit
  have hsum : 1 + (sm.U * diagonal sm.S) * (lam • (sm.Vt * (1 + lam • M)⁻¹))
      = (1 + lam • M') * (1 + lam • M)⁻¹ := by
    have h1 : (sm.U * diagonal sm.S) * (lam • (sm.Vt * (1 + lam • M)⁻¹))
        = lam • (sm.matrix * (1 + lam • M)⁻¹) := by
      simp only [SVDHelper.matrix, Matrix.mul_smul, Matrix.mul_assoc]
    have h2 : (1 + lam • M' : Matrix (Fin V) (Fin V) R) = (1 + lam • M) + lam • (M' - M) := by
      rw [smul_sub]
      abel
    rw [h1, hsm, h2, Matrix.add_mul, hA, Matrix.smul_mul]
  rw [Stable.rankN_det, hX, hinv, add_comm, ← Matrix.smul_mul, Matrix.det_one_add_mul_comm,
    hsum, Matrix.det_mul, Matrix.det_nonsing_inv, Ring.inverse_eq_inv', div_eq_mul_inv]

end rankN_ratio_lemmas

/-! ## The test of an update of several sites -/

section rankN_test_lemmas

variable {R : Type} [LinearOrderedField R] {V : ℕ}

theorem flip_vec_setup (ix : RowIndex R V) (s : Simulation R V) (t : ℕ)
    (vec : List (Fin V)) : (flip_vec ix s t vec).SameSetup s := by
  induction vec generalizing s with
  | nil => exact ⟨rfl, rfl, rfl, rfl, rfl, rfl, rfl, rfl, rfl⟩
  | cons x rest ih =>
    rw [flip_vec_cons]
    exact (ih (flip ix s t x)).trans (flip_setup ix s t x)

theorem flip_vec_bounded (ix : RowIndex R V) (s : Simulation R V) (t : ℕ)
    (vec : List (Fin V))
    (hd : ∀ j y, -1 ≤ s.diagonals j y ∧ s.diagonals j y ≤ 1) (j : ℕ) (y : Fin V) :
    -1 ≤ (flip_vec ix s t vec).diagonals j y ∧ (flip_vec ix s t vec).diagonals j y ≤ 1 := by
  induction vec generalizing s with
  | nil => exact hd j y
  | cons x rest ih =>
    rw [flip_vec_cons]
    exact ih (flip ix s t x) (flip_bounded ix s t x hd)

theorem sameSetup_lambda (exp : R → R) (a b : Simulation R V) (h : a.SameSetup b) :
    a.lambdaA exp = b.lambdaA exp ∧ a.lambdaB exp = b.lambdaB exp := by
  obtain ⟨_, _, _, _, _, _, h7, h8, h9⟩ := h
  simp only [Simulation.lambdaA, Simulation.lambdaB, h7, h8, h9, and_self]

/-- Without hopping, with a non-negative `freePropagator_x` and a field bounded by one, the
blocks rebuilt after `flip(t, vec)` are diagonal with non-negative entries. -/
theorem make_slices_flip_vec_isNonnegDiag (s : Simulation R V) (t : ℕ) (vec : List (Fin V))
    (hP : s.propagator = 1) (hfx : ∀ x, 0 ≤ s.freePropagator_x x)
    (hd : ∀ j y, -1 ≤ s.diagonals j y ∧ s.diagonals j y ≤ 1) :
    ∀ A ∈ (make_slices Stable.rowIndex (flip_vec Stable.rowIndex s t vec)).slices,
      IsNonnegDiag A := by
  have hset := flip_vec_setup Stable.rowIndex s t vec
  apply make_slices_isNonnegDiag Stable.rowIndex direct_rowIndex_framed
  · rw [hset.2.2.1, hP]
  · intro j y
    apply slice_factor_nonneg
    · intro z
      rw [hset.2.2.2.1]
      exact hfx z
    · exact fun z => flip_vec_bounded Stable.rowIndex s t vec hd j z

theorem compute_U_s_frame (exp log : R → R) (dgesvd : Dgesvd R V V) (s : Simulation R V)
    (hm : 1 ≤ s.mslices) :
    (Stable.compute_U_s exp log dgesvd s).SameSetup s ∧
      (Stable.compute_U_s exp log dgesvd s).diagonals = s.diagonals ∧
      (Stable.compute_U_s exp log dgesvd s).plog
        = svd_probability log (Stable.compute_U_s exp log dgesvd s) := by
  have hfr : (Stable.rowIndex : RowIndex R V).Framed := direct_rowIndex_framed
  have h1 := rebuild_setup exp dgesvd (make_slices Stable.rowIndex s)
  have h2 := make_slices_setup Stable.rowIndex hfr s
  rw [compute_U_s_eq exp log dgesvd s hm]
  refine ⟨?_, ?_, rfl⟩
  · exact Simulation.SameSetup.trans ⟨rfl, rfl, rfl, rfl, rfl, rfl, rfl, rfl, rfl⟩ (h1.trans h2)
  · show (make_slices Stable.rowIndex s).diagonals = s.diagonals
    rw [make_slices_eq Stable.rowIndex hfr s]

end rankN_test_lemmas

section rankN_real

variable {V : ℕ}

theorem log_det_ratio (d a' a : ℝ) (hd : 0 < d) (ha : a ≠ 0) (h : d = a' / a) :
    Real.log d = Real.log |a'| - Real.log |a| := by
  have ha' : a' ≠ 0 := by
    intro h0
    rw [h0, zero_div] at h
    exact (ne_of_gt hd) h
  rw [h, Real.log_div ha' ha, Real.log_abs, Real.log_abs]

end rankN_real

/-! ## `logDetU_s` on a field with entries `±A` -/

section logdet_lemmas

variable {R : Type} [LinearOrderedField R] {V : ℕ}

/-- The number of positive entries of the field, as `logDetU_s` counts them. -/
theorem logDetU_s_default (log : R → R) (A : R) (s : Simulation R V) :
    logDetU_s log A s (-1) (-1)
      = some (((∑ i in Finset.range s.N, ∑ j : Fin V,
            if s.diagonals i j > 0 then (1 : ℤ) else 0 : ℤ) : R) * log (1 + A)
          + ((((s.N * V : ℕ) : ℤ) - (∑ i in Finset.range s.N, ∑ j : Fin V,
            if s.diagonals i j > 0 then (1 : ℤ) else 0) : ℤ) : R) * log (1 - A)) := by
  have hx : ¬ ((0 : ℤ) ≤ -1 ∧ (0 : ℤ) ≤ -1) := by decide
  simp only [logDetU_s, if_neg hx]

/-- For a field with entries `±A`, `A > 0`, `logDetU_s()` is the sum of
`log (1 + diagonals[i][j])` over all slices and sites. -/
theorem logDetU_s_eq_sum (log : R → R) (A : R) (s : Simulation R V) (hA : 0 < A)
    (hf : ∀ i < s.N, ∀ j, s.diagonals i j = A ∨ s.diagonals i j = -A) :
    logDetU_s log A s (-1) (-1)
      = some (∑ i in Finset.range s.N, ∑ j : Fin V, log (1 + s.diagonals i j)) := by
  have key : ∀ i ∈ Finset.range s.N, ∀ j : Fin V,
      log (1 + s.diagonals i j)
        = (((if s.diagonals i j > 0 then (1 : ℤ) else 0 : ℤ) : R)) * log (1 + A)
          + (1 - ((if s.diagonals i j > 0 then (1 : ℤ) else 0 : ℤ) : R)) * log (1 - A) := by
    intro i hi j
    rcases hf i (Finset.mem_range.mp hi) j with h | h
    · rw [h, if_pos hA]
      simp
    · have hneg : ¬ (-A > 0) := by
        intro h0
        have : A < 0 := neg_pos.mp h0
        exact lt_asymm hA this
      rw [h, if_neg hneg]
      simp [sub_eq_add_neg]
  have hsum : (∑ i in Finset.range s.N, ∑ j : Fin V, log (1 + s.diagonals i j))
      = ∑ i in Finset.range s.N, ∑ j : Fin V,
          ((((if s.diagonals i j > 0 then (1 : ℤ) else 0 : ℤ) : R)) * log (1 + A)
            + (1 - ((if s.diagonals i j > 0 then (1 : ℤ) else 0 : ℤ) : R)) * log (1 - A)) :=
    Finset.sum_congr rfl fun i hi => Finset.sum_congr rfl fun j _ => key i hi j
  rw [logDetU_s_default, hsum]
  congr 1
  simp only [Finset.sum_add_distrib, ← Finset.sum_mul, Finset.sum_sub_distrib, Finset.sum_const,
    Finset.card_univ, Fintype.card_fin, Finset.card_range, smul_eq_mul, nsmul_eq_mul, mul_one]
  push_cast
  ring

/-- The count of positive entries after one entry `±A` of row `t` has been negated. -/
theorem count_update (A : R) (hA : 0 < A) (d : ℕ → Fin V → R) (N t : ℕ) (x : Fin V)
    (ht : t < N) (hx : d t x = A ∨ d t x = -A) :
    (∑ i in Finset.range N, ∑ j : Fin V,
        if Function.update d t (Function.update (d t) x (-(d t x))) i j > 0
          then (1 : ℤ) else 0)
      = (∑ i in Finset.range N, ∑ j : Fin V, if d i j > 0 then (1 : ℤ) else 0)
        + (if d t x > 0 then -1 else 1) := by
  have hrow : ∀ i ∈ Finset.range N, i ≠ t →
      (∑ j : Fin V, if Function.update d t (Function.update (d t) x (-(d t x))) i j > 0
          then (1 : ℤ) else 0)
        = ∑ j : Fin V, if d i j > 0 then (1 : ℤ) else 0 := by
    intro i _ hit
    rw [Function.update_noteq hit]
  have hcol : ∀ j ∈ (Finset.univ : Finset (Fin V)), j ≠ x →
      (if Function.update (d t) x (-(d t x)) j > 0 then (1 : ℤ) else 0)
        = if d t j > 0 then (1 : ℤ) else 0 := by
    intro j _ hjx
    rw [Function.update_noteq hjx]
  have htm : t ∈ Finset.range N := Finset.mem_range.mpr ht
  have hxm : x ∈ (Finset.univ : Finset (Fin V)) := Finset.mem_univ x
  rw [← Finset.add_sum_erase _ _ htm, ← Finset.add_sum_erase (Finset.range N) _ htm,
    Finset.sum_congr rfl (fun i hi => hrow i (Finset.mem_of_mem_erase hi)
      (Finset.ne_of_mem_erase hi)),
    Function.update_same, ← Finset.add_sum_erase _ _ hxm,
    ← Finset.add_sum_erase (Finset.univ : Finset (Fin V)) (fun j => if d t j > 0 then (1 : ℤ)
      else 0) hxm,
    Finset.sum_congr rfl (fun j hj => hcol j (Finset.mem_of_mem_erase hj)
      (Finset.ne_of_mem_erase hj)),
    Function.update_same]
  have hneg : ¬ (-A > 0) := by
    intro h0
    have : A < 0 := neg_pos.mp h0
    exact lt_asymm hA this
  rcases hx with h | h
  · simp only [h, if_pos hA, if_neg hneg]
    ring
  · simp only [h, neg_neg, if_pos hA, if_neg hneg]
    ring

/-- Where the row of slice `t` is `diagonals[t]` (always in `stable.cpp`; in `simulation.hpp`
when `time_shift` is zero), `logDetU_s(x, t)` is the value of `logDetU_s()` after
`flip(t, x)`, for a field entry `±A`. -/
theorem logDetU_s_flip_of_direct (log : R → R) (A : R) (hA : 0 < A) (ix : RowIndex R V)
    (s : Simulation R V) (x : Fin V) (t : ℕ) (ht : t < s.N) (hix : ix s t = t)
    (hx : s.diagonals t x = A ∨ s.diagonals t x = -A) :
    logDetU_s log A s (x.val : ℤ) (t : ℤ) = logDetU_s log A (flip ix s t x) (-1) (-1) := by
  have h0 : (0 : ℤ) ≤ (x.val : ℤ) ∧ (0 : ℤ) ≤ (t : ℤ) :=
    ⟨Int.natCast_nonneg _, Int.natCast_nonneg _⟩
  have hr : x.val < V ∧ t < s.N := ⟨x.isLt, ht⟩
  have hN : (flip ix s t x).N = s.N := rfl
  have hd : (flip ix s t x).diagonals
      = Function.update s.diagonals t
          (Function.update (s.diagonals t) x (-(s.diagonals t x))) := by
    simp only [flip, Simulation.diagonal, hix]
  rw [logDetU_s_default, hN, hd, count_update A hA s.diagonals s.N t x ht hx]
  simp only [logDetU_s, if_pos h0, Int.toNat_ofNat, dif_pos hr, Fin.eta]

end logdet_lemmas

/-! ## The log-weight of a rebuilt factorisation -/

section weight_lemmas

variable {R : Type} [LinearOrderedField R] {V : ℕ}

theorem sum_log_eq_log_prod (log : R → R)
    (hlog : ∀ a b : R, 0 < a → 0 < b → log (a * b) = log a + log b) {n : ℕ}
    (f : Fin n → R) (hf : ∀ i, 0 < f i) : ∑ i, log (f i) = log (∏ i, f i) := by
  have h1 : log 1 = 0 := by
    have h := hlog 1 1 zero_lt_one zero_lt_one
    rw [mul_one] at h
    linarith
  have key : ∀ t : Finset (Fin n), ∑ i in t, log (f i) = log (∏ i in t, f i) := by
    intro t
    induction t using Finset.induction_on with
    | empty => simp [h1]
    | insert hat ih =>
      rw [Finset.sum_insert hat, Finset.prod_insert hat, ih,
        hlog _ _ (hf _) (Finset.prod_pos fun i _ => hf i)]
  exact key Finset.univ

/-- With a logarithm that turns products of positive numbers into sums: the log-weight that
a rebuild with singular value decompositions computes from blocks with product `M` is
`log |det(I + λ_A M)| + log |det(I + λ_B M)|`. -/
theorem rebuilt_weight_formula (exp log : R → R)
    (hlog : ∀ a b : R, 0 < a → 0 < b → log (a * b) = log a + log b)
    (dgesvd : Dgesvd R V V) (s : Simulation R V) (hre : s.RebuildExact exp dgesvd)
    (hdA : (1 + s.lambdaA exp • s.slices.reverse.prod).det ≠ 0)
    (hdB : (1 + s.lambdaB exp • s.slices.reverse.prod).det ≠ 0) :
    svd_probability log (make_density_matrices exp dgesvd (make_svd dgesvd s))
      = log |(1 + s.lambdaA exp • s.slices.reverse.prod).det|
        + log |(1 + s.lambdaB exp • s.slices.reverse.prod).det| := by
  obtain ⟨⟨hoA, hmA, hSA⟩, ⟨hoB, hmB, hSB⟩⟩ := rebuild_consistent s exp dgesvd hre
  have hpA : ∀ i, 0 < (make_density_matrices exp dgesvd (make_svd dgesvd s)).svdA.S i :=
    fun i => lt_of_le_of_ne (hSA i)
      (Ne.symm (SVDHelper.S_ne_zero_of_det_ne_zero _ (by rw [hmA]; exact hdA) i))
  have hpB : ∀ i, 0 < (make_density_matrices exp dgesvd (make_svd dgesvd s)).svdB.S i :=
    fun i => lt_of_le_of_ne (hSB i)
      (Ne.symm (SVDHelper.S_ne_zero_of_det_ne_zero _ (by rw [hmB]; exact hdB) i))
  rw [svd_probability, sum_log_eq_log_prod log hlog _ hpA, sum_log_eq_log_prod log hlog _ hpB,
    ← SVDHelper.abs_det_matrix _ hoA hSA, ← SVDHelper.abs_det_matrix _ hoB hSB, hmA, hmB]

end weight_lemmas

/-! ## Facts about the concrete inputs -/

section demo_lemmas

theorem demo0_isOrthogonal : (Simulation.demo0 ℝ).svd.IsOrthogonal := by
  simp [SVDHelper.IsOrthogonal, Simulation.demo0, SVDHelper.demoR]

theorem demo0_lambdaA : (Simulation.demo0 ℝ).lambdaA Real.exp = 1 := by
  simp [Simulation.lambdaA, Simulation.demo0]

theorem demo0_lambdaB : (Simulation.demo0 ℝ).lambdaB Real.exp = 1 := by
  simp [Simulation.lambdaB, Simulation.demo0]

theorem demo0_det : (Simulation.demo0 ℝ).svd.matrix.det ≠ 0 := by
  simp [Simulation.demo0, SVDHelper.demoR, SVDHelper.matrix, Matrix.det_fin_two]

theorem demo0_det_one_add : (1 + (1 : ℝ) • (Simulation.demo0 ℝ).svd.matrix).det ≠ 0 := by
  simp [Simulation.demo0, SVDHelper.demoR, SVDHelper.matrix, Matrix.det_fin_two]
  norm_num

theorem demo0_exactAt (c : ℝ) :
    Dgesvd.ofDiagonal.ExactAt ((Simulation.demo0 ℝ).svd.add_identity_other c) := by
  simp only [Dgesvd.ExactAt, Dgesvd.ofDiagonal, SVDHelper.matrix,
    SVDHelper.add_identity_other, Simulation.demo0, SVDHelper.demoR]
  ext i j
  fin_cases i <;> fin_cases j <;> simp

theorem demo0_exactAt_inverted (c : ℝ) :
    Dgesvd.ofDiagonal.ExactAt
      ((Simulation.demo0 ℝ).svd.invertInPlace.add_identity_other c) := by
  simp only [Dgesvd.ExactAt, Dgesvd.ofDiagonal, SVDHelper.matrix,
    SVDHelper.add_identity_other, Simulation.demo0, SVDHelper.demoR, SVDHelper.invertInPlace]
  ext i j
  fin_cases i <;> fin_cases j <;>
    simp [Matrix.mul_apply, Fin.sum_univ_two, Matrix.one_apply, Fin.ext_iff, Fin.rev, Fin.last]

theorem demo0_isSVDAt (c : ℝ) (hc : 0 ≤ c) :
    Dgesvd.ofDiagonal.IsSVDAt ((Simulation.demo0 ℝ).svd.add_identity_other c) := by
  refine ⟨demo0_exactAt c, Dgesvd.ofDiagonal_orthogonalAt _, ?_⟩
  intro i
  simp only [Dgesvd.ofDiagonal, SVDHelper.add_identity_other, Simulation.demo0,
    SVDHelper.demoR]
  fin_cases i <;> simp <;> positivity

theorem demoD0_facts :
    1 ≤ (Stable.demoD0 ℝ).mslices ∧ (Stable.demoD0 ℝ).N = 3 ∧ (Stable.demoD0 ℝ).mslices = 2 ∧
      (Stable.demoD0 ℝ).propagator = 1 ∧ (∀ x, 0 ≤ (Stable.demoD0 ℝ).freePropagator_x x) ∧
      ∀ j y, -1 ≤ (Stable.demoD0 ℝ).diagonals j y ∧ (Stable.demoD0 ℝ).diagonals j y ≤ 1 := by
  refine ⟨by simp [Stable.demoD0, Simulation.demo0], rfl, rfl, rfl, ?_, ?_⟩
  · intro x
    simp [Stable.demoD0, Simulation.demo0]
  · intro j y
    simp only [Stable.demoD0, Simulation.demo0]
    split_ifs <;> norm_num

theorem demoOne_eq :
    Stable.demoOne ℝ Real.exp Real.log
      = { Stable.demoOne0 ℝ with
          positionSpace := diagonal (fun _ => (3 / 2 : ℝ))
          slices := [diagonal (fun _ => (3 / 2 : ℝ))]
          svd := { U := 1, S := fun _ => 3 / 2, Vt := 1 }
          svdA := { U := 1, S := fun _ => 5 / 2, Vt := 1 }
          svdB := { U := 1, S := fun _ => 5 / 2, Vt := 1 }
          plog := Real.log (5 / 2) + Real.log (5 / 2) } := by
  simp [Stable.demoOne, Stable.compute_U_s, Stable.demoOne0, make_density_matrices, make_svd,
    make_slices, make_slices_loop, accumulate_forward, accumulate_loop, slice_factor,
    Simulation.diagonal, Stable.rowIndex, make_svd_of, make_svd_loop, SVDHelper.absorbU,
    Dgesvd.ofDiagonal, SVDHelper.setIdentity, SVDHelper.add_identity,
    SVDHelper.add_identity_other, Simulation.lambdaA, Simulation.lambdaB, svd_probability]
  norm_num

theorem demoOne_proposal_slices :
    (Stable.proposal Real.exp Real.log (Stable.demoOne ℝ Real.exp Real.log) 0 0).slices
      = [diagonal (fun _ => (1 / 2 : ℝ))] := by
  rw [demoOne_eq]
  simp [Stable.proposal, Stable.rank1_probability, Stable.compute_uv_f_smart,
    compute_uv_f_short, flip, Stable.demoOne0, uv_forward_loop, uv_backward_loop,
    Simulation.diagonal, Stable.rowIndex, List.modify, vecMulVec]
  ext i j
  fin_cases i
  fin_cases j
  simp
  norm_num

/-- The factors that `make_svd` and `make_density_matrices` compute, with the routine
`Dgesvd.ofDiagonal`, from the single `1 × 1` block `1/2` at `beta = 1`, `B = mu = 0`. -/
theorem rebuild_of_half (q : Simulation ℝ 1)
    (hsl : q.slices = [diagonal (fun _ => (1 / 2 : ℝ))])
    (hmsvd : q.msvd = 1) (hb : q.beta = 1) (hB : q.B = 0) (hmu : q.mu = 0) :
    (make_density_matrices Real.exp Dgesvd.ofDiagonal (make_svd Dgesvd.ofDiagonal q)).svd
      = { U := 1, S := fun _ => 1 / 2, Vt := 1 } ∧
    (make_density_matrices Real.exp Dgesvd.ofDiagonal (make_svd Dgesvd.ofDiagonal q)).svdA
      = { U := 1, S := fun _ => 3 / 2, Vt := 1 } ∧
    (make_density_matrices Real.exp Dgesvd.ofDiagonal (make_svd Dgesvd.ofDiagonal q)).svdB
      = { U := 1, S := fun _ => 3 / 2, Vt := 1 } := by
  simp [make_density_matrices, make_svd, hsl, hmsvd, hb, hB, hmu, make_svd_of, make_svd_loop,
    SVDHelper.absorbU, Dgesvd.ofDiagonal, SVDHelper.setIdentity, SVDHelper.add_identity,
    SVDHelper.add_identity_other, Simulation.lambdaA, Simulation.lambdaB]
  norm_num

theorem demoOne_setup :
    (Stable.demoOne ℝ Real.exp Real.log).msvd = 1 ∧
      (Stable.demoOne ℝ Real.exp Real.log).beta = 1 ∧
      (Stable.demoOne ℝ Real.exp Real.log).B = 0 ∧
      (Stable.demoOne ℝ Real.exp Real.log).mu = 0 ∧
      (Stable.demoOne ℝ Real.exp Real.log).plog = Real.log (5 / 2) + Real.log (5 / 2) ∧
      (Stable.demoOne ℝ Real.exp Real.log).slices = [diagonal (fun _ => (3 / 2 : ℝ))] := by
  rw [demoOne_eq]
  exact ⟨rfl, rfl, rfl, rfl, rfl, rfl⟩

theorem demoOne_rebuilt_proposal :
    (make_density_matrices Real.exp Dgesvd.ofDiagonal (make_svd Dgesvd.ofDiagonal
        (Stable.proposal Real.exp Real.log (Stable.demoOne ℝ Real.exp Real.log) 0 0))).svd
      = { U := 1, S := fun _ => 1 / 2, Vt := 1 } ∧
    (make_density_matrices Real.exp Dgesvd.ofDiagonal (make_svd Dgesvd.ofDiagonal
        (Stable.proposal Real.exp Real.log (Stable.demoOne ℝ Real.exp Real.log) 0 0))).svdA
      = { U := 1, S := fun _ => 3 / 2, Vt := 1 } ∧
    (make_density_matrices Real.exp Dgesvd.ofDiagonal (make_svd Dgesvd.ofDiagonal
        (Stable.proposal Real.exp Real.log (Stable.demoOne ℝ Real.exp Real.log) 0 0))).svdB
      = { U := 1, S := fun _ => 3 / 2, Vt := 1 } := by
  have hset := proposal_setup Real.exp Real.log (Stable.demoOne ℝ Real.exp Real.log) 0 0
  obtain ⟨h1, h2, h3, h4, -, -⟩ := demoOne_setup
  exact rebuild_of_half _ demoOne_proposal_slices (hset.2.2.2.2.2.1.trans h1)
    (hset.2.2.2.2.2.2.1.trans h2) (hset.2.2.2.2.2.2.2.1.trans h3)
    (hset.2.2.2.2.2.2.2.2.trans h4)

theorem log_gap : Real.log (3 / 2) + Real.log (3 / 2)
    - (Real.log (5 / 2) + Real.log (5 / 2)) ≤ -(4 / 5) := by
  have h1 : Real.log (5 / 2) - Real.log (3 / 2) = Real.log (5 / 3) := by
    rw [← Real.log_div (by norm_num) (by norm_num)]
    norm_num
  have h2 := Real.one_sub_inv_le_log_of_pos (show (0 : ℝ) < 5 / 3 by norm_num)
  have h3 : (1 : ℝ) - (5 / 3)⁻¹ = 2 / 5 := by norm_num
  rw [h3] at h2
  linarith

/-- On the one-site state, the proposed flip of the only field entry lowers the log-weight by
more than `1/2`, so the step with `trial = 1/2` is rejected. -/
theorem demoOne_rejected :
    (Stable.metropolis Real.exp Real.log Dgesvd.ofDiagonal
      (Stable.demoOne ℝ Real.exp Real.log) 0 0 (1 / 2)).1 = false := by
  obtain ⟨-, hA, hB⟩ := demoOne_rebuilt_proposal
  have hnp : svd_probability Real.log (make_density_matrices Real.exp Dgesvd.ofDiagonal
      (make_svd Dgesvd.ofDiagonal
        (Stable.proposal Real.exp Real.log (Stable.demoOne ℝ Real.exp Real.log) 0 0)))
      = Real.log (3 / 2) + Real.log (3 / 2) := by
    simp [svd_probability, hA, hB]
  have hplog : (make_density_matrices Real.exp Dgesvd.ofDiagonal (make_svd Dgesvd.ofDiagonal
      (Stable.proposal Real.exp Real.log (Stable.demoOne ℝ Real.exp Real.log) 0 0))).plog
      = Real.log (5 / 2) + Real.log (5 / 2) := by
    rw [make_density_matrices_plog, make_svd_plog, proposal_plog]
    exact demoOne_setup.2.2.2.2.1
  have hgap := log_gap
  unfold Stable.metropolis
  simp only [hnp, hplog]
  rw [if_neg (by linarith)]

/-- After that rejected step the blocks are the old ones while `svd`, `svdA` and `svdB` are
the factors of the rejected proposal. -/
theorem demoOne_after_rejection :
    (Stable.metropolis Real.exp Real.log Dgesvd.ofDiagonal
        (Stable.demoOne ℝ Real.exp Real.log) 0 0 (1 / 2)).2.slices
      = [diagonal (fun _ => (3 / 2 : ℝ))] ∧
    (Stable.metropolis Real.exp Real.log Dgesvd.ofDiagonal
        (Stable.demoOne ℝ Real.exp Real.log) 0 0 (1 / 2)).2.svd
      = { U := 1, S := fun _ => 1 / 2, Vt := 1 } ∧
    (Stable.metropolis Real.exp Real.log Dgesvd.ofDiagonal
        (Stable.demoOne ℝ Real.exp Real.log) 0 0 (1 / 2)).2.svdA
      = { U := 1, S := fun _ => 3 / 2, Vt := 1 } ∧
    (Stable.metropolis Real.exp Real.log Dgesvd.ofDiagonal
        (Stable.demoOne ℝ Real.exp Real.log) 0 0 (1 / 2)).2.svdB
      = { U := 1, S := fun _ => 3 / 2, Vt := 1 } := by
  have hrej := demoOne_rejected
  obtain ⟨hsvd, hA, hB⟩ := demoOne_rebuilt_proposal
  refine ⟨?_, ?_, ?_, ?_⟩
  · rw [(metropolis_rejected_restores _ _ _ _ _ _ _ hrej).2.2]
    exact demoOne_setup.2.2.2.2.2
  · rw [metropolis_rejected _ _ _ _ _ _ _ hrej]
    exact hsvd
  · rw [metropolis_rejected _ _ _ _ _ _ _ hrej]
    exact hA
  · rw [metropolis_rejected _ _ _ _ _ _ _ hrej]
    exact hB

theorem logDetU_s_two_rows (log : ℝ → ℝ) (s : Simulation ℝ 1) (A a b : ℝ) (hN : s.N = 2)
    (h0 : ∀ j, s.diagonals 0 j = a) (h1 : ∀ j, s.diagonals 1 j = b) :
    logDetU_s log A s (-1) (-1)
      = some ((((if a > 0 then 1 else 0) + (if b > 0 then 1 else 0) : ℤ) : ℝ) * log (1 + A)
          + (((2 : ℤ) - ((if a > 0 then 1 else 0) + (if b > 0 then 1 else 0)) : ℤ) : ℝ)
            * log (1 - A)) := by
  have hc : (∑ i in Finset.range 2, ∑ j : Fin 1, if s.diagonals i j > 0 then (1 : ℤ) else 0)
      = (if a > 0 then 1 else 0) + (if b > 0 then 1 else 0) := by
    simp only [Finset.sum_range_succ, Finset.range_zero, Finset.sum_empty, Finset.univ_unique,
      Finset.sum_singleton, h0, h1, zero_add]
  have hx : ¬ ((0 : ℤ) ≤ -1 ∧ (0 : ℤ) ≤ -1) := by decide
  simp only [logDetU_s, hN, hc, if_neg hx]
  push_cast
  rfl

theorem logDetU_s_two_rows_at (log : ℝ → ℝ) (s : Simulation ℝ 1) (A a b : ℝ) (hN : s.N = 2)
    (h0 : ∀ j, s.diagonals 0 j = a) (h1 : ∀ j, s.diagonals 1 j = b) :
    logDetU_s log A s 0 0
      = some ((((if a > 0 then 1 else 0) + (if b > 0 then 1 else 0)
              + (if a > 0 then -1 else 1) : ℤ) : ℝ) * log (1 + A)
          + (((2 : ℤ) - ((if a > 0 then 1 else 0) + (if b > 0 then 1 else 0)
              + (if a > 0 then -1 else 1)) : ℤ) : ℝ) * log (1 - A)) := by
  have hc : (∑ i in Finset.range 2, ∑ j : Fin 1, if s.diagonals i j > 0 then (1 : ℤ) else 0)
      = (if a > 0 then 1 else 0) + (if b > 0 then 1 else 0) := by
    simp only [Finset.sum_range_succ, Finset.range_zero, Finset.sum_empty, Finset.univ_unique,
      Finset.sum_singleton, h0, h1, zero_add]
  have hx : ((0 : ℤ) ≤ 0 ∧ (0 : ℤ) ≤ 0) := by decide
  have hr : (0 : ℤ).toNat < 1 ∧ (0 : ℤ).toNat < s.N := by
    rw [hN]
    decide
  simp only [logDetU_s, hN, hc, if_pos hx, dif_pos hr, h0]
  push_cast
  rw [dif_pos (And.intro trivial trivial), h0 0]
theorem demoShift_rows :
    (Simulation.demoShift ℝ).N = 2 ∧
      (∀ j, (Simulation.demoShift ℝ).diagonals 0 j = 1 / 2) ∧
      (∀ j, (Simulation.demoShift ℝ).diagonals 1 j = -(1 / 2)) ∧
      (flip Simulation.rowIndex (Simulation.demoShift ℝ) 0 0).N = 2 ∧
      (∀ j, (flip Simulation.rowIndex (Simulation.demoShift ℝ) 0 0).diagonals 0 j = 1 / 2) ∧
      (∀ j, (flip Simulation.rowIndex (Simulation.demoShift ℝ) 0 0).diagonals 1 j = 1 / 2) := by
  refine ⟨rfl, fun j => by simp [Simulation.demoShift], fun j => by simp [Simulation.demoShift],
    rfl, ?_, ?_⟩
  · intro j
    simp [flip, Simulation.rowIndex, Simulation.diagonal, Simulation.demoShift,
      Stable.demoOne0, Function.update]
  · intro j
    have hj : j = 0 := Subsingleton.elim _ _
    subst hj
    simp [flip, Simulation.rowIndex, Simulation.diagonal, Simulation.demoShift,
      Stable.demoOne0, Function.update]

/-- The hypotheses of the test of an update of the sites `1` and `0` in slice `2`, on the
state `demoD`. -/
theorem demoD_rankN_facts :
    1 ≤ (Stable.demoD ℝ Real.exp Real.log).mslices ∧
      2 < (Stable.demoD ℝ Real.exp Real.log).N ∧
      (Stable.demoD ℝ Real.exp Real.log).propagatorᵀ
        = (Stable.demoD ℝ Real.exp Real.log).propagator ∧
      (make_slices Stable.rowIndex (Stable.demoD ℝ Real.exp Real.log)).slices
        = (Stable.demoD ℝ Real.exp Real.log).slices ∧
      ((Stable.demoD ℝ Real.exp Real.log).svdA.IsOrthogonal ∧
        (Stable.demoD ℝ Real.exp Real.log).svdA.matrix
          = 1 + (Stable.demoD ℝ Real.exp Real.log).lambdaA Real.exp
              • (Stable.demoD ℝ Real.exp Real.log).slices.reverse.prod ∧
        ∀ i, 0 ≤ (Stable.demoD ℝ Real.exp Real.log).svdA.S i) ∧
      ((Stable.demoD ℝ Real.exp Real.log).svdB.IsOrthogonal ∧
        (Stable.demoD ℝ Real.exp Real.log).svdB.matrix
          = 1 + (Stable.demoD ℝ Real.exp Real.log).lambdaB Real.exp
              • (Stable.demoD ℝ Real.exp Real.log).slices.reverse.prod ∧
        ∀ i, 0 ≤ (Stable.demoD ℝ Real.exp Real.log).svdB.S i) ∧
      0 < (1 + (Stable.demoD ℝ Real.exp Real.log).lambdaA Real.exp
            • (Stable.demoD ℝ Real.exp Real.log).slices.reverse.prod).det ∧
      0 < (1 + (Stable.demoD ℝ Real.exp Real.log).lambdaB Real.exp
            • (Stable.demoD ℝ Real.exp Real.log).slices.reverse.prod).det ∧
      (Stable.demoD ℝ Real.exp Real.log).plog
        = svd_probability Real.log (Stable.demoD ℝ Real.exp Real.log) ∧
      ∀ A ∈ (make_slices Stable.rowIndex (flip_vec Stable.rowIndex
          (Stable.rankN_state (Stable.demoD ℝ Real.exp Real.log) 2 [1, 0]
            ([1, 0] : List (Fin 2)).length) 2 [1, 0])).slices, IsNonnegDiag A := by
  obtain ⟨hm0, hN0, hmm0, hP0, hfx0, hd0⟩ := demoD0_facts
  have hexp : ∀ y : ℝ, 0 ≤ Real.exp y := fun y => (Real.exp_pos y).le
  obtain ⟨hN, hmm, hPP, hcur, hdiag, hA, hB, _⟩ :=
    compute_U_s_diag_facts Real.exp Real.log hexp (Stable.demoD0 ℝ) hm0 hP0 hfx0 hd0
  obtain ⟨hset, hdd, hplog⟩ :=
    compute_U_s_frame Real.exp Real.log Dgesvd.ofDiagonal (Stable.demoD0 ℝ) hm0
  obtain ⟨hset1, hdd1, _⟩ := rankN_state_frame (Stable.demoD ℝ Real.exp Real.log) 2 [1, 0]
    ([1, 0] : List (Fin 2)).length
  have hdA := (IsNonnegDiag.prod_reverse _ hdiag).det_one_add_smul_pos
    ((Stable.demoD ℝ Real.exp Real.log).lambdaA Real.exp) (hexp _)
  have hdB := (IsNonnegDiag.prod_reverse _ hdiag).det_one_add_smul_pos
    ((Stable.demoD ℝ Real.exp Real.log).lambdaB Real.exp) (hexp _)
  refine ⟨by rw [Stable.demoD, hmm]; exact hm0, by rw [Stable.demoD, hN, hN0]; norm_num,
    by rw [Stable.demoD, hPP]; simp, hcur, hA, hB, hdA, hdB, hplog, ?_⟩
  apply make_slices_flip_vec_isNonnegDiag
  · rw [hset1.2.2.1]
    exact hPP
  · intro x
    rw [hset1.2.2.2.1]
    have h := hset.2.2.2.1
    rw [Stable.demoD, h]
    exact hfx0 x
  · intro j y
    rw [hdd1, Stable.demoD, hdd]
    exact hd0 j y

end demo_lemmas

/-! ## Contracts stated by the specification -/

section claims

variable {R : Type} [LinearOrderedField R] {V : ℕ}

/-- C1: for a non-empty list of square blocks and a re-factorisation period `msvd ≥ 1`,
when every decomposition called by `make_svd` is exact, the matrix `U * diag(S) * Vt` that
`make_svd` leaves in `svd` is the time-ordered product `slices[n-1] * … * slices[0]`. -/
theorem make_svd_matrix_eq_ordered_product (dgesvd : Dgesvd R V V) (s : Simulation R V)
    (hex : s.SvdCallsExact dgesvd) (_hne : s.slices ≠ []) (_hmsvd : 1 ≤ s.msvd) :
    (make_svd dgesvd s).svd.matrix = s.slices.reverse.prod := by
  have h := make_svd_loop_matrix dgesvd s.msvd s.slices.length s.slices 0
    (SVDHelper.setIdentity V) hex
  simpa [make_svd, make_svd_of, SVDHelper.matrix, SVDHelper.setIdentity] using h

theorem make_svd_matrix_eq_ordered_product_witness :
    (Simulation.demo ℚ).SvdCallsExact Dgesvd.leftOnly ∧
      (Simulation.demo ℚ).slices ≠ [] ∧ 1 ≤ (Simulation.demo ℚ).msvd ∧
      (make_svd Dgesvd.leftOnly (Simulation.demo ℚ)).svd.matrix
        = (Simulation.demo ℚ).slices.reverse.prod :=
  have hex : (Simulation.demo ℚ).SvdCallsExact Dgesvd.leftOnly :=
    make_svd_calls_of_forall _ _
      (fun A => by simp [Dgesvd.ExactAt, Dgesvd.leftOnly, SVDHelper.matrix]) _ _ _ _ _
  have hne : (Simulation.demo ℚ).slices ≠ [] := by
    intro h
    have h0 := make_slices_getElem? Simulation.rowIndex shifted_rowIndex_framed
      (Simulation.demo0 ℚ) (by simp [Simulation.demo0]) 0 (by simp [Simulation.demo0])
    rw [show (make_slices Simulation.rowIndex (Simulation.demo0 ℚ)).slices = [] from h] at h0
    simp at h0
  have hmsvd : 1 ≤ (Simulation.demo ℚ).msvd := by
    rw [Simulation.demo, make_slices_msvd _ shifted_rowIndex_framed]
    simp [Simulation.demo0]
  ⟨hex, hne, hmsvd,
    make_svd_matrix_eq_ordered_product Dgesvd.leftOnly (Simulation.demo ℚ) hex hne hmsvd⟩

/-- C2: in either class (`simulation.hpp`, where the field of slice `t` is `diagonal(t)`,
or `stable.cpp`, where it is `diagonals[t]`), for every field, every site `x`, every slice
`t < N` and a free propagation operator with a symmetric matrix: when the blocks in `slices`
are current, the matrix `slices[t/mslices] + u_smart * v_smartᵀ` formed from the vectors of
`compute_uv_f_short(x, t)` is the block that `make_slices` computes at index `t/mslices`
after `flip(t, x)`. -/
theorem compute_uv_f_short_rank_one_flip (ix : RowIndex R V)
    (hix : ix = Simulation.rowIndex ∨ ix = Stable.rowIndex) (s : Simulation R V) (x : Fin V)
    (t : ℕ) (hm : 1 ≤ s.mslices) (ht : t < s.N) (hP : s.propagatorᵀ = s.propagator)
    (hcur : (make_slices ix s).slices = s.slices) :
    ∃ B, s.slices[t / s.mslices]? = some B ∧
      (make_slices ix (flip ix s t x)).slices[t / s.mslices]?
        = some (B + vecMulVec (compute_uv_f_short ix s x t).cache.u_smart
            (compute_uv_f_short ix s x t).cache.v_smart) := by
  rcases hix with h | h
  · subst h
    exact make_slices_flip _ shifted_rowIndex_framed s x t hm ht hP
      (fun j hj h => Simulation.rowIndex_injective s j t hj ht h) hcur
  · subst h
    exact make_slices_flip _ direct_rowIndex_framed s x t hm ht hP (fun j _ h => h) hcur

theorem compute_uv_f_short_rank_one_flip_witness :
    1 ≤ (Simulation.demo ℚ).mslices ∧ 2 < (Simulation.demo ℚ).N ∧
      (Simulation.demo ℚ).propagatorᵀ = (Simulation.demo ℚ).propagator ∧
      (make_slices Simulation.rowIndex (Simulation.demo ℚ)).slices
        = (Simulation.demo ℚ).slices ∧
      ∃ B, (Simulation.demo ℚ).slices[2 / (Simulation.demo ℚ).mslices]? = some B ∧
        (make_slices Simulation.rowIndex
            (flip Simulation.rowIndex (Simulation.demo ℚ) 2 1)).slices[
              2 / (Simulation.demo ℚ).mslices]?
          = some (B + vecMulVec
              (compute_uv_f_short Simulation.rowIndex (Simulation.demo ℚ) 1 2).cache.u_smart
              (compute_uv_f_short Simulation.rowIndex (Simulation.demo ℚ) 1 2).cache.v_smart) :=
  have hm : 1 ≤ (Simulation.demo ℚ).mslices := by
    rw [Simulation.demo, make_slices_mslices _ shifted_rowIndex_framed]
    simp [Simulation.demo0]
  have ht : 2 < (Simulation.demo ℚ).N := by
    rw [Simulation.demo, make_slices_N _ shifted_rowIndex_framed]
    simp [Simulation.demo0]
  have hP : (Simulation.demo ℚ).propagatorᵀ = (Simulation.demo ℚ).propagator := by
    rw [Simulation.demo, make_slices_propagator _ shifted_rowIndex_framed]
    ext i j
    fin_cases i <;> fin_cases j <;> simp [Simulation.demo0]
  have hcur : (make_slices Simulation.rowIndex (Simulation.demo ℚ)).slices
      = (Simulation.demo ℚ).slices :=
    make_slices_slices_idem _ shifted_rowIndex_framed _
  ⟨hm, ht, hP, hcur,
    compute_uv_f_short_rank_one_flip Simulation.rowIndex (Or.inl rfl) (Simulation.demo ℚ) 1 2
      hm ht hP hcur⟩

/-- C7: for a factorisation `svd` with orthogonal factors of an invertible matrix `M` such
that `I + λ_A M` and `I + λ_B M` are invertible (`λ_A = exp(+βB/2+βμ)`,
`λ_B = exp(-βB/2+βμ)`), with the decompositions called on the way exact and orthogonal: the
matrices that `make_svd_inverse` reaches by invert / add_identity / invert are the direct
forms, `svd_inverse_up.matrix() = I - (I + λ_A M)⁻¹ = I - svdA.inverse()` and
`svd_inverse_dn.matrix() = I - (I + λ_B M)⁻¹ = I - svdB.inverse()`, with `svdA`, `svdB` those
of `make_density_matrices`. -/
theorem make_svd_inverse_green (dgesvd : Dgesvd ℝ V V) (s : Simulation ℝ V)
    (ho : s.svd.IsOrthogonal) (hM : s.svd.matrix.det ≠ 0)
    (hA : (1 + s.lambdaA Real.exp • s.svd.matrix).det ≠ 0)
    (hB : (1 + s.lambdaB Real.exp • s.svd.matrix).det ≠ 0)
    (hup : dgesvd.ExactAt (s.svd.invertInPlace.add_identity_other
        (Real.exp (-s.beta * s.B * 0.5 - s.beta * s.mu))) ∧
      dgesvd.OrthogonalAt (s.svd.invertInPlace.add_identity_other
        (Real.exp (-s.beta * s.B * 0.5 - s.beta * s.mu))))
    (hdn : dgesvd.ExactAt (s.svd.invertInPlace.add_identity_other
        (Real.exp (s.beta * s.B * 0.5 - s.beta * s.mu))) ∧
      dgesvd.OrthogonalAt (s.svd.invertInPlace.add_identity_other
        (Real.exp (s.beta * s.B * 0.5 - s.beta * s.mu))))
    (hcA : dgesvd.ExactAt (s.svd.add_identity_other (s.lambdaA Real.exp)) ∧
      dgesvd.OrthogonalAt (s.svd.add_identity_other (s.lambdaA Real.exp)))
    (hcB : dgesvd.ExactAt (s.svd.add_identity_other (s.lambdaB Real.exp)) ∧
      dgesvd.OrthogonalAt (s.svd.add_identity_other (s.lambdaB Real.exp))) :
    (make_svd_inverse Real.exp dgesvd s).svd_inverse_up.matrix
        = 1 - (1 + s.lambdaA Real.exp • s.svd.matrix)⁻¹ ∧
      (make_svd_inverse Real.exp dgesvd s).svd_inverse_up.matrix
        = 1 - (make_density_matrices Real.exp dgesvd s).svdA.inverse ∧
      (make_svd_inverse Real.exp dgesvd s).svd_inverse_dn.matrix
        = 1 - (1 + s.lambdaB Real.exp • s.svd.matrix)⁻¹ ∧
      (make_svd_inverse Real.exp dgesvd s).svd_inverse_dn.matrix
        = 1 - (make_density_matrices Real.exp dgesvd s).svdB.inverse := by
  have eA : Real.exp (-s.beta * s.B * 0.5 - s.beta * s.mu) = (s.lambdaA Real.exp)⁻¹ := by
    rw [Simulation.lambdaA, ← Real.exp_neg]
    congr 1
    ring
  have eB : Real.exp (s.beta * s.B * 0.5 - s.beta * s.mu) = (s.lambdaB Real.exp)⁻¹ := by
    rw [Simulation.lambdaB, ← Real.exp_neg]
    congr 1
    ring
  have hlA : s.lambdaA Real.exp ≠ 0 := Real.exp_ne_zero _
  have hlB : s.lambdaB Real.exp ≠ 0 := Real.exp_ne_zero _
  rw [eA] at hup
  rw [eB] at hdn
  have hup' : (make_svd_inverse Real.exp dgesvd s).svd_inverse_up.matrix
      = 1 - (1 + s.lambdaA Real.exp • s.svd.matrix)⁻¹ := by
    simp only [make_svd_inverse, eA]
    exact SVDHelper.matrix_invert_add_identity_invert dgesvd s.svd _ hlA ho hM hA hup.1 hup.2
  have hdn' : (make_svd_inverse Real.exp dgesvd s).svd_inverse_dn.matrix
      = 1 - (1 + s.lambdaB Real.exp • s.svd.matrix)⁻¹ := by
    simp only [make_svd_inverse, eB]
    exact SVDHelper.matrix_invert_add_identity_invert dgesvd s.svd _ hlB ho hM hB hdn.1 hdn.2
  have hiA : (make_density_matrices Real.exp dgesvd s).svdA.inverse
      = (1 + s.lambdaA Real.exp • s.svd.matrix)⁻¹ := by
    have hm := SVDHelper.matrix_add_identity dgesvd s.svd _ ho.1 ho.2.2.2 hcA.1
    have hoA := SVDHelper.isOrthogonal_add_identity dgesvd s.svd _ ho hcA.2
    simp only [make_density_matrices]
    rw [SVDHelper.inverse_eq_inv _ hoA (by rw [hm]; exact hA), hm]
  have hiB : (make_density_matrices Real.exp dgesvd s).svdB.inverse
      = (1 + s.lambdaB Real.exp • s.svd.matrix)⁻¹ := by
    have hm := SVDHelper.matrix_add_identity dgesvd s.svd _ ho.1 ho.2.2.2 hcB.1
    have hoB := SVDHelper.isOrthogonal_add_identity dgesvd s.svd _ ho hcB.2
    simp only [make_density_matrices]
    rw [SVDHelper.inverse_eq_inv _ hoB (by rw [hm]; exact hB), hm]
  exact ⟨hup', by rw [hup', hiA], hdn', by rw [hdn', hiB]⟩

theorem make_svd_inverse_green_witness :
    (make_svd_inverse Real.exp Dgesvd.ofDiagonal (Simulation.demo0 ℝ)).svd_inverse_up.matrix
        = 1 - (1 + (Simulation.demo0 ℝ).lambdaA Real.exp • (Simulation.demo0 ℝ).svd.matrix)⁻¹ ∧
      (make_svd_inverse Real.exp Dgesvd.ofDiagonal (Simulation.demo0 ℝ)).svd_inverse_up.matrix
        = 1 - (make_density_matrices Real.exp Dgesvd.ofDiagonal
            (Simulation.demo0 ℝ)).svdA.inverse ∧
      (make_svd_inverse Real.exp Dgesvd.ofDiagonal (Simulation.demo0 ℝ)).svd_inverse_dn.matrix
        = 1 - (1 + (Simulation.demo0 ℝ).lambdaB Real.exp • (Simulation.demo0 ℝ).svd.matrix)⁻¹ ∧
      (make_svd_inverse Real.exp Dgesvd.ofDiagonal (Simulation.demo0 ℝ)).svd_inverse_dn.matrix
        = 1 - (make_density_matrices Real.exp Dgesvd.ofDiagonal
            (Simulation.demo0 ℝ)).svdB.inverse :=
  make_svd_inverse_green Dgesvd.ofDiagonal (Simulation.demo0 ℝ) demo0_isOrthogonal demo0_det
    (by rw [demo0_lambdaA]; exact demo0_det_one_add)
    (by rw [demo0_lambdaB]; exact demo0_det_one_add)
    ⟨demo0_exactAt_inverted _, Dgesvd.ofDiagonal_orthogonalAt _⟩
    ⟨demo0_exactAt_inverted _, Dgesvd.ofDiagonal_orthogonalAt _⟩
    ⟨demo0_exactAt _, Dgesvd.ofDiagonal_orthogonalAt _⟩
    ⟨demo0_exactAt _, Dgesvd.ofDiagonal_orthogonalAt _⟩

/-- C8: after `make_density_matrices` on a factorisation `svd` with orthogonal factors of
`M`, the decompositions called by the two `add_identity` being singular value
decompositions, `svd_probability()` is `log|det(I + λ_A M)| + log|det(I + λ_B M)|` whenever
both matrices are non-singular. -/
theorem svd_probability_eq_log_abs_det (dgesvd : Dgesvd ℝ V V) (s : Simulation ℝ V)
    (ho : s.svd.IsOrthogonal)
    (hcA : dgesvd.IsSVDAt (s.svd.add_identity_other (s.lambdaA Real.exp)))
    (hcB : dgesvd.IsSVDAt (s.svd.add_identity_other (s.lambdaB Real.exp)))
    (hA : (1 + s.lambdaA Real.exp • s.svd.matrix).det ≠ 0)
    (hB : (1 + s.lambdaB Real.exp • s.svd.matrix).det ≠ 0) :
    svd_probability Real.log (make_density_matrices Real.exp dgesvd s)
      = Real.log |(1 + s.lambdaA Real.exp • s.svd.matrix).det|
        + Real.log |(1 + s.lambdaB Real.exp • s.svd.matrix).det| :=
  svd_probability_make_density_matrices dgesvd s ho hcA hcB hA hB

theorem svd_probability_eq_log_abs_det_witness :
    svd_probability Real.log
        (make_density_matrices Real.exp Dgesvd.ofDiagonal (Simulation.demo0 ℝ))
      = Real.log |(1 + (Simulation.demo0 ℝ).lambdaA Real.exp
            • (Simulation.demo0 ℝ).svd.matrix).det|
        + Real.log |(1 + (Simulation.demo0 ℝ).lambdaB Real.exp
            • (Simulation.demo0 ℝ).svd.matrix).det| :=
  svd_probability_eq_log_abs_det Dgesvd.ofDiagonal (Simulation.demo0 ℝ) demo0_isOrthogonal
    (demo0_isSVDAt _ (by rw [demo0_lambdaA]; norm_num))
    (demo0_isSVDAt _ (by rw [demo0_lambdaB]; norm_num))
    (by rw [demo0_lambdaA]; exact demo0_det_one_add)
    (by rw [demo0_lambdaB]; exact demo0_det_one_add)

/-- C9: `svd_sign()` returns only `+1` or `-1`, and `+1` exactly when
`det(svdA.U * svdA.Vt * svdB.U * svdB.Vt) > 0`.  When all singular values of `svdA` and
`svdB` are positive it returns `+1` exactly when `det(svdA.matrix()) * det(svdB.matrix())`
is positive, and for orthogonal factors it is the sign of that product; when `svdA` and
`svdB` moreover represent `I + λ_A M` and `I + λ_B M`, it is the sign of the configuration
weight `det(I + λ_A M) det(I + λ_B M)`, and so it is after `make_svd` and
`make_density_matrices` with singular value decompositions, for the product `M` of the
blocks. -/
theorem svd_sign_spec (s : Simulation R V) :
    (svd_sign s = 1 ∨ svd_sign s = -1) ∧
      (svd_sign s = 1 ↔ 0 < (s.svdA.U * s.svdA.Vt * s.svdB.U * s.svdB.Vt).det) ∧
      ((∀ i, 0 < s.svdA.S i) → (∀ i, 0 < s.svdB.S i) →
        (svd_sign s = 1 ↔ 0 < s.svdA.matrix.det * s.svdB.matrix.det) ∧
        (s.svdA.IsOrthogonal → s.svdB.IsOrthogonal →
          svd_sign s
              = ((SignType.sign (s.svdA.matrix.det * s.svdB.matrix.det) : SignType) : R) ∧
            ∀ (exp : R → R) (M : Matrix (Fin V) (Fin V) R),
              s.svdA.matrix = 1 + s.lambdaA exp • M →
              s.svdB.matrix = 1 + s.lambdaB exp • M →
              svd_sign s
                = ((SignType.sign ((1 + s.lambdaA exp • M).det
                    * (1 + s.lambdaB exp • M).det) : SignType) : R))) ∧
      (∀ (exp : R → R) (dgesvd : Dgesvd R V V), s.RebuildExact exp dgesvd →
        (1 + s.lambdaA exp • s.slices.reverse.prod).det ≠ 0 →
        (1 + s.lambdaB exp • s.slices.reverse.prod).det ≠ 0 →
        svd_sign (make_density_matrices exp dgesvd (make_svd dgesvd s))
          = ((SignType.sign ((1 + s.lambdaA exp • s.slices.reverse.prod).det
              * (1 + s.lambdaB exp • s.slices.reverse.prod).det) : SignType) : R)) := by
  have key : ∀ s : Simulation R V,
      (svd_sign s = 1 ∨ svd_sign s = -1) ∧
        (svd_sign s = 1 ↔ 0 < (s.svdA.U * s.svdA.Vt * s.svdB.U * s.svdB.Vt).det) ∧
        ((∀ i, 0 < s.svdA.S i) → (∀ i, 0 < s.svdB.S i) →
          (svd_sign s = 1 ↔ 0 < s.svdA.matrix.det * s.svdB.matrix.det) ∧
          (s.svdA.IsOrthogonal → s.svdB.IsOrthogonal →
            svd_sign s
              = ((SignType.sign (s.svdA.matrix.det * s.svdB.matrix.det) : SignType) : R))) := by
    intro s
    have hval : svd_sign s = 1 ∨ svd_sign s = -1 := by
      unfold svd_sign
      split_ifs
      · exact Or.inl rfl
      · exact Or.inr rfl
    have hiff : svd_sign s = 1 ↔ 0 < (s.svdA.U * s.svdA.Vt * s.svdB.U * s.svdB.Vt).det := by
      unfold svd_sign
      split_ifs with h
      · exact ⟨fun _ => h, fun _ => rfl⟩
      · constructor
        · intro h1
          exfalso
          have h2 : (-1 : R) < 0 := by norm_num
          rw [h1] at h2
          exact absurd h2 (by norm_num)
        · intro h1
          exact absurd h1 h
    refine ⟨hval, hiff, ?_⟩
    intro hSA hSB
    have hpA : 0 < ∏ i, s.svdA.S i := Finset.prod_pos fun i _ => hSA i
    have hpB : 0 < ∏ i, s.svdB.S i := Finset.prod_pos fun i _ => hSB i
    have hprod : s.svdA.matrix.det * s.svdB.matrix.det
        = (s.svdA.U * s.svdA.Vt * s.svdB.U * s.svdB.Vt).det
          * ((∏ i, s.svdA.S i) * ∏ i, s.svdB.S i) := by
      rw [SVDHelper.det_matrix, SVDHelper.det_matrix, Matrix.det_mul, Matrix.det_mul,
        Matrix.det_mul]
      ring
    have hpp : 0 < (∏ i, s.svdA.S i) * ∏ i, s.svdB.S i := mul_pos hpA hpB
    have hiff2 : svd_sign s = 1 ↔ 0 < s.svdA.matrix.det * s.svdB.matrix.det := by
      rw [hiff, hprod]
      exact (mul_pos_iff_of_pos_right hpp).symm
    refine ⟨hiff2, ?_⟩
    intro hoA hoB
    have hD : (s.svdA.U * s.svdA.Vt * s.svdB.U * s.svdB.Vt).det ≠ 0 := by
      rw [Matrix.det_mul, Matrix.det_mul, Matrix.det_mul]
      have h1 := det_mul_self_of_orthogonal _ hoA.1
      have h2 := det_mul_self_of_orthogonal _ hoA.2.2.1
      have h3 := det_mul_self_of_orthogonal _ hoB.1
      have h4 := det_mul_self_of_orthogonal _ hoB.2.2.1
      have e1 : s.svdA.U.det ≠ 0 := fun h => by rw [h] at h1; simp at h1
      have e2 : s.svdA.Vt.det ≠ 0 := fun h => by rw [h] at h2; simp at h2
      have e3 : s.svdB.U.det ≠ 0 := fun h => by rw [h] at h3; simp at h3
      have e4 : s.svdB.Vt.det ≠ 0 := fun h => by rw [h] at h4; simp at h4
      exact mul_ne_zero (mul_ne_zero (mul_ne_zero e1 e2) e3) e4
    by_cases hpos : 0 < (s.svdA.U * s.svdA.Vt * s.svdB.U * s.svdB.Vt).det
    · have h1 : svd_sign s = 1 := hiff.mpr hpos
      have h2 : 0 < s.svdA.matrix.det * s.svdB.matrix.det := hiff2.mp h1
      rw [h1, sign_pos h2]
      simp
    · have hneg : (s.svdA.U * s.svdA.Vt * s.svdB.U * s.svdB.Vt).det < 0 :=
        lt_of_le_of_ne (not_lt.mp hpos) hD
      have h1 : svd_sign s = -1 := by
        rcases hval with h | h
        · exact absurd (hiff.mp h) hpos
        · exact h
      have h2 : s.svdA.matrix.det * s.svdB.matrix.det < 0 := by
        rw [hprod]
        exact mul_neg_of_neg_of_pos hneg hpp
      rw [h1, sign_neg h2]
      simp
  obtain ⟨h1, h2, h3⟩ := key s
  refine ⟨h1, h2, fun hSA hSB => ⟨(h3 hSA hSB).1, fun hoA hoB =>
    ⟨(h3 hSA hSB).2 hoA hoB, fun exp M hmA hmB => ?_⟩⟩, ?_⟩
  · have h := (h3 hSA hSB).2 hoA hoB
    rw [hmA, hmB] at h
    exact h
  · intro exp dgesvd hre hdA hdB
    obtain ⟨⟨hoA, hmA, hSA⟩, ⟨hoB, hmB, hSB⟩⟩ := rebuild_consistent s exp dgesvd hre
    have hpA : ∀ i, 0 < (make_density_matrices exp dgesvd (make_svd dgesvd s)).svdA.S i :=
      fun i => lt_of_le_of_ne (hSA i)
        (Ne.symm (SVDHelper.S_ne_zero_of_det_ne_zero _ (by rw [hmA]; exact hdA) i))
    have hpB : ∀ i, 0 < (make_density_matrices exp dgesvd (make_svd dgesvd s)).svdB.S i :=
      fun i => lt_of_le_of_ne (hSB i)
        (Ne.symm (SVDHelper.S_ne_zero_of_det_ne_zero _ (by rw [hmB]; exact hdB) i))
    have h := ((key _).2.2 hpA hpB).2 hoA hoB
    rw [hmA, hmB] at h
    exact h

theorem svd_sign_spec_witness :
    svd_sign (Stable.demoD ℝ Real.exp Real.log)
        = ((SignType.sign ((1 + (Stable.demoD ℝ Real.exp Real.log).lambdaA Real.exp
              • (Stable.demoD ℝ Real.exp Real.log).slices.reverse.prod).det
            * (1 + (Stable.demoD ℝ Real.exp Real.log).lambdaB Real.exp
              • (Stable.demoD ℝ Real.exp Real.log).slices.reverse.prod).det) : SignType) : ℝ) ∧
      svd_sign (Stable.demoD ℝ Real.exp Real.log) = 1 ∧
      svd_sign (make_density_matrices Real.exp Dgesvd.ofDiagonal
          (make_svd Dgesvd.ofDiagonal (Stable.demoD ℝ Real.exp Real.log))) = 1 := by
  obtain ⟨_, _, _, _, ⟨hoA, hmA, hSA⟩, ⟨hoB, hmB, hSB⟩, hdA, hdB, _, _⟩ := demoD_rankN_facts
  obtain ⟨hm0, hN0, hmm0, hP0, hfx0, hd0⟩ := demoD0_facts
  have hexp : ∀ y : ℝ, 0 ≤ Real.exp y := fun y => (Real.exp_pos y).le
  obtain ⟨_, _, _, _, hdiag, _, _, _⟩ :=
    compute_U_s_diag_facts Real.exp Real.log hexp (Stable.demoD0 ℝ) hm0 hP0 hfx0 hd0
  have hpA : ∀ i, 0 < (Stable.demoD ℝ Real.exp Real.log).svdA.S i := fun i =>
    lt_of_le_of_ne (hSA i)
      (Ne.symm (SVDHelper.S_ne_zero_of_det_ne_zero _ (by rw [hmA]; exact hdA.ne') i))
  have hpB : ∀ i, 0 < (Stable.demoD ℝ Real.exp Real.log).svdB.S i := fun i =>
    lt_of_le_of_ne (hSB i)
      (Ne.symm (SVDHelper.S_ne_zero_of_det_ne_zero _ (by rw [hmB]; exact hdB.ne') i))
  obtain ⟨_, _, h3, h4⟩ := svd_sign_spec (Stable.demoD ℝ Real.exp Real.log)
  have h := ((h3 hpA hpB).2 hoA hoB).2 Real.exp _ hmA hmB
  have h' := h4 Real.exp Dgesvd.ofDiagonal
    (rebuildExact_ofDiagonal (Stable.demoD ℝ Real.exp Real.log) Real.exp hexp hdiag)
    hdA.ne' hdB.ne'
  refine ⟨h, ?_, ?_⟩
  · rw [h, sign_pos (mul_pos hdA hdB)]
    simp
  · rw [h', sign_pos (mul_pos hdA hdB)]
    simp

/-- C3 (`stable.cpp`): for every site `x` and slice `t < N`, with a symmetric propagator,
current blocks with product `M`, and `svdA`, `svdB` orthogonal factorisations of the
non-singular matrices `I + λ_A M` and `I + λ_B M`: the scalars formed in
`rank1_probability(x, t)` are `a = vᵀ (I + λ_A M)⁻¹ u` and `b = vᵀ (I + λ_B M)⁻¹ u`; the
product `M'` of the blocks rebuilt from the flipped field is `M + u vᵀ`; the value
`(1 + λ_A a)(1 + λ_B b)` is `det(I + λ_A M') det(I + λ_B M') / (det(I + λ_A M) det(I + λ_B M))`;
and when that value is positive (singular values non-negative, every decomposition of the
rebuild a singular value decomposition) the returned logarithm is `svd_probability()` after
flipping and fully rebuilding minus `svd_probability()` before. -/
theorem rank1_probability_ratio (dgesvd : Dgesvd ℝ V V) (s : Simulation ℝ V) (x : Fin V)
    (t : ℕ) (hm : 1 ≤ s.mslices) (ht : t < s.N) (hP : s.propagatorᵀ = s.propagator)
    (hcur : (make_slices Stable.rowIndex s).slices = s.slices)
    (hoA : s.svdA.IsOrthogonal)
    (hmA : s.svdA.matrix = 1 + s.lambdaA Real.exp • s.slices.reverse.prod)
    (hoB : s.svdB.IsOrthogonal)
    (hmB : s.svdB.matrix = 1 + s.lambdaB Real.exp • s.slices.reverse.prod)
    (hdA : (1 + s.lambdaA Real.exp • s.slices.reverse.prod).det ≠ 0)
    (hdB : (1 + s.lambdaB Real.exp • s.slices.reverse.prod).det ≠ 0) :
    (Stable.rank1_probability Real.exp Real.log s x t).2.cache.a
        = (Stable.rank1_probability Real.exp Real.log s x t).2.cache.v
          ⬝ᵥ ((1 + s.lambdaA Real.exp • s.slices.reverse.prod)⁻¹
            *ᵥ (Stable.rank1_probability Real.exp Real.log s x t).2.cache.u) ∧
      (Stable.rank1_probability Real.exp Real.log s x t).2.cache.b
        = (Stable.rank1_probability Real.exp Real.log s x t).2.cache.v
          ⬝ᵥ ((1 + s.lambdaB Real.exp • s.slices.reverse.prod)⁻¹
            *ᵥ (Stable.rank1_probability Real.exp Real.log s x t).2.cache.u) ∧
      (make_slices Stable.rowIndex (flip Stable.rowIndex s t x)).slices.reverse.prod
        = s.slices.reverse.prod
          + vecMulVec (Stable.rank1_probability Real.exp Real.log s x t).2.cache.u
              (Stable.rank1_probability Real.exp Real.log s x t).2.cache.v ∧
      (1 + s.lambdaA Real.exp * (Stable.rank1_probability Real.exp Real.log s x t).2.cache.a)
          * (1 + s.lambdaB Real.exp
            * (Stable.rank1_probability Real.exp Real.log s x t).2.cache.b)
        = (1 + s.lambdaA Real.exp
              • (make_slices Stable.rowIndex (flip Stable.rowIndex s t x)).slices.reverse.prod).det
            * (1 + s.lambdaB Real.exp
              • (make_slices Stable.rowIndex (flip Stable.rowIndex s t x)).slices.reverse.prod).det
          / ((1 + s.lambdaA Real.exp • s.slices.reverse.prod).det
            * (1 + s.lambdaB Real.exp • s.slices.reverse.prod).det) ∧
      (0 < (1 + s.lambdaA Real.exp
              * (Stable.rank1_probability Real.exp Real.log s x t).2.cache.a)
            * (1 + s.lambdaB Real.exp
              * (Stable.rank1_probability Real.exp Real.log s x t).2.cache.b) →
        (∀ i, 0 ≤ s.svdA.S i) → (∀ i, 0 ≤ s.svdB.S i) →
        (make_slices Stable.rowIndex (flip Stable.rowIndex s t x)).RebuildExact Real.exp dgesvd →
        (Stable.rank1_probability Real.exp Real.log s x t).1
          = svd_probability Real.log (make_density_matrices Real.exp dgesvd
              (make_svd dgesvd (make_slices Stable.rowIndex (flip Stable.rowIndex s t x))))
            - svd_probability Real.log s) := by
  have hiA : s.svdA.inverse = (1 + s.lambdaA Real.exp • s.slices.reverse.prod)⁻¹ := by
    rw [SVDHelper.inverse_eq_inv _ hoA (by rw [hmA]; exact hdA), hmA]
  have hiB : s.svdB.inverse = (1 + s.lambdaB Real.exp • s.slices.reverse.prod)⁻¹ := by
    rw [SVDHelper.inverse_eq_inv _ hoB (by rw [hmB]; exact hdB), hmB]
  have ha := rank1_probability_a Real.exp Real.log s x t
  have hb := rank1_probability_b Real.exp Real.log s x t
  have hM := flip_product s x t hm ht hP hcur
  have hdetA := one_add_mul_eq_det_ratio s.svdA (s.lambdaA Real.exp) s.slices.reverse.prod
    (Stable.compute_uv_f_smart s x t).cache.u (Stable.compute_uv_f_smart s x t).cache.v
    hoA hmA hdA
  have hdetB := one_add_mul_eq_det_ratio s.svdB (s.lambdaB Real.exp) s.slices.reverse.prod
    (Stable.compute_uv_f_smart s x t).cache.u (Stable.compute_uv_f_smart s x t).cache.v
    hoB hmB hdB
  rw [← hM, ← ha] at hdetA
  rw [← hM, ← hb] at hdetB
  have hval : (1 + s.lambdaA Real.exp
          * (Stable.rank1_probability Real.exp Real.log s x t).2.cache.a)
        * (1 + s.lambdaB Real.exp
          * (Stable.rank1_probability Real.exp Real.log s x t).2.cache.b)
      = (1 + s.lambdaA Real.exp
            • (make_slices Stable.rowIndex (flip Stable.rowIndex s t x)).slices.reverse.prod).det
          * (1 + s.lambdaB Real.exp
            • (make_slices Stable.rowIndex (flip Stable.rowIndex s t x)).slices.reverse.prod).det
        / ((1 + s.lambdaA Real.exp • s.slices.reverse.prod).det
          * (1 + s.lambdaB Real.exp • s.slices.reverse.prod).det) := by
    rw [hdetA, hdetB]
    field_simp
    ring
  refine ⟨?_, ?_, ?_, hval, ?_⟩
  · rw [ha, hiA, rank1_probability_u, rank1_probability_v]
  · rw [hb, hiB, rank1_probability_u, rank1_probability_v]
  · rw [hM, rank1_probability_u, rank1_probability_v]
  · intro hpos hSA hSB hre
    rw [hval] at hpos
    have hne : (1 + s.lambdaA Real.exp
            • (make_slices Stable.rowIndex (flip Stable.rowIndex s t x)).slices.reverse.prod).det
          * (1 + s.lambdaB Real.exp
            • (make_slices Stable.rowIndex (flip Stable.rowIndex s t x)).slices.reverse.prod).det
        ≠ 0 := by
      intro h
      rw [h] at hpos
      simp at hpos
    have hlA : (make_slices Stable.rowIndex (flip Stable.rowIndex s t x)).lambdaA Real.exp
        = s.lambdaA Real.exp := by
      rw [make_slices_eq _ direct_rowIndex_framed]
      rfl
    have hlB : (make_slices Stable.rowIndex (flip Stable.rowIndex s t x)).lambdaB Real.exp
        = s.lambdaB Real.exp := by
      rw [make_slices_eq _ direct_rowIndex_framed]
      rfl
    have hnew := rebuild_probability dgesvd
      (make_slices Stable.rowIndex (flip Stable.rowIndex s t x)) hre
      (by rw [hlA]; exact left_ne_zero_of_mul hne)
      (by rw [hlB]; exact right_ne_zero_of_mul hne)
    rw [hlA, hlB] at hnew
    rw [hnew, svd_probability_of_represents s _ _ hoA hSA hmA hoB hSB hmB hdA hdB,
      rank1_probability_value, hval]
    exact log_ratio_eq _ _ _ _ hdA hdB hpos

theorem rank1_probability_ratio_witness :
    (Stable.rank1_probability Real.exp Real.log (Stable.demoD ℝ Real.exp Real.log) 1 2).1
      = svd_probability Real.log (make_density_matrices Real.exp Dgesvd.ofDiagonal
          (make_svd Dgesvd.ofDiagonal (make_slices Stable.rowIndex
            (flip Stable.rowIndex (Stable.demoD ℝ Real.exp Real.log) 2 1))))
        - svd_probability Real.log (Stable.demoD ℝ Real.exp Real.log) := by
  obtain ⟨hm0, hN0, hmm0, hP0, hfx0, hd0⟩ := demoD0_facts
  have hexp : ∀ y : ℝ, 0 ≤ Real.exp y := fun y => (Real.exp_pos y).le
  obtain ⟨hN, hmm, hPP, hcur, hdiag, ⟨hoA, hmA, hSA⟩, ⟨hoB, hmB, hSB⟩, hflip⟩ :=
    compute_U_s_diag_facts Real.exp Real.log hexp (Stable.demoD0 ℝ) hm0 hP0 hfx0 hd0
  have hdA := (IsNonnegDiag.prod_reverse _ hdiag).det_one_add_smul_pos
    ((Stable.demoD ℝ Real.exp Real.log).lambdaA Real.exp) (hexp _)
  have hdB := (IsNonnegDiag.prod_reverse _ hdiag).det_one_add_smul_pos
    ((Stable.demoD ℝ Real.exp Real.log).lambdaB Real.exp) (hexp _)
  have hdA' := (IsNonnegDiag.prod_reverse _ (hflip 2 1)).det_one_add_smul_pos
    ((Stable.demoD ℝ Real.exp Real.log).lambdaA Real.exp) (hexp _)
  have hdB' := (IsNonnegDiag.prod_reverse _ (hflip 2 1)).det_one_add_smul_pos
    ((Stable.demoD ℝ Real.exp Real.log).lambdaB Real.exp) (hexp _)
  obtain ⟨_, _, _, hval, hlast⟩ :=
    rank1_probability_ratio Dgesvd.ofDiagonal (Stable.demoD ℝ Real.exp Real.log) 1 2
      (by rw [Stable.demoD, hmm]; exact hm0) (by rw [Stable.demoD, hN, hN0]; norm_num)
      (by rw [Stable.demoD, hPP]; simp) hcur hoA hmA hoB hmB hdA.ne' hdB.ne'
  exact hlast (by rw [hval]; exact div_pos (mul_pos hdA' hdB') (mul_pos hdA hdB)) hSA hSB
    (rebuildExact_ofDiagonal _ _ hexp (hflip 2 1))

/-- C4: for a factorisation with square orthogonal `U` and `Vt` and any scalar `lambda`,
when the decomposition called by `add_identity` is exact, the represented matrix after
`add_identity(lambda)` is `I + lambda * B`, where `B` is the matrix represented before. -/
theorem add_identity_matrix {N : ℕ} (dgesvd : Dgesvd R N N) (h : SVDHelper R N N N)
    (lambda : R) (horth : h.IsOrthogonal)
    (hex : dgesvd.ExactAt (h.add_identity_other lambda)) :
    (h.add_identity dgesvd lambda).matrix = 1 + lambda • h.matrix :=
  SVDHelper.matrix_add_identity dgesvd h lambda horth.1 horth.2.2.2 hex

theorem add_identity_matrix_witness :
    SVDHelper.demo.IsOrthogonal ∧
      Dgesvd.ofDiagonal.ExactAt (SVDHelper.demo.add_identity_other 5) ∧
      (SVDHelper.demo.add_identity Dgesvd.ofDiagonal 5).matrix
        = 1 + (5 : ℚ) • SVDHelper.demo.matrix :=
  have horth : SVDHelper.demo.IsOrthogonal := by
    simp [SVDHelper.IsOrthogonal, SVDHelper.demo]
  have hex : Dgesvd.ofDiagonal.ExactAt (SVDHelper.demo.add_identity_other 5) := by
    simp only [Dgesvd.ExactAt, Dgesvd.ofDiagonal, SVDHelper.matrix,
      SVDHelper.add_identity_other, SVDHelper.demo]
    ext i j
    fin_cases i <;> fin_cases j <;> simp
  ⟨horth, hex, add_identity_matrix Dgesvd.ofDiagonal SVDHelper.demo 5 horth hex⟩

/-- C5: for a factorisation with square orthogonal `U` and `Vt` and all singular values
non-zero, the matrix represented after `invertInPlace` is the inverse of the matrix
represented before, `matrix_after * matrix_before = I`; `invertInPlace` only permutes and
inverts the stored factors, it calls no decomposition. -/
theorem invertInPlace_matrix_mul_matrix {N : ℕ} (h : SVDHelper R N N N)
    (horth : h.IsOrthogonal) (hS : ∀ i, h.S i ≠ 0) :
    h.invertInPlace.matrix * h.matrix = 1 := by
  rw [SVDHelper.matrix_invertInPlace]
  exact SVDHelper.inverse_mul_matrix h horth.2.1 horth.2.2.2 hS

theorem invertInPlace_matrix_mul_matrix_witness :
    SVDHelper.demo.IsOrthogonal ∧ (∀ i, SVDHelper.demo.S i ≠ 0) ∧
      SVDHelper.demo.invertInPlace.matrix * SVDHelper.demo.matrix = 1 :=
  have horth : SVDHelper.demo.IsOrthogonal := by
    simp [SVDHelper.IsOrthogonal, SVDHelper.demo]
  have hS : ∀ i, SVDHelper.demo.S i ≠ 0 := by
    intro i
    fin_cases i <;> simp [SVDHelper.demo]
  ⟨horth, hS, invertInPlace_matrix_mul_matrix SVDHelper.demo horth hS⟩

/-- C6: for a factorisation with square orthogonal `U` and `Vt`, vectors `u`, `v` and a
scalar `lambda`, when the decomposition called by `rank1_update` is exact, the represented
matrix after `rank1_update(u, v, lambda)` is `B + lambda * u * vᵀ`, where `B` is the matrix
represented before. -/
theorem rank1_update_matrix {N : ℕ} (dgesvd : Dgesvd R N N) (h : SVDHelper R N N N)
    (u v : Fin N → R) (lambda : R) (horth : h.IsOrthogonal)
    (hex : dgesvd.ExactAt (h.rank1_update_other u v lambda)) :
    (h.rank1_update dgesvd u v lambda).matrix = h.matrix + lambda • vecMulVec u v :=
  SVDHelper.matrix_rank1_update dgesvd h u v lambda horth.1 horth.2.2.2 hex

theorem rank1_update_matrix_witness :
    SVDHelper.demo.IsOrthogonal ∧
      Dgesvd.leftOnly.ExactAt (SVDHelper.demo.rank1_update_other ![1, 2] ![3, -1] 7) ∧
      (SVDHelper.demo.rank1_update Dgesvd.leftOnly ![1, 2] ![3, -1] 7).matrix
        = SVDHelper.demo.matrix + (7 : ℚ) • vecMulVec ![1, 2] ![3, -1] :=
  have horth : SVDHelper.demo.IsOrthogonal := by
    simp [SVDHelper.IsOrthogonal, SVDHelper.demo]
  have hex : Dgesvd.leftOnly.ExactAt
      (SVDHelper.demo.rank1_update_other ![1, 2] ![3, -1] 7) := by
    simp [Dgesvd.ExactAt, Dgesvd.leftOnly, SVDHelper.matrix]
  ⟨horth, hex,
    rank1_update_matrix Dgesvd.leftOnly SVDHelper.demo ![1, 2] ![3, -1] 7 horth hex⟩

/-- C10: for every state and every exponential draw `trial ≥ 0`, `metropolis()` returns
true exactly when `-trial < np - plog`; when it returns true `plog` becomes `np`, when it
returns false `plog` keeps its value.  In `stable.cpp` `np` is `svd_probability()` after
`make_svd` and `make_density_matrices` on the proposal; for `t < N`, current blocks and a
symmetric propagator the proposal holds the field with the entry `(t, x)` negated and the
blocks that `make_slices` computes from that field, so `np` is the log-weight that a full
rebuild computes for the flipped configuration, and with singular value decompositions and a
logarithm that turns products into sums it is `log |det(I + λ_A M')| + log |det(I + λ_B M')|`
for the product `M'` of the blocks of the flipped field.  In `full.cpp` `np` is the value of
`logProbability()` on the flipped field, and `metropolis` returns whenever that call does. -/
theorem metropolis_accept_iff (exp log : R → R) (dgesvd : Dgesvd R V V) (s : Simulation R V)
    (logProbability : Full.Configuration R V → Option (R × Matrix (Fin V) (Fin V) R))
    (eigenvalues : Matrix (Fin V) (Fin V) R → Fin V → R × R) (c : Full.Configuration R V)
    (x : Fin V) (t : ℕ) (trial : R) (_htrial : 0 ≤ trial) :
    ((Stable.metropolis exp log dgesvd s x t trial).1 = true ↔
        -trial < svd_probability log (make_density_matrices exp dgesvd
            (make_svd dgesvd (Stable.proposal exp log s x t))) - s.plog) ∧
      ((Stable.metropolis exp log dgesvd s x t trial).1 = true →
        (Stable.metropolis exp log dgesvd s x t trial).2.plog
          = svd_probability log (make_density_matrices exp dgesvd
              (make_svd dgesvd (Stable.proposal exp log s x t)))) ∧
      ((Stable.metropolis exp log dgesvd s x t trial).1 = false →
        (Stable.metropolis exp log dgesvd s x t trial).2.plog = s.plog) ∧
      (∀ np ps,
        logProbability
            ⟨Function.update c.diagonals t
              (Function.update (c.diagonals t) x (-(c.diagonals t x))),
              c.positionSpace, c.plog, c.U_s, c.ev_s⟩ = some (np, ps) →
        ∃ ret c', Full.metropolis logProbability eigenvalues c x t trial = some (ret, c') ∧
          (ret = true ↔ -trial < np - c.plog) ∧ (ret = true → c'.plog = np) ∧
          (ret = false → c'.plog = c.plog)) ∧
      (1 ≤ s.mslices → t < s.N → s.propagatorᵀ = s.propagator →
        (make_slices Stable.rowIndex s).slices = s.slices →
        (Stable.proposal exp log s x t).diagonals
            = Function.update s.diagonals t
                (Function.update (s.diagonals t) x (-(s.diagonals t x))) ∧
          (Stable.proposal exp log s x t).slices
            = (make_slices Stable.rowIndex (flip Stable.rowIndex s t x)).slices ∧
          svd_probability log (make_density_matrices exp dgesvd
              (make_svd dgesvd (Stable.proposal exp log s x t)))
            = svd_probability log (make_density_matrices exp dgesvd
                (make_svd dgesvd (make_slices Stable.rowIndex
                  (flip Stable.rowIndex s t x)))) ∧
          ((Stable.metropolis exp log dgesvd s x t trial).1 = true ↔
            -trial < svd_probability log (make_density_matrices exp dgesvd
                (make_svd dgesvd (make_slices Stable.rowIndex
                  (flip Stable.rowIndex s t x)))) - s.plog) ∧
          ((Stable.metropolis exp log dgesvd s x t trial).1 = true →
            (Stable.metropolis exp log dgesvd s x t trial).2.plog
              = svd_probability log (make_density_matrices exp dgesvd
                  (make_svd dgesvd (make_slices Stable.rowIndex
                    (flip Stable.rowIndex s t x))))) ∧
          ((make_slices Stable.rowIndex (flip Stable.rowIndex s t x)).RebuildExact exp dgesvd →
            (1 + s.lambdaA exp • (make_slices Stable.rowIndex
              (flip Stable.rowIndex s t x)).slices.reverse.prod).det ≠ 0 →
            (1 + s.lambdaB exp • (make_slices Stable.rowIndex
              (flip Stable.rowIndex s t x)).slices.reverse.prod).det ≠ 0 →
            (∀ a b : R, 0 < a → 0 < b → log (a * b) = log a + log b) →
            svd_probability log (make_density_matrices exp dgesvd
                (make_svd dgesvd (Stable.proposal exp log s x t)))
              = log |(1 + s.lambdaA exp • (make_slices Stable.rowIndex
                  (flip Stable.rowIndex s t x)).slices.reverse.prod).det|
                + log |(1 + s.lambdaB exp • (make_slices Stable.rowIndex
                  (flip Stable.rowIndex s t x)).slices.reverse.prod).det|)) := by
  have hplog : (make_density_matrices exp dgesvd
      (make_svd dgesvd (Stable.proposal exp log s x t))).plog = s.plog := by
    rw [make_density_matrices_plog, make_svd_plog, proposal_plog]
  have hiff : (Stable.metropolis exp log dgesvd s x t trial).1 = true ↔
      -trial < svd_probability log (make_density_matrices exp dgesvd
          (make_svd dgesvd (Stable.proposal exp log s x t))) - s.plog := by
    unfold Stable.metropolis
    simp only [hplog]
    split_ifs with h
    · exact ⟨fun _ => h, fun _ => rfl⟩
    · exact ⟨fun h' => h'.elim, fun h' => absurd h' h⟩
  have hacc : (Stable.metropolis exp log dgesvd s x t trial).1 = true →
      (Stable.metropolis exp log dgesvd s x t trial).2.plog
        = svd_probability log (make_density_matrices exp dgesvd
            (make_svd dgesvd (Stable.proposal exp log s x t))) := by
    unfold Stable.metropolis
    simp only [hplog]
    split_ifs with h
    · exact fun _ => rfl
    · exact fun h' => h'.elim
  refine ⟨hiff, hacc, ?_, ?_, ?_⟩
  · unfold Stable.metropolis
    simp only [hplog]
    split_ifs with h
    · exact fun h' => h'.elim
    · exact fun _ => hplog
  · intro np ps hlp
    unfold Full.metropolis
    simp only [hlp]
    split_ifs with h
    · exact ⟨true, _, rfl, ⟨fun _ => h, fun _ => rfl⟩, fun _ => rfl,
        fun h' => Bool.noConfusion h'⟩
    · exact ⟨false, _, rfl, ⟨fun h' => Bool.noConfusion h', fun h' => absurd h' h⟩,
        fun h' => Bool.noConfusion h', fun _ => rfl⟩
  · intro hm ht hP hcur
    have hd : (Stable.proposal exp log s x t).diagonals
        = Function.update s.diagonals t
            (Function.update (s.diagonals t) x (-(s.diagonals t x))) := rfl
    have hs : (Stable.proposal exp log s x t).slices
        = s.slices.modify
            (fun A => A + vecMulVec (compute_uv_f_short Stable.rowIndex s x t).cache.u_smart
              (compute_uv_f_short Stable.rowIndex s x t).cache.v_smart) (t / s.mslices) := rfl
    have hfl : (Stable.proposal exp log s x t).slices
        = (make_slices Stable.rowIndex (flip Stable.rowIndex s t x)).slices := by
      rw [make_slices_flip_modify Stable.rowIndex direct_rowIndex_framed s x t hm ht hP
        (fun j _ h => h), hcur]
      exact hs
    have hset := (make_slices_setup Stable.rowIndex direct_rowIndex_framed
      (flip Stable.rowIndex s t x)).trans (flip_setup Stable.rowIndex s t x)
    have hw : svd_probability log (make_density_matrices exp dgesvd
          (make_svd dgesvd (Stable.proposal exp log s x t)))
        = svd_probability log (make_density_matrices exp dgesvd
            (make_svd dgesvd (make_slices Stable.rowIndex (flip Stable.rowIndex s t x)))) :=
      rebuild_weight_congr exp log dgesvd _ _ hfl
        ((proposal_setup exp log s x t).trans hset.symm_of)
    have hl := sameSetup_lambda exp _ _ hset
    refine ⟨hd, hfl, hw, by rw [← hw]; exact hiff, by rw [← hw]; exact hacc, ?_⟩
    intro hre hdA hdB hlog
    rw [hw, rebuilt_weight_formula exp log hlog dgesvd _ hre (by rw [hl.1]; exact hdA)
      (by rw [hl.2]; exact hdB), hl.1, hl.2]

theorem metropolis_accept_iff_witness :
    ((Stable.metropolis Real.exp Real.log Dgesvd.ofDiagonal
          (Stable.demoD ℝ Real.exp Real.log) 1 2 (1 / 2)).1 = true ↔
        -(1 / 2 : ℝ)
          < Real.log |(1 + (Stable.demoD ℝ Real.exp Real.log).lambdaA Real.exp
                • (make_slices Stable.rowIndex (flip Stable.rowIndex
                  (Stable.demoD ℝ Real.exp Real.log) 2 1)).slices.reverse.prod).det|
              + Real.log |(1 + (Stable.demoD ℝ Real.exp Real.log).lambdaB Real.exp
                • (make_slices Stable.rowIndex (flip Stable.rowIndex
                  (Stable.demoD ℝ Real.exp Real.log) 2 1)).slices.reverse.prod).det|
            - (Stable.demoD ℝ Real.exp Real.log).plog) := by
  obtain ⟨hm, ht, hP, hcur, _, _, _, _, _, _⟩ := demoD_rankN_facts
  obtain ⟨hm0, hN0, hmm0, hP0, hfx0, hd0⟩ := demoD0_facts
  have hexp : ∀ y : ℝ, 0 ≤ Real.exp y := fun y => (Real.exp_pos y).le
  obtain ⟨_, _, _, _, _, _, _, hflip⟩ :=
    compute_U_s_diag_facts Real.exp Real.log hexp (Stable.demoD0 ℝ) hm0 hP0 hfx0 hd0
  have hdA' := (IsNonnegDiag.prod_reverse _ (hflip 2 1)).det_one_add_smul_pos
    ((Stable.demoD ℝ Real.exp Real.log).lambdaA Real.exp) (hexp _)
  have hdB' := (IsNonnegDiag.prod_reverse _ (hflip 2 1)).det_one_add_smul_pos
    ((Stable.demoD ℝ Real.exp Real.log).lambdaB Real.exp) (hexp _)
  obtain ⟨h1, _, _, _, h5⟩ :=
    metropolis_accept_iff Real.exp Real.log Dgesvd.ofDiagonal
      (Stable.demoD ℝ Real.exp Real.log) (fun _ => none) (fun _ _ => (0, 0))
      ⟨fun _ _ => 0, 1, 0, 1, fun _ => (0, 0)⟩ 1 2 (1 / 2) (by norm_num)
  obtain ⟨_, _, _, _, _, hform⟩ := h5 hm ht hP hcur
  rw [← hform (rebuildExact_ofDiagonal _ _ hexp (hflip 2 1)) hdA'.ne' hdB'.ne'
    (fun a b ha hb => Real.log_mul ha.ne' hb.ne')]
  exact h1

/-- C17: when the decomposition that is called is exact, `absorbU` (on a `U` with at least
as many rows as columns) leaves the represented matrix `U * diag(S) * Vt` unchanged, and so
does `absorbVt` in each of its branches: the branch `M<=N`, taken when `Vt` has no more
rows than columns, and the branch `M>N`, taken otherwise. -/
theorem absorb_preserves_matrix {m k n m1 k1 n1 m2 k2 n2 : ℕ}
    (dgesvd : Dgesvd R m k) (h : SVDHelper R m k n)
    (wide1 : DgesvdWide R k1 n1) (tall1 : Dgesvd R k1 n1) (h1 : SVDHelper R m1 k1 n1)
    (wide2 : DgesvdWide R k2 n2) (tall2 : Dgesvd R k2 n2) (h2 : SVDHelper R m2 k2 n2)
    (_hshape : k ≤ m) (hle : k1 ≤ n1) (hgt : n2 < k2)
    (hex : dgesvd.ExactAt (h.U * diagonal h.S))
    (hex1 : wide1.ExactAt (diagonal h1.S * h1.Vt))
    (hex2 : tall2.ExactAt (diagonal h2.S * h2.Vt)) :
    (h.absorbU dgesvd).matrix = h.matrix ∧
      (h1.absorbVt wide1 tall1 = Sum.inl (h1.absorbVt_le wide1) ∧
        (h1.absorbVt_le wide1).matrix = h1.matrix) ∧
      (h2.absorbVt wide2 tall2 = Sum.inr (h2.absorbVt_gt tall2) ∧
        (h2.absorbVt_gt tall2).matrix = h2.matrix) :=
  ⟨SVDHelper.matrix_absorbU dgesvd h hex,
    ⟨if_pos hle, SVDHelper.matrix_absorbVt_le wide1 h1 hex1⟩,
    ⟨if_neg (not_le.mpr hgt), SVDHelper.matrix_absorbVt_gt tall2 h2 hex2⟩⟩

theorem absorb_preserves_matrix_witness :
    (SVDHelper.demoTall.absorbU Dgesvd.leftOnly).matrix = SVDHelper.demoTall.matrix ∧
      (SVDHelper.demoTall.absorbVt DgesvdWide.rightOnly Dgesvd.leftOnly
          = Sum.inl (SVDHelper.demoTall.absorbVt_le DgesvdWide.rightOnly) ∧
        (SVDHelper.demoTall.absorbVt_le DgesvdWide.rightOnly).matrix
          = SVDHelper.demoTall.matrix) ∧
      (SVDHelper.demoNarrow.absorbVt DgesvdWide.rightOnly Dgesvd.leftOnly
          = Sum.inr (SVDHelper.demoNarrow.absorbVt_gt Dgesvd.leftOnly) ∧
        (SVDHelper.demoNarrow.absorbVt_gt Dgesvd.leftOnly).matrix
          = SVDHelper.demoNarrow.matrix) :=
  absorb_preserves_matrix Dgesvd.leftOnly SVDHelper.demoTall
    DgesvdWide.rightOnly Dgesvd.leftOnly SVDHelper.demoTall
    DgesvdWide.rightOnly Dgesvd.leftOnly SVDHelper.demoNarrow
    (by decide) (by decide) (by decide)
    (by simp [Dgesvd.ExactAt, Dgesvd.leftOnly, SVDHelper.matrix])
    (by simp [DgesvdWide.ExactAt, DgesvdWide.rightOnly, SVDHelper.matrix])
    (by simp [Dgesvd.ExactAt, Dgesvd.leftOnly, SVDHelper.matrix])

/-- C18: for a factorisation with square `U` and `Vt` and all singular values non-zero,
`invertInPlace` applied twice gives back the same `U`, `S` and `Vt`, hence the same
represented matrix. -/
theorem invertInPlace_twice {N : ℕ} (h : SVDHelper R N N N) (_hS : ∀ i, h.S i ≠ 0) :
    h.invertInPlace.invertInPlace = h ∧
      h.invertInPlace.invertInPlace.U = h.U ∧ h.invertInPlace.invertInPlace.S = h.S ∧
      h.invertInPlace.invertInPlace.Vt = h.Vt ∧
      h.invertInPlace.invertInPlace.matrix = h.matrix := by
  rw [SVDHelper.invertInPlace_invertInPlace]
  exact ⟨rfl, rfl, rfl, rfl, rfl⟩

theorem invertInPlace_twice_witness :
    (∀ i, SVDHelper.demoSwap.S i ≠ 0) ∧
      SVDHelper.demoSwap.invertInPlace.invertInPlace = SVDHelper.demoSwap :=
  have hS : ∀ i, SVDHelper.demoSwap.S i ≠ 0 := by
    intro i
    fin_cases i <;> simp [SVDHelper.demoSwap]
  ⟨hS, (invertInPlace_twice SVDHelper.demoSwap hS).1⟩

/-- C19: for a factorisation with square orthogonal `U` and `Vt` and all singular values
non-zero, the matrix returned by `inverse` is a two-sided inverse of the represented
matrix: `matrix * inverse = I` and `inverse * matrix = I`. -/
theorem inverse_two_sided {N : ℕ} (h : SVDHelper R N N N) (horth : h.IsOrthogonal)
    (hS : ∀ i, h.S i ≠ 0) :
    h.matrix * h.inverse = 1 ∧ h.inverse * h.matrix = 1 :=
  ⟨SVDHelper.matrix_mul_inverse h horth.1 horth.2.2.1 hS,
    SVDHelper.inverse_mul_matrix h horth.2.1 horth.2.2.2 hS⟩

theorem inverse_two_sided_witness :
    SVDHelper.demoSwap.IsOrthogonal ∧ (∀ i, SVDHelper.demoSwap.S i ≠ 0) ∧
      SVDHelper.demoSwap.matrix * SVDHelper.demoSwap.inverse = 1 ∧
      SVDHelper.demoSwap.inverse * SVDHelper.demoSwap.matrix = 1 :=
  have horth : SVDHelper.demoSwap.IsOrthogonal := by
    simp only [SVDHelper.IsOrthogonal, SVDHelper.demoSwap]
    refine ⟨?_, ?_, ?_, ?_⟩ <;>
      (ext i j; fin_cases i <;> fin_cases j <;>
        simp [Matrix.mul_apply, Fin.sum_univ_two, Matrix.transpose_apply, Matrix.vecHead])
  have hS : ∀ i, SVDHelper.demoSwap.S i ≠ 0 := by
    intro i
    fin_cases i <;> simp [SVDHelper.demoSwap]
  ⟨horth, hS, inverse_two_sided SVDHelper.demoSwap horth hS⟩

/-- C14: `collapse_updates` with a full batch (`update_size ≥ max_update_size`) returns true
and leaves `plog = old plog + old update_prob`, `psign = old psign * old update_sign`,
`update_prob = 0`, `update_sign = 1` and `update_size = 0`; otherwise it returns false and
leaves the state as it is.  Either way the totals `plog + update_prob` and
`psign * update_sign` are the same after the call as before. -/
theorem collapse_updates_spec (exp : R → R) (dgesvd : Dgesvd R V V) (s : Simulation R V) :
    (s.max_update_size ≤ s.update_size →
      (collapse_updates exp dgesvd s).1 = true ∧
      (collapse_updates exp dgesvd s).2.plog = s.plog + s.update_prob ∧
      (collapse_updates exp dgesvd s).2.psign = s.psign * s.update_sign ∧
      (collapse_updates exp dgesvd s).2.update_prob = 0 ∧
      (collapse_updates exp dgesvd s).2.update_sign = 1 ∧
      (collapse_updates exp dgesvd s).2.update_size = 0) ∧
    (s.update_size < s.max_update_size →
      (collapse_updates exp dgesvd s).1 = false ∧ (collapse_updates exp dgesvd s).2 = s) ∧
    (collapse_updates exp dgesvd s).2.plog + (collapse_updates exp dgesvd s).2.update_prob
      = s.plog + s.update_prob ∧
    (collapse_updates exp dgesvd s).2.psign * (collapse_updates exp dgesvd s).2.update_sign
      = s.psign * s.update_sign := by
  by_cases h : s.update_size ≥ s.max_update_size
  · have hc : collapse_updates exp dgesvd s
        = (true, reset_updates (make_svd_inverse exp dgesvd (make_svd dgesvd
            { s with plog := s.plog + s.update_prob, psign := s.psign * s.update_sign }))) := by
      unfold collapse_updates
      rw [if_pos h]
    rw [hc]
    refine ⟨fun _ => ⟨rfl, rfl, rfl, rfl, rfl, rfl⟩, fun h' => absurd h' (by omega), ?_, ?_⟩
    · show s.plog + s.update_prob + 0 = s.plog + s.update_prob
      rw [add_zero]
    · show s.psign * s.update_sign * 1 = s.psign * s.update_sign
      rw [mul_one]
  · have hc : collapse_updates exp dgesvd s = (false, s) := by
      unfold collapse_updates
      rw [if_neg h]
    rw [hc]
    exact ⟨fun h' => absurd h' h, fun _ => ⟨rfl, rfl⟩, rfl, rfl⟩

theorem collapse_updates_spec_witness :
    ((collapse_updates (fun r => r) Dgesvd.leftOnly
          { Simulation.demo ℚ with update_prob := 3, update_sign := -1, update_size := 1 }).1
        = true ∧
      (collapse_updates (fun r => r) Dgesvd.leftOnly
          { Simulation.demo ℚ with update_prob := 3, update_sign := -1, update_size := 1 }).2.plog
        = (Simulation.demo ℚ).plog + 3) ∧
    ((collapse_updates (fun r => r) Dgesvd.leftOnly (Simulation.demo ℚ)).1 = false ∧
      (collapse_updates (fun r => r) Dgesvd.leftOnly (Simulation.demo ℚ)).2
        = Simulation.demo ℚ) :=
  have hsz : (Simulation.demo ℚ).max_update_size = 1 := by
    rw [Simulation.demo, make_slices_eq Simulation.rowIndex shifted_rowIndex_framed]
    rfl
  have hz : (Simulation.demo ℚ).update_size = 0 := by
    rw [Simulation.demo, make_slices_eq Simulation.rowIndex shifted_rowIndex_framed]
    rfl
  have h1 := (collapse_updates_spec (fun r => r) Dgesvd.leftOnly
    { Simulation.demo ℚ with update_prob := 3, update_sign := -1, update_size := 1 }).1
    (le_of_eq hsz)
  ⟨⟨h1.1, h1.2.1⟩,
    (collapse_updates_spec (fun r => r) Dgesvd.leftOnly (Simulation.demo ℚ)).2.1
      (by rw [hsz, hz]; exact Nat.zero_lt_one)⟩

/-- C15: `redo_all` has no failing exit: for every state it returns a state, in which `plog`
is the `svd_probability` of the factorisation rebuilt from the current field (and of the
factors the state then holds), `psign` is its `svd_sign`, and the pending batch is reset
(`update_prob = 0`, `update_sign = 1`, `update_size = 0`).  A distance above `1.0e-8`
between the rebuilt value and the tracked `plog + update_prob` only decides whether the
report is written. -/
theorem redo_all_authoritative (exp log : R → R) (dgesvd : Dgesvd R V V)
    (s : Simulation R V) :
    (redo_all exp log dgesvd s).2.plog
        = svd_probability log (make_density_matrices exp dgesvd (make_svd_inverse exp dgesvd
            (make_svd dgesvd (make_slices Simulation.rowIndex s)))) ∧
      (redo_all exp log dgesvd s).2.plog = svd_probability log (redo_all exp log dgesvd s).2 ∧
      (redo_all exp log dgesvd s).2.psign
        = svd_sign (make_density_matrices exp dgesvd (make_svd_inverse exp dgesvd
            (make_svd dgesvd (make_slices Simulation.rowIndex s)))) ∧
      (redo_all exp log dgesvd s).2.psign = svd_sign (redo_all exp log dgesvd s).2 ∧
      (redo_all exp log dgesvd s).2.update_prob = 0 ∧
      (redo_all exp log dgesvd s).2.update_sign = 1 ∧
      (redo_all exp log dgesvd s).2.update_size = 0 ∧
      ((redo_all exp log dgesvd s).1 = true ↔
        |(redo_all exp log dgesvd s).2.plog - s.plog - s.update_prob| > 1.0e-8) :=
  ⟨rfl, rfl, rfl, rfl, rfl, rfl, rfl, redo_all_reported exp log dgesvd s⟩

/-- C16: `redo_all` called a second time right after `redo_all`, with the same
decomposition routine and no change of field or `time_shift` in between, leaves exactly
the state the first call left: every member is the same, among them `slices`, the factors
`svd`, `svdA`, `svdB` and `svd_inverse`, `plog` and `psign`; the pending batch is empty
and the second call has no mismatch to report. -/
theorem redo_all_twice (exp log : R → R) (dgesvd : Dgesvd R V V) (s : Simulation R V) :
    (redo_all exp log dgesvd (redo_all exp log dgesvd s).2).2
        = (redo_all exp log dgesvd s).2 ∧
      (redo_all exp log dgesvd (redo_all exp log dgesvd s).2).1 = false ∧
      (redo_all exp log dgesvd (redo_all exp log dgesvd s).2).2.update_size = 0 ∧
      (redo_all exp log dgesvd (redo_all exp log dgesvd s).2).2.update_prob = 0 ∧
      (redo_all exp log dgesvd (redo_all exp log dgesvd s).2).2.update_sign = 1 :=
  ⟨redo_all_idem exp log dgesvd s, redo_all_again_silent exp log dgesvd s, rfl, rfl, rfl⟩

/-- C20: let `r` be the state that `init` leaves, for `N ≥ 1`, any earlier value of
`mslices` and any drawn field `sigma`.  Then `1 ≤ mslices ≤ N`, the field of slice `i` is
`sigma i`, the blocks in `slices` are those that `make_slices` produces, there are exactly
`⌈N / mslices⌉` of them, block `k` is the time-ordered product of the operators
`P * diag((1 + sigma_i) * f_x)` of the slices `k * mslices ≤ i < min((k+1) * mslices, N)`,
and the ordered product of all blocks is what `accumulate_forward(0, N)` computes. -/
theorem init_make_slices_blocks (exp log : R → R) (dgesvd : Dgesvd R V V) (mslices0 : ℤ)
    (sigma : ℕ → Fin V → R) (s r : Simulation R V) (hN : 1 ≤ s.N)
    (hr : r = Simulation.init exp log dgesvd mslices0 sigma s) :
    (1 ≤ r.mslices ∧ r.mslices ≤ r.N) ∧
      (∀ i, i < r.N → r.diagonal Simulation.rowIndex i = sigma i) ∧
      (make_slices Simulation.rowIndex r).slices = r.slices ∧
      r.slices.length = (r.N + r.mslices - 1) / r.mslices ∧
      (∀ k, k < (r.N + r.mslices - 1) / r.mslices →
        r.slices[k]? = some (ordered_slice_product Simulation.rowIndex r (k * r.mslices)
          (min ((k + 1) * r.mslices) r.N))) ∧
      r.slices.reverse.prod
        = (accumulate_forward Simulation.rowIndex r 0 (r.N : ℤ)).positionSpace := by
  have hf := init_frame exp log dgesvd mslices0 sigma s
  rw [← hr] at hf
  obtain ⟨eN, em, ets, ed, esl⟩ := hf
  have hb := init_mslices_bounds mslices0 (s.N : ℤ) (by omega)
  have hm : 1 ≤ r.mslices := by
    rw [em]
    omega
  have hblocks := make_slices_blocks Simulation.rowIndex shifted_rowIndex_framed r hm
  rw [esl] at hblocks
  refine ⟨⟨hm, ?_⟩, ?_, esl, hblocks.1, hblocks.2.1, hblocks.2.2⟩
  · rw [em, eN]
    omega
  · intro i hi
    simp only [Simulation.diagonal, Simulation.rowIndex, ets, ed, Nat.add_zero,
      Nat.mod_eq_of_lt hi]

theorem init_make_slices_blocks_witness :
    (1 ≤ (Simulation.init (fun r => r) (fun r => r) Dgesvd.leftOnly 0
          (fun i _ => if i % 2 = 0 then 1 / 2 else -(1 / 2)) (Simulation.demo0 ℚ)).mslices ∧
      (Simulation.init (fun r => r) (fun r => r) Dgesvd.leftOnly 0
          (fun i _ => if i % 2 = 0 then 1 / 2 else -(1 / 2)) (Simulation.demo0 ℚ)).mslices
        ≤ (Simulation.init (fun r => r) (fun r => r) Dgesvd.leftOnly 0
          (fun i _ => if i % 2 = 0 then 1 / 2 else -(1 / 2)) (Simulation.demo0 ℚ)).N) :=
  (init_make_slices_blocks (fun r => r) (fun r => r) Dgesvd.leftOnly 0
    (fun i _ => if i % 2 = 0 then 1 / 2 else -(1 / 2)) (Simulation.demo0 ℚ) _
    (by decide) rfl).1

/-- C11: when `metropolis` returns false (the move is rejected), the auxiliary field
`diagonals` and the running log-weight `plog` have their values from before the call, in
`stable.cpp` and in `full.cpp`; in `stable.cpp` every block in `slices` has, in exact
arithmetic, its value from before the call as well. -/
theorem metropolis_reject_restores (exp log : R → R) (dgesvd : Dgesvd R V V)
    (s : Simulation R V) (x : Fin V) (t : ℕ) (trial : R)
    (logProbability : Full.Configuration R V → Option (R × Matrix (Fin V) (Fin V) R))
    (eigenvalues : Matrix (Fin V) (Fin V) R → Fin V → R × R)
    (c c' : Full.Configuration R V) (xf : Fin V) (tf : ℕ) (trialf : R)
    (h : (Stable.metropolis exp log dgesvd s x t trial).1 = false)
    (hf : Full.metropolis logProbability eigenvalues c xf tf trialf = some (false, c')) :
    ((Stable.metropolis exp log dgesvd s x t trial).2.diagonals = s.diagonals ∧
      (Stable.metropolis exp log dgesvd s x t trial).2.plog = s.plog ∧
      (Stable.metropolis exp log dgesvd s x t trial).2.slices = s.slices) ∧
    (c'.diagonals = c.diagonals ∧ c'.plog = c.plog) := by
  refine ⟨metropolis_rejected_restores exp log dgesvd s x t trial h, ?_⟩
  unfold Full.metropolis at hf
  simp only at hf
  split at hf
  · exact absurd hf (by simp)
  · split_ifs at hf with hc
    · simp at hf
    · simp only [Option.some.injEq, Prod.mk.injEq, true_and] at hf
      rw [← hf]
      exact ⟨update_update_neg_neg c.diagonals tf xf, rfl⟩

theorem metropolis_reject_restores_witness :
    ((Stable.metropolis Real.exp Real.log Dgesvd.ofDiagonal
          (Stable.demoOne ℝ Real.exp Real.log) 0 0 (1 / 2)).2.diagonals
        = (Stable.demoOne ℝ Real.exp Real.log).diagonals ∧
      (Stable.metropolis Real.exp Real.log Dgesvd.ofDiagonal
          (Stable.demoOne ℝ Real.exp Real.log) 0 0 (1 / 2)).2.plog
        = (Stable.demoOne ℝ Real.exp Real.log).plog ∧
      (Stable.metropolis Real.exp Real.log Dgesvd.ofDiagonal
          (Stable.demoOne ℝ Real.exp Real.log) 0 0 (1 / 2)).2.slices
        = (Stable.demoOne ℝ Real.exp Real.log).slices) :=
  have hf : Full.metropolis (fun _ => some ((-1 : ℝ), (1 : Matrix (Fin 1) (Fin 1) ℝ)))
      (fun _ _ => (0, 0)) ⟨fun _ _ => 1 / 2, 1, 0, 1, fun _ => (0, 0)⟩ 0 0 (1 / 2)
      = some (false, ⟨fun _ _ => 1 / 2, 1, 0, 1, fun _ => (0, 0)⟩) := by
    have hn : ¬ (-(1 / 2 : ℝ) < -1 - 0) := by norm_num
    simp only [Full.metropolis, if_neg hn]
    simp
  (metropolis_reject_restores Real.exp Real.log Dgesvd.ofDiagonal
    (Stable.demoOne ℝ Real.exp Real.log) 0 0 (1 / 2) _ _ _ _ 0 0 (1 / 2)
    demoOne_rejected hf).1

/-- C12, at the one-site state `demoOne` with the move `(x, t) = (0, 0)` and
`trial = 1/2`: `metropolis` of `stable.cpp` rejects the move and puts back the field and the
block `3/2`, but `svd`, `svdA` and `svdB` stay those of the rejected proposal.  So after the
call `svd.matrix()` is `1/2`, not the product `3/2` of the current blocks, and
`svdA.matrix()`, `svdB.matrix()` are `3/2`, not `I + lambda * 3/2 = 5/2`. -/
theorem metropolis_rejected_factorization_stale :
    (Stable.metropolis Real.exp Real.log Dgesvd.ofDiagonal
        (Stable.demoOne ℝ Real.exp Real.log) 0 0 (1 / 2)).1 = false ∧
      (Stable.metropolis Real.exp Real.log Dgesvd.ofDiagonal
        (Stable.demoOne ℝ Real.exp Real.log) 0 0 (1 / 2)).2.slices.reverse.prod
        = diagonal (fun _ => (3 / 2 : ℝ)) ∧
      (Stable.metropolis Real.exp Real.log Dgesvd.ofDiagonal
        (Stable.demoOne ℝ Real.exp Real.log) 0 0 (1 / 2)).2.svd.matrix
        = diagonal (fun _ => (1 / 2 : ℝ)) ∧
      (Stable.metropolis Real.exp Real.log Dgesvd.ofDiagonal
        (Stable.demoOne ℝ Real.exp Real.log) 0 0 (1 / 2)).2.svd.matrix
        ≠ (Stable.metropolis Real.exp Real.log Dgesvd.ofDiagonal
          (Stable.demoOne ℝ Real.exp Real.log) 0 0 (1 / 2)).2.slices.reverse.prod ∧
      (Stable.metropolis Real.exp Real.log Dgesvd.ofDiagonal
        (Stable.demoOne ℝ Real.exp Real.log) 0 0 (1 / 2)).2.svdA.matrix
        ≠ 1 + (Stable.metropolis Real.exp Real.log Dgesvd.ofDiagonal
            (Stable.demoOne ℝ Real.exp Real.log) 0 0 (1 / 2)).2.lambdaA Real.exp
          • (Stable.metropolis Real.exp Real.log Dgesvd.ofDiagonal
            (Stable.demoOne ℝ Real.exp Real.log) 0 0 (1 / 2)).2.slices.reverse.prod ∧
      (Stable.metropolis Real.exp Real.log Dgesvd.ofDiagonal
        (Stable.demoOne ℝ Real.exp Real.log) 0 0 (1 / 2)).2.svdB.matrix
        ≠ 1 + (Stable.metropolis Real.exp Real.log Dgesvd.ofDiagonal
            (Stable.demoOne ℝ Real.exp Real.log) 0 0 (1 / 2)).2.lambdaB Real.exp
          • (Stable.metropolis Real.exp Real.log Dgesvd.ofDiagonal
            (Stable.demoOne ℝ Real.exp Real.log) 0 0 (1 / 2)).2.slices.reverse.prod := by
  obtain ⟨hsl, hsvd, hA, hB⟩ := demoOne_after_rejection
  have hset := metropolis_setup Real.exp Real.log Dgesvd.ofDiagonal
    (Stable.demoOne ℝ Real.exp Real.log) 0 0 (1 / 2)
  obtain ⟨-, h2, h3, h4, -, -⟩ := demoOne_setup
  have hlA : (Stable.metropolis Real.exp Real.log Dgesvd.ofDiagonal
      (Stable.demoOne ℝ Real.exp Real.log) 0 0 (1 / 2)).2.lambdaA Real.exp = 1 := by
    simp only [Simulation.lambdaA]
    rw [hset.2.2.2.2.2.2.1.trans h2, hset.2.2.2.2.2.2.2.1.trans h3,
      hset.2.2.2.2.2.2.2.2.trans h4]
    simp
  have hlB : (Stable.metropolis Real.exp Real.log Dgesvd.ofDiagonal
      (Stable.demoOne ℝ Real.exp Real.log) 0 0 (1 / 2)).2.lambdaB Real.exp = 1 := by
    simp only [Simulation.lambdaB]
    rw [hset.2.2.2.2.2.2.1.trans h2, hset.2.2.2.2.2.2.2.1.trans h3,
      hset.2.2.2.2.2.2.2.2.trans h4]
    simp
  have hne : ∀ a b : ℝ, a ≠ b →
      (diagonal (fun _ => a) : Matrix (Fin 1) (Fin 1) ℝ) ≠ diagonal (fun _ => b) := by
    intro a b hab heq
    have := congrFun (congrFun heq 0) 0
    simp at this
    exact hab this
  have hone : (1 : Matrix (Fin 1) (Fin 1) ℝ) + (1 : ℝ) • diagonal (fun _ => (3 / 2 : ℝ))
      = diagonal (fun _ => (5 / 2 : ℝ)) := by
    ext i j
    fin_cases i
    fin_cases j
    simp
    norm_num
  rw [hlA, hlB, hsl, hsvd, hA, hB]
  simp only [List.reverse_singleton, List.prod_singleton, SVDHelper.matrix, Matrix.one_mul,
    Matrix.mul_one, hone]
  exact ⟨demoOne_rejected, trivial, trivial, hne _ _ (by norm_num), hne _ _ (by norm_num),
    hne _ _ (by norm_num)⟩

/-- C13: in `stable.cpp`, start from the state that `compute_U_s` leaves at the end of
`init` (at least one time slice, symmetric free propagator) and run any number `n` of
`metropolis` steps with any draws of site, slice below `N` and `trial`.  The tracked `plog`
is then the log-weight that the full rebuild `compute_U_s` computes from the current field;
in particular the `plog` that `compute_U_s` assigns at the end of `update` is the `plog`
tracked after its hundred steps. -/
theorem tracked_plog_eq_rebuild (exp log : R → R) (dgesvd : Dgesvd R V V)
    (s0 : Simulation R V) (draws : ℕ → Fin V × ℕ × R) (hN : 1 ≤ s0.N)
    (hP : s0.propagatorᵀ = s0.propagator) (hdraws : ∀ i, (draws i).2.1 < s0.N) :
    (∀ n,
      (Stable.metropolis_loop exp log dgesvd draws n 0
          (Stable.compute_U_s exp log dgesvd s0)).plog
        = svd_probability log (make_density_matrices exp dgesvd (make_svd dgesvd
            (make_slices Stable.rowIndex (Stable.metropolis_loop exp log dgesvd draws n 0
              (Stable.compute_U_s exp log dgesvd s0))))) ∧
      (Stable.compute_U_s exp log dgesvd (Stable.metropolis_loop exp log dgesvd draws n 0
          (Stable.compute_U_s exp log dgesvd s0))).plog
        = (Stable.metropolis_loop exp log dgesvd draws n 0
            (Stable.compute_U_s exp log dgesvd s0)).plog) ∧
    (Stable.update exp log dgesvd draws (Stable.compute_U_s exp log dgesvd s0)).plog
      = (Stable.metropolis_loop exp log dgesvd draws 100 0
          (Stable.compute_U_s exp log dgesvd s0)).plog := by
  obtain ⟨hinv, hN0, hP0⟩ := compute_U_s_weightTracked exp log dgesvd s0 hN
  have hloop : ∀ n, Stable.WeightTracked exp log dgesvd
      (Stable.metropolis_loop exp log dgesvd draws n 0
        (Stable.compute_U_s exp log dgesvd s0)) := by
    intro n
    apply metropolis_loop_weightTracked exp log dgesvd draws n 0 _ _ _ hinv
    · intro j
      rw [hN0]
      exact hdraws j
    · rw [hP0]
      exact hP
  refine ⟨fun n => ⟨(hloop n).2.2, ?_⟩, ?_⟩
  · exact compute_U_s_plog_of_weightTracked exp log dgesvd _ (hloop n)
  · unfold Stable.update
    exact compute_U_s_plog_of_weightTracked exp log dgesvd _ (hloop 100)

theorem tracked_plog_eq_rebuild_witness :
    (Stable.update Real.exp Real.log Dgesvd.ofDiagonal (fun i => (0, i % 3, 1 / 2))
        (Stable.compute_U_s Real.exp Real.log Dgesvd.ofDiagonal (Stable.demoD0 ℝ))).plog
      = (Stable.metropolis_loop Real.exp Real.log Dgesvd.ofDiagonal
          (fun i => (0, i % 3, 1 / 2)) 100 0
          (Stable.compute_U_s Real.exp Real.log Dgesvd.ofDiagonal (Stable.demoD0 ℝ))).plog :=
  (tracked_plog_eq_rebuild Real.exp Real.log Dgesvd.ofDiagonal (Stable.demoD0 ℝ)
    (fun i => (0, i % 3, 1 / 2)) (by decide) (Matrix.transpose_one)
    (fun i => Nat.mod_lt i (by decide))).2

/-- C25: for a state with `1 ≤ mslices ≤ N` and `0 ≤ time_shift < N`, `shift_time` leaves
`time_shift = (old time_shift + mslices) mod N`, so `0 ≤ time_shift < N` again, and returns
true exactly when `old time_shift + mslices ≥ N`.  Afterwards `diagonal(t)` names, for
every `0 ≤ t < N`, one of the `N` rows of the field, and `t ↦ (t + time_shift) mod N` is a
rotation of these rows: one-to-one and onto. -/
theorem shift_time_spec (exp log : R → R) (dgesvd : Dgesvd R V V) (s : Simulation R V)
    (hm : 1 ≤ s.mslices) (hmN : s.mslices ≤ s.N) (hts : s.time_shift < s.N) :
    (shift_time exp log dgesvd s).2.time_shift = (s.time_shift + s.mslices) % s.N ∧
      (shift_time exp log dgesvd s).2.time_shift < (shift_time exp log dgesvd s).2.N ∧
      (shift_time exp log dgesvd s).2.N = s.N ∧
      ((shift_time exp log dgesvd s).1 = true ↔ s.N ≤ s.time_shift + s.mslices) ∧
      (∀ t, t < s.N → Simulation.rowIndex (shift_time exp log dgesvd s).2 t < s.N) ∧
      (∀ t t', t < s.N → t' < s.N →
        Simulation.rowIndex (shift_time exp log dgesvd s).2 t
          = Simulation.rowIndex (shift_time exp log dgesvd s).2 t' → t = t') ∧
      (∀ row, row < s.N →
        ∃ t, t < s.N ∧ Simulation.rowIndex (shift_time exp log dgesvd s).2 t = row) := by
  obtain ⟨hN, -, hshift, hret⟩ := shift_time_eq exp log dgesvd s
  have hpos : 0 < s.N := by omega
  have hmod : (shift_time exp log dgesvd s).2.time_shift
      = (s.time_shift + s.mslices) % s.N := by
    rw [hshift]
    split_ifs with h
    · rw [Nat.mod_eq_sub_mod h, Nat.mod_eq_of_lt (by omega)]
    · rw [Nat.mod_eq_of_lt (by omega)]
  refine ⟨hmod, ?_, hN, hret, ?_, ?_, ?_⟩
  · rw [hmod, hN]
    exact Nat.mod_lt _ hpos
  · intro t _
    simp only [Simulation.rowIndex, hN]
    exact Nat.mod_lt _ hpos
  · intro t t' ht ht' h
    exact Simulation.rowIndex_injective (shift_time exp log dgesvd s).2 t t'
      (by rw [hN]; exact ht) (by rw [hN]; exact ht') h
  · intro row hrow
    refine ⟨(row + (s.N - (shift_time exp log dgesvd s).2.time_shift)) % s.N,
      Nat.mod_lt _ hpos, ?_⟩
    have hlt : (shift_time exp log dgesvd s).2.time_shift < s.N := by
      rw [hmod]
      exact Nat.mod_lt _ hpos
    simp only [Simulation.rowIndex, hN]
    rw [Nat.mod_add_mod]
    have e : row + (s.N - (shift_time exp log dgesvd s).2.time_shift)
        + (shift_time exp log dgesvd s).2.time_shift = row + s.N := by omega
    rw [e, Nat.add_mod_right, Nat.mod_eq_of_lt hrow]

theorem shift_time_spec_witness :
    (shift_time (fun r => r) (fun r => r) Dgesvd.leftOnly (Simulation.demo0 ℚ)).2.time_shift
        = (1 + 2) % 3 ∧
      ((shift_time (fun r => r) (fun r => r) Dgesvd.leftOnly (Simulation.demo0 ℚ)).1 = true ↔
        3 ≤ 1 + 2) :=
  have h := shift_time_spec (fun r => r) (fun r => r) Dgesvd.leftOnly (Simulation.demo0 ℚ)
    (by decide) (by decide) (by decide)
  ⟨h.1, h.2.2.2.1⟩

/-- C26, beyond the range of the counters: after `2^31` calls of `add` on a
`measurement<T, false>` that starts empty, the `int` counter `n_[0]` has been incremented
past the largest `int`, and `samples(0)` is `-2^31`, not `2^31`. -/
theorem add_samples_wrap_at_int_max :
    (List.replicate (2 ^ 31 - 1) (0 : ℚ) ++ [0]).length = 2 ^ 31 ∧
      0 < ((List.replicate (2 ^ 31 - 1) (0 : ℚ) ++ [0]).foldl
        (measurement.add false) []).bins ∧
      ((List.replicate (2 ^ 31 - 1) (0 : ℚ) ++ [0]).foldl
          (measurement.add false) []).samples 0 = some (-2 ^ 31) ∧
      ((List.replicate (2 ^ 31 - 1) (0 : ℚ) ++ [0]).foldl
          (measurement.add false) []).samples 0
        ≠ some (((List.replicate (2 ^ 31 - 1) (0 : ℚ) ++ [0]).length / 2 ^ 0 : ℕ) : ℤ) := by
  have hl : (List.replicate (2 ^ 31 - 1) (0 : ℚ) ++ [0]).length = 2 ^ 31 := by
    rw [List.length_append, List.length_replicate, List.length_singleton]
    norm_num
  obtain ⟨b, tl, hm, hn, -⟩ :=
    add_overflow (List.replicate (2 ^ 31 - 1) (0 : ℚ)) 0 (List.length_replicate _ _)
  have hs : ((List.replicate (2 ^ 31 - 1) (0 : ℚ) ++ [0]).foldl
      (measurement.add false) []).samples 0 = some (-2 ^ 31) := by
    rw [hm]
    simp only [measurement.samples, List.length_cons, Nat.succ_ne_zero, if_false,
      List.getElem?_cons_zero, Option.map_some', hn]
  refine ⟨hl, ?_, hs, ?_⟩
  · rw [hm]
    simp [measurement.bins]
  · rw [hs, hl]
    norm_num

/-- C26: after `k` calls of `add` on a `measurement<T, false>` that starts empty, with
`1 ≤ k < 2^31` (the values that the `int` counters `n_[i]` can hold),
`bins() = ⌊log2 k⌋ + 1` and `samples(i) = ⌊k / 2^i⌋` for every bin index `i < bins()`. -/
theorem add_bins_samples_in_range (xs : List R) (hk : 1 ≤ xs.length)
    (hmax : xs.length < 2 ^ 31) :
    (xs.foldl (measurement.add false) []).bins = Nat.log 2 xs.length + 1 ∧
      ∀ i, i < (xs.foldl (measurement.add false) []).bins →
        (xs.foldl (measurement.add false) []).samples i
          = some ((xs.length / 2 ^ i : ℕ) : ℤ) := by
  have hlen := add_bins xs hk hmax
  refine ⟨hlen, ?_⟩
  intro i hi
  have hne : ¬ (xs.foldl (measurement.add false) []).length = 0 := by
    rw [hlen]
    omega
  obtain ⟨b, hb⟩ : ∃ b, (xs.foldl (measurement.add false) [])[i]? = some b :=
    ⟨_, List.getElem?_eq_getElem hi⟩
  simp only [measurement.samples, if_neg hne, hb, Option.map_some']
  rw [(add_bin_contents xs hmax i b hb).1]

theorem add_bins_samples_in_range_witness :
    (([1, 2, 3, 4, 5] : List ℚ).foldl (measurement.add false) []).bins = Nat.log 2 5 + 1 ∧
      ∀ i, i < (([1, 2, 3, 4, 5] : List ℚ).foldl (measurement.add false) []).bins →
        (([1, 2, 3, 4, 5] : List ℚ).foldl (measurement.add false) []).samples i
          = some ((5 / 2 ^ i : ℕ) : ℤ) :=
  add_bins_samples_in_range ([1, 2, 3, 4, 5] : List ℚ) (by decide) (by norm_num)

/-- C27, beyond the range of the counters: after `2^31` values `1` were added to a
`measurement<T, false>` that starts empty, `sum(0)` is still their sum `2^31`, but the `int`
counter `n_[0]` holds `-2^31`, so `mean(0)` is `-1`, not the arithmetic mean `1` of the
inputs. -/
theorem add_mean_wrap_at_int_max :
    (List.replicate (2 ^ 31 - 1) (1 : ℚ) ++ [1]).length = 2 ^ 31 ∧
      (List.replicate (2 ^ 31 - 1) (1 : ℚ) ++ [1]).sum
        / ((List.replicate (2 ^ 31 - 1) (1 : ℚ) ++ [1]).length : ℚ) = 1 ∧
      ((List.replicate (2 ^ 31 - 1) (1 : ℚ) ++ [1]).foldl
          (measurement.add false) []).sum 0 = some (2 ^ 31) ∧
      ((List.replicate (2 ^ 31 - 1) (1 : ℚ) ++ [1]).foldl
          (measurement.add false) []).mean 0 = some (-1) ∧
      ((List.replicate (2 ^ 31 - 1) (1 : ℚ) ++ [1]).foldl
          (measurement.add false) []).mean 0
        ≠ some ((List.replicate (2 ^ 31 - 1) (1 : ℚ) ++ [1]).sum
            / ((List.replicate (2 ^ 31 - 1) (1 : ℚ) ++ [1]).length : ℚ)) := by
  have hl : (List.replicate (2 ^ 31 - 1) (1 : ℚ) ++ [1]).length = 2 ^ 31 := by
    rw [List.length_append, List.length_replicate, List.length_singleton]
    norm_num
  have hsum : (List.replicate (2 ^ 31 - 1) (1 : ℚ)).sum + 1 = 2 ^ 31 := by
    rw [List.sum_replicate, nsmul_eq_mul, mul_one]
    norm_num
  have hsum' : (List.replicate (2 ^ 31 - 1) (1 : ℚ) ++ [1]).sum = 2 ^ 31 := by
    rw [List.sum_append, List.sum_singleton, hsum]
  have hmean : (List.replicate (2 ^ 31 - 1) (1 : ℚ) ++ [1]).sum
      / ((List.replicate (2 ^ 31 - 1) (1 : ℚ) ++ [1]).length : ℚ) = 1 := by
    rw [hsum', hl]
    norm_num
  obtain ⟨b, tl, hm, hn, hs⟩ :=
    add_overflow (List.replicate (2 ^ 31 - 1) (1 : ℚ)) 1 (List.length_replicate _ _)
  rw [hsum] at hs
  have h0 : ((List.replicate (2 ^ 31 - 1) (1 : ℚ) ++ [1]).foldl
      (measurement.add false) []).sum 0 = some (2 ^ 31) := by
    rw [hm]
    simp only [measurement.sum, List.getElem?_cons_zero, Option.map_some', hs]
  have h1 : ((List.replicate (2 ^ 31 - 1) (1 : ℚ) ++ [1]).foldl
      (measurement.add false) []).mean 0 = some (-1) := by
    rw [hm]
    have hb : 0 < measurement.bins (b :: tl) := by simp [measurement.bins]
    simp only [measurement.mean, if_pos hb, List.getElem?_cons_zero, Option.map_some', hs, hn]
    norm_num
  refine ⟨hl, hmean, h0, h1, ?_⟩
  rw [h1, hmean]
  norm_num

/-- C27: after the values `x_1, …, x_k` were added to a `measurement<T, false>` that starts
empty, with `k < 2^31` (the values that the `int` counters `n_[i]` can hold), in exact
arithmetic: for every bin `i`, `sum(i)` is the sum over the `⌊k / 2^i⌋` complete consecutive
blocks of `2^i` inputs of the arithmetic mean of the block, and `square(i)` is the sum of the
squares of these block means; in particular `sum(0) = x_1 + … + x_k` and `mean(0)` is the
arithmetic mean of all inputs. -/
theorem add_block_means_in_range (xs : List R) (hmax : xs.length < 2 ^ 31) :
    (∀ i, i < (xs.foldl (measurement.add false) []).bins →
      (xs.foldl (measurement.add false) []).sum i
          = some (∑ j in Finset.range (xs.length / 2 ^ i), measurement.blockMean xs i j) ∧
        (xs.foldl (measurement.add false) []).square i
          = some (∑ j in Finset.range (xs.length / 2 ^ i),
              measurement.blockMean xs i j * measurement.blockMean xs i j)) ∧
      (1 ≤ xs.length →
        (xs.foldl (measurement.add false) []).sum 0 = some xs.sum ∧
        (xs.foldl (measurement.add false) []).mean 0 = some (xs.sum / (xs.length : R))) := by
  constructor
  · intro i hi
    obtain ⟨b, hb⟩ : ∃ b, (xs.foldl (measurement.add false) [])[i]? = some b :=
      ⟨_, List.getElem?_eq_getElem hi⟩
    obtain ⟨-, hsum, hsq⟩ := add_bin_contents xs hmax i b hb
    simp only [measurement.sum, measurement.square, hb, Option.map_some', hsum, hsq]
    exact ⟨trivial, trivial⟩
  · intro hk
    have hlen := add_bins xs hk hmax
    have h0 : 0 < (xs.foldl (measurement.add false) []).length := by
      rw [hlen]
      omega
    obtain ⟨b, hb⟩ : ∃ b, (xs.foldl (measurement.add false) [])[0]? = some b :=
      ⟨_, List.getElem?_eq_getElem h0⟩
    obtain ⟨hn, hsum, -⟩ := add_bin_contents xs hmax 0 b hb
    have hs : b.sum = xs.sum := by
      have h1 := list_sum_eq_sum_range xs (fun y => y) 0
      rw [List.map_id'] at h1
      rw [hsum, h1, pow_zero, Nat.div_one]
      exact Finset.sum_congr rfl fun j _ => blockMean_zero xs j
    have hn' : ((b.n : ℤ) : R) = (xs.length : R) := by
      rw [hn, pow_zero, Nat.div_one, Int.cast_natCast]
    simp only [measurement.sum, measurement.mean, measurement.bins, hb, Option.map_some', hs,
      hn', if_pos h0]
    exact ⟨trivial, trivial⟩

theorem add_block_means_in_range_witness :
    (∀ i, i < (([1, 2, 3, 4, 5] : List ℚ).foldl (measurement.add false) []).bins →
      (([1, 2, 3, 4, 5] : List ℚ).foldl (measurement.add false) []).sum i
          = some (∑ j in Finset.range (5 / 2 ^ i),
              measurement.blockMean ([1, 2, 3, 4, 5] : List ℚ) i j)) ∧
      (([1, 2, 3, 4, 5] : List ℚ).foldl (measurement.add false) []).sum 0
        = some ([1, 2, 3, 4, 5] : List ℚ).sum ∧
      (([1, 2, 3, 4, 5] : List ℚ).foldl (measurement.add false) []).mean 0
        = some (([1, 2, 3, 4, 5] : List ℚ).sum / (([1, 2, 3, 4, 5] : List ℚ).length : ℚ)) :=
  have h := add_block_means_in_range ([1, 2, 3, 4, 5] : List ℚ) (by norm_num)
  ⟨fun i hi => (h.1 i hi).1, (h.2 (by decide)).1, (h.2 (by decide)).2⟩

/-- C28, at a measurement with one bin (one value added): the no-argument `error()`
computes its index as `std::max(size_t(0), bins()-6)`, where `bins()-6` is an unsigned
difference; for `bins() = 1` this is `2^64 - 5`, which reaches `error(int)` as `-5`, not the
index `0` of the only bin, so `error()` reads a bin that does not exist while `error(0)` is
defined.  The same happens for `2` to `5` bins.  `time()` and `operator<<` form the index as
`max(bins(), 6) - 6` and `max(int(bins()) - 6, 0)` and get `0`. -/
theorem error_index_below_six_bins :
    measurement.error_index 1 = -5 ∧ measurement.error_index 2 = -4 ∧
      measurement.error_index 3 = -3 ∧ measurement.error_index 4 = -2 ∧
      measurement.error_index 5 = -1 ∧ measurement.error_index 6 = 0 ∧
      measurement.error_index 7 = 1 ∧
      measurement.time_index 1 = 0 ∧ measurement.print_index 1 = 0 ∧
      (measurement.add false ([] : measurement ℝ) 1).bins = 1 ∧
      measurement.error Real.sqrt (measurement.add false ([] : measurement ℝ) 1) = none ∧
      measurement.error_at Real.sqrt (measurement.add false ([] : measurement ℝ) 1) 0
        = some 0 := by
  have e1 : measurement.error_index 1 = -5 := by
    simp [measurement.error_index, measurement.to_int, measurement.size_t_sub]
  refine ⟨e1, ?_, ?_, ?_, ?_, ?_, ?_, ?_, ?_, ?_, ?_, ?_⟩
  · simp [measurement.error_index, measurement.to_int, measurement.size_t_sub]
  · simp [measurement.error_index, measurement.to_int, measurement.size_t_sub]
  · simp [measurement.error_index, measurement.to_int, measurement.size_t_sub]
  · simp [measurement.error_index, measurement.to_int, measurement.size_t_sub]
  · simp [measurement.error_index, measurement.to_int, measurement.size_t_sub]
  · simp [measurement.error_index, measurement.to_int, measurement.size_t_sub]
  · simp [measurement.time_index, measurement.to_int, measurement.size_t_sub]
  · simp [measurement.print_index]
  · simp [measurement.add, measurement.add_loop, measurement.bins]
  · have hb : (measurement.add false ([] : measurement ℝ) 1).bins = 1 := by
      simp [measurement.add, measurement.add_loop, measurement.bins]
    simp [measurement.error, measurement.error_at, hb, e1]
  · simp [measurement.error_at, measurement.add, measurement.add_loop, measurement.bins,
      measurement.variance, step_fresh]

/-- C24: the predicate "`U` and `Vt` are square orthogonal, `S` is entrywise non-negative
and non-increasing" holds after `setIdentity(N)`; it is kept by `absorbU`, `add_identity`,
`rank1_update` and `add_svd` when the decomposition each of them calls is a singular value
decomposition with sorted singular values; and it is kept by `invertInPlace` when all
singular values are strictly positive. -/
theorem wellFormed_preserved {N : ℕ} (dgesvd : Dgesvd R N N) (h s : SVDHelper R N N N)
    (u v : Fin N → R) (lambda kappa : R) (hwf : h.WellFormed)
    (hcU : dgesvd.SortedSVDAt (h.U * diagonal h.S))
    (hcA : dgesvd.SortedSVDAt (h.add_identity_other lambda))
    (hcR : dgesvd.SortedSVDAt (h.rank1_update_other u v kappa))
    (hcS : dgesvd.SortedSVDAt (h.add_svd_other s)) :
    (SVDHelper.setIdentity N : SVDHelper R N N N).WellFormed ∧
      (h.absorbU dgesvd).WellFormed ∧
      (h.add_identity dgesvd lambda).WellFormed ∧
      (h.rank1_update dgesvd u v kappa).WellFormed ∧
      (h.add_svd dgesvd s).WellFormed ∧
      ((∀ i, 0 < h.S i) → h.invertInPlace.WellFormed) :=
  ⟨SVDHelper.wellFormed_setIdentity, SVDHelper.wellFormed_absorbU dgesvd h hwf hcU,
    SVDHelper.wellFormed_compose dgesvd h _ hwf hcA,
    SVDHelper.wellFormed_compose dgesvd h _ hwf hcR,
    SVDHelper.wellFormed_compose dgesvd h _ hwf hcS,
    SVDHelper.wellFormed_invertInPlace h hwf⟩

theorem wellFormed_preserved_witness :
    (SVDHelper.demoSorted.absorbU Dgesvd.ofDiagonal).WellFormed ∧
      (SVDHelper.demoSorted.add_identity Dgesvd.ofDiagonal 5).WellFormed ∧
      (SVDHelper.demoSorted.rank1_update Dgesvd.ofDiagonal ![1, 0] ![1, 0] 7).WellFormed ∧
      (SVDHelper.demoSorted.add_svd Dgesvd.ofDiagonal SVDHelper.demoSorted).WellFormed ∧
      SVDHelper.demoSorted.invertInPlace.WellFormed :=
  have hwf : SVDHelper.demoSorted.WellFormed := by
    refine ⟨by simp [SVDHelper.IsOrthogonal, SVDHelper.demoSorted], ?_, ?_⟩
    · intro i
      fin_cases i <;> simp [SVDHelper.demoSorted]
    · intro i j hij
      fin_cases i <;> fin_cases j <;> simp [SVDHelper.demoSorted] at hij ⊢
      norm_num
  have hsorted : ∀ a b : ℚ, 0 ≤ b → b ≤ a →
      Dgesvd.ofDiagonal.SortedSVDAt (diagonal ![a, b]) := by
    intro a b hb hab
    refine ⟨(isNonnegDiag_diagonal _ ?_).isSVDAt, ?_⟩
    · intro i
      fin_cases i
      · exact le_trans hb hab
      · exact hb
    · intro i j hij
      fin_cases i <;> fin_cases j <;> simp [Dgesvd.ofDiagonal] at hij ⊢
      exact hab
  have hU : SVDHelper.demoSorted.U * diagonal SVDHelper.demoSorted.S = diagonal ![3, 2] := by
    simp [SVDHelper.demoSorted]
  have hA : SVDHelper.demoSorted.add_identity_other 5 = diagonal ![16, 11] := by
    ext i j
    fin_cases i <;> fin_cases j <;>
      simp [SVDHelper.add_identity_other, SVDHelper.demoSorted] <;> norm_num
  have hR : SVDHelper.demoSorted.rank1_update_other ![1, 0] ![1, 0] 7 = diagonal ![10, 2] := by
    ext i j
    fin_cases i <;> fin_cases j <;>
      simp [SVDHelper.rank1_update_other, SVDHelper.demoSorted, vecMulVec]
    norm_num
  have hS : SVDHelper.demoSorted.add_svd_other SVDHelper.demoSorted = diagonal ![6, 4] := by
    ext i j
    fin_cases i <;> fin_cases j <;>
      simp [SVDHelper.add_svd_other, SVDHelper.demoSorted] <;> norm_num
  have hpos : ∀ i, 0 < SVDHelper.demoSorted.S i := by
    intro i
    fin_cases i <;> simp [SVDHelper.demoSorted]
  have hall := wellFormed_preserved Dgesvd.ofDiagonal SVDHelper.demoSorted
    SVDHelper.demoSorted ![1, 0] ![1, 0] 5 7 hwf
    (by rw [hU]; exact hsorted 3 2 (by norm_num) (by norm_num))
    (by rw [hA]; exact hsorted 16 11 (by norm_num) (by norm_num))
    (by rw [hR]; exact hsorted 10 2 (by norm_num) (by norm_num))
    (by rw [hS]; exact hsorted 6 4 (by norm_num) (by norm_num))
  ⟨hall.2.1, hall.2.2.1, hall.2.2.2.1, hall.2.2.2.2.1, hall.2.2.2.2.2 hpos⟩

/-- C21, as stated, fails: with a routine that returns the status `1` (no convergence),
`absorbU` does not end in a failure raised to its caller; it returns as usual, having
written one line to `std::cerr`. -/
theorem absorbU_failure_not_reported :
    (DgesvdStatus.failing (SVDHelper.demo.U * diagonal SVDHelper.demo.S) :
        DgesvdResult ℚ 2 2 2).info ≠ 0 ∧
      (¬ ∃ d, SVDHelper.demo.absorbU_status DgesvdStatus.failing 0 = Except.error d) ∧
      ∃ o, SVDHelper.demo.absorbU_status DgesvdStatus.failing 0 = Except.ok o ∧
        o.cerr = [Diagnostic.iteration_failed 1] := by
  refine ⟨by simp [DgesvdStatus.failing], ?_, ?_⟩
  · rw [SVDHelper.absorbU_status_eq]
    rintro ⟨d, hd⟩
    exact Except.noConfusion hd
  · rw [SVDHelper.absorbU_status_eq]
    exact ⟨_, rfl, status_cerr_pos 1 (by decide)⟩

/-- C21, amended: whatever status the decomposition routine returns, each of `fullSVD`,
`thinSVD`, `inPlaceSVD`, `absorbU`, `absorbVt` (both branches), `rank1_update`,
`add_identity` and `add_svd` returns normally, with the factors it forms from the outputs of
the routine exactly as for status `0`.  A non-zero status is only written to `std::cerr`, as
one line that tells a negative status (invalid argument `-info`) from a positive one (no
convergence at superdiagonal `info`), and `reserve(work[0])` is skipped; nothing is reported
to the caller. -/
theorem svd_status_logged_only {m k n l : ℕ} (dU : DgesvdStatus R m k k)
    (dle : DgesvdStatus R k k n) (dgt : DgesvdStatus R k n n) (dK : DgesvdStatus R k k k)
    (dthin dtall dwide : DgesvdStatus R m k n)
    (dfull : Matrix (Fin m) (Fin n) R → ℤ × ℕ × FullFactors R m n)
    (h : SVDHelper R m k n) (hs : SVDHelper R n k n) (s : SVDHelper R m l n)
    (A : Matrix (Fin m) (Fin n) R) (u : Fin m → R) (v : Fin n → R) (lambda : R) (work : ℕ) :
    fullSVD_status dfull A work
        = Except.ok ((dfull A).2.2,
            status_work (dfull A).1 (dfull A).2.1 (reserve (5 * min m n + max m n) work),
            status_cerr (dfull A).1) ∧
      SVDHelper.thinSVD_status dthin A work
        = Except.ok
            { helper := (dthin A).out
              work := status_work (dthin A).info (dthin A).work0
                (reserve (5 * min m n + max m n) work)
              cerr := status_cerr (dthin A).info } ∧
      SVDHelper.inPlaceSVD_status dtall dwide A work
        = Except.ok
            { helper := (if m > n then dtall A else dwide A).out
              work := status_work (if m > n then dtall A else dwide A).info
                (if m > n then dtall A else dwide A).work0 (reserve (5 * min m n + max m n) work)
              cerr := status_cerr (if m > n then dtall A else dwide A).info } ∧
      h.absorbU_status dU work
        = Except.ok
            { helper := h.absorbU (fun B => (dU B).out)
              work := status_work (dU (h.U * diagonal h.S)).info
                (dU (h.U * diagonal h.S)).work0 (reserve (5 * min m k + max m k) work)
              cerr := status_cerr (dU (h.U * diagonal h.S)).info } ∧
      h.absorbVt_le_status dle work
        = Except.ok
            { helper := h.absorbVt_le (fun B => (dle B).out)
              work := status_work (dle (diagonal h.S * h.Vt)).info
                (dle (diagonal h.S * h.Vt)).work0 (reserve (5 * min k n + max k n) work)
              cerr := status_cerr (dle (diagonal h.S * h.Vt)).info } ∧
      h.absorbVt_gt_status dgt work
        = Except.ok
            { helper := h.absorbVt_gt (fun B => (dgt B).out)
              work := status_work (dgt (diagonal h.S * h.Vt)).info
                (dgt (diagonal h.S * h.Vt)).work0 (reserve (5 * min k n + max k n) work)
              cerr := status_cerr (dgt (diagonal h.S * h.Vt)).info } ∧
      h.rank1_update_status dK u v lambda work
        = Except.ok
            { helper := h.rank1_update (fun B => (dK B).out) u v lambda
              work := status_work (dK (h.rank1_update_other u v lambda)).info
                (dK (h.rank1_update_other u v lambda)).work0 work
              cerr := status_cerr (dK (h.rank1_update_other u v lambda)).info } ∧
      hs.add_identity_status dK lambda work
        = Except.ok
            { helper := hs.add_identity (fun B => (dK B).out) lambda
              work := status_work (dK (hs.add_identity_other lambda)).info
                (dK (hs.add_identity_other lambda)).work0 (reserve (6 * k) work)
              cerr := status_cerr (dK (hs.add_identity_other lambda)).info } ∧
      h.add_svd_status dK s work
        = Except.ok
            { helper := h.add_svd (fun B => (dK B).out) s
              work := status_work (dK (h.add_svd_other s)).info
                (dK (h.add_svd_other s)).work0 work
              cerr := status_cerr (dK (h.add_svd_other s)).info } ∧
      status_cerr 0 = [] ∧
      (∀ info : ℤ, info < 0 → status_cerr info = [Diagnostic.error_at_argument (-info)]) ∧
      (∀ info : ℤ, 0 < info → status_cerr info = [Diagnostic.iteration_failed info]) ∧
      (∀ info : ℤ, ∀ w0 w : ℕ, info ≠ 0 → status_work info w0 w = w) :=
  ⟨fullSVD_status_eq dfull A work, SVDHelper.thinSVD_status_eq dthin A work,
    SVDHelper.inPlaceSVD_status_eq dtall dwide A work, SVDHelper.absorbU_status_eq dU h work,
    SVDHelper.absorbVt_le_status_eq dle h work, SVDHelper.absorbVt_gt_status_eq dgt h work,
    SVDHelper.rank1_update_status_eq dK h u v lambda work,
    SVDHelper.add_identity_status_eq dK hs lambda work,
    SVDHelper.add_svd_status_eq dK h s work, rfl, status_cerr_neg, status_cerr_pos,
    fun _ _ _ hne => if_neg hne⟩

theorem svd_status_logged_only_witness :
    SVDHelper.demo.add_identity_status DgesvdStatus.failing 5 0
        = Except.ok
            { helper := SVDHelper.demo.add_identity
                (fun B => (DgesvdStatus.failing B : DgesvdResult ℚ 2 2 2).out) 5
              work := status_work (DgesvdStatus.failing
                  (SVDHelper.demo.add_identity_other 5) : DgesvdResult ℚ 2 2 2).info
                (DgesvdStatus.failing
                  (SVDHelper.demo.add_identity_other 5) : DgesvdResult ℚ 2 2 2).work0
                (reserve (6 * 2) 0)
              cerr := status_cerr (DgesvdStatus.failing
                (SVDHelper.demo.add_identity_other 5) : DgesvdResult ℚ 2 2 2).info } ∧
      status_cerr (-3) = [Diagnostic.error_at_argument 3] :=
  have hall := svd_status_logged_only (DgesvdStatus.failing : DgesvdStatus ℚ 2 2 2)
    DgesvdStatus.failing DgesvdStatus.failing DgesvdStatus.failing DgesvdStatus.failing
    DgesvdStatus.failing DgesvdStatus.failing (fun _ => (1, 0, ⟨0, 0, 0⟩))
    SVDHelper.demo SVDHelper.demo SVDHelper.demo 0 0 0 5 0
  ⟨hall.2.2.2.2.2.2.2.1, hall.2.2.2.2.2.2.2.2.2.2.1 (-3) (by decide)⟩

/-- C29, at the state `demoShift` (one site, two slices, field `+1/2` in row `0` and `-1/2`
in row `1`, `A = 1/2`, `time_shift = 1`) with `x = 0`, `t = 0`: `logDetU_s()` is the sum of
`log(1 + diagonals[i][j])` over the field, but `logDetU_s(0, 0)` reads `diagonals[0][0]`
while `flip(0, 0)` negates `diagonal(0)[0] = diagonals[1][0]`; so `logDetU_s(0, 0)` is
`2 log(1/2)` and `logDetU_s()` after `flip(0, 0)` is `2 log(3/2)`. -/
theorem logDetU_s_ignores_time_shift :
    logDetU_s Real.log (1 / 2) (Simulation.demoShift ℝ) (-1) (-1)
        = some (Real.log (1 + 1 / 2) + Real.log (1 + -(1 / 2))) ∧
      logDetU_s Real.log (1 / 2) (Simulation.demoShift ℝ) 0 0 = some (2 * Real.log (1 / 2)) ∧
      logDetU_s Real.log (1 / 2)
          (flip Simulation.rowIndex (Simulation.demoShift ℝ) 0 0) (-1) (-1)
        = some (2 * Real.log (3 / 2)) ∧
      logDetU_s Real.log (1 / 2) (Simulation.demoShift ℝ) 0 0
        ≠ logDetU_s Real.log (1 / 2)
            (flip Simulation.rowIndex (Simulation.demoShift ℝ) 0 0) (-1) (-1) := by
  obtain ⟨hN, r0, r1, hN', f0, f1⟩ := demoShift_rows
  have h1 : logDetU_s Real.log (1 / 2) (Simulation.demoShift ℝ) (-1) (-1)
      = some (Real.log (1 + 1 / 2) + Real.log (1 + -(1 / 2))) := by
    rw [logDetU_s_two_rows Real.log _ (1 / 2) (1 / 2) (-(1 / 2)) hN r0 r1]
    norm_num
  have h2 : logDetU_s Real.log (1 / 2) (Simulation.demoShift ℝ) 0 0
      = some (2 * Real.log (1 / 2)) := by
    rw [logDetU_s_two_rows_at Real.log _ (1 / 2) (1 / 2) (-(1 / 2)) hN r0 r1]
    norm_num
  have h3 : logDetU_s Real.log (1 / 2)
      (flip Simulation.rowIndex (Simulation.demoShift ℝ) 0 0) (-1) (-1)
      = some (2 * Real.log (3 / 2)) := by
    rw [logDetU_s_two_rows Real.log _ (1 / 2) (1 / 2) (1 / 2) hN' f0 f1]
    norm_num
  refine ⟨h1, h2, h3, ?_⟩
  rw [h2, h3]
  intro h
  have hneg : Real.log (1 / 2) < 0 := Real.log_neg (by norm_num) (by norm_num)
  have hpos : 0 < Real.log (3 / 2) := Real.log_pos (by norm_num)
  have := Option.some.inj h
  linarith

/-- C30: for a slice whose vertices are ordered by increasing `tau` with every `tau` in
`[0, beta]`, and a model whose operations multiply from the left, with `propagate(0)` the
identity, `propagate(s)` after `propagate(t)` equal to `propagate(s + t)` and
`apply_inverse_on_the_left` undoing `apply_vertex_on_the_left`: `Slice::inverse()` is the
two-sided inverse of `Slice::matrix()`. -/
theorem slice_inverse_two_sided {n : ℕ} (md : Model R n) (s : Slice R) (hmd : md.ActsOnTheLeft)
    (h0 : ∀ M, md.propagate 0 M = M)
    (hadd : ∀ s t M, md.propagate s (md.propagate t M) = md.propagate (s + t) M)
    (hinv : ∀ v ∈ s.verts, ∀ M,
      md.apply_inverse_on_the_left v (md.apply_vertex_on_the_left v M) = M)
    (hL : s.verts.Pairwise (fun v w => v.tau ≤ w.tau))
    (hr : ∀ v ∈ s.verts, 0 ≤ v.tau ∧ v.tau ≤ s.beta) :
    Slice.inverse md s * Slice.matrix md s = 1 ∧
      Slice.matrix md s * Slice.inverse md s = 1 :=
  have h := Slice.inverse_mul_matrix_eq_one md hmd h0 hadd s hinv hL hr
  ⟨h, mul_eq_one_comm.mp h⟩

theorem slice_inverse_two_sided_witness :
    Slice.inverse (Model.demo ℚ) (Slice.demo ℚ) * Slice.matrix (Model.demo ℚ) (Slice.demo ℚ) = 1 ∧
      Slice.matrix (Model.demo ℚ) (Slice.demo ℚ) * Slice.inverse (Model.demo ℚ) (Slice.demo ℚ)
        = 1 :=
  slice_inverse_two_sided (Model.demo ℚ) (Slice.demo ℚ) Model.demo_actsOnTheLeft
    Model.demo_propagate_zero Model.demo_propagate_add (fun v _ => Model.demo_inverse v)
    (by simp [Slice.demo]; norm_num) (by simp [Slice.demo]; norm_num)

/-- C22: after `compute_B()` in which every decomposition is a singular value decomposition
of its input, the product of the `|S_i|` is the product over the slices of
`|det(slice.matrix())|`; when no slice matrix is singular, `log_abs_det()` is the sum over the
slices of `log |det(slice.matrix())|`; and when the operations of the model multiply from the
left, every propagation step has determinant `1` and every vertex factor has determinant
`1 + sigma > 0`, this is the sum over the slices of `Slice::log_abs_det()`, each the sum of
`log (1 + sigma)` over its vertices. -/
theorem compute_B_log_abs_det {n : ℕ} (md : Model ℝ n) (dgesvd : Dgesvd ℝ n n)
    (c : Configuration ℝ n)
    (hcalls : Configuration.compute_B_calls md dgesvd dgesvd.IsSVDAt c c.M 0
      (SVDHelper.setIdentity n)) :
    (∏ i, |(Configuration.compute_B md dgesvd c).svd.S i|
        = ∏ i in Finset.range c.M, |((c.slices i).matrix md).det|) ∧
      ((∀ i < c.M, ((c.slices i).matrix md).det ≠ 0) →
        (Configuration.compute_B md dgesvd c).log_abs_det Real.log
          = ∑ i in Finset.range c.M, Real.log |((c.slices i).matrix md).det|) ∧
      (md.ActsOnTheLeft → (∀ dt, (md.propagate dt 1).det = 1) →
        (∀ i < c.M, ∀ v ∈ (c.slices i).verts,
          (md.apply_vertex_on_the_left v 1).det = 1 + v.sigma ∧ 0 < 1 + v.sigma) →
        (Configuration.compute_B md dgesvd c).log_abs_det Real.log
            = ∑ i in Finset.range c.M, (c.slices i).log_abs_det Real.log ∧
          ∀ i, (c.slices i).log_abs_det Real.log
            = ((c.slices i).verts.map (fun v => Real.log (1 + v.sigma))).sum) := by
  have hprod := Configuration.prod_abs_S md dgesvd c hcalls
  have hlog : (∀ i < c.M, ((c.slices i).matrix md).det ≠ 0) →
      (Configuration.compute_B md dgesvd c).log_abs_det Real.log
        = ∑ i in Finset.range c.M, Real.log |((c.slices i).matrix md).det| := by
    intro hne
    have hne' : ∀ i ∈ Finset.range c.M, |((c.slices i).matrix md).det| ≠ 0 :=
      fun i hi => abs_ne_zero.mpr (hne i (Finset.mem_range.mp hi))
    have hS : ∀ i ∈ (Finset.univ : Finset (Fin n)),
        |(Configuration.compute_B md dgesvd c).svd.S i| ≠ 0 := by
      have h0 : ∏ i, |(Configuration.compute_B md dgesvd c).svd.S i| ≠ 0 := by
        rw [hprod]
        exact Finset.prod_ne_zero_iff.mpr hne'
      exact Finset.prod_ne_zero_iff.mp h0
    rw [Configuration.log_abs_det, ← Real.log_prod _ _ hS, hprod, Real.log_prod _ _ hne']
  refine ⟨hprod, hlog, fun hmd hP hW => ⟨?_, fun i => Slice.log_abs_det_eq _ _⟩⟩
  rw [hlog fun i hi =>
    abs_pos.mp (Slice.log_abs_det_matrix md hmd hP (c.slices i) (hW i hi)).2]
  exact Finset.sum_congr rfl fun i hi =>
    (Slice.log_abs_det_matrix md hmd hP (c.slices i) (hW i (Finset.mem_range.mp hi))).1

theorem compute_B_log_abs_det_witness :
    (∏ i, |(Configuration.compute_B (Model.diag ℝ 2) Dgesvd.ofDiagonal
          (Configuration.demo ℝ)).svd.S i|
        = ∏ i in Finset.range 2,
            |(((Configuration.demo ℝ).slices i).matrix (Model.diag ℝ 2)).det|) ∧
      ((Configuration.compute_B (Model.diag ℝ 2) Dgesvd.ofDiagonal
          (Configuration.demo ℝ)).log_abs_det Real.log
        = ∑ i in Finset.range 2,
            Real.log |(((Configuration.demo ℝ).slices i).matrix (Model.diag ℝ 2)).det|) ∧
      ((Configuration.compute_B (Model.diag ℝ 2) Dgesvd.ofDiagonal
          (Configuration.demo ℝ)).log_abs_det Real.log
        = ∑ i in Finset.range 2, ((Configuration.demo ℝ).slices i).log_abs_det Real.log) :=
  have h := compute_B_log_abs_det (Model.diag ℝ 2) Dgesvd.ofDiagonal (Configuration.demo ℝ)
    (Model.diag_compute_B_calls _ fun i v hv => le_of_lt (Configuration.demo_vertices i v hv).2)
  ⟨h.1,
    h.2.1 fun i _ => abs_pos.mp (Slice.log_abs_det_matrix (Model.diag ℝ 2)
      Model.diag_actsOnTheLeft Model.diag_det_propagate _
      (Configuration.demo_vertices i)).2,
    (h.2.2 Model.diag_actsOnTheLeft Model.diag_det_propagate
      fun i _ => Configuration.demo_vertices i).1⟩

/-- C23 (`stable.cpp`): for a slice `t < N` and a list `vec` of distinct sites, with a
symmetric propagator, current blocks with product `M`, exact decompositions in
`make_rankN_update`, and `svdA`, `svdB` orthogonal factorisations of the non-singular matrices
`I + λ_A M` and `I + λ_B M`: `make_rankN_update(t, vec)` returns factors `sm` of `M' - M`,
where `M'` is the product of the blocks rebuilt after `flip(t, vec)`; the determinants of
`make_tests` are `d1 = det(I + λ_A M') / det(I + λ_A M)` and
`d2 = det(I + λ_B M') / det(I + λ_B M)`, so `d1 d2` is the ratio of the two products of
determinants; and when `d1` and `d2` are positive, `plog` is the `svd_probability()` of the
state, the singular values are non-negative and every decomposition of the rebuild is a
singular value decomposition, the two numbers of the test, `plog + log d1 + log d2` and
`svd_probability()` after the flips and a full rebuild, are equal. -/
theorem rankN_update_ratio (dgesvd : Dgesvd ℝ V V) (s : Simulation ℝ V) (t : ℕ)
    (vec : List (Fin V)) (tall : Dgesvd ℝ V vec.length) (wide : DgesvdWide ℝ vec.length V)
    (hm : 1 ≤ s.mslices) (ht : t < s.N) (hnd : vec.Nodup)
    (hP : s.propagatorᵀ = s.propagator)
    (hcur : (make_slices Stable.rowIndex s).slices = s.slices)
    (htall : ∀ A, tall.ExactAt A) (hwide : ∀ A, wide.ExactAt A)
    (hoA : s.svdA.IsOrthogonal)
    (hmA : s.svdA.matrix = 1 + s.lambdaA Real.exp • s.slices.reverse.prod)
    (hoB : s.svdB.IsOrthogonal)
    (hmB : s.svdB.matrix = 1 + s.lambdaB Real.exp • s.slices.reverse.prod)
    (hdA : (1 + s.lambdaA Real.exp • s.slices.reverse.prod).det ≠ 0)
    (hdB : (1 + s.lambdaB Real.exp • s.slices.reverse.prod).det ≠ 0) :
    ∃ sm : SVDHelper ℝ V vec.length V,
      Stable.make_rankN_update s t vec tall wide
        = some (sm, Stable.rankN_state s t vec vec.length) ∧
      sm.matrix
        = (make_slices Stable.rowIndex (flip_vec Stable.rowIndex
            (Stable.rankN_state s t vec vec.length) t vec)).slices.reverse.prod
          - s.slices.reverse.prod ∧
      Stable.rankN_det (s.lambdaA Real.exp) s.svdA sm
        = (1 + s.lambdaA Real.exp • (make_slices Stable.rowIndex (flip_vec Stable.rowIndex
              (Stable.rankN_state s t vec vec.length) t vec)).slices.reverse.prod).det
          / (1 + s.lambdaA Real.exp • s.slices.reverse.prod).det ∧
      Stable.rankN_det (s.lambdaB Real.exp) s.svdB sm
        = (1 + s.lambdaB Real.exp • (make_slices Stable.rowIndex (flip_vec Stable.rowIndex
              (Stable.rankN_state s t vec vec.length) t vec)).slices.reverse.prod).det
          / (1 + s.lambdaB Real.exp • s.slices.reverse.prod).det ∧
      Stable.rankN_det (s.lambdaA Real.exp) s.svdA sm
          * Stable.rankN_det (s.lambdaB Real.exp) s.svdB sm
        = (1 + s.lambdaA Real.exp • (make_slices Stable.rowIndex (flip_vec Stable.rowIndex
              (Stable.rankN_state s t vec vec.length) t vec)).slices.reverse.prod).det
            * (1 + s.lambdaB Real.exp • (make_slices Stable.rowIndex (flip_vec Stable.rowIndex
              (Stable.rankN_state s t vec vec.length) t vec)).slices.reverse.prod).det
          / ((1 + s.lambdaA Real.exp • s.slices.reverse.prod).det
            * (1 + s.lambdaB Real.exp • s.slices.reverse.prod).det) ∧
      (0 < Stable.rankN_det (s.lambdaA Real.exp) s.svdA sm →
        0 < Stable.rankN_det (s.lambdaB Real.exp) s.svdB sm →
        s.plog = svd_probability Real.log s →
        (∀ i, 0 ≤ s.svdA.S i) → (∀ i, 0 ≤ s.svdB.S i) →
        (make_slices Stable.rowIndex (flip_vec Stable.rowIndex
          (Stable.rankN_state s t vec vec.length) t vec)).RebuildExact Real.exp dgesvd →
        Stable.rankN_test Real.exp Real.log dgesvd s t vec tall wide
            = some (s.plog + Real.log (Stable.rankN_det (s.lambdaA Real.exp) s.svdA sm)
                  + Real.log (Stable.rankN_det (s.lambdaB Real.exp) s.svdB sm),
                svd_probability Real.log (make_density_matrices Real.exp dgesvd
                  (make_svd dgesvd (make_slices Stable.rowIndex (flip_vec Stable.rowIndex
                    (Stable.rankN_state s t vec vec.length) t vec))))) ∧
          s.plog + Real.log (Stable.rankN_det (s.lambdaA Real.exp) s.svdA sm)
              + Real.log (Stable.rankN_det (s.lambdaB Real.exp) s.svdB sm)
            = svd_probability Real.log (make_density_matrices Real.exp dgesvd
                (make_svd dgesvd (make_slices Stable.rowIndex (flip_vec Stable.rowIndex
                  (Stable.rankN_state s t vec vec.length) t vec))))) := by
  obtain ⟨sm, hupd, hsm0⟩ :=
    make_rankN_update_matrix s t vec tall wide hm ht hP hcur hnd htall hwide
  obtain ⟨hset, hdd, _, hsA, hsB, hpl⟩ := rankN_state_frame s t vec vec.length
  have hsm : sm.matrix
      = (make_slices Stable.rowIndex (flip_vec Stable.rowIndex
          (Stable.rankN_state s t vec vec.length) t vec)).slices.reverse.prod
        - s.slices.reverse.prod := by
    rw [hsm0, make_slices_flip_vec_congr _ s t vec hset hdd]
  have h1 := rankN_det_eq (s.lambdaA Real.exp) s.svdA sm _ _ hoA hmA hdA hsm
  have h2 := rankN_det_eq (s.lambdaB Real.exp) s.svdB sm _ _ hoB hmB hdB hsm
  refine ⟨sm, hupd, hsm, h1, h2, ?_, ?_⟩
  · rw [h1, h2]
    field_simp
  · intro hp1 hp2 hplog hSA hSB hre
    have hl := sameSetup_lambda Real.exp _ _ hset
    have hF := sameSetup_lambda Real.exp _ _
      ((make_slices_setup Stable.rowIndex direct_rowIndex_framed
        (flip_vec Stable.rowIndex (Stable.rankN_state s t vec vec.length) t vec)).trans
        ((flip_vec_setup Stable.rowIndex _ t vec).trans hset))
    have hne1 : (1 + s.lambdaA Real.exp • (make_slices Stable.rowIndex
        (flip_vec Stable.rowIndex (Stable.rankN_state s t vec vec.length) t
          vec)).slices.reverse.prod).det ≠ 0 := by
      intro h0
      rw [h1, h0, zero_div] at hp1
      exact lt_irrefl _ hp1
    have hne2 : (1 + s.lambdaB Real.exp • (make_slices Stable.rowIndex
        (flip_vec Stable.rowIndex (Stable.rankN_state s t vec vec.length) t
          vec)).slices.reverse.prod).det ≠ 0 := by
      intro h0
      rw [h2, h0, zero_div] at hp2
      exact lt_irrefl _ hp2
    have hnew := rebuild_probability dgesvd _ hre (by rw [hF.1]; exact hne1)
      (by rw [hF.2]; exact hne2)
    rw [hF.1, hF.2] at hnew
    have hold := svd_probability_of_represents s _ _ hoA hSA hmA hoB hSB hmB hdA hdB
    have hval : Stable.rankN_test Real.exp Real.log dgesvd s t vec tall wide
        = some ((Stable.rankN_state s t vec vec.length).plog
              + Real.log (Stable.rankN_det
                  ((Stable.rankN_state s t vec vec.length).lambdaA Real.exp)
                  (Stable.rankN_state s t vec vec.length).svdA sm)
              + Real.log (Stable.rankN_det
                  ((Stable.rankN_state s t vec vec.length).lambdaB Real.exp)
                  (Stable.rankN_state s t vec vec.length).svdB sm),
            svd_probability Real.log (make_density_matrices Real.exp dgesvd
              (make_svd dgesvd (make_slices Stable.rowIndex (flip_vec Stable.rowIndex
                (Stable.rankN_state s t vec vec.length) t vec))))) := by
      simp only [Stable.rankN_test, hupd]
    rw [hl.1, hl.2, hsA, hsB, hpl] at hval
    refine ⟨hval, ?_⟩
    rw [hnew, log_det_ratio _ _ _ hp1 hdA h1, log_det_ratio _ _ _ hp2 hdB h2, hplog, hold]
    ring

theorem rankN_update_ratio_witness :
    ∃ w : ℝ, Stable.rankN_test Real.exp Real.log Dgesvd.ofDiagonal
      (Stable.demoD ℝ Real.exp Real.log) 2 [1, 0] Dgesvd.leftOnly DgesvdWide.rightOnly
        = some (w, w) := by
  obtain ⟨hm, ht, hP, hcur, ⟨hoA, hmA, hSA⟩, ⟨hoB, hmB, hSB⟩, hdA, hdB, hplog, hflip⟩ :=
    demoD_rankN_facts
  obtain ⟨sm, _, _, h1, h2, _, hlast⟩ :=
    rankN_update_ratio Dgesvd.ofDiagonal (Stable.demoD ℝ Real.exp Real.log) 2 [1, 0]
      Dgesvd.leftOnly DgesvdWide.rightOnly hm ht (by decide) hP hcur
      (fun A => by simp [Dgesvd.ExactAt, Dgesvd.leftOnly, SVDHelper.matrix])
      (fun A => by simp [DgesvdWide.ExactAt, DgesvdWide.rightOnly, SVDHelper.matrix])
      hoA hmA hoB hmB hdA.ne' hdB.ne'
  have hexp : ∀ y : ℝ, 0 ≤ Real.exp y := fun y => (Real.exp_pos y).le
  obtain ⟨htest, heq⟩ := hlast
    (by rw [h1]; exact div_pos ((IsNonnegDiag.prod_reverse _ hflip).det_one_add_smul_pos _
      (hexp _)) hdA)
    (by rw [h2]; exact div_pos ((IsNonnegDiag.prod_reverse _ hflip).det_one_add_smul_pos _
      (hexp _)) hdB)
    hplog hSA hSB (rebuildExact_ofDiagonal _ _ hexp hflip)
  exact ⟨_, by rw [htest, heq]⟩

end claims

end LctAux
